import Mathlib

/-!
# Hierarchical grid pathfinding (w7/pathfinder.cpp)

A shallow embedding of the path-finding core: the bounded grid search
`find_path_a_star`, the portal search `find_path_a_star_portal`, the portal
selection `get_shortest_path_portal`, the public query `find_hierarchical_path`
and the precomputation `prebuild_map`.

Conventions of the embedding.

* `int` is `Int`, `size_t` is `Nat`; the conversion `size_t(int)` wraps modulo
  `2 ^ 64` (`toSizeT`).
* `float` values that occur are non-negative and finite; they are kept exactly,
  as a whole number of units of `2 ^ (-23)` (namespace `F32`), with
  round-to-nearest-even after every operation.
* `std::vector` scratch tables (`g`, `f`, `prev`) are total maps from the index
  to the stored value; `dd.tiles`, `dp.portals` and `dp.tilePortalsIndices` are
  lists read with a default. An index outside the vector is undefined behaviour
  in the source; the theorems carry the hypotheses that keep indices in range.
* `while` loops run on fuel and return `none` when the fuel is used up; for
  the grid search and for the portal search the fuel handed over is shown to
  be enough.
-/

namespace Pathfinder

/-! ## Data model -/

/-- Coordinate pair `IVec2` of the source (two `int` fields, compared fieldwise). -/
structure IVec2 where
  x : Int
  y : Int
deriving DecidableEq, Repr

/-- Modelled from the spec: the cell kinds of the grid. The source compares
`dd.tiles[i]` with `dungeon::wall`, declared in dungeonUtils.h. -/
inductive Tile where
  | wall
  | floor
deriving DecidableEq, Repr

/-- Modelled from the spec: the grid `DungeonData` (declared in ecsTypes.h):
row-major cell array with its dimensions. -/
structure DungeonData where
  width : Nat
  height : Nat
  tiles : List Tile
deriving Repr

/-! ## Float arithmetic

A non-negative finite `float` value is held as a `Nat`, its count of units of
`2 ^ (-23)`: `1.0f` is `2 ^ 23`. The operations below act on such counts. -/

namespace F32

/-- The value `1.0f`. -/
def one : Nat := 2 ^ 23

/-- The value `std::numeric_limits<float>::max()`. -/
def max : Nat := (2 ^ 24 - 1) * 2 ^ 127

/-- Number of low bits that do not fit a 24-bit significand: the least `s`
with `n / 2 ^ s < 2 ^ 24`. -/
def dropBits : Nat → Nat → Nat
  | 0, _ => 0
  | fuel + 1, n => if n < 2 ^ 24 then 0 else dropBits fuel (n / 2) + 1

/-- Rounding to the nearest value with a 24-bit significand, ties to even. -/
def round (n : Nat) : Nat :=
  let s := dropBits n n
  let q := n / 2 ^ s
  let r := n % 2 ^ s
  if 2 ^ s < 2 * r ∨ (2 * r = 2 ^ s ∧ q % 2 = 1) then (q + 1) * 2 ^ s else q * 2 ^ s

/-- Conversion of a whole number (`float(n)`). -/
def ofNat (n : Nat) : Nat := round (n * 2 ^ 23)

/-- Float addition. -/
def add (a b : Nat) : Nat := round (a + b)

/-- Float multiplication of whole-number values (the only ones multiplied). -/
def mul (a b : Nat) : Nat := round (a * b / 2 ^ 23)

/-- Bitwise integer square root: the bits of the root are tried from the top. -/
def isqrtAux : Nat → Nat → Nat → Nat
  | 0, _, r => r
  | b + 1, n, r => if (r + 2 ^ b) * (r + 2 ^ b) ≤ n then isqrtAux b n (r + 2 ^ b) else isqrtAux b n r

/-- Number of binary digits. -/
def bitLen : Nat → Nat → Nat
  | 0, _ => 0
  | fuel + 1, n => if n = 0 then 0 else bitLen fuel (n / 2) + 1

/-- Floor of the square root. -/
def isqrt (n : Nat) : Nat := isqrtAux (bitLen n n) n 0

/-- Correctly rounded `sqrtf` of a value that is `0` or at least `1`: the root
is taken with three extra bits, the last one sticky. -/
def sqrt (a : Nat) : Nat :=
  let t := isqrt (a * 2 ^ 27)
  round (2 * t + (if t * t = a * 2 ^ 27 then 0 else 1)) / 2 ^ 3

end F32

/-- Generic `sqr` of math.h, `a * a`, at `float`. -/
def sqr (a : Nat) : Nat := F32.mul a a

/-- Euclidean distance `heuristic`. The differences are converted to `float`
and squared, so only their magnitudes matter. -/
def heuristic (lhs rhs : IVec2) : Nat :=
  F32.sqrt (F32.add (sqr (F32.ofNat (lhs.x - rhs.x).natAbs)) (sqr (F32.ofNat (lhs.y - rhs.y).natAbs)))

/-- Conversion `size_t(i)` of an `int`. -/
def toSizeT (i : Int) : Nat := (i % 2 ^ 64).toNat

/-- Row-major index `coord_to_idx(x, y, w)`, computed in `size_t`. -/
def coord_to_idx (x y : Int) (w : Nat) : Nat := (toSizeT y * w + toSizeT x) % 2 ^ 64

/-- Overload `coord_to_idx(v, w)`. -/
def coord_to_idx_v (v : IVec2) (w : Nat) : Nat := coord_to_idx v.x v.y w

/-- The sentinel `IVec2{-1, -1}`: no predecessor. -/
def noPrev : IVec2 := ⟨-1, -1⟩

/-- Assignment `a[i] = v` on a table. -/
def setAt {α : Type} (a : Nat → α) (i : Nat) (v : α) : Nat → α :=
  fun j => if j = i then v else a j

/-- Read `dd.tiles[idx]`. -/
def tileAt (dd : DungeonData) (idx : Nat) : Tile := dd.tiles.getD idx Tile.wall

/-! ## GridSearch -/

/-- Loop of `reconstruct_path`: predecessors are followed from `curPos` and
put in front of `res` until the sentinel is met. -/
def reconstruct_path_loop (prev : Nat → IVec2) (width : Nat) :
    Nat → IVec2 → List IVec2 → Option (List IVec2)
  | 0, _, _ => none
  | fuel + 1, curPos, res =>
    if prev (coord_to_idx curPos.x curPos.y width) ≠ noPrev then
      reconstruct_path_loop prev width fuel (prev (coord_to_idx curPos.x curPos.y width))
        (prev (coord_to_idx curPos.x curPos.y width) :: res)
    else some res

/-- Function `reconstruct_path(prev, to, width)`. -/
def reconstruct_path (fuel : Nat) (prev : Nat → IVec2) (dst : IVec2) (width : Nat) :
    Option (List IVec2) :=
  reconstruct_path_loop prev width fuel dst [dst]

/-- The linear scan for the best score: `bestIdx` and `bestScore` are updated
by a strictly smaller score only, so the earliest minimum wins. -/
def bestScan {α : Type} (score : α → Nat) : List α → Nat → Nat → Nat → Nat
  | [], _, bestIdx, _ => bestIdx
  | a :: rest, i, bestIdx, bestScore =>
    if score a < bestScore then bestScan score rest (i + 1) i (score a)
    else bestScan score rest (i + 1) bestIdx bestScore

/-- Index of the first entry of a non-empty open list with the least score. -/
def bestIndex {α : Type} (score : α → Nat) (first : α) (rest : List α) : Nat :=
  bestScan score rest 1 0 (score first)

/-- Local state of `find_path_a_star`. -/
structure AStar where
  g : Nat → Nat
  f : Nat → Nat
  prev : Nat → IVec2
  openList : List IVec2
  closedList : List IVec2

/-- The lambda `checkNeighbour` of `find_path_a_star`. -/
def checkNeighbour (dd : DungeonData) (dst lim_min lim_max curPos p : IVec2) (s : AStar) : AStar :=
  if p.x < lim_min.x ∨ p.y < lim_min.y ∨ p.x ≥ lim_max.x ∨ p.y ≥ lim_max.y then s
  else if tileAt dd (coord_to_idx p.x p.y dd.width) = Tile.wall then s
  else
    let idx := coord_to_idx p.x p.y dd.width
    let gScore := F32.add (s.g (coord_to_idx curPos.x curPos.y dd.width)) (F32.mul F32.one F32.one)
    let s1 : AStar :=
      if gScore < s.g idx then
        { s with prev := setAt s.prev idx curPos, g := setAt s.g idx gScore,
                 f := setAt s.f idx (F32.add gScore (heuristic p dst)) }
      else s
    if p ∈ s1.openList then s1 else { s1 with openList := s1.openList ++ [p] }

/-- The four `checkNeighbour` calls of one expansion: right, left, down, up. -/
def expand (dd : DungeonData) (dst lim_min lim_max curPos : IVec2) (s : AStar) : AStar :=
  checkNeighbour dd dst lim_min lim_max curPos ⟨curPos.x + 0, curPos.y - 1⟩
    (checkNeighbour dd dst lim_min lim_max curPos ⟨curPos.x + 0, curPos.y + 1⟩
      (checkNeighbour dd dst lim_min lim_max curPos ⟨curPos.x - 1, curPos.y + 0⟩
        (checkNeighbour dd dst lim_min lim_max curPos ⟨curPos.x + 1, curPos.y + 0⟩ s)))

/-- The `while (!openList.empty())` loop of `find_path_a_star`. -/
def aStarLoop (dd : DungeonData) (dst lim_min lim_max : IVec2) : Nat → AStar → Option (List IVec2)
  | 0, _ => none
  | fuel + 1, s =>
    match s.openList with
    | [] => some []
    | first :: rest =>
      let bestIdx := bestIndex (fun p => s.f (coord_to_idx p.x p.y dd.width)) first rest
      let curPos := (first :: rest).getD bestIdx first
      if curPos = dst then reconstruct_path (dd.width * dd.height + 1) s.prev dst dd.width
      else if curPos ∈ s.closedList then
        aStarLoop dd dst lim_min lim_max fuel { s with openList := (first :: rest).eraseIdx bestIdx }
      else
        aStarLoop dd dst lim_min lim_max fuel
          (expand dd dst lim_min lim_max curPos
            { s with openList := (first :: rest).eraseIdx bestIdx,
                     closedList := s.closedList ++ [curPos] })

/-- Number of cells of the rectangle `[lim_min, lim_max)`. -/
def rectArea (lim_min lim_max : IVec2) : Nat :=
  (lim_max.x - lim_min.x).toNat * (lim_max.y - lim_min.y).toNat

/-- State of `find_path_a_star` on entry to its loop. -/
def aStarInit (dd : DungeonData) (src dst : IVec2) : AStar :=
  { g := setAt (fun _ => F32.max) (coord_to_idx src.x src.y dd.width) 0
    f := setAt (fun _ => F32.max) (coord_to_idx src.x src.y dd.width) (heuristic src dst)
    prev := fun _ => noPrev
    openList := [src]
    closedList := [] }

/-- Function `find_path_a_star(dd, from, to, lim_min, lim_max)`. Every pass of
the loop takes one entry off the open list, and an expansion puts at most four
back, once per cell of the rectangle: the fuel covers that. -/
def find_path_a_star (dd : DungeonData) (src dst lim_min lim_max : IVec2) : Option (List IVec2) :=
  if src.x < 0 ∨ src.y < 0 ∨ src.x ≥ (dd.width : Int) ∨ src.y ≥ (dd.height : Int) then some []
  else aStarLoop dd dst lim_min lim_max (4 * (rectArea lim_min lim_max + 1) + 2) (aStarInit dd src dst)

/-! ## Portal graph -/

/-- Record `PortalConnection`. -/
structure PortalConnection where
  connIdx : Nat
  score : Nat
deriving DecidableEq, Repr

/-- Record `PathPortal`; the defaulted `operator==` compares all five members. -/
structure PathPortal where
  startX : Nat
  startY : Nat
  endX : Nat
  endY : Nat
  conns : List PortalConnection
deriving DecidableEq, Repr

/-- Record `DungeonPortals`. -/
structure DungeonPortals where
  tileSplit : Nat
  portals : List PathPortal
  tilePortalsIndices : List (List Nat)
deriving DecidableEq, Repr

/-- Conversion `static_cast<int>(n)` of a `size_t`. -/
def toInt32 (n : Nat) : Int :=
  if n % 2 ^ 32 < 2 ^ 31 then ((n % 2 ^ 32 : Nat) : Int) else ((n % 2 ^ 32 : Nat) : Int) - 2 ^ 32

/-- Midpoint `PortalToCoord(p)`: the sums are taken in `size_t`. -/
def PortalToCoord (p : PathPortal) : IVec2 :=
  ⟨toInt32 ((p.startX + p.endX) % 2 ^ 64 / 2), toInt32 ((p.startY + p.endY) % 2 ^ 64 / 2)⟩

/-- Function `portal_heuristic(lhs, rhs)`. -/
def portal_heuristic (lhs rhs : PathPortal) : Nat :=
  heuristic (PortalToCoord lhs) (PortalToCoord rhs)

/-- Read `dp.portals[i]`. -/
def portalAt (portals : List PathPortal) (i : Nat) : PathPortal :=
  portals.getD i ⟨0, 0, 0, 0, []⟩

/-- The lambda `PortalToIdx` of `find_path_a_star_portal`. -/
def PortalToIdx (dd : DungeonData) (p : PathPortal) : Nat :=
  coord_to_idx_v (PortalToCoord p) dd.width

/-- Local state of `find_path_a_star_portal`. -/
structure PortalAStar where
  g : Nat → Nat
  prev : Nat → IVec2
  openList : List PathPortal
  closedList : List PathPortal

/-- Body of `for (auto c : curPortal.conns)` in `find_path_a_star_portal`. -/
def relaxConn (dd : DungeonData) (dp : DungeonPortals) (curPortal : PathPortal)
    (s : PortalAStar) (c : PortalConnection) : PortalAStar :=
  let p := portalAt dp.portals c.connIdx
  let idx := PortalToIdx dd p
  let gScore := F32.add (s.g (PortalToIdx dd curPortal)) c.score
  let s1 : PortalAStar :=
    if gScore < s.g idx then
      { s with prev := setAt s.prev idx (PortalToCoord curPortal), g := setAt s.g idx gScore }
    else s
  if p ∈ s1.openList then s1 else { s1 with openList := s1.openList ++ [p] }

/-- The `while (!openList.empty())` loop of `find_path_a_star_portal`. -/
def portalLoop (dd : DungeonData) (dp : DungeonPortals) (dst : PathPortal) :
    Nat → PortalAStar → Option (List IVec2)
  | 0, _ => none
  | fuel + 1, s =>
    match s.openList with
    | [] => some []
    | first :: rest =>
      let bestIdx :=
        bestIndex (fun p => F32.add (s.g (PortalToIdx dd p)) (portal_heuristic p dst)) first rest
      let curPortal := (first :: rest).getD bestIdx first
      if curPortal = dst then
        reconstruct_path (dd.width * dd.height + 1) s.prev (PortalToCoord dst) dd.width
      else if curPortal ∈ s.closedList then
        portalLoop dd dp dst fuel { s with openList := (first :: rest).eraseIdx bestIdx }
      else
        portalLoop dd dp dst fuel
          (curPortal.conns.foldl (relaxConn dd dp curPortal)
            { s with openList := (first :: rest).eraseIdx bestIdx,
                     closedList := s.closedList ++ [curPortal] })

/-- Function `find_path_a_star_portal(dd, dp, from, to)`. Every pass takes one
entry off the open list; entries are put there once per connection of an
expanded portal, and a portal is expanded once. -/
def find_path_a_star_portal (dd : DungeonData) (dp : DungeonPortals) (src dst : PathPortal) :
    Option (List IVec2) :=
  portalLoop dd dp dst
    (src.conns.length + (dp.portals.map (fun p => p.conns.length)).sum + 3)
    { g := setAt (fun _ => F32.max) (PortalToIdx dd src) 0
      prev := fun _ => noPrev
      openList := [src]
      closedList := [] }

/-- The cells visited by the nested span loops
`for (toY = max(p.startY, size_t(limMin.y)); toY <= min(p.endY, size_t(limMax.y - 1)); ++toY)`
`for (toX = max(p.startX, size_t(limMin.x)); toX <= min(p.endX, size_t(limMax.x - 1)); ++toX)`,
in the order of the visit. -/
def spanCells (p : PathPortal) (limMin limMax : IVec2) : List IVec2 :=
  let y0 := Nat.max p.startY (toSizeT limMin.y)
  let y1 := Nat.min p.endY (toSizeT (limMax.y - 1))
  let x0 := Nat.max p.startX (toSizeT limMin.x)
  let x1 := Nat.min p.endX (toSizeT (limMax.x - 1))
  (List.range' y0 (y1 + 1 - y0)).flatMap fun toY =>
    (List.range' x0 (x1 + 1 - x0)).map fun toX => (⟨toInt32 toX, toInt32 toY⟩ : IVec2)

/-- The span loops of `get_shortest_path_portal` for one portal: the result is
the flag `noPath` and the local `path`. The `break` and the `&& !noPath` tests
leave all loops at the first cell without a path. -/
def scanSpan (dd : DungeonData) (src limMin limMax : IVec2) :
    List IVec2 → List IVec2 → Option (Bool × List IVec2)
  | [], path => some (false, path)
  | dst :: cells, path =>
    match find_path_a_star dd src dst limMin limMax with
    | none => none
    | some curPath =>
      if curPath = [] ∧ src ≠ dst then some (true, path)
      else if path = [] ∨ curPath.length < path.length then scanSpan dd src limMin limMax cells curPath
      else scanSpan dd src limMin limMax cells path

/-- Index `tile.y * dd.width / dp.tileSplit + tile.x`, computed in `size_t`
from left to right. -/
def tileIndexQuery (dd : DungeonData) (dp : DungeonPortals) (tile : IVec2) : Nat :=
  ((toSizeT tile.y * dd.width) % 2 ^ 64 / dp.tileSplit + toSizeT tile.x) % 2 ^ 64

/-- The loop `for (const auto portal_ind : dp.tilePortalsIndices[idx])` of
`get_shortest_path_portal`, threading `shortestPath`. -/
def portalScan (dd : DungeonData) (dp : DungeonPortals) (src tile : IVec2) :
    List Nat → List IVec2 → Option (List IVec2)
  | [], shortestPath => some shortestPath
  | portal_ind :: rest, shortestPath =>
    let limMin : IVec2 := ⟨tile.x * toInt32 dp.tileSplit, tile.y * toInt32 dp.tileSplit⟩
    let limMax : IVec2 := ⟨(tile.x + 1) * toInt32 dp.tileSplit, (tile.y + 1) * toInt32 dp.tileSplit⟩
    match scanSpan dd src limMin limMax (spanCells (portalAt dp.portals portal_ind) limMin limMax) [] with
    | none => none
    | some (_, path) =>
      if shortestPath = [] ∨ path.length < shortestPath.length then portalScan dd dp src tile rest path
      else portalScan dd dp src tile rest shortestPath

/-- Function `get_shortest_path_portal(dd, dp, from, tile, p)`: the returned
path, and the content of the reference parameter `p` on return. Inside the loop
`auto p = dp.portals[portal_ind]` declares a new local of the same name, so the
parameter is never assigned. -/
def get_shortest_path_portal (dd : DungeonData) (dp : DungeonPortals) (src tile : IVec2)
    (p : PathPortal) : Option (List IVec2 × PathPortal) :=
  match portalScan dd dp src tile (dp.tilePortalsIndices.getD (tileIndexQuery dd dp tile) []) [] with
  | none => none
  | some shortestPath => some (shortestPath, p)

/-! ## Precomputation -/

/-- Loop state of the lambda `check_border`: `spanFrom`, `spanTo` and the
portals written so far. -/
structure BorderScan where
  spanFrom : Int
  spanTo : Int
  portals : List PathPortal

/-- The portal written by `check_border` for the span `[spanFrom, spanTo]`;
the sums are taken in `size_t`. -/
def spanPortal (splitTiles xx yy dir_x dir_y : Nat) (offs_x offs_y spanFrom spanTo : Int) :
    PathPortal :=
  { startX := (xx * splitTiles + toSizeT spanFrom * dir_x + toSizeT offs_x) % 2 ^ 64
    startY := (yy * splitTiles + toSizeT spanFrom * dir_y + toSizeT offs_y) % 2 ^ 64
    endX := (xx * splitTiles + toSizeT spanTo * dir_x) % 2 ^ 64
    endY := (yy * splitTiles + toSizeT spanTo * dir_y) % 2 ^ 64
    conns := [] }

/-- Body of the loop `for (size_t i = 0; i < splitTiles; ++i)` of `check_border`. -/
def borderStep (dd : DungeonData) (splitTiles xx yy dir_x dir_y : Nat) (offs_x offs_y : Int)
    (st : BorderScan) (i : Nat) : BorderScan :=
  let x := xx * splitTiles + i * dir_x
  let y := yy * splitTiles + i * dir_y
  let nx := (x + toSizeT offs_x) % 2 ^ 64
  let ny := (y + toSizeT offs_y) % 2 ^ 64
  if tileAt dd (y * dd.width + x) ≠ Tile.wall ∧ tileAt dd (ny * dd.width + nx) ≠ Tile.wall then
    { st with spanFrom := if st.spanFrom < 0 then (i : Int) else st.spanFrom, spanTo := (i : Int) }
  else if st.spanFrom ≥ 0 then
    { st with
      portals := st.portals ++
        [spanPortal splitTiles xx yy dir_x dir_y offs_x offs_y st.spanFrom st.spanTo]
      spanFrom := -1 }
  else st

/-- The lambda `check_border(xx, yy, dir_x, dir_y, offs_x, offs_y, portals)`,
called on an empty `portals`: the portals it appends. -/
def check_border (dd : DungeonData) (splitTiles xx yy dir_x dir_y : Nat) (offs_x offs_y : Int) :
    List PathPortal :=
  let st := (List.range splitTiles).foldl
    (borderStep dd splitTiles xx yy dir_x dir_y offs_x offs_y) ⟨-1, -1, []⟩
  if st.spanFrom ≥ 0 then
    st.portals ++ [spanPortal splitTiles xx yy dir_x dir_y offs_x offs_y st.spanFrom st.spanTo]
  else st.portals

/-- Statement `v[i].push_back(a)` on a vector of vectors. -/
def pushAt (v : List (List Nat)) (i a : Nat) : List (List Nat) :=
  match v, i with
  | [], _ => []
  | l :: ls, 0 => (l ++ [a]) :: ls
  | l :: ls, i + 1 => l :: pushAt ls i a

/-- The vectors `portals` and `tilePortalsIndices` under construction. -/
structure PortalTables where
  portals : List PathPortal
  tilePortalsIndices : List (List Nat)

/-- The lambda `push_portals(x, y, offs_x, offs_y, new_portals)`. -/
def push_portals (width x y : Nat) (offs_x offs_y : Int) (new_portals : List PathPortal)
    (t : PortalTables) : PortalTables :=
  new_portals.foldl
    (fun t portal =>
      { portals := t.portals ++ [portal]
        tilePortalsIndices :=
          pushAt (pushAt t.tilePortalsIndices (y * width + x) t.portals.length)
            ((((y + toSizeT offs_y) % 2 ^ 64) * width + x + toSizeT offs_x) % 2 ^ 64)
            t.portals.length })
    t

/-- Body of the loops `for y`, `for x` that extract the portals of region `(x, y)`. -/
def extractRegion (dd : DungeonData) (splitTiles width : Nat) (t : PortalTables) (y x : Nat) :
    PortalTables :=
  let t0 : PortalTables := { t with tilePortalsIndices := t.tilePortalsIndices ++ [[]] }
  let t1 :=
    if y > 0 then push_portals width x y 0 (-1) (check_border dd splitTiles x y 1 0 0 (-1)) t0
    else t0
  if x > 0 then push_portals width x y (-1) 0 (check_border dd splitTiles x y 0 1 (-1) 0) t1
  else t1

/-- The first phase of `prebuild_map`: portals and their registration. -/
def extractPortals (dd : DungeonData) (splitTiles : Nat) : PortalTables :=
  (List.range (dd.height / splitTiles)).foldl
    (fun t y => (List.range (dd.width / splitTiles)).foldl
      (fun t x => extractRegion dd splitTiles (dd.width / splitTiles) t y x) t)
    ⟨[], []⟩

/-- The four nested span loops of `prebuild_map` for one pair of portals, over
the pairs of cells in the order of the visit: the result is the flag `noPath`
and `minDist`. -/
def scanPairs (dd : DungeonData) (limMin limMax : IVec2) :
    List (IVec2 × IVec2) → Nat → Option (Bool × Nat)
  | [], minDist => some (false, minDist)
  | (src, dst) :: rest, minDist =>
    match find_path_a_star dd src dst limMin limMax with
    | none => none
    | some path =>
      if path = [] ∧ src ≠ dst then some (true, minDist)
      else scanPairs dd limMin limMax rest (Nat.min minDist path.length)

/-- Statement `portals[i].conns.push_back(c)`. -/
def pushConn (portals : List PathPortal) (i : Nat) (c : PortalConnection) : List PathPortal :=
  match portals, i with
  | [], _ => []
  | p :: ps, 0 => { p with conns := p.conns ++ [c] } :: ps
  | p :: ps, i + 1 => p :: pushConn ps i c

/-- Body of the loop `for (size_t j = i + 1; j < indices.size(); ++j)`. -/
def connectPair (dd : DungeonData) (limMin limMax : IVec2) (indices : List Nat) (i : Nat)
    (portals : Option (List PathPortal)) (j : Nat) : Option (List PathPortal) :=
  match portals with
  | none => none
  | some portals =>
    let firstPortal := portalAt portals (indices.getD i 0)
    let secondPortal := portalAt portals (indices.getD j 0)
    match scanPairs dd limMin limMax
        ((spanCells firstPortal limMin limMax).flatMap fun a =>
          (spanCells secondPortal limMin limMax).map fun b => (a, b))
        0xffffffff with
    | none => none
    | some (noPath, minDist) =>
      if noPath then some portals
      else
        some (pushConn (pushConn portals (indices.getD i 0) ⟨indices.getD j 0, F32.ofNat minDist⟩)
          (indices.getD j 0) ⟨indices.getD i 0, F32.ofNat minDist⟩)

/-- Body of the loop `for (size_t tidx = 0; tidx < tilePortalsIndices.size(); ++tidx)`. -/
def connectRegion (dd : DungeonData) (splitTiles width : Nat) (tilePortalsIndices : List (List Nat))
    (portals : Option (List PathPortal)) (tidx : Nat) : Option (List PathPortal) :=
  let indices := tilePortalsIndices.getD tidx []
  let x := tidx % width
  let y := tidx / width
  let limMin : IVec2 := ⟨toInt32 ((x + 0) * splitTiles), toInt32 ((y + 0) * splitTiles)⟩
  let limMax : IVec2 := ⟨toInt32 ((x + 1) * splitTiles), toInt32 ((y + 1) * splitTiles)⟩
  (List.range indices.length).foldl
    (fun portals i =>
      (List.range' (i + 1) (indices.length - (i + 1))).foldl
        (connectPair dd limMin limMax indices i) portals)
    portals

/-- The body of `prebuild_map` for one grid, with the region side length
`splitTiles` as a parameter: the `DungeonPortals` set on the entity. -/
def prebuildWith (splitTiles : Nat) (dd : DungeonData) : Option DungeonPortals :=
  let t := extractPortals dd splitTiles
  match (List.range t.tilePortalsIndices.length).foldl
      (connectRegion dd splitTiles (dd.width / splitTiles) t.tilePortalsIndices) (some t.portals) with
  | none => none
  | some portals => some ⟨splitTiles, portals, t.tilePortalsIndices⟩

/-- Function `prebuild_map`, for one grid: `constexpr size_t splitTiles = 10`. -/
def prebuild_map (dd : DungeonData) : Option DungeonPortals := prebuildWith 10 dd

/-! ## HierarchicalQuery -/

/-- Function `find_hierarchical_path(dp, dd, source, target)`. The locals
`source_portal` and `target_portal` are default-initialised: their four
coordinates are indeterminate and their `conns` empty; the embedding takes the
coordinates they happen to hold as `source_portal` and `target_portal`. -/
def find_hierarchical_path (dp : DungeonPortals) (dd : DungeonData) (source target : IVec2)
    (source_portal target_portal : PathPortal) : Option (List IVec2) :=
  let tile_split := toInt32 dp.tileSplit
  let source_tile : IVec2 := ⟨source.x.tdiv tile_split, source.y.tdiv tile_split⟩
  let target_tile : IVec2 := ⟨target.x.tdiv tile_split, target.y.tdiv tile_split⟩
  if source_tile = target_tile then
    find_path_a_star dd source target ⟨source_tile.x * tile_split, source_tile.y * tile_split⟩
      ⟨(source_tile.x + 1) * tile_split, (source_tile.y + 1) * tile_split⟩
  else
    match get_shortest_path_portal dd dp source source_tile source_portal with
    | none => none
    | some (source_to_portal, source_portal1) =>
      match get_shortest_path_portal dd dp target target_tile target_portal with
      | none => none
      | some (portal_to_target, target_portal1) =>
        match find_path_a_star_portal dd dp source_portal1 target_portal1 with
        | none => none
        | some portals_path => some (source_to_portal ++ portals_path ++ portal_to_target)

/-! ## Vocabulary of the claims -/

/-- The coordinate lies in `[0, width) x [0, height)`. -/
def inGrid (dd : DungeonData) (p : IVec2) : Prop :=
  0 ≤ p.x ∧ p.x < (dd.width : Int) ∧ 0 ≤ p.y ∧ p.y < (dd.height : Int)

/-- The cell read for the coordinate is a wall. -/
def isWall (dd : DungeonData) (p : IVec2) : Prop :=
  tileAt dd (coord_to_idx p.x p.y dd.width) = Tile.wall

/-- The coordinate lies in the rectangle `[lim_min, lim_max)`. -/
def inRect (lim_min lim_max p : IVec2) : Prop :=
  lim_min.x ≤ p.x ∧ p.x < lim_max.x ∧ lim_min.y ≤ p.y ∧ p.y < lim_max.y

/-- The rectangle `[lim_min, lim_max)` is contained in the grid. -/
def rectInGrid (dd : DungeonData) (lim_min lim_max : IVec2) : Prop :=
  0 ≤ lim_min.x ∧ 0 ≤ lim_min.y ∧ lim_max.x ≤ (dd.width : Int) ∧ lim_max.y ≤ (dd.height : Int)

/-- Two coordinates differ by exactly one step in exactly one axis. -/
def adjacent (a b : IVec2) : Prop :=
  (a.y = b.y ∧ (a.x = b.x + 1 ∨ b.x = a.x + 1)) ∨ (a.x = b.x ∧ (a.y = b.y + 1 ∨ b.y = a.y + 1))

/-- A grid whose cell array has `width * height` entries, few enough for a
`float` to count them exactly. -/
def WellFormed (dd : DungeonData) : Prop :=
  dd.tiles.length = dd.width * dd.height ∧ dd.width * dd.height < 2 ^ 24

/-- A valid route from `src` to `dst`: it starts at `src`, ends at `dst`, moves
by 4-directional steps and contains no wall cell. -/
def ValidRoute (dd : DungeonData) (src dst : IVec2) (path : List IVec2) : Prop :=
  path.head? = some src ∧ path.getLast? = some dst ∧ path.Chain' adjacent ∧
    ∀ p ∈ path, ¬ isWall dd p

/-- A valid route all of whose cells lie in the rectangle `[lim_min, lim_max)`. -/
def RouteIn (dd : DungeonData) (lim_min lim_max src dst : IVec2) (path : List IVec2) : Prop :=
  ValidRoute dd src dst path ∧ ∀ p ∈ path, inRect lim_min lim_max p

instance (dd : DungeonData) (p : IVec2) : Decidable (inGrid dd p) := by
  unfold inGrid; infer_instance

instance (dd : DungeonData) (p : IVec2) : Decidable (isWall dd p) := by
  unfold isWall; infer_instance

instance (a b c : IVec2) : Decidable (inRect a b c) := by
  unfold inRect; infer_instance

instance (dd : DungeonData) (a b : IVec2) : Decidable (rectInGrid dd a b) := by
  unfold rectInGrid; infer_instance

instance (a b : IVec2) : Decidable (adjacent a b) := by
  unfold adjacent; infer_instance

instance (dd : DungeonData) : Decidable (WellFormed dd) := by
  unfold WellFormed; infer_instance

instance (dd : DungeonData) (src dst : IVec2) (path : List IVec2) :
    Decidable (ValidRoute dd src dst path) := by
  unfold ValidRoute; infer_instance

instance (dd : DungeonData) (a b src dst : IVec2) (path : List IVec2) :
    Decidable (RouteIn dd a b src dst path) := by
  unfold RouteIn; infer_instance

/-- The content of a default-initialised `PathPortal` whose four coordinates
hold the given values. -/
def uninitPortal (a b c d : Nat) : PathPortal := ⟨a, b, c, d, []⟩

/-! ## Grids of the scenarios -/

/-- The 8 x 8 grid without walls. -/
def openGrid8 : DungeonData := ⟨8, 8, List.replicate 64 Tile.floor⟩

/-- The portal graph of `openGrid8` for regions of side 4. -/
def openPortals8 : DungeonPortals :=
  { tileSplit := 4
    portals :=
      [⟨3, 0, 4, 3, [⟨1, 8388608⟩, ⟨2, 8388608⟩]⟩, ⟨0, 3, 3, 4, [⟨0, 8388608⟩, ⟨3, 8388608⟩]⟩,
       ⟨4, 3, 7, 4, [⟨0, 8388608⟩, ⟨3, 8388608⟩]⟩, ⟨3, 4, 4, 7, [⟨1, 8388608⟩, ⟨2, 8388608⟩]⟩]
    tilePortalsIndices := [[0, 1], [0, 2], [1, 3], [2, 3]] }

/-- A 2 x 1 grid: a wall cell followed by a floor cell. -/
def wallFloorGrid : DungeonData := ⟨2, 1, [Tile.wall, Tile.floor]⟩

/-- A 2 x 1 grid without walls. -/
def floorPair : DungeonData := ⟨2, 1, [Tile.floor, Tile.floor]⟩

/-- A 20 x 10 grid, two regions of side 10, all walls but for row 0, where the
cell `(0, 0)` and the corridor `(8, 0)` .. `(11, 0)` are floor. -/
def corridorGrid : DungeonData :=
  ⟨20, 10,
    [Tile.floor, Tile.wall, Tile.wall, Tile.wall, Tile.wall, Tile.wall, Tile.wall, Tile.wall,
     Tile.floor, Tile.floor, Tile.floor, Tile.floor, Tile.wall, Tile.wall, Tile.wall, Tile.wall,
     Tile.wall, Tile.wall, Tile.wall, Tile.wall] ++ List.replicate 180 Tile.wall⟩

/-- The portal graph of `corridorGrid`: one portal, across the corridor. -/
def corridorPortals : DungeonPortals :=
  { tileSplit := 10, portals := [⟨9, 0, 10, 0, []⟩], tilePortalsIndices := [[0], [0]] }

/-- A 30 x 10 grid, three regions of side 10, all walls but for row 0, where
`(9, 0)`, `(10, 0)`, `(11, 0)` and, apart from them, `(19, 0)`, `(20, 0)` are floor. -/
def twoPortalGrid : DungeonData :=
  ⟨30, 10,
    [Tile.wall, Tile.wall, Tile.wall, Tile.wall, Tile.wall, Tile.wall, Tile.wall, Tile.wall,
     Tile.wall, Tile.floor, Tile.floor, Tile.floor, Tile.wall, Tile.wall, Tile.wall, Tile.wall,
     Tile.wall, Tile.wall, Tile.wall, Tile.floor, Tile.floor, Tile.wall, Tile.wall, Tile.wall,
     Tile.wall, Tile.wall, Tile.wall, Tile.wall, Tile.wall, Tile.wall] ++
      List.replicate 270 Tile.wall⟩

/-- The portal graph of `twoPortalGrid`: the middle region has two portals and
no connection joins them. -/
def twoPortalGraph : DungeonPortals :=
  { tileSplit := 10
    portals := [⟨9, 0, 10, 0, []⟩, ⟨19, 0, 20, 0, []⟩]
    tilePortalsIndices := [[0], [0, 1], [1]] }

/-- The region of a coordinate: `source / tile_split` componentwise, the `int`
division of the source (towards zero). -/
def regionOf (dp : DungeonPortals) (p : IVec2) : IVec2 :=
  ⟨p.x.tdiv (toInt32 dp.tileSplit), p.y.tdiv (toInt32 dp.tileSplit)⟩

/-- Lower corner `tile * tile_split` of a region's rectangle. -/
def regionMin (dp : DungeonPortals) (tile : IVec2) : IVec2 :=
  ⟨tile.x * toInt32 dp.tileSplit, tile.y * toInt32 dp.tileSplit⟩

/-- Upper corner `(tile + 1) * tile_split` of a region's rectangle. -/
def regionMax (dp : DungeonPortals) (tile : IVec2) : IVec2 :=
  ⟨(tile.x + 1) * toInt32 dp.tileSplit, (tile.y + 1) * toInt32 dp.tileSplit⟩

/-- Index `y * width + x` at which `push_portals` fills the list of region
`(x, y)`, with `width = dd.width / splitTiles`. -/
def tileIndexBuilt (dd : DungeonData) (splitTiles x y : Nat) : Nat :=
  y * (dd.width / splitTiles) + x

/-- A 20 x 20 grid, four regions of side 10, all walls but for the three cells
`(9, 9)`, `(10, 9)` and `(9, 10)` around the corner where the regions meet. -/
def cornerGrid : DungeonData :=
  ⟨20, 20,
    List.replicate 189 Tile.wall ++ [Tile.floor, Tile.floor] ++ List.replicate 18 Tile.wall ++
      [Tile.floor] ++ List.replicate 190 Tile.wall⟩

/-- The portal graph of `cornerGrid`: a portal across the left border of region
`(1, 0)` and a portal across the top border of region `(0, 1)`. -/
def cornerGraph : DungeonPortals :=
  { tileSplit := 10
    portals := [⟨9, 9, 10, 9, [⟨1, 8388608⟩]⟩, ⟨9, 9, 9, 10, [⟨0, 8388608⟩]⟩]
    tilePortalsIndices := [[0, 1], [0], [1], []] }

/-- A 15 x 40 grid, one column of four regions of side 10 and five spare
columns, all walls but for the cells `(0, 19)` and `(0, 20)`. -/
def narrowGrid : DungeonData :=
  ⟨15, 40, List.replicate 285 Tile.wall ++ [Tile.floor] ++ List.replicate 14 Tile.wall ++
    [Tile.floor] ++ List.replicate 299 Tile.wall⟩

/-- The portal graph of `narrowGrid`: one portal, between regions `(0, 1)` and `(0, 2)`. -/
def narrowGraph : DungeonPortals :=
  { tileSplit := 10, portals := [⟨0, 19, 0, 20, []⟩], tilePortalsIndices := [[], [0], [0], []] }

/-! ## Invariant of the grid search -/

/-- A cell the search may walk on: inside the rectangle and not a wall. -/
def Cell (dd : DungeonData) (lim_min lim_max p : IVec2) : Prop :=
  inRect lim_min lim_max p ∧ ¬ isWall dd p

/-- The update of `checkNeighbour` guarded by `gScore < getG(p)`. -/
def relax (dd : DungeonData) (dst curPos p : IVec2) (s : AStar) : AStar :=
  if F32.add (s.g (coord_to_idx curPos.x curPos.y dd.width)) (F32.mul F32.one F32.one)
      < s.g (coord_to_idx p.x p.y dd.width) then
    { s with
      prev := setAt s.prev (coord_to_idx p.x p.y dd.width) curPos
      g := setAt s.g (coord_to_idx p.x p.y dd.width)
        (F32.add (s.g (coord_to_idx curPos.x curPos.y dd.width)) (F32.mul F32.one F32.one))
      f := setAt s.f (coord_to_idx p.x p.y dd.width)
        (F32.add (F32.add (s.g (coord_to_idx curPos.x curPos.y dd.width)) (F32.mul F32.one F32.one))
          (heuristic p dst)) }
  else s

/-- The end of `checkNeighbour`: `p` joins the open list unless it is there. -/
def pushOpen (p : IVec2) (s : AStar) : AStar :=
  if p ∈ s.openList then s else { s with openList := s.openList ++ [p] }

/-- The part of the loop invariant of `find_path_a_star` that speaks of the
tables: listed coordinates are cells, step counts are exact, and predecessors
lead one step back to a cell with a smaller count. -/
structure CoreInv (dd : DungeonData) (src lim_min lim_max : IVec2) (s : AStar) : Prop where
  cells_open : ∀ p ∈ s.openList, Cell dd lim_min lim_max p
  cells_closed : ∀ p ∈ s.closedList, Cell dd lim_min lim_max p
  nodup_closed : s.closedList.Nodup
  prev_src : s.prev (coord_to_idx src.x src.y dd.width) = noPrev
  g_src : s.g (coord_to_idx src.x src.y dd.width) = 0
  g_val : ∀ p, Cell dd lim_min lim_max p →
    s.g (coord_to_idx p.x p.y dd.width) = F32.max ∨
      ∃ k, k ≤ s.closedList.length ∧ s.g (coord_to_idx p.x p.y dd.width) = k * 2 ^ 23
  g_open : ∀ p ∈ s.openList, s.g (coord_to_idx p.x p.y dd.width) ≠ F32.max
  prev_ok : ∀ p, Cell dd lim_min lim_max p → s.prev (coord_to_idx p.x p.y dd.width) ≠ noPrev →
    Cell dd lim_min lim_max (s.prev (coord_to_idx p.x p.y dd.width)) ∧
    adjacent (s.prev (coord_to_idx p.x p.y dd.width)) p ∧
    s.g (coord_to_idx (s.prev (coord_to_idx p.x p.y dd.width)).x
      (s.prev (coord_to_idx p.x p.y dd.width)).y dd.width) < s.g (coord_to_idx p.x p.y dd.width)
  prev_some : ∀ p, Cell dd lim_min lim_max p → p ≠ src →
    s.g (coord_to_idx p.x p.y dd.width) ≠ F32.max → s.prev (coord_to_idx p.x p.y dd.width) ≠ noPrev

/-- What one `checkNeighbour` call keeps and adds, stated for the expansion of
`curPos`, whose step count is `kc`. -/
structure NeighbourStep (dd : DungeonData) (src lim_min lim_max curPos : IVec2) (kc : Nat)
    (s t : AStar) : Prop where
  core : CoreInv dd src lim_min lim_max t
  g_cur : t.g (coord_to_idx curPos.x curPos.y dd.width) = kc * 2 ^ 23
  closed_eq : t.closedList = s.closedList
  open_mono : ∀ q ∈ s.openList, q ∈ t.openList
  open_len : t.openList.length ≤ s.openList.length + 1

/-- The entry the scan selects from the open list `first :: rest`. -/
def pick (dd : DungeonData) (s : AStar) (first : IVec2) (rest : List IVec2) : IVec2 :=
  (first :: rest).getD
    (bestIndex (fun p => s.f (coord_to_idx p.x p.y dd.width)) first rest) first

/-- The open list `first :: rest` without the selected entry. -/
def unpick (dd : DungeonData) (s : AStar) (first : IVec2) (rest : List IVec2) : List IVec2 :=
  (first :: rest).eraseIdx
    (bestIndex (fun p => s.f (coord_to_idx p.x p.y dd.width)) first rest)

/-- Loop invariant of `find_path_a_star`: the table invariant, and that the
source and every neighbouring cell of a closed cell have been listed, the
target not being closed. -/
structure LoopInv (dd : DungeonData) (src dst lim_min lim_max : IVec2) (s : AStar) : Prop where
  core : CoreInv dd src lim_min lim_max s
  src_seen : src ∈ s.openList ∨ src ∈ s.closedList
  nbr_seen : ∀ c ∈ s.closedList, ∀ n, adjacent c n → Cell dd lim_min lim_max n →
    n ∈ s.openList ∨ n ∈ s.closedList
  dst_open : dst ∉ s.closedList

/-- The loop measure: entries of the open list, and four for every cell of the
rectangle not closed yet. -/
def loopMeasure (lim_min lim_max : IVec2) (s : AStar) : Nat :=
  s.openList.length + 4 * (rectArea lim_min lim_max - s.closedList.length)

/-- What the search establishes for its result: a non-empty result is a route
in the rectangle, and an empty result means there is none. -/
def SearchResult (dd : DungeonData) (src dst lim_min lim_max : IVec2) (path : List IVec2) : Prop :=
  (path ≠ [] → RouteIn dd lim_min lim_max src dst path) ∧
    (path = [] → ∀ r, ¬ RouteIn dd lim_min lim_max src dst r)

/-- A grid of at most 1024 x 1024 cells: the range in which the float scores
`f` order the cells as the exact scores do. -/
def SmallGrid (dd : DungeonData) : Prop := dd.width ≤ 1024 ∧ dd.height ≤ 1024

instance (dd : DungeonData) : Decidable (SmallGrid dd) := by
  unfold SmallGrid; infer_instance

/-! ## Optimality of the grid search -/

/-- The part of the optimality invariant that speaks of the tables alone: a
finite step count is the length of some route from the source, the count of a
closed cell is that of a shortest route, and `f` holds the rounded sum of the
count and the heuristic. -/
structure OptTables (dd : DungeonData) (src dst lim_min lim_max : IVec2) (s : AStar) : Prop where
  walk : ∀ p, Cell dd lim_min lim_max p → s.g (coord_to_idx p.x p.y dd.width) ≠ F32.max →
    ∃ r, RouteIn dd lim_min lim_max src p r ∧
      s.g (coord_to_idx p.x p.y dd.width) + 2 ^ 23 = r.length * 2 ^ 23
  opt : ∀ c ∈ s.closedList, ∀ r, RouteIn dd lim_min lim_max src c r →
    s.g (coord_to_idx c.x c.y dd.width) + 2 ^ 23 ≤ r.length * 2 ^ 23
  f_val : ∀ p, Cell dd lim_min lim_max p → s.g (coord_to_idx p.x p.y dd.width) ≠ F32.max →
    s.f (coord_to_idx p.x p.y dd.width) =
        F32.add (s.g (coord_to_idx p.x p.y dd.width)) (heuristic p dst) ∨
      (p = src ∧ s.f (coord_to_idx p.x p.y dd.width) = heuristic src dst)

/-- The neighbouring cells of `c` have been relaxed from `c`. -/
def NbrG (dd : DungeonData) (lim_min lim_max : IVec2) (s : AStar) (c : IVec2) : Prop :=
  ∀ n, adjacent c n → Cell dd lim_min lim_max n →
    s.g (coord_to_idx n.x n.y dd.width) ≤ s.g (coord_to_idx c.x c.y dd.width) + 2 ^ 23

/-- What one `checkNeighbour` call keeps of the optimality invariant during
the expansion of `cur`. -/
structure OptStep (dd : DungeonData) (src dst lim_min lim_max cur : IVec2) (s t : AStar) :
    Prop where
  tables : OptTables dd src dst lim_min lim_max t
  nbr : ∀ c ∈ t.closedList, c ≠ cur → NbrG dd lim_min lim_max t c
  mono : ∀ i, t.g i ≤ s.g i

/-- Loop invariant of `find_path_a_star` for optimality. -/
structure OptInv (dd : DungeonData) (src dst lim_min lim_max : IVec2) (s : AStar) : Prop where
  loop : LoopInv dd src dst lim_min lim_max s
  tables : OptTables dd src dst lim_min lim_max s
  nbr : ∀ c ∈ s.closedList, NbrG dd lim_min lim_max s c

/-- What the search establishes for its result, with optimality: no route in
the rectangle from source to target has fewer coordinates than a non-empty result. -/
def ShortestResult (dd : DungeonData) (src dst lim_min lim_max : IVec2) (path : List IVec2) :
    Prop :=
  SearchResult dd src dst lim_min lim_max path ∧
    ∀ r, RouteIn dd lim_min lim_max src dst r → path ≠ [] → path.length ≤ r.length

/-! ## Termination of the search loop -/

/-- The value `find_path_a_star` returns when its loop is left in state `s`:
the empty path for an empty open list, the reconstructed path otherwise. -/
def exitValue (dd : DungeonData) (dst : IVec2) (s : AStar) : Option (List IVec2) :=
  match s.openList with
  | [] => some []
  | _ :: _ => reconstruct_path (dd.width * dd.height + 1) s.prev dst dd.width

/-- The loop is left in state `s`: the open list is empty or the target is selected. -/
def atExit (dd : DungeonData) (dst : IVec2) (s : AStar) : Prop :=
  match s.openList with
  | [] => True
  | first :: rest => pick dd s first rest = dst

/-- One pass of the loop body of `find_path_a_star` from a state in which the
loop is not left: the selected entry is taken off the open list and, unless it
is closed already, closed and expanded. -/
def aStarPass (dd : DungeonData) (dst lim_min lim_max : IVec2) (s : AStar) : AStar :=
  match s.openList with
  | [] => s
  | first :: rest =>
    if pick dd s first rest = dst then s
    else if pick dd s first rest ∈ s.closedList then
      { s with openList := unpick dd s first rest }
    else
      expand dd dst lim_min lim_max (pick dd s first rest)
        { s with openList := unpick dd s first rest,
                 closedList := s.closedList ++ [pick dd s first rest] }

/-- The state after `n` passes of the loop body. -/
def aStarPasses (dd : DungeonData) (dst lim_min lim_max : IVec2) : Nat → AStar → AStar
  | 0, s => s
  | n + 1, s => aStarPasses dd dst lim_min lim_max n (aStarPass dd dst lim_min lim_max s)

/-- Invariant of the loop for any input, after `m` passes: no cell is closed
twice, listed coordinates are the source or lie in the rectangle, and the `m`
entries taken off the open list together with those still on it are at most
one and four for each closed cell. -/
structure PassInv (src lim_min lim_max : IVec2) (m : Nat) (s : AStar) : Prop where
  nodup : s.closedList.Nodup
  open_in : ∀ p ∈ s.openList, p = src ∨ inRect lim_min lim_max p
  closed_in : ∀ p ∈ s.closedList, p = src ∨ inRect lim_min lim_max p
  count : m + s.openList.length ≤ 1 + 4 * s.closedList.length

/-- The measure of the loop for any input. -/
def passMeasure (lim_min lim_max : IVec2) (s : AStar) : Nat :=
  s.openList.length + 4 * (rectArea lim_min lim_max + 1 - s.closedList.length)

/-! ## Totality of the grid search -/

/-- The part of the invariant that speaks of the tables by index, for any
source: finite step counts are whole and at most the number of closed cells,
open cells have a finite count, and a predecessor has a smaller count. -/
structure TabInv (dd : DungeonData) (s : AStar) : Prop where
  g_val : ∀ i, s.g i = F32.max ∨ ∃ k, k ≤ s.closedList.length ∧ s.g i = k * 2 ^ 23
  g_open : ∀ p ∈ s.openList, s.g (coord_to_idx p.x p.y dd.width) ≠ F32.max
  prev_ok : ∀ i, s.prev i ≠ noPrev →
    s.g (coord_to_idx (s.prev i).x (s.prev i).y dd.width) < s.g i

/-! ## Portal extraction along one border -/

/-- The test of `check_border` at position `i` of a border: the border cell
and its neighbour across the border are both not walls. -/
def borderOpen (dd : DungeonData) (splitTiles xx yy dir_x dir_y : Nat) (offs_x offs_y : Int)
    (i : Nat) : Prop :=
  tileAt dd ((yy * splitTiles + i * dir_y) * dd.width + (xx * splitTiles + i * dir_x)) ≠ Tile.wall ∧
    tileAt dd (((yy * splitTiles + i * dir_y + toSizeT offs_y) % 2 ^ 64) * dd.width +
      (xx * splitTiles + i * dir_x + toSizeT offs_x) % 2 ^ 64) ≠ Tile.wall

instance (dd : DungeonData) (splitTiles xx yy dir_x dir_y : Nat) (offs_x offs_y : Int) (i : Nat) :
    Decidable (borderOpen dd splitTiles xx yy dir_x dir_y offs_x offs_y i) := by
  unfold borderOpen; infer_instance

/-- Positions `a` to `b` form a maximal run of the positions below `n` that
satisfy `q`: all of them satisfy `q`, and the run cannot be extended at either
end. -/
def IsMaxRun (q : Nat → Prop) (n a b : Nat) : Prop :=
  a ≤ b ∧ b < n ∧ (∀ i, a ≤ i → i ≤ b → q i) ∧ (a = 0 ∨ ¬ q (a - 1)) ∧ (b + 1 = n ∨ ¬ q (b + 1))

/-- Invariant of the loop of `check_border` after `n` positions: the portals
written so far are the spans of the runs that have ended, in order and apart
from each other, and `spanFrom`, `spanTo` hold the run that is still open. -/
structure BorderInv (q : Nat → Prop) (span : Int → Int → PathPortal) (n : Nat) (st : BorderScan)
    (runs : List (Nat × Nat)) : Prop where
  portals : st.portals = runs.map (fun r => span (r.1 : Int) (r.2 : Int))
  sep : runs.Pairwise (fun r r' => r.2 + 1 < r'.1)
  closed : ∀ r ∈ runs, r.1 ≤ r.2 ∧ r.2 + 1 < n ∧ (∀ i, r.1 ≤ i → i ≤ r.2 → q i) ∧
    (r.1 = 0 ∨ ¬ q (r.1 - 1)) ∧ ¬ q (r.2 + 1)
  cur : (st.spanFrom = -1 ∧ (n = 0 ∨ ¬ q (n - 1)) ∧
        ∀ i, i < n → q i → ∃ r ∈ runs, r.1 ≤ i ∧ i ≤ r.2) ∨
      (∃ a : Nat, st.spanFrom = (a : Int) ∧ st.spanTo = ((n - 1 : Nat) : Int) ∧ a < n ∧
        (∀ i, a ≤ i → i < n → q i) ∧ (a = 0 ∨ ¬ q (a - 1)) ∧ (∀ r ∈ runs, r.2 + 1 < a) ∧
        ∀ i, i < a → q i → ∃ r ∈ runs, r.1 ≤ i ∧ i ≤ r.2)

/-- The runs of a finished border scan: apart from each other, maximal, and
covering every position that satisfies `q`. -/
structure FinalRuns (q : Nat → Prop) (n : Nat) (runs : List (Nat × Nat)) : Prop where
  sep : runs.Pairwise (fun r r' => r.2 + 1 < r'.1)
  maximal : ∀ r ∈ runs, IsMaxRun q n r.1 r.2
  cover : ∀ i, i < n → q i → ∃ r ∈ runs, r.1 ≤ i ∧ i ≤ r.2

/-- Position `i` of the top border of region `(x, y)` is open: the cell
`(x * s + i, y * s)` and the cell above it are not walls. -/
def topOpen (dd : DungeonData) (s x y i : Nat) : Prop :=
  ¬ isWall dd ⟨((x * s + i : Nat) : Int), ((y * s : Nat) : Int)⟩ ∧
    ¬ isWall dd ⟨((x * s + i : Nat) : Int), ((y * s : Nat) : Int) - 1⟩

/-- Position `i` of the left border of region `(x, y)` is open: the cell
`(x * s, y * s + i)` and the cell to its left are not walls. -/
def leftOpen (dd : DungeonData) (s x y i : Nat) : Prop :=
  ¬ isWall dd ⟨((x * s : Nat) : Int), ((y * s + i : Nat) : Int)⟩ ∧
    ¬ isWall dd ⟨((x * s : Nat) : Int) - 1, ((y * s + i : Nat) : Int)⟩

instance (dd : DungeonData) (s x y i : Nat) : Decidable (topOpen dd s x y i) := by
  unfold topOpen; infer_instance

instance (dd : DungeonData) (s x y i : Nat) : Decidable (leftOpen dd s x y i) := by
  unfold leftOpen; infer_instance

/-- The portal of the top border of region `(x, y)` for the run `a` to `b`. -/
def topPortal (s x y a b : Nat) : PathPortal := ⟨x * s + a, y * s - 1, x * s + b, y * s, []⟩

/-- The portal of the left border of region `(x, y)` for the run `a` to `b`. -/
def leftPortal (s x y a b : Nat) : PathPortal := ⟨x * s - 1, y * s + a, x * s, y * s + b, []⟩

/-! ## Portal extraction over all regions -/

/-- How a portal came about: the region `(x, y)` whose border was scanned,
whether it was the top or the left border, and the run `a` to `b`. -/
structure PortalDesc where
  x : Nat
  y : Nat
  top : Bool
  a : Nat
  b : Nat

/-- The portal written for a description. -/
def descPortal (s : Nat) (d : PortalDesc) : PathPortal :=
  if d.top then topPortal s d.x d.y d.a d.b else leftPortal s d.x d.y d.a d.b

/-- Position of the list of the region whose border was scanned. -/
def descHome (W : Nat) (d : PortalDesc) : Nat := d.y * W + d.x

/-- Position of the list of the region across the border. -/
def descNbr (W : Nat) (d : PortalDesc) : Nat :=
  if d.top then (d.y - 1) * W + d.x else d.y * W + d.x - 1

/-- The portal is registered in the list at position `r`. -/
def descRegs (W : Nat) (d : PortalDesc) (r : Nat) : Prop := descHome W d = r ∨ descNbr W d = r

instance (W : Nat) (d : PortalDesc) (r : Nat) : Decidable (descRegs W d r) := by
  unfold descRegs; infer_instance

/-- The indices of the descriptions registered at position `r`, in order. -/
def regList (W : Nat) (D : List PortalDesc) (r : Nat) : List Nat :=
  (List.range D.length).filter fun k => decide (descRegs W (D.getD k ⟨0, 0, false, 0, 0⟩) r)

/-- A description of a portal of the grid: an interior border of a region of
the `W` by `H` regions, and a maximal run of open positions on it. -/
def DescOk (dd : DungeonData) (s W H : Nat) (d : PortalDesc) : Prop :=
  d.x < W ∧ d.y < H ∧
    ((d.top = true ∧ 0 < d.y ∧ IsMaxRun (topOpen dd s d.x d.y) s d.a d.b) ∨
      (d.top = false ∧ 0 < d.x ∧ IsMaxRun (leftOpen dd s d.x d.y) s d.a d.b))

/-- Invariant of the extraction loops when `n` regions have their list: the
portals are those of the descriptions `D`, each registered in the list of its
region and in the list of the region across its border. -/
structure ExtInv (dd : DungeonData) (s W H n : Nat) (t : PortalTables) (D : List PortalDesc) :
    Prop where
  portals : t.portals = D.map (descPortal s)
  len : t.tilePortalsIndices.length = n
  lists : ∀ r, r < n → t.tilePortalsIndices.getD r [] = regList W D r
  ok : ∀ d ∈ D, DescOk dd s W H d ∧ descHome W d < n

/-! ## The connection phase -/

/-- The four coordinates of a portal. -/
def portalCoords (p : PathPortal) : Nat × Nat × Nat × Nat :=
  (p.startX, p.startY, p.endX, p.endY)

/-- Corner `limMin` of the rectangle of the region at position `tidx`, as the
connection loop computes it. -/
def tileMin (s W tidx : Nat) : IVec2 :=
  ⟨toInt32 ((tidx % W + 0) * s), toInt32 ((tidx / W + 0) * s)⟩

/-- Corner `limMax` of the rectangle of the region at position `tidx`, as the
connection loop computes it. -/
def tileMax (s W tidx : Nat) : IVec2 :=
  ⟨toInt32 ((tidx % W + 1) * s), toInt32 ((tidx / W + 1) * s)⟩

/-- The pairs of cells that the four span loops of the connection phase visit
for two portals, in the order of the visit. -/
def spanPairs (p q : PathPortal) (limMin limMax : IVec2) : List (IVec2 × IVec2) :=
  (spanCells p limMin limMax).flatMap fun a => (spanCells q limMin limMax).map fun b => (a, b)

/-! ## The cost of a connection -/

/-- Number `m` is the least number of coordinates of a route inside the
rectangle from a cell of the span of `p` to a cell of the span of `q`: some
such route has `m` coordinates and none has fewer. A route of `m` coordinates
makes `m - 1` steps. -/
def RegionPairMin (dd : DungeonData) (limMin limMax : IVec2) (p q : PathPortal) (m : Nat) : Prop :=
  (∃ a ∈ spanCells p limMin limMax, ∃ b ∈ spanCells q limMin limMax, ∃ r,
      RouteIn dd limMin limMax a b r ∧ r.length = m) ∧
    ∀ a ∈ spanCells p limMin limMax, ∀ b ∈ spanCells q limMin limMax, ∀ r,
      RouteIn dd limMin limMax a b r → m ≤ r.length

/-- The meaning of a connection record `c` on portal `k`, for index lists
`tPI` and a portal vector: both portals are registered for a region at some
position `r`, and the score is the least number of coordinates of a route
inside the rectangle of that region between the cells of the two portals. -/
def EdgeCost (dd : DungeonData) (s : Nat) (tPI : List (List Nat)) (portals : List PathPortal)
    (k : Nat) (c : PortalConnection) : Prop :=
  ∃ r, r < tPI.length ∧ k ∈ tPI.getD r [] ∧ c.connIdx ∈ tPI.getD r [] ∧
    ∃ m, c.score = F32.ofNat m ∧ c.score = m * 2 ^ 23 ∧
      RegionPairMin dd (tileMin s (dd.width / s) r) (tileMax s (dd.width / s) r)
        (portalAt portals k) (portalAt portals c.connIdx) m

/-! ## The portal search -/

/-- Portal `q` is reached from portal `p` by one recorded connection. -/
def Linked (dp : DungeonPortals) (p q : PathPortal) : Prop :=
  ∃ c ∈ p.conns, portalAt dp.portals c.connIdx = q

/-- A chain of portals of the graph from `src` to `dst`, each linked to the
next by a recorded connection. -/
def PortalChain (dp : DungeonPortals) (src dst : PathPortal) (chain : List PathPortal) : Prop :=
  chain.head? = some src ∧ chain.getLast? = some dst ∧ chain.Chain' (Linked dp) ∧
    ∀ p ∈ chain, p ∈ dp.portals

/-- A graph on which the tables of the portal search are keyed without
collision and its sums are exact: the midpoints of the portals lie in the grid
and differ from each other, every connection points at a portal, and the
scores are whole numbers from 1 to `K` with `K` times the number of portals
below `2 ^ 24`. -/
structure GraphOk (dd : DungeonData) (dp : DungeonPortals) (K : Nat) : Prop where
  size : dd.width * dd.height < 2 ^ 24
  mids_in : ∀ p ∈ dp.portals, inGrid dd (PortalToCoord p)
  mids_inj : ∀ p ∈ dp.portals, ∀ q ∈ dp.portals, PortalToCoord p = PortalToCoord q → p = q
  conns_ok : ∀ p ∈ dp.portals, ∀ c ∈ p.conns,
    c.connIdx < dp.portals.length ∧ c.score % 2 ^ 23 = 0 ∧ 2 ^ 23 ≤ c.score ∧
      c.score ≤ K * 2 ^ 23
  bound : dp.portals.length * K < 2 ^ 24

/-- The update of `relaxConn` guarded by `gScore < getG(p)`. -/
def relaxPortal (dd : DungeonData) (dp : DungeonPortals) (curPortal : PathPortal)
    (c : PortalConnection) (s : PortalAStar) : PortalAStar :=
  if F32.add (s.g (PortalToIdx dd curPortal)) c.score
      < s.g (PortalToIdx dd (portalAt dp.portals c.connIdx)) then
    { s with
      prev := setAt s.prev (PortalToIdx dd (portalAt dp.portals c.connIdx))
        (PortalToCoord curPortal)
      g := setAt s.g (PortalToIdx dd (portalAt dp.portals c.connIdx))
        (F32.add (s.g (PortalToIdx dd curPortal)) c.score) }
  else s

/-- The insertion of `relaxConn` into the open list unless the portal is found there. -/
def pushPortal (p : PathPortal) (s : PortalAStar) : PortalAStar :=
  if p ∈ s.openList then s else { s with openList := s.openList ++ [p] }

/-- Invariant of the loop of `find_path_a_star_portal` on a graph without
collisions: listed portals are portals of the graph with a finite score, finite
scores are whole, and a predecessor is the midpoint of a closed portal with a
connection to the portal and a smaller score. -/
structure PInv (dd : DungeonData) (dp : DungeonPortals) (K : Nat) (src : PathPortal)
    (s : PortalAStar) : Prop where
  nodup : s.closedList.Nodup
  g_src : s.g (PortalToIdx dd src) = 0
  prev_src : s.prev (PortalToIdx dd src) = noPrev
  reach_open : ∀ p ∈ s.openList, p ∈ dp.portals ∧ s.g (PortalToIdx dd p) ≠ F32.max
  reach_closed : ∀ p ∈ s.closedList, p ∈ dp.portals ∧ s.g (PortalToIdx dd p) ≠ F32.max
  g_val : ∀ i, s.g i = F32.max ∨ ∃ j, j ≤ s.closedList.length * K ∧ s.g i = j * 2 ^ 23
  g_fin : ∀ q ∈ dp.portals, s.g (PortalToIdx dd q) ≠ F32.max →
    q = src ∨ s.prev (PortalToIdx dd q) ≠ noPrev
  prev_ok : ∀ q ∈ dp.portals, s.prev (PortalToIdx dd q) ≠ noPrev →
    ∃ cur ∈ s.closedList, Linked dp cur q ∧ s.prev (PortalToIdx dd q) = PortalToCoord cur ∧
      s.g (PortalToIdx dd cur) < s.g (PortalToIdx dd q)

/-- Bound on the passes left to the loop of `find_path_a_star_portal`: the
entries of the open list and the connections of the portals not closed yet. -/
def portalMeasure (dp : DungeonPortals) (s : PortalAStar) : Nat :=
  s.openList.length + ((dp.portals.map fun p => p.conns.length).sum -
    (s.closedList.map fun p => p.conns.length).sum)

/-- Number of cells of the grid whose score lies below that of cell `i`. -/
def gRank (dd : DungeonData) (s : PortalAStar) (i : Nat) : Nat :=
  (List.range (dd.width * dd.height)).countP fun k => decide (s.g k < s.g i)

/-- What the loop of `find_path_a_star_portal` has listed: the source, and
every portal that a connection of a closed portal points at, is on the open or
on the closed list, and the target is not closed. -/
structure Listed (dp : DungeonPortals) (src dst : PathPortal) (s : PortalAStar) : Prop where
  src_listed : src ∈ s.openList ∨ src ∈ s.closedList
  succ_listed : ∀ p ∈ s.closedList, ∀ c ∈ p.conns,
    portalAt dp.portals c.connIdx ∈ s.openList ∨ portalAt dp.portals c.connIdx ∈ s.closedList
  dst_open : dst ∉ s.closedList

/-- The 20 x 20 grid without walls. -/
def detourGrid : DungeonData := ⟨20, 20, List.replicate 400 Tile.floor⟩

/-- A portal graph on `detourGrid` with three portals on the border between
the regions `(0, 0)` and `(1, 0)`, with the midpoints `(9, 0)`, `(9, 18)` and
`(9, 3)`: the first is connected to the third at the cost 10, and to the second
and from there to the third at the cost 1 each. -/
def detourGraph : DungeonPortals :=
  { tileSplit := 10
    portals :=
      [⟨9, 0, 10, 1, [⟨1, 8388608⟩, ⟨2, 83886080⟩]⟩,
       ⟨9, 18, 10, 19, [⟨0, 8388608⟩, ⟨2, 8388608⟩]⟩,
       ⟨9, 3, 10, 4, [⟨0, 83886080⟩, ⟨1, 8388608⟩]⟩]
    tilePortalsIndices := [[0, 1, 2], [0, 1, 2], [], []] }

instance (dp : DungeonPortals) (p q : PathPortal) : Decidable (Linked dp p q) := by
  unfold Linked; infer_instance

/-! ## The records of the connection phase, pass by pass -/

/-- Every cell of the span of `p` inside the rectangle has a path that is not
empty to every cell of the span of `q`. -/
def AllReach (dd : DungeonData) (limMin limMax : IVec2) (p q : PathPortal) : Prop :=
  ∀ a ∈ spanCells p limMin limMax, ∀ b ∈ spanCells q limMin limMax,
    ∃ path, find_path_a_star dd a b limMin limMax = some path ∧ path ≠ []

/-- The passes of the innermost loop body of the connection phase in the order
of the three loops: the position `tidx` of the region, then the positions
`i < j` in its list. -/
def pairPasses (tPI : List (List Nat)) : List (Nat × Nat × Nat) :=
  (List.range tPI.length).flatMap fun tidx =>
    (List.range (tPI.getD tidx []).length).flatMap fun i =>
      (List.range' (i + 1) ((tPI.getD tidx []).length - (i + 1))).map fun j => (tidx, i, j)

/-- The records that the pass `(tidx, i, j)` of the connection phase appends to
the connections of portal `k`. -/
def pairRecords (dd : DungeonData) (s W : Nat) (tPI : List (List Nat)) (portals : List PathPortal)
    (pass : Nat × Nat × Nat) (k : Nat) : List PortalConnection :=
  match scanPairs dd (tileMin s W pass.1) (tileMax s W pass.1)
      (spanPairs (portalAt portals ((tPI.getD pass.1 []).getD pass.2.1 0))
        (portalAt portals ((tPI.getD pass.1 []).getD pass.2.2 0))
        (tileMin s W pass.1) (tileMax s W pass.1)) 0xffffffff with
  | some (false, m) =>
    (if k = (tPI.getD pass.1 []).getD pass.2.1 0
      then [⟨(tPI.getD pass.1 []).getD pass.2.2 0, F32.ofNat m⟩] else []) ++
    (if k = (tPI.getD pass.1 []).getD pass.2.2 0
      then [⟨(tPI.getD pass.1 []).getD pass.2.1 0, F32.ofNat m⟩] else [])
  | _ => []

/-! # Theorems -/

/-! ## Basic facts -/

theorem mul_one_one : F32.mul F32.one F32.one = 2 ^ 23 := by decide

theorem reconstruct_path_noPrev (fuel : Nat) (dst : IVec2) (width : Nat) :
    reconstruct_path (fuel + 1) (fun _ => noPrev) dst width = some [dst] := by
  simp [reconstruct_path, reconstruct_path_loop]

/-- A query from a cell of the grid to itself returns that cell alone. -/
theorem find_path_a_star_self (dd : DungeonData) (p lim_min lim_max : IVec2)
    (hp : inGrid dd p) : find_path_a_star dd p p lim_min lim_max = some [p] := by
  obtain ⟨h1, h2, h3, h4⟩ := hp
  have hb : ¬ (p.x < 0 ∨ p.y < 0 ∨ p.x ≥ (dd.width : Int) ∨ p.y ≥ (dd.height : Int)) := by omega
  unfold find_path_a_star
  rw [if_neg hb]
  show aStarLoop dd p lim_min lim_max (4 * (rectArea lim_min lim_max + 1) + 1 + 1) _ = _
  simp [aStarLoop, aStarInit, bestIndex, bestScan, reconstruct_path, reconstruct_path_loop]

/-- A source outside the grid gives the empty sequence. -/
theorem find_path_a_star_outside (dd : DungeonData) (src dst lim_min lim_max : IVec2)
    (h : ¬ inGrid dd src) : find_path_a_star dd src dst lim_min lim_max = some [] := by
  have hb : src.x < 0 ∨ src.y < 0 ∨ src.x ≥ (dd.width : Int) ∨ src.y ≥ (dd.height : Int) := by
    unfold inGrid at h; omega
  unfold find_path_a_star
  rw [if_pos hb]

/-- The reference parameter of `get_shortest_path_portal` comes back as it went in. -/
theorem get_shortest_path_portal_param (dd : DungeonData) (dp : DungeonPortals) (src tile : IVec2)
    (p q : PathPortal) (path : List IVec2)
    (h : get_shortest_path_portal dd dp src tile p = some (path, q)) : q = p := by
  unfold get_shortest_path_portal at h
  split at h
  · exact absurd h (by simp)
  · simp only [Option.some.injEq, Prod.mk.injEq] at h
    exact h.2.symm

/-- The path returned by `get_shortest_path_portal` does not depend on the
reference parameter. -/
theorem get_shortest_path_portal_fst (dd : DungeonData) (dp : DungeonPortals) (src tile : IVec2)
    (p : PathPortal) :
    get_shortest_path_portal dd dp src tile p =
      (portalScan dd dp src tile (dp.tilePortalsIndices.getD (tileIndexQuery dd dp tile) []) []).map
        (fun path => (path, p)) := by
  unfold get_shortest_path_portal
  cases portalScan dd dp src tile (dp.tilePortalsIndices.getD (tileIndexQuery dd dp tile) []) [] <;> rfl

/-- The portal search from a portal without connections: the source midpoint
alone when source and target are the same record, nothing otherwise. -/
theorem find_path_a_star_portal_noConns (dd : DungeonData) (dp : DungeonPortals)
    (src dst : PathPortal) (h : src.conns = []) :
    find_path_a_star_portal dd dp src dst =
      some (if src = dst then [PortalToCoord dst] else []) := by
  unfold find_path_a_star_portal
  show portalLoop dd dp dst (src.conns.length + (dp.portals.map (fun p => p.conns.length)).sum + 1 + 1 + 1) _ = _
  by_cases hsd : src = dst
  · simp [portalLoop, bestIndex, bestScan, hsd, reconstruct_path, reconstruct_path_loop]
  · simp [portalLoop, bestIndex, bestScan, hsd, h]

/-! ## Arithmetic of the embedding -/

theorem dropBits_le (fuel n t : Nat) (h : n / 2 ^ t < 2 ^ 24) : F32.dropBits fuel n ≤ t := by
  induction fuel generalizing n t with
  | zero => simp [F32.dropBits]
  | succ fuel ih =>
    unfold F32.dropBits
    split
    · exact Nat.zero_le _
    · rename_i hn
      cases t with
      | zero => simp at h; omega
      | succ t =>
        have : n / 2 / 2 ^ t < 2 ^ 24 := by
          rw [Nat.div_div_eq_div_mul, ← pow_succ']; exact h
        have := ih (n / 2) t this
        omega

/-- Whole numbers below `2 ^ 24` are `float` values: rounding keeps them. -/
theorem round_exact (m : Nat) (h : m < 2 ^ 24) : F32.round (m * 2 ^ 23) = m * 2 ^ 23 := by
  have hs : F32.dropBits (m * 2 ^ 23) (m * 2 ^ 23) ≤ 23 :=
    dropBits_le _ _ 23 (by rw [Nat.mul_div_cancel _ (by positivity)]; exact h)
  have hdvd : 2 ^ F32.dropBits (m * 2 ^ 23) (m * 2 ^ 23) ∣ m * 2 ^ 23 :=
    Dvd.dvd.mul_left (pow_dvd_pow 2 hs) m
  have hmod : m * 2 ^ 23 % 2 ^ F32.dropBits (m * 2 ^ 23) (m * 2 ^ 23) = 0 :=
    Nat.mod_eq_zero_of_dvd hdvd
  have hpos : 0 < 2 ^ F32.dropBits (m * 2 ^ 23) (m * 2 ^ 23) := by positivity
  unfold F32.round
  simp only [hmod]
  rw [if_neg (by omega)]
  exact Nat.div_mul_cancel hdvd

/-- One step added to an exact step count stays exact. -/
theorem add_one_exact (k : Nat) (h : k + 1 < 2 ^ 24) :
    F32.add (k * 2 ^ 23) (F32.mul F32.one F32.one) = (k + 1) * 2 ^ 23 := by
  rw [mul_one_one]
  unfold F32.add
  rw [show k * 2 ^ 23 + 2 ^ 23 = (k + 1) * 2 ^ 23 by ring]
  exact round_exact _ h

theorem toSizeT_of_nonneg (i : Int) (h0 : 0 ≤ i) (h1 : i < 2 ^ 64) : toSizeT i = i.toNat := by
  unfold toSizeT
  rw [Int.emod_eq_of_lt h0 h1]

/-- Within the grid the row-major index is `y * width + x`. -/
theorem coord_to_idx_inGrid (dd : DungeonData) (p : IVec2) (hsz : dd.width * dd.height < 2 ^ 24)
    (hp : inGrid dd p) : coord_to_idx p.x p.y dd.width = p.y.toNat * dd.width + p.x.toNat := by
  obtain ⟨h1, h2, h3, h4⟩ := hp
  have hx : p.x.toNat < dd.width := by omega
  have hy : p.y.toNat < dd.height := by omega
  have hle : p.y.toNat * dd.width + p.x.toNat < dd.width * dd.height := by
    calc p.y.toNat * dd.width + p.x.toNat < p.y.toNat * dd.width + dd.width := by omega
      _ = (p.y.toNat + 1) * dd.width := by ring
      _ ≤ dd.height * dd.width := Nat.mul_le_mul_right _ hy
      _ = dd.width * dd.height := Nat.mul_comm _ _
  have hw : dd.width < 2 ^ 24 := by
    have : 0 < dd.height := by omega
    calc dd.width = dd.width * 1 := (Nat.mul_one _).symm
      _ ≤ dd.width * dd.height := Nat.mul_le_mul_left _ this
      _ < 2 ^ 24 := hsz
  have hh : dd.height < 2 ^ 24 := by
    have : 0 < dd.width := by omega
    calc dd.height = 1 * dd.height := (Nat.one_mul _).symm
      _ ≤ dd.width * dd.height := Nat.mul_le_mul_right _ this
      _ < 2 ^ 24 := hsz
  unfold coord_to_idx
  rw [toSizeT_of_nonneg p.x h1 (by omega), toSizeT_of_nonneg p.y h3 (by omega)]
  exact Nat.mod_eq_of_lt (by omega)

/-- Within the grid the row-major index identifies the cell. -/
theorem coord_to_idx_inj (dd : DungeonData) (p q : IVec2) (hsz : dd.width * dd.height < 2 ^ 24)
    (hp : inGrid dd p) (hq : inGrid dd q)
    (h : coord_to_idx p.x p.y dd.width = coord_to_idx q.x q.y dd.width) : p = q := by
  rw [coord_to_idx_inGrid dd p hsz hp, coord_to_idx_inGrid dd q hsz hq] at h
  obtain ⟨h1, h2, h3, h4⟩ := hp
  obtain ⟨h5, h6, h7, h8⟩ := hq
  have hx : p.x.toNat < dd.width := by omega
  have hx2 : q.x.toNat < dd.width := by omega
  have e1 : (p.y.toNat * dd.width + p.x.toNat) / dd.width = p.y.toNat := by
    rw [Nat.add_comm, Nat.add_mul_div_right _ _ (by omega), Nat.div_eq_of_lt hx, Nat.zero_add]
  have e2 : (q.y.toNat * dd.width + q.x.toNat) / dd.width = q.y.toNat := by
    rw [Nat.add_comm, Nat.add_mul_div_right _ _ (by omega), Nat.div_eq_of_lt hx2, Nat.zero_add]
  have hy : p.y.toNat = q.y.toNat := by rw [← e1, ← e2, h]
  have hxx : p.x.toNat = q.x.toNat := by
    rw [hy] at h; omega
  cases p; cases q
  simp only [IVec2.mk.injEq]
  simp only at h1 h3 h5 h7 hy hxx
  omega

theorem checkNeighbour_cell (dd : DungeonData) (dst lim_min lim_max curPos p : IVec2) (s : AStar)
    (h : Cell dd lim_min lim_max p) :
    checkNeighbour dd dst lim_min lim_max curPos p s = pushOpen p (relax dd dst curPos p s) := by
  obtain ⟨⟨h1, h2, h3, h4⟩, hw⟩ := h
  unfold isWall at hw
  unfold checkNeighbour
  rw [if_neg (by omega), if_neg hw]
  rfl

theorem checkNeighbour_not_cell (dd : DungeonData) (dst lim_min lim_max curPos p : IVec2)
    (s : AStar) (h : ¬ Cell dd lim_min lim_max p) :
    checkNeighbour dd dst lim_min lim_max curPos p s = s := by
  unfold checkNeighbour
  by_cases hr : p.x < lim_min.x ∨ p.y < lim_min.y ∨ p.x ≥ lim_max.x ∨ p.y ≥ lim_max.y
  · rw [if_pos hr]
  · rw [if_neg hr]
    have hw : isWall dd p := by
      by_contra hw
      exact h ⟨by unfold inRect; omega, hw⟩
    unfold isWall at hw
    rw [if_pos hw]

theorem cell_inGrid (dd : DungeonData) (lim_min lim_max p : IVec2)
    (hr : rectInGrid dd lim_min lim_max) (h : Cell dd lim_min lim_max p) : inGrid dd p := by
  obtain ⟨⟨h1, h2, h3, h4⟩, _⟩ := h
  obtain ⟨r1, r2, r3, r4⟩ := hr
  unfold inGrid; omega

theorem cell_ne_noPrev (dd : DungeonData) (lim_min lim_max p : IVec2)
    (hr : rectInGrid dd lim_min lim_max) (h : Cell dd lim_min lim_max p) : p ≠ noPrev := by
  intro e
  have := cell_inGrid dd lim_min lim_max p hr h
  rw [e] at this
  unfold inGrid noPrev at this
  simp at this

theorem adjacent_ne (a b : IVec2) (h : adjacent a b) : a ≠ b := by
  intro e
  subst e
  unfold adjacent at h
  omega

theorem exact_lt_max (k : Nat) (h : k < 2 ^ 24) : k * 2 ^ 23 < F32.max := by
  unfold F32.max
  calc k * 2 ^ 23 < 2 ^ 24 * 2 ^ 23 := Nat.mul_lt_mul_of_pos_right h (by positivity)
    _ ≤ (2 ^ 24 - 1) * 2 ^ 127 := by norm_num

/-- The guarded update keeps the table invariant. -/
theorem relax_core (dd : DungeonData) (src dst lim_min lim_max curPos p : IVec2) (s : AStar)
    (kc : Nat) (hsz : dd.width * dd.height < 2 ^ 24) (hr : rectInGrid dd lim_min lim_max)
    (hcur : Cell dd lim_min lim_max curPos)
    (hp : Cell dd lim_min lim_max p) (hadj : adjacent curPos p)
    (hg : s.g (coord_to_idx curPos.x curPos.y dd.width) = kc * 2 ^ 23)
    (hk : kc + 1 ≤ s.closedList.length) (hlen : s.closedList.length < 2 ^ 24)
    (inv : CoreInv dd src lim_min lim_max s) :
    CoreInv dd src lim_min lim_max (relax dd dst curPos p s) ∧
      (relax dd dst curPos p s).g (coord_to_idx curPos.x curPos.y dd.width) = kc * 2 ^ 23 ∧
      (relax dd dst curPos p s).g (coord_to_idx p.x p.y dd.width) ≤ (kc + 1) * 2 ^ 23 ∧
      (relax dd dst curPos p s).openList = s.openList ∧
      (relax dd dst curPos p s).closedList = s.closedList := by
  have hgs : F32.add (s.g (coord_to_idx curPos.x curPos.y dd.width)) (F32.mul F32.one F32.one)
      = (kc + 1) * 2 ^ 23 := by
    rw [hg]; exact add_one_exact kc (by omega)
  have hinj : ∀ q, Cell dd lim_min lim_max q →
      coord_to_idx q.x q.y dd.width = coord_to_idx p.x p.y dd.width → q = p := fun q hq e =>
    coord_to_idx_inj dd q p hsz (cell_inGrid dd lim_min lim_max q hr hq)
      (cell_inGrid dd lim_min lim_max p hr hp) e
  have hcp : coord_to_idx curPos.x curPos.y dd.width ≠ coord_to_idx p.x p.y dd.width := fun e =>
    adjacent_ne curPos p hadj (hinj curPos hcur e)
  unfold relax
  rw [hgs]
  by_cases hlt : (kc + 1) * 2 ^ 23 < s.g (coord_to_idx p.x p.y dd.width)
  · rw [if_pos hlt]
    have hps : coord_to_idx src.x src.y dd.width ≠ coord_to_idx p.x p.y dd.width := by
      intro e
      rw [← e, inv.g_src] at hlt
      omega
    refine ⟨⟨inv.cells_open, inv.cells_closed, inv.nodup_closed, ?_, ?_, ?_, ?_, ?_, ?_⟩,
      ?_, ?_, rfl, rfl⟩
    · show setAt s.prev _ curPos _ = noPrev
      unfold setAt; rw [if_neg hps]; exact inv.prev_src
    · show setAt s.g _ _ _ = 0
      unfold setAt; rw [if_neg hps]; exact inv.g_src
    · intro q hq
      show setAt s.g _ _ _ = F32.max ∨ ∃ k, k ≤ s.closedList.length ∧ setAt s.g _ _ _ = k * 2 ^ 23
      unfold setAt
      by_cases e : coord_to_idx q.x q.y dd.width = coord_to_idx p.x p.y dd.width
      · rw [if_pos e]; exact Or.inr ⟨kc + 1, hk, rfl⟩
      · rw [if_neg e]; exact inv.g_val q hq
    · intro q hq
      show setAt s.g _ _ _ ≠ F32.max
      unfold setAt
      by_cases e : coord_to_idx q.x q.y dd.width = coord_to_idx p.x p.y dd.width
      · rw [if_pos e]; exact Nat.ne_of_lt (exact_lt_max _ (by omega))
      · rw [if_neg e]; exact inv.g_open q hq
    · intro q hq
      show setAt s.prev _ curPos _ ≠ noPrev →
        Cell dd lim_min lim_max (setAt s.prev _ curPos _) ∧ adjacent (setAt s.prev _ curPos _) q ∧
          setAt s.g _ _ (coord_to_idx (setAt s.prev _ curPos _).x (setAt s.prev _ curPos _).y dd.width)
            < setAt s.g _ _ _
      by_cases e : coord_to_idx q.x q.y dd.width = coord_to_idx p.x p.y dd.width
      · have hqp := hinj q hq e
        subst hqp
        intro _
        simp only [setAt, if_true, if_neg hcp]
        refine ⟨hcur, hadj, ?_⟩
        rw [hg]
        omega
      · simp only [setAt, if_neg e]
        intro hne
        obtain ⟨c1, c2, c3⟩ := inv.prev_ok q hq hne
        refine ⟨c1, c2, ?_⟩
        split
        · rename_i he
          rw [he] at c3
          omega
        · exact c3
    · intro q hq hqs
      show setAt s.g _ _ _ ≠ F32.max → setAt s.prev _ curPos _ ≠ noPrev
      unfold setAt
      by_cases e : coord_to_idx q.x q.y dd.width = coord_to_idx p.x p.y dd.width
      · rw [if_pos e, if_pos e]
        intro _
        exact cell_ne_noPrev dd lim_min lim_max curPos hr hcur
      · rw [if_neg e, if_neg e]
        exact inv.prev_some q hq hqs
    · show setAt s.g _ _ _ = kc * 2 ^ 23
      unfold setAt; rw [if_neg hcp]; exact hg
    · show setAt s.g _ _ _ ≤ (kc + 1) * 2 ^ 23
      unfold setAt; rw [if_pos rfl]
  · rw [if_neg hlt]
    exact ⟨inv, hg, by omega, rfl, rfl⟩

theorem checkNeighbour_spec (dd : DungeonData) (src dst lim_min lim_max curPos p : IVec2)
    (s : AStar) (kc : Nat) (hsz : dd.width * dd.height < 2 ^ 24)
    (hr : rectInGrid dd lim_min lim_max) (hcur : Cell dd lim_min lim_max curPos)
    (hadj : adjacent curPos p)
    (hg : s.g (coord_to_idx curPos.x curPos.y dd.width) = kc * 2 ^ 23)
    (hk : kc + 1 ≤ s.closedList.length) (hlen : s.closedList.length < 2 ^ 24)
    (inv : CoreInv dd src lim_min lim_max s) :
    NeighbourStep dd src lim_min lim_max curPos kc s (checkNeighbour dd dst lim_min lim_max curPos p s) ∧
      (Cell dd lim_min lim_max p → p ∈ (checkNeighbour dd dst lim_min lim_max curPos p s).openList) := by
  by_cases hp : Cell dd lim_min lim_max p
  · rw [checkNeighbour_cell dd dst lim_min lim_max curPos p s hp]
    obtain ⟨c, g1, g2, o, cl⟩ :=
      relax_core dd src dst lim_min lim_max curPos p s kc hsz hr hcur hp hadj hg hk hlen inv
    have hfin : (relax dd dst curPos p s).g (coord_to_idx p.x p.y dd.width) ≠ F32.max := by
      have := exact_lt_max (kc + 1) (by omega)
      omega
    unfold pushOpen
    by_cases hm : p ∈ (relax dd dst curPos p s).openList
    · rw [if_pos hm]
      exact ⟨⟨c, g1, cl, fun q hq => o ▸ hq, by rw [o]; omega⟩, fun _ => hm⟩
    · rw [if_neg hm]
      refine ⟨⟨⟨?_, c.cells_closed, c.nodup_closed, c.prev_src, c.g_src, c.g_val, ?_, c.prev_ok,
        c.prev_some⟩, g1, cl, ?_, ?_⟩, fun _ => ?_⟩
      · intro q hq
        rcases List.mem_append.1 hq with h | h
        · exact c.cells_open q h
        · rw [List.mem_singleton.1 h]; exact hp
      · intro q hq
        rcases List.mem_append.1 hq with h | h
        · exact c.g_open q h
        · rw [List.mem_singleton.1 h]; exact hfin
      · intro q hq
        exact List.mem_append.2 (Or.inl (o ▸ hq))
      · show ((relax dd dst curPos p s).openList ++ [p]).length ≤ _
        rw [List.length_append, o]; simp
      · exact List.mem_append.2 (Or.inr (List.mem_singleton.2 rfl))
  · rw [checkNeighbour_not_cell dd dst lim_min lim_max curPos p s hp]
    exact ⟨⟨inv, hg, rfl, fun q hq => hq, by omega⟩, fun h => absurd h hp⟩

/-- The four neighbours of a coordinate are the coordinates adjacent to it. -/
theorem adjacent_cases (c n : IVec2) (h : adjacent c n) :
    n = ⟨c.x + 1, c.y + 0⟩ ∨ n = ⟨c.x - 1, c.y + 0⟩ ∨ n = ⟨c.x + 0, c.y + 1⟩ ∨
      n = ⟨c.x + 0, c.y - 1⟩ := by
  cases c; cases n
  unfold adjacent at h
  simp only [IVec2.mk.injEq]
  simp only at h
  omega

/-- One expansion keeps the table invariant, leaves the closed list alone and
puts every neighbouring cell on the open list. -/
theorem expand_spec (dd : DungeonData) (src dst lim_min lim_max curPos : IVec2)
    (s : AStar) (kc : Nat) (hsz : dd.width * dd.height < 2 ^ 24)
    (hr : rectInGrid dd lim_min lim_max) (hcur : Cell dd lim_min lim_max curPos)
    (hg : s.g (coord_to_idx curPos.x curPos.y dd.width) = kc * 2 ^ 23)
    (hk : kc + 1 ≤ s.closedList.length) (hlen : s.closedList.length < 2 ^ 24)
    (inv : CoreInv dd src lim_min lim_max s) :
    CoreInv dd src lim_min lim_max (expand dd dst lim_min lim_max curPos s) ∧
      (expand dd dst lim_min lim_max curPos s).closedList = s.closedList ∧
      (∀ q ∈ s.openList, q ∈ (expand dd dst lim_min lim_max curPos s).openList) ∧
      (expand dd dst lim_min lim_max curPos s).openList.length ≤ s.openList.length + 4 ∧
      (∀ n, adjacent curPos n → Cell dd lim_min lim_max n →
        n ∈ (expand dd dst lim_min lim_max curPos s).openList) := by
  have a1 : adjacent curPos ⟨curPos.x + 1, curPos.y + 0⟩ := by unfold adjacent; simp
  have a2 : adjacent curPos ⟨curPos.x - 1, curPos.y + 0⟩ := by unfold adjacent; simp
  have a3 : adjacent curPos ⟨curPos.x + 0, curPos.y + 1⟩ := by unfold adjacent; simp
  have a4 : adjacent curPos ⟨curPos.x + 0, curPos.y - 1⟩ := by unfold adjacent; simp
  obtain ⟨n1, m1⟩ := checkNeighbour_spec dd src dst lim_min lim_max curPos _ s kc hsz hr hcur a1
    hg hk hlen inv
  obtain ⟨n2, m2⟩ := checkNeighbour_spec dd src dst lim_min lim_max curPos _ _ kc hsz hr hcur a2
    n1.g_cur (n1.closed_eq ▸ hk) (n1.closed_eq ▸ hlen) n1.core
  obtain ⟨n3, m3⟩ := checkNeighbour_spec dd src dst lim_min lim_max curPos _ _ kc hsz hr hcur a3
    n2.g_cur (n2.closed_eq ▸ n1.closed_eq ▸ hk) (n2.closed_eq ▸ n1.closed_eq ▸ hlen) n2.core
  obtain ⟨n4, m4⟩ := checkNeighbour_spec dd src dst lim_min lim_max curPos _ _ kc hsz hr hcur a4
    n3.g_cur (n3.closed_eq ▸ n2.closed_eq ▸ n1.closed_eq ▸ hk)
    (n3.closed_eq ▸ n2.closed_eq ▸ n1.closed_eq ▸ hlen) n3.core
  refine ⟨n4.core, ?_, ?_, ?_, ?_⟩
  · show (checkNeighbour _ _ _ _ _ _ _).closedList = _
    rw [n4.closed_eq, n3.closed_eq, n2.closed_eq, n1.closed_eq]
  · intro q hq
    exact n4.open_mono q (n3.open_mono q (n2.open_mono q (n1.open_mono q hq)))
  · have h1 := n1.open_len
    have h2 := n2.open_len
    have h3 := n3.open_len
    have h4 := n4.open_len
    show (checkNeighbour _ _ _ _ _ _ _).openList.length ≤ _
    omega
  · intro n hn hc
    rcases adjacent_cases curPos n hn with e | e | e | e
    · subst e; exact n4.open_mono _ (n3.open_mono _ (n2.open_mono _ (m1 hc)))
    · subst e; exact n4.open_mono _ (n3.open_mono _ (m2 hc))
    · subst e; exact n4.open_mono _ (m3 hc)
    · subst e; exact m4 hc

/-! ## The open list -/

theorem bestScan_lt {α : Type} (score : α → Nat) (l : List α) (i b bs : Nat) (h : b < i) :
    bestScan score l i b bs < i + l.length := by
  induction l generalizing i b bs with
  | nil => simpa [bestScan] using h
  | cons a rest ih =>
    unfold bestScan
    split
    · have := ih (i + 1) i (score a) (by omega)
      simp only [List.length_cons]; omega
    · have := ih (i + 1) b bs (by omega)
      simp only [List.length_cons]; omega

theorem bestIndex_lt {α : Type} (score : α → Nat) (first : α) (rest : List α) :
    bestIndex score first rest < (first :: rest).length := by
  have := bestScan_lt score rest 1 0 (score first) (by omega)
  unfold bestIndex
  simp only [List.length_cons]; omega

theorem getD_mem {α : Type} (l : List α) (i : Nat) (d : α) (h : i < l.length) :
    l.getD i d ∈ l := by
  rw [List.getD_eq_getElem l d h]
  exact List.getElem_mem h

theorem pick_mem (dd : DungeonData) (s : AStar) (first : IVec2) (rest : List IVec2) :
    pick dd s first rest ∈ first :: rest :=
  getD_mem _ _ _ (bestIndex_lt _ first rest)

theorem mem_eraseIdx_of_ne {α : Type} (l : List α) (i : Nat) (d x : α) (hx : x ∈ l)
    (hne : x ≠ l.getD i d) : x ∈ l.eraseIdx i := by
  induction l generalizing i with
  | nil => cases hx
  | cons a rest ih =>
    cases i with
    | zero =>
      simp only [List.getD_cons_zero] at hne
      rcases List.mem_cons.1 hx with h | h
      · exact absurd h hne
      · simpa using h
    | succ i =>
      simp only [List.getD_cons_succ] at hne
      rcases List.mem_cons.1 hx with h | h
      · simp [h]
      · simp only [List.eraseIdx_cons_succ]
        exact List.mem_cons_of_mem _ (ih i h hne)

theorem mem_of_mem_eraseIdx {α : Type} (l : List α) (i : Nat) (x : α) (hx : x ∈ l.eraseIdx i) :
    x ∈ l := by
  induction l generalizing i with
  | nil => simp at hx
  | cons a rest ih =>
    cases i with
    | zero => exact List.mem_cons_of_mem _ (by simpa using hx)
    | succ i =>
      simp only [List.eraseIdx_cons_succ] at hx
      rcases List.mem_cons.1 hx with h | h
      · simp [h]
      · exact List.mem_cons_of_mem _ (ih i h)

theorem unpick_mem (dd : DungeonData) (s : AStar) (first : IVec2) (rest : List IVec2) (x : IVec2)
    (hx : x ∈ first :: rest) (hne : x ≠ pick dd s first rest) : x ∈ unpick dd s first rest :=
  mem_eraseIdx_of_ne _ _ first x hx hne

theorem unpick_sub (dd : DungeonData) (s : AStar) (first : IVec2) (rest : List IVec2) (x : IVec2)
    (hx : x ∈ unpick dd s first rest) : x ∈ first :: rest :=
  mem_of_mem_eraseIdx _ _ x hx

theorem unpick_length (dd : DungeonData) (s : AStar) (first : IVec2) (rest : List IVec2) :
    (unpick dd s first rest).length = rest.length := by
  unfold unpick
  rw [List.length_eraseIdx, if_pos (bestIndex_lt _ first rest)]
  simp

/-- A duplicate-free list of coordinates of the rectangle is no longer than
the rectangle has cells. -/
theorem length_le_rectArea (lim_min lim_max : IVec2) (l : List IVec2) (hn : l.Nodup)
    (hl : ∀ p ∈ l, inRect lim_min lim_max p) : l.length ≤ rectArea lim_min lim_max := by
  have hsub : l.toFinset ⊆
      (Finset.Ico lim_min.x lim_max.x ×ˢ Finset.Ico lim_min.y lim_max.y).image
        (fun q => (⟨q.1, q.2⟩ : IVec2)) := by
    intro p hp
    obtain ⟨h1, h2, h3, h4⟩ := hl p (List.mem_toFinset.1 hp)
    refine Finset.mem_image.2 ⟨(p.x, p.y), ?_, rfl⟩
    simp only [Finset.mem_product, Finset.mem_Ico]
    exact ⟨⟨h1, h2⟩, h3, h4⟩
  calc l.length = l.toFinset.card := (List.toFinset_card_of_nodup hn).symm
    _ ≤ _ := Finset.card_le_card hsub
    _ ≤ (Finset.Ico lim_min.x lim_max.x ×ˢ Finset.Ico lim_min.y lim_max.y).card :=
      Finset.card_image_le
    _ = rectArea lim_min lim_max := by
      rw [Finset.card_product, Int.card_Ico, Int.card_Ico]; rfl

theorem rectArea_le (dd : DungeonData) (lim_min lim_max : IVec2)
    (hr : rectInGrid dd lim_min lim_max) : rectArea lim_min lim_max ≤ dd.width * dd.height := by
  obtain ⟨r1, r2, r3, r4⟩ := hr
  unfold rectArea
  exact Nat.mul_le_mul (by omega) (by omega)

/-! ## The search loop -/

/-- Proof rule for the loop of `find_path_a_star`: an invariant `P` kept by
both kinds of pass, with a measure `mu` that every pass lowers, gives a result
with the property `Q` established at the two exits. -/
theorem aStarLoop_rule (dd : DungeonData) (dst lim_min lim_max : IVec2)
    (P : AStar → Prop) (Q : List IVec2 → Prop) (mu : AStar → Nat)
    (h_empty : ∀ s, P s → s.openList = [] → Q [])
    (h_ret : ∀ s first rest, P s → s.openList = first :: rest → pick dd s first rest = dst →
      ∃ path, reconstruct_path (dd.width * dd.height + 1) s.prev dst dd.width = some path ∧ Q path)
    (h_skip : ∀ s first rest, P s → s.openList = first :: rest → pick dd s first rest ≠ dst →
      pick dd s first rest ∈ s.closedList →
      P { s with openList := unpick dd s first rest } ∧
        mu { s with openList := unpick dd s first rest } < mu s)
    (h_exp : ∀ s first rest, P s → s.openList = first :: rest → pick dd s first rest ≠ dst →
      pick dd s first rest ∉ s.closedList →
      P (expand dd dst lim_min lim_max (pick dd s first rest)
          { s with openList := unpick dd s first rest,
                   closedList := s.closedList ++ [pick dd s first rest] }) ∧
        mu (expand dd dst lim_min lim_max (pick dd s first rest)
          { s with openList := unpick dd s first rest,
                   closedList := s.closedList ++ [pick dd s first rest] }) < mu s) :
    ∀ fuel s, P s → mu s < fuel →
      ∃ path, aStarLoop dd dst lim_min lim_max fuel s = some path ∧ Q path := by
  intro fuel
  induction fuel with
  | zero => intro s _ h; omega
  | succ fuel ih =>
    intro s hP hmu
    unfold aStarLoop
    cases ho : s.openList with
    | nil => exact ⟨[], rfl, h_empty s hP ho⟩
    | cons first rest =>
      show ∃ path, (if pick dd s first rest = dst then
          reconstruct_path (dd.width * dd.height + 1) s.prev dst dd.width
        else if pick dd s first rest ∈ s.closedList then
          aStarLoop dd dst lim_min lim_max fuel { s with openList := unpick dd s first rest }
        else aStarLoop dd dst lim_min lim_max fuel
          (expand dd dst lim_min lim_max (pick dd s first rest)
            { s with openList := unpick dd s first rest,
                     closedList := s.closedList ++ [pick dd s first rest] })) = some path ∧ Q path
      by_cases h1 : pick dd s first rest = dst
      · rw [if_pos h1]
        exact h_ret s first rest hP ho h1
      · rw [if_neg h1]
        by_cases h2 : pick dd s first rest ∈ s.closedList
        · rw [if_pos h2]
          obtain ⟨hP2, hm2⟩ := h_skip s first rest hP ho h1 h2
          exact ih _ hP2 (by omega)
        · rw [if_neg h2]
          obtain ⟨hP2, hm2⟩ := h_exp s first rest hP ho h1 h2
          exact ih _ hP2 (by omega)

/-- Following predecessors from a cell with an exact step count ends at the
source and yields a route in the rectangle. -/
theorem reconstruct_loop_spec (dd : DungeonData) (src dst lim_min lim_max : IVec2) (s : AStar)
    (hlen : s.closedList.length < 2 ^ 24) (inv : CoreInv dd src lim_min lim_max s) :
    ∀ (fuel : Nat) (curPos : IVec2) (res : List IVec2) (k : Nat),
      Cell dd lim_min lim_max curPos → s.g (coord_to_idx curPos.x curPos.y dd.width) = k * 2 ^ 23 →
      k ≤ s.closedList.length → k < fuel →
      res.head? = some curPos → res.getLast? = some dst → res.Chain' adjacent →
      (∀ p ∈ res, Cell dd lim_min lim_max p) →
      ∃ path, reconstruct_path_loop s.prev dd.width fuel curPos res = some path ∧
        RouteIn dd lim_min lim_max src dst path ∧ path.length ≤ res.length + k := by
  intro fuel
  induction fuel with
  | zero => intro _ _ k _ _ _ h; omega
  | succ fuel ih =>
    intro curPos res k hc hg hk hf hhead hlast hchain hcells
    unfold reconstruct_path_loop
    by_cases hp : s.prev (coord_to_idx curPos.x curPos.y dd.width) ≠ noPrev
    · rw [if_pos hp]
      obtain ⟨c1, c2, c3⟩ := inv.prev_ok curPos hc hp
      have hkm := exact_lt_max k (by omega)
      rcases inv.g_val _ c1 with e | ⟨k2, hk2, e⟩
      · rw [e, hg] at c3; omega
      · rw [e, hg] at c3
        have hrec : ∀ path : List IVec2, path.length ≤
            (s.prev (coord_to_idx curPos.x curPos.y dd.width) :: res).length + k2 →
            path.length ≤ res.length + k := by
          intro path hpl
          simp only [List.length_cons] at hpl
          omega
        suffices hsuff : ∃ path, reconstruct_path_loop s.prev dd.width fuel
            (s.prev (coord_to_idx curPos.x curPos.y dd.width))
            (s.prev (coord_to_idx curPos.x curPos.y dd.width) :: res) = some path ∧
            RouteIn dd lim_min lim_max src dst path ∧ path.length ≤
              (s.prev (coord_to_idx curPos.x curPos.y dd.width) :: res).length + k2 by
          obtain ⟨path, q1, q2, q3⟩ := hsuff
          exact ⟨path, q1, q2, hrec path q3⟩
        refine ih _ _ k2 c1 e hk2 (by omega) rfl ?_ ?_ ?_
        · cases res with
          | nil => simp at hhead
          | cons a t => rw [List.getLast?_cons_cons]; exact hlast
        · cases res with
          | nil => simp at hhead
          | cons a t =>
            simp only [List.head?_cons, Option.some.injEq] at hhead
            rw [List.chain'_cons]
            exact ⟨hhead ▸ c2, hchain⟩
        · intro q hq
          rcases List.mem_cons.1 hq with h | h
          · rw [h]; exact c1
          · exact hcells q h
    · rw [if_neg hp]
      have hsrc : curPos = src := by
        by_contra hne
        have hkm := exact_lt_max k (by omega)
        exact hp (inv.prev_some curPos hc hne (by rw [hg]; omega))
      exact ⟨res, rfl, ⟨⟨hsrc ▸ hhead, hlast, hchain, fun q hq => (hcells q hq).2⟩,
        fun q hq => (hcells q hq).1⟩, Nat.le_add_right _ _⟩

theorem core_closed_len (dd : DungeonData) (src lim_min lim_max : IVec2) (s : AStar)
    (inv : CoreInv dd src lim_min lim_max s) :
    s.closedList.length ≤ rectArea lim_min lim_max :=
  length_le_rectArea lim_min lim_max _ inv.nodup_closed fun p hp => (inv.cells_closed p hp).1

/-- A route that starts in a set of cells closed under walking stays in it. -/
theorem route_stays (dd : DungeonData) (lim_min lim_max : IVec2) (S : IVec2 → Prop)
    (hS : ∀ c, S c → ∀ n, adjacent c n → Cell dd lim_min lim_max n → S n) :
    ∀ (r : List IVec2) (a : IVec2), r.head? = some a → S a → r.Chain' adjacent →
      (∀ p ∈ r, Cell dd lim_min lim_max p) → ∀ p ∈ r, S p := by
  intro r
  induction r with
  | nil => intro _ _ _ _ _ p hp; cases hp
  | cons b t ih =>
    intro a hhead ha hchain hcells p hp
    simp only [List.head?_cons, Option.some.injEq] at hhead
    subst hhead
    rcases List.mem_cons.1 hp with h | h
    · rw [h]; exact ha
    · cases t with
      | nil => cases h
      | cons c t2 =>
        rw [List.chain'_cons] at hchain
        exact ih c rfl (hS b ha c hchain.1 (hcells c (by simp))) hchain.2
          (fun q hq => hcells q (List.mem_cons_of_mem _ hq)) p h

/-- The state on entry to the loop satisfies the invariant. -/
theorem aStarInit_inv (dd : DungeonData) (src dst lim_min lim_max : IVec2)
    (hsz : dd.width * dd.height < 2 ^ 24) (hr : rectInGrid dd lim_min lim_max)
    (hsrc : Cell dd lim_min lim_max src) :
    LoopInv dd src dst lim_min lim_max (aStarInit dd src dst) := by
  refine ⟨⟨?_, ?_, List.nodup_nil, rfl, ?_, ?_, ?_, ?_, ?_⟩, Or.inl (by simp [aStarInit]), ?_, ?_⟩
  · intro p hp
    simp only [aStarInit, List.mem_singleton] at hp
    rw [hp]; exact hsrc
  · intro p hp; simp [aStarInit] at hp
  · simp [aStarInit, setAt]
  · intro p _
    simp only [aStarInit, setAt]
    split
    · exact Or.inr ⟨0, Nat.zero_le _, by simp⟩
    · exact Or.inl rfl
  · intro p hp
    simp only [aStarInit, List.mem_singleton] at hp
    subst hp
    simp [aStarInit, setAt, F32.max]
  · intro p _ h
    exact absurd rfl h
  · intro p hp hne hg _
    simp only [aStarInit, setAt] at hg
    split at hg
    · rename_i e
      exact hne (coord_to_idx_inj dd p src hsz (cell_inGrid dd lim_min lim_max p hr hp)
        (cell_inGrid dd lim_min lim_max src hr hsrc) e)
    · exact hg rfl
  · intro c hc; simp [aStarInit] at hc
  · simp [aStarInit]

theorem loopInv_empty (dd : DungeonData) (src dst lim_min lim_max : IVec2) (s : AStar)
    (inv : LoopInv dd src dst lim_min lim_max s) (ho : s.openList = []) :
    SearchResult dd src dst lim_min lim_max [] := by
  refine ⟨fun h => absurd rfl h, fun _ r hroute => ?_⟩
  obtain ⟨⟨hhead, hlast, hchain, hwall⟩, hrect⟩ := hroute
  have hsrc : src ∈ s.closedList := by
    rcases inv.src_seen with h | h
    · rw [ho] at h; cases h
    · exact h
  have hstay := route_stays dd lim_min lim_max (fun c => c ∈ s.closedList)
    (fun c hc n hadj hn => by
      rcases inv.nbr_seen c hc n hadj hn with h | h
      · rw [ho] at h; cases h
      · exact h)
    r src hhead hsrc hchain (fun p hp => ⟨hrect p hp, hwall p hp⟩)
  exact inv.dst_open (hstay dst (List.mem_of_getLast?_eq_some hlast))

theorem loopInv_ret (dd : DungeonData) (src dst lim_min lim_max : IVec2) (s : AStar)
    (first : IVec2) (rest : List IVec2) (hsz : dd.width * dd.height < 2 ^ 24)
    (hr : rectInGrid dd lim_min lim_max)
    (inv : LoopInv dd src dst lim_min lim_max s) (ho : s.openList = first :: rest)
    (hpick : pick dd s first rest = dst) :
    ∃ path, reconstruct_path (dd.width * dd.height + 1) s.prev dst dd.width = some path ∧
      SearchResult dd src dst lim_min lim_max path := by
  have hmem : dst ∈ s.openList := by rw [ho, ← hpick]; exact pick_mem dd s first rest
  have hcell := inv.core.cells_open dst hmem
  have hlen := core_closed_len dd src lim_min lim_max s inv.core
  have hle := rectArea_le dd lim_min lim_max hr
  rcases inv.core.g_val dst hcell with e | ⟨k, hk, e⟩
  · exact absurd e (inv.core.g_open dst hmem)
  · obtain ⟨path, h1, h2, _⟩ := reconstruct_loop_spec dd src dst lim_min lim_max s (by omega) inv.core
      (dd.width * dd.height + 1) dst [dst] k hcell e hk (by omega) rfl rfl (by simp)
      (fun p hp => by rw [List.mem_singleton.1 hp]; exact hcell)
    refine ⟨path, h1, fun _ => h2, fun he => ?_⟩
    rw [he] at h2
    have := h2.1.1
    simp at this

theorem loopInv_skip (dd : DungeonData) (src dst lim_min lim_max : IVec2) (s : AStar)
    (first : IVec2) (rest : List IVec2)
    (inv : LoopInv dd src dst lim_min lim_max s) (ho : s.openList = first :: rest)
    (hclosed : pick dd s first rest ∈ s.closedList) :
    LoopInv dd src dst lim_min lim_max { s with openList := unpick dd s first rest } ∧
      loopMeasure lim_min lim_max { s with openList := unpick dd s first rest }
        < loopMeasure lim_min lim_max s := by
  have hsub : ∀ x ∈ unpick dd s first rest, x ∈ s.openList := fun x hx =>
    ho ▸ unpick_sub dd s first rest x hx
  have hkeep : ∀ x, x ∈ s.openList ∨ x ∈ s.closedList →
      x ∈ unpick dd s first rest ∨ x ∈ s.closedList := by
    intro x hx
    rcases hx with h | h
    · by_cases e : x = pick dd s first rest
      · exact Or.inr (e ▸ hclosed)
      · exact Or.inl (unpick_mem dd s first rest x (ho ▸ h) e)
    · exact Or.inr h
  refine ⟨⟨⟨fun p hp => inv.core.cells_open p (hsub p hp), inv.core.cells_closed,
    inv.core.nodup_closed, inv.core.prev_src, inv.core.g_src, inv.core.g_val,
    fun p hp => inv.core.g_open p (hsub p hp), inv.core.prev_ok, inv.core.prev_some⟩,
    hkeep src inv.src_seen, fun c hc n hadj hn => hkeep n (inv.nbr_seen c hc n hadj hn),
    inv.dst_open⟩, ?_⟩
  unfold loopMeasure
  show (unpick dd s first rest).length + _ < s.openList.length + _
  rw [unpick_length, ho]
  simp

theorem loopInv_expand (dd : DungeonData) (src dst lim_min lim_max : IVec2) (s : AStar)
    (first : IVec2) (rest : List IVec2) (hsz : dd.width * dd.height < 2 ^ 24)
    (hr : rectInGrid dd lim_min lim_max)
    (inv : LoopInv dd src dst lim_min lim_max s) (ho : s.openList = first :: rest)
    (hdst : pick dd s first rest ≠ dst) (hclosed : pick dd s first rest ∉ s.closedList) :
    LoopInv dd src dst lim_min lim_max
        (expand dd dst lim_min lim_max (pick dd s first rest)
          { s with openList := unpick dd s first rest,
                   closedList := s.closedList ++ [pick dd s first rest] }) ∧
      loopMeasure lim_min lim_max
        (expand dd dst lim_min lim_max (pick dd s first rest)
          { s with openList := unpick dd s first rest,
                   closedList := s.closedList ++ [pick dd s first rest] })
        < loopMeasure lim_min lim_max s := by
  have hmem : pick dd s first rest ∈ s.openList := by rw [ho]; exact pick_mem dd s first rest
  have hcell := inv.core.cells_open _ hmem
  have hsub : ∀ x ∈ unpick dd s first rest, x ∈ s.openList := fun x hx =>
    ho ▸ unpick_sub dd s first rest x hx
  have hcore1 : CoreInv dd src lim_min lim_max
      { s with openList := unpick dd s first rest,
               closedList := s.closedList ++ [pick dd s first rest] } := by
    refine ⟨fun p hp => inv.core.cells_open p (hsub p hp), ?_, ?_, inv.core.prev_src,
      inv.core.g_src, ?_, fun p hp => inv.core.g_open p (hsub p hp), inv.core.prev_ok,
      inv.core.prev_some⟩
    · intro p hp
      rcases List.mem_append.1 hp with h | h
      · exact inv.core.cells_closed p h
      · rw [List.mem_singleton.1 h]; exact hcell
    · exact List.Nodup.append inv.core.nodup_closed (List.nodup_singleton _)
        (by
          intro x hx hx2
          rw [List.mem_singleton.1 hx2] at hx
          exact hclosed hx)
    · intro p hp
      rcases inv.core.g_val p hp with e | ⟨k, hk, e⟩
      · exact Or.inl e
      · exact Or.inr ⟨k, by rw [List.length_append]; omega, e⟩
  have hlen1 := core_closed_len dd src lim_min lim_max _ hcore1
  have hle := rectArea_le dd lim_min lim_max hr
  have hlen1' : s.closedList.length + 1 ≤ rectArea lim_min lim_max := by
    simpa [List.length_append] using hlen1
  rcases inv.core.g_val _ hcell with e | ⟨kc, hkc, e⟩
  · exact absurd e (inv.core.g_open _ hmem)
  · obtain ⟨c, hcl, hmono, hol, hnb⟩ := expand_spec dd src dst lim_min lim_max
      (pick dd s first rest)
      { s with openList := unpick dd s first rest,
               closedList := s.closedList ++ [pick dd s first rest] }
      kc hsz hr hcell e (by simp only [List.length_append, List.length_singleton]; omega)
      (by simp only [List.length_append, List.length_singleton]; omega) hcore1
    have hkeep : ∀ x, x ∈ s.openList ∨ x ∈ s.closedList →
        x ∈ (expand dd dst lim_min lim_max (pick dd s first rest)
          { s with openList := unpick dd s first rest,
                   closedList := s.closedList ++ [pick dd s first rest] }).openList ∨
        x ∈ (expand dd dst lim_min lim_max (pick dd s first rest)
          { s with openList := unpick dd s first rest,
                   closedList := s.closedList ++ [pick dd s first rest] }).closedList := by
      intro x hx
      rw [hcl]
      rcases hx with h | h
      · by_cases e2 : x = pick dd s first rest
        · exact Or.inr (List.mem_append.2 (Or.inr (List.mem_singleton.2 e2)))
        · exact Or.inl (hmono x (unpick_mem dd s first rest x (ho ▸ h) e2))
      · exact Or.inr (List.mem_append.2 (Or.inl h))
    refine ⟨⟨c, hkeep src inv.src_seen, ?_, ?_⟩, ?_⟩
    · intro c2 hc2 n hadj hn
      rw [hcl] at hc2
      rcases List.mem_append.1 hc2 with h | h
      · exact hkeep n (inv.nbr_seen c2 h n hadj hn)
      · rw [List.mem_singleton.1 h] at hadj
        exact Or.inl (hnb n hadj hn)
    · rw [hcl]
      intro h
      rcases List.mem_append.1 h with h | h
      · exact inv.dst_open h
      · exact hdst (List.mem_singleton.1 h).symm
    · unfold loopMeasure
      rw [hcl, ho]
      have h3 : (unpick dd s first rest).length = rest.length := unpick_length dd s first rest
      have h4 : (expand dd dst lim_min lim_max (pick dd s first rest)
          { s with openList := unpick dd s first rest,
                   closedList := s.closedList ++ [pick dd s first rest] }).openList.length
          ≤ rest.length + 4 := h3 ▸ hol
      simp only [List.length_append, List.length_singleton, List.length_cons]
      omega

/-- Specification of `find_path_a_star` for a rectangle inside the grid and a
walkable source inside the rectangle: the search returns, a non-empty result
is a route in the rectangle from source to target, and the result is empty
only when no such route exists. -/
theorem find_path_a_star_spec (dd : DungeonData) (src dst lim_min lim_max : IVec2)
    (hsz : dd.width * dd.height < 2 ^ 24) (hr : rectInGrid dd lim_min lim_max)
    (hsrc : Cell dd lim_min lim_max src) :
    ∃ path, find_path_a_star dd src dst lim_min lim_max = some path ∧
      SearchResult dd src dst lim_min lim_max path := by
  have hg := cell_inGrid dd lim_min lim_max src hr hsrc
  have hb : ¬ (src.x < 0 ∨ src.y < 0 ∨ src.x ≥ (dd.width : Int) ∨ src.y ≥ (dd.height : Int)) := by
    unfold inGrid at hg; omega
  unfold find_path_a_star
  rw [if_neg hb]
  refine aStarLoop_rule dd dst lim_min lim_max (LoopInv dd src dst lim_min lim_max)
    (SearchResult dd src dst lim_min lim_max) (loopMeasure lim_min lim_max)
    (fun s inv ho => loopInv_empty dd src dst lim_min lim_max s inv ho)
    (fun s first rest inv ho hp => loopInv_ret dd src dst lim_min lim_max s first rest hsz hr inv ho hp)
    (fun s first rest inv ho _ hc => loopInv_skip dd src dst lim_min lim_max s first rest inv ho hc)
    (fun s first rest inv ho hd hc =>
      loopInv_expand dd src dst lim_min lim_max s first rest hsz hr inv ho hd hc)
    _ _ (aStarInit_inv dd src dst lim_min lim_max hsz hr hsrc) ?_
  unfold loopMeasure
  simp only [aStarInit, List.length_singleton, List.length_nil]
  omega

/-! ## Accuracy of the float scores -/

/-- Rounding a value below `2 ^ 45` stays at or below every multiple of
`2 ^ 21` above the value: such multiples are `float` values. -/
theorem round_le_grid (a z : Nat) (ha : a < 2 ^ 45) (hz : 2 ^ 21 ∣ z) (h : a ≤ z) :
    F32.round a ≤ z := by
  have hs : F32.dropBits a a ≤ 21 :=
    dropBits_le _ _ 21 (Nat.div_lt_of_lt_mul (by norm_num; omega))
  have hdvd : 2 ^ F32.dropBits a a ∣ z := Dvd.dvd.trans (pow_dvd_pow 2 hs) hz
  have hpos : 0 < 2 ^ F32.dropBits a a := by positivity
  obtain ⟨c, hc⟩ := hdvd
  have hdm := Nat.div_add_mod a (2 ^ F32.dropBits a a)
  have hml := Nat.mod_lt a hpos
  unfold F32.round
  simp only
  split
  · -- rounded up: the remainder is positive, so `a` is below the next multiple
    rename_i hup
    have hr : 0 < a % 2 ^ F32.dropBits a a := by
      rcases hup with h1 | h1 <;> omega
    have hlt : a / 2 ^ F32.dropBits a a < c := by
      by_contra hge
      have : c ≤ a / 2 ^ F32.dropBits a a := by omega
      have := Nat.mul_le_mul_left (2 ^ F32.dropBits a a) this
      omega
    calc (a / 2 ^ F32.dropBits a a + 1) * 2 ^ F32.dropBits a a
        ≤ c * 2 ^ F32.dropBits a a := Nat.mul_le_mul_right _ hlt
      _ = z := by rw [hc, Nat.mul_comm]
  · have : a / 2 ^ F32.dropBits a a * 2 ^ F32.dropBits a a ≤ a := Nat.div_mul_le_self _ _
    omega

/-- Rounding a value below `2 ^ 45` stays at or above every multiple of
`2 ^ 21` below the value. -/
theorem grid_le_round (b z : Nat) (hb : b < 2 ^ 45) (hz : 2 ^ 21 ∣ z) (h : z ≤ b) :
    z ≤ F32.round b := by
  have hs : F32.dropBits b b ≤ 21 :=
    dropBits_le _ _ 21 (Nat.div_lt_of_lt_mul (by norm_num; omega))
  have hdvd : 2 ^ F32.dropBits b b ∣ z := Dvd.dvd.trans (pow_dvd_pow 2 hs) hz
  have hpos : 0 < 2 ^ F32.dropBits b b := by positivity
  obtain ⟨c, hc⟩ := hdvd
  have hle : c ≤ b / 2 ^ F32.dropBits b b := by
    rw [Nat.le_div_iff_mul_le hpos, Nat.mul_comm, ← hc]; exact h
  have hq : z ≤ b / 2 ^ F32.dropBits b b * 2 ^ F32.dropBits b b := by
    rw [hc, Nat.mul_comm]; exact Nat.mul_le_mul_right _ hle
  unfold F32.round
  simp only
  split
  · have : b / 2 ^ F32.dropBits b b * 2 ^ F32.dropBits b b
        ≤ (b / 2 ^ F32.dropBits b b + 1) * 2 ^ F32.dropBits b b :=
      Nat.mul_le_mul_right _ (Nat.le_succ _)
    omega
  · exact hq

/-- Two sums a quarter of a unit apart round to different values, in order. -/
theorem round_lt_of_gap (a b : Nat) (hb : b < 2 ^ 45) (h : a + 2 ^ 22 ≤ b) :
    F32.round a < F32.round b := by
  have h1 := round_le_grid a ((a + 2 ^ 21 - 1) / 2 ^ 21 * 2 ^ 21) (by omega)
    (Dvd.intro_left _ rfl) (by omega)
  have h2 := grid_le_round b ((a + 2 ^ 21 - 1) / 2 ^ 21 * 2 ^ 21 + 2 ^ 21) hb
    (Dvd.dvd.add (Dvd.intro_left _ rfl) (dvd_refl _)) (by omega)
  omega

/-- Rounding moves a value by less than `2 ^ t` when `t` low bits suffice. -/
theorem round_near (n t : Nat) (h : n / 2 ^ t < 2 ^ 24) :
    F32.round n ≤ n + 2 ^ t ∧ n ≤ F32.round n + 2 ^ t := by
  have hs : F32.dropBits n n ≤ t := dropBits_le _ _ t h
  have hpos : 0 < 2 ^ F32.dropBits n n := by positivity
  have hle : 2 ^ F32.dropBits n n ≤ 2 ^ t := Nat.pow_le_pow_right (by norm_num) hs
  have hdm := Nat.div_add_mod n (2 ^ F32.dropBits n n)
  have hml := Nat.mod_lt n hpos
  have hc : 2 ^ F32.dropBits n n * (n / 2 ^ F32.dropBits n n)
      = n / 2 ^ F32.dropBits n n * 2 ^ F32.dropBits n n := Nat.mul_comm _ _
  unfold F32.round
  simp only
  split
  · rw [Nat.add_mul, Nat.one_mul]; omega
  · omega

theorem bitLen_spec (fuel n : Nat) (h : n ≤ fuel) : n < 2 ^ F32.bitLen fuel n := by
  induction fuel generalizing n with
  | zero =>
    have : n = 0 := by omega
    subst this; simp [F32.bitLen]
  | succ fuel ih =>
    unfold F32.bitLen
    split
    · rename_i h0; rw [h0]; simp
    · have := ih (n / 2) (by omega)
      rw [pow_succ]; omega

theorem isqrtAux_spec (b n r : Nat) (h1 : r * r ≤ n) (h2 : n < (r + 2 ^ b) * (r + 2 ^ b)) :
    F32.isqrtAux b n r * F32.isqrtAux b n r ≤ n ∧
      n < (F32.isqrtAux b n r + 1) * (F32.isqrtAux b n r + 1) := by
  induction b generalizing r with
  | zero => simpa [F32.isqrtAux] using ⟨h1, h2⟩
  | succ b ih =>
    unfold F32.isqrtAux
    split
    · rename_i hle
      exact ih _ hle (by rw [Nat.add_assoc, ← two_mul, ← pow_succ']; exact h2)
    · rename_i hgt
      exact ih _ h1 (by omega)

/-- The bitwise root is the floor of the square root. -/
theorem isqrt_spec (n : Nat) :
    F32.isqrt n * F32.isqrt n ≤ n ∧ n < (F32.isqrt n + 1) * (F32.isqrt n + 1) := by
  unfold F32.isqrt
  refine isqrtAux_spec _ n 0 (Nat.zero_le _) ?_
  have h := bitLen_spec n n (Nat.le_refl _)
  have h1 : 1 ≤ 2 ^ F32.bitLen n n := Nat.one_le_two_pow
  calc n < 2 ^ F32.bitLen n n := h
    _ = 2 ^ F32.bitLen n n * 1 := (Nat.mul_one _).symm
    _ ≤ 2 ^ F32.bitLen n n * 2 ^ F32.bitLen n n := Nat.mul_le_mul_left _ h1
    _ = (0 + 2 ^ F32.bitLen n n) * (0 + 2 ^ F32.bitLen n n) := by rw [Nat.zero_add]

/-- For differences below `2 ^ 11` the squares and their sum are exact: the
heuristic is the rounded root of the exact squared distance. -/
theorem heuristic_eq (lhs rhs : IVec2) (hx : (lhs.x - rhs.x).natAbs < 2 ^ 11)
    (hy : (lhs.y - rhs.y).natAbs < 2 ^ 11) :
    heuristic lhs rhs =
      F32.sqrt (((lhs.x - rhs.x).natAbs * (lhs.x - rhs.x).natAbs +
        (lhs.y - rhs.y).natAbs * (lhs.y - rhs.y).natAbs) * 2 ^ 23) := by
  have sq_lt : ∀ k : Nat, k < 2 ^ 11 → k * k ≤ 2047 * 2047 := fun k hk =>
    Nat.mul_le_mul (by omega) (by omega)
  have sq_exact : ∀ k : Nat, k < 2 ^ 11 → sqr (F32.ofNat k) = (k * k) * 2 ^ 23 := by
    intro k hk
    have hkk := sq_lt k hk
    unfold sqr F32.ofNat F32.mul
    rw [round_exact k (by omega)]
    have : k * 2 ^ 23 * (k * 2 ^ 23) / 2 ^ 23 = (k * k) * 2 ^ 23 := by
      rw [show k * 2 ^ 23 * (k * 2 ^ 23) = (k * k * 2 ^ 23) * 2 ^ 23 by ring]
      exact Nat.mul_div_cancel _ (by positivity)
    rw [this]
    exact round_exact _ (by omega)
  unfold heuristic
  rw [sq_exact _ hx, sq_exact _ hy]
  unfold F32.add
  rw [← Nat.add_mul]
  have h1 := sq_lt _ hx
  have h2 := sq_lt _ hy
  rw [round_exact _ (by omega)]

/-- From the floor of the scaled root and a rounding within `2 ^ 14` to the
distance between the float root and the real root. -/
theorem sqrt_bound_core (A t h : Nat) (s : ℝ) (hs0 : 0 ≤ s) (hss : s * s = A)
    (h1 : t * t ≤ A * 2 ^ 50) (h2 : A * 2 ^ 50 < (t + 1) * (t + 1))
    (up : 8 * h ≤ 2 * t + 1 + 2 ^ 14) (dn : 2 * t ≤ 8 * h + 7 + 2 ^ 14) :
    (h : ℝ) ≤ 2 ^ 23 * s + 2 ^ 12 ∧ 2 ^ 23 * s ≤ (h : ℝ) + 2 ^ 12 := by
  have h1r : (t : ℝ) * t ≤ (A : ℝ) * 2 ^ 50 := by exact_mod_cast h1
  have h2r : (A : ℝ) * 2 ^ 50 < ((t : ℝ) + 1) * ((t : ℝ) + 1) := by exact_mod_cast h2
  have ht0 : (0 : ℝ) ≤ (t : ℝ) := Nat.cast_nonneg _
  have hlo : (t : ℝ) ≤ 2 ^ 25 * s := by
    by_contra hc
    push_neg at hc
    have hp : (0 : ℝ) ≤ 2 ^ 25 * s := by positivity
    have := mul_lt_mul'' hc hc hp hp
    nlinarith
  have hhi : 2 ^ 25 * s < (t : ℝ) + 1 := by
    by_contra hc
    push_neg at hc
    have hp : (0 : ℝ) ≤ (t : ℝ) + 1 := by positivity
    have := mul_le_mul hc hc hp (by positivity)
    nlinarith
  have upr : (8 : ℝ) * (h : ℝ) ≤ 2 * (t : ℝ) + 1 + 2 ^ 14 := by exact_mod_cast up
  have dnr : 2 * (t : ℝ) ≤ (8 : ℝ) * (h : ℝ) + 7 + 2 ^ 14 := by exact_mod_cast dn
  constructor
  · nlinarith
  · nlinarith

/-- The rounded root of an exact whole number below `2 ^ 23` is within
`2 ^ 12` units of `2 ^ (-23)` of the real root. -/
theorem sqrt_approx (A : Nat) (hA : A < 2 ^ 23) :
    ((F32.sqrt (A * 2 ^ 23) : Nat) : ℝ) ≤ 2 ^ 23 * Real.sqrt A + 2 ^ 12 ∧
      2 ^ 23 * Real.sqrt A ≤ ((F32.sqrt (A * 2 ^ 23) : Nat) : ℝ) + 2 ^ 12 := by
  have hn : A * 2 ^ 23 * 2 ^ 27 = A * 2 ^ 50 := by ring
  obtain ⟨h1, h2⟩ := isqrt_spec (A * 2 ^ 23 * 2 ^ 27)
  have e : F32.sqrt (A * 2 ^ 23) = F32.round
    (2 * F32.isqrt (A * 2 ^ 23 * 2 ^ 27) +
      (if F32.isqrt (A * 2 ^ 23 * 2 ^ 27) * F32.isqrt (A * 2 ^ 23 * 2 ^ 27) = A * 2 ^ 23 * 2 ^ 27
        then 0 else 1)) / 2 ^ 3 := rfl
  rw [e]
  rw [hn] at h1 h2 ⊢
  generalize F32.isqrt (A * 2 ^ 50) = t at h1 h2 ⊢
  have hb : A * 2 ^ 50 < 2 ^ 23 * 2 ^ 50 := Nat.mul_lt_mul_of_pos_right hA (by positivity)
  have ht : t < 2 ^ 37 := by
    by_contra hge
    have hge' : 2 ^ 37 ≤ t := by omega
    have := Nat.mul_le_mul hge' hge'
    omega
  have hst : (if t * t = A * 2 ^ 50 then 0 else 1) ≤ 1 := by split <;> omega
  obtain ⟨r1, r2⟩ := round_near (2 * t + (if t * t = A * 2 ^ 50 then 0 else 1)) 14
    (Nat.div_lt_of_lt_mul (by omega))
  generalize F32.round (2 * t + (if t * t = A * 2 ^ 50 then 0 else 1)) = R at r1 r2 ⊢
  generalize (if t * t = A * 2 ^ 50 then 0 else 1) = st at hst r1 r2
  exact sqrt_bound_core A t (R / 2 ^ 3) (Real.sqrt A) (Real.sqrt_nonneg _)
    (Real.mul_self_sqrt (Nat.cast_nonneg A)) h1 h2 (by omega) (by omega)

/-- Triangle inequality of the Euclidean distance against a walk of steps. -/
theorem sqrt_triangle (a b c d : ℝ) :
    Real.sqrt (a * a + b * b) ≤ Real.sqrt (c * c + d * d) + |a - c| + |b - d| := by
  have hcd : 0 ≤ c * c + d * d := add_nonneg (mul_self_nonneg c) (mul_self_nonneg d)
  have hS0 : 0 ≤ Real.sqrt (c * c + d * d) := Real.sqrt_nonneg _
  have hSS : Real.sqrt (c * c + d * d) * Real.sqrt (c * c + d * d) = c * c + d * d :=
    Real.mul_self_sqrt hcd
  have hc : |c| ≤ Real.sqrt (c * c + d * d) :=
    Real.abs_le_sqrt (by nlinarith [mul_self_nonneg d])
  have hd : |d| ≤ Real.sqrt (c * c + d * d) :=
    Real.abs_le_sqrt (by nlinarith [mul_self_nonneg c])
  have hc1 := abs_le.1 hc
  have hd1 := abs_le.1 hd
  have hu0 := abs_nonneg (a - c)
  have hv0 := abs_nonneg (b - d)
  have hu1 := le_abs_self (a - c)
  have hu2 := neg_abs_le (a - c)
  have hv1 := le_abs_self (b - d)
  have hv2 := neg_abs_le (b - d)
  have hu3 : |a - c| * |a - c| = (a - c) * (a - c) := abs_mul_abs_self _
  have hv3 : |b - d| * |b - d| = (b - d) * (b - d) := abs_mul_abs_self _
  rw [Real.sqrt_le_left (by linarith)]
  nlinarith [mul_nonneg (sub_nonneg.2 hc1.2) (show 0 ≤ |a - c| + (a - c) by linarith),
    mul_nonneg (show 0 ≤ Real.sqrt (c * c + d * d) + c by linarith)
      (show 0 ≤ |a - c| - (a - c) by linarith),
    mul_nonneg (sub_nonneg.2 hd1.2) (show 0 ≤ |b - d| + (b - d) by linarith),
    mul_nonneg (show 0 ≤ Real.sqrt (c * c + d * d) + d by linarith)
      (show 0 ≤ |b - d| - (b - d) by linarith),
    mul_nonneg hu0 hv0, mul_nonneg hS0 hu0, mul_nonneg hS0 hv0]

theorem heuristic_self (p : IVec2) : heuristic p p = 0 := by
  rw [heuristic_eq p p (by simp) (by simp)]
  simp only [sub_self, Int.natAbs_zero, Nat.mul_zero, Nat.add_zero, Nat.zero_mul]
  decide

/-- Consistency of the float heuristic up to `2 ^ 13` units: the heuristic of
`p` exceeds the heuristic of `n` by at most the steps between them. -/
theorem heuristic_step_bound (dd : DungeonData) (p n dst : IVec2) (hs : SmallGrid dd)
    (hp : inGrid dd p) (hn : inGrid dd n) (hd : inGrid dd dst) :
    heuristic p dst ≤
      heuristic n dst + ((p.x - n.x).natAbs + (p.y - n.y).natAbs) * 2 ^ 23 + 2 ^ 13 := by
  obtain ⟨p1, p2, p3, p4⟩ := hp
  obtain ⟨n1, n2, n3, n4⟩ := hn
  obtain ⟨d1, d2, d3, d4⟩ := hd
  obtain ⟨s1, s2⟩ := hs
  have bx : (p.x - dst.x).natAbs ≤ 1024 := by omega
  have by' : (p.y - dst.y).natAbs ≤ 1024 := by omega
  have cx : (n.x - dst.x).natAbs ≤ 1024 := by omega
  have cy : (n.y - dst.y).natAbs ≤ 1024 := by omega
  rw [heuristic_eq p dst (by omega) (by omega), heuristic_eq n dst (by omega) (by omega)]
  have hA : (p.x - dst.x).natAbs * (p.x - dst.x).natAbs +
      (p.y - dst.y).natAbs * (p.y - dst.y).natAbs < 2 ^ 23 := by
    have := Nat.mul_le_mul bx bx
    have := Nat.mul_le_mul by' by'
    omega
  have hB : (n.x - dst.x).natAbs * (n.x - dst.x).natAbs +
      (n.y - dst.y).natAbs * (n.y - dst.y).natAbs < 2 ^ 23 := by
    have := Nat.mul_le_mul cx cx
    have := Nat.mul_le_mul cy cy
    omega
  obtain ⟨a1, _⟩ := sqrt_approx _ hA
  obtain ⟨_, b2⟩ := sqrt_approx _ hB
  have tri := sqrt_triangle ((p.x - dst.x : Int) : ℝ) ((p.y - dst.y : Int) : ℝ)
    ((n.x - dst.x : Int) : ℝ) ((n.y - dst.y : Int) : ℝ)
  have cA : (((p.x - dst.x).natAbs * (p.x - dst.x).natAbs +
      (p.y - dst.y).natAbs * (p.y - dst.y).natAbs : Nat) : ℝ) =
      ((p.x - dst.x : Int) : ℝ) * ((p.x - dst.x : Int) : ℝ) +
        ((p.y - dst.y : Int) : ℝ) * ((p.y - dst.y : Int) : ℝ) := by
    push_cast
    rw [Nat.cast_natAbs, Nat.cast_natAbs]
    push_cast
    rw [abs_mul_abs_self, abs_mul_abs_self]
  have cB : (((n.x - dst.x).natAbs * (n.x - dst.x).natAbs +
      (n.y - dst.y).natAbs * (n.y - dst.y).natAbs : Nat) : ℝ) =
      ((n.x - dst.x : Int) : ℝ) * ((n.x - dst.x : Int) : ℝ) +
        ((n.y - dst.y : Int) : ℝ) * ((n.y - dst.y : Int) : ℝ) := by
    push_cast
    rw [Nat.cast_natAbs, Nat.cast_natAbs]
    push_cast
    rw [abs_mul_abs_self, abs_mul_abs_self]
  have cM : ((((p.x - n.x).natAbs + (p.y - n.y).natAbs : Nat)) : ℝ) =
      |((p.x - dst.x : Int) : ℝ) - ((n.x - dst.x : Int) : ℝ)| +
        |((p.y - dst.y : Int) : ℝ) - ((n.y - dst.y : Int) : ℝ)| := by
    push_cast
    rw [Nat.cast_natAbs, Nat.cast_natAbs]
    push_cast
    congr 1 <;> congr 1 <;> ring
  rw [cA] at a1
  rw [cB] at b2
  have key : ((F32.sqrt (((p.x - dst.x).natAbs * (p.x - dst.x).natAbs +
      (p.y - dst.y).natAbs * (p.y - dst.y).natAbs) * 2 ^ 23) : Nat) : ℝ) ≤
      ((F32.sqrt (((n.x - dst.x).natAbs * (n.x - dst.x).natAbs +
        (n.y - dst.y).natAbs * (n.y - dst.y).natAbs) * 2 ^ 23) : Nat) : ℝ) +
      ((((p.x - n.x).natAbs + (p.y - n.y).natAbs : Nat)) : ℝ) * 2 ^ 23 + 2 ^ 13 := by
    rw [cM]
    nlinarith
  exact_mod_cast key

/-- A value lies below the rounding of a sum a quarter of a unit above it. -/
theorem lt_round_of_gap (a b : Nat) (hb : b < 2 ^ 45) (h : a + 2 ^ 22 ≤ b) : a < F32.round b := by
  have h2 := grid_le_round b ((a + 2 ^ 21 - 1) / 2 ^ 21 * 2 ^ 21 + 2 ^ 21) hb
    (Dvd.dvd.add (Dvd.intro_left _ rfl) (dvd_refl _)) (by omega)
  omega

theorem bestScan_min {α : Type} (score : α → Nat) (d : α) (rest pre : List α) (b bs : Nat)
    (hb : b < pre.length) (hbs : bs = score (pre.getD b d)) (hmin : ∀ x ∈ pre, bs ≤ score x) :
    ∀ x ∈ pre ++ rest,
      score ((pre ++ rest).getD (bestScan score rest pre.length b bs) d) ≤ score x := by
  induction rest generalizing pre b bs with
  | nil =>
    intro x hx
    simp only [bestScan, List.append_nil] at hx ⊢
    rw [← hbs]; exact hmin x hx
  | cons a rest ih =>
    intro x hx
    unfold bestScan
    have e : pre ++ a :: rest = (pre ++ [a]) ++ rest := by simp
    have hl : (pre ++ [a]).length = pre.length + 1 := by simp
    split
    · rename_i hlt
      have := ih (pre ++ [a]) pre.length (score a) (by rw [hl]; omega)
        (by rw [List.getD_append_right _ _ _ _ (Nat.le_refl _)]; simp)
        (by
          intro y hy
          rcases List.mem_append.1 hy with h | h
          · exact Nat.le_trans (Nat.le_of_lt hlt) (hmin y h)
          · rw [List.mem_singleton.1 h])
      rw [e, ← hl]
      exact this x (e ▸ hx)
    · rename_i hge
      have := ih (pre ++ [a]) b bs (by rw [hl]; omega)
        (by rw [List.getD_append _ _ _ _ hb]; exact hbs)
        (by
          intro y hy
          rcases List.mem_append.1 hy with h | h
          · exact hmin y h
          · rw [List.mem_singleton.1 h]; omega)
      rw [e, ← hl]
      exact this x (e ▸ hx)

/-- The selected entry has the least score of the open list. -/
theorem pick_min (dd : DungeonData) (s : AStar) (first : IVec2) (rest : List IVec2) :
    ∀ x ∈ first :: rest,
      s.f (coord_to_idx (pick dd s first rest).x (pick dd s first rest).y dd.width) ≤
        s.f (coord_to_idx x.x x.y dd.width) := by
  intro x hx
  exact bestScan_min (fun p => s.f (coord_to_idx p.x p.y dd.width)) first rest [first] 0
    (s.f (coord_to_idx first.x first.y dd.width)) (by simp) (by simp) (by simp) x hx

/-- A walk of 4-directional steps is at least as long as the distance in steps
between its ends. -/
theorem chain_manhattan (r : List IVec2) (a n : IVec2) (hh : r.head? = some a)
    (hl : r.getLast? = some n) (hc : r.Chain' adjacent) :
    (a.x - n.x).natAbs + (a.y - n.y).natAbs + 1 ≤ r.length := by
  induction r generalizing a with
  | nil => simp at hh
  | cons b t ih =>
    simp only [List.head?_cons, Option.some.injEq] at hh
    subst hh
    cases t with
    | nil =>
      simp only [List.getLast?_singleton, Option.some.injEq] at hl
      subst hl
      simp
    | cons c t2 =>
      rw [List.getLast?_cons_cons] at hl
      rw [List.chain'_cons] at hc
      have := ih c rfl hl hc.2
      have hadj := hc.1
      unfold adjacent at hadj
      simp only [List.length_cons] at this ⊢
      omega

/-- A route extended by one step to a neighbouring cell is a route. -/
theorem route_snoc (dd : DungeonData) (lim_min lim_max src c p : IVec2) (r : List IVec2)
    (hr : RouteIn dd lim_min lim_max src c r) (hadj : adjacent c p)
    (hp : Cell dd lim_min lim_max p) : RouteIn dd lim_min lim_max src p (r ++ [p]) := by
  obtain ⟨⟨h1, h2, h3, h4⟩, h5⟩ := hr
  refine ⟨⟨?_, by simp, ?_, ?_⟩, ?_⟩
  · cases r with
    | nil => simp at h1
    | cons a t => simpa using h1
  · refine List.Chain'.append h3 (List.chain'_singleton p) ?_
    intro x hx y hy
    rw [h2] at hx
    simp only [Option.mem_def, Option.some.injEq] at hx
    simp only [List.head?_cons, Option.mem_def, Option.some.injEq] at hy
    rw [← hx, ← hy]; exact hadj
  · intro q hq
    rcases List.mem_append.1 hq with h | h
    · exact h4 q h
    · rw [List.mem_singleton.1 h]; exact hp.2
  · intro q hq
    rcases List.mem_append.1 hq with h | h
    · exact h5 q h
    · rw [List.mem_singleton.1 h]; exact hp.1

/-! ## Optimality of the grid search: the invariant is kept -/

theorem pushOpen_g (p : IVec2) (s : AStar) : (pushOpen p s).g = s.g := by
  unfold pushOpen; split <;> rfl

theorem pushOpen_f (p : IVec2) (s : AStar) : (pushOpen p s).f = s.f := by
  unfold pushOpen; split <;> rfl

theorem pushOpen_closed (p : IVec2) (s : AStar) : (pushOpen p s).closedList = s.closedList := by
  unfold pushOpen; split <;> rfl

/-- The guarded update keeps the optimality invariant; a closed cell is never
updated, its count being that of a shortest route. -/
theorem relax_opt (dd : DungeonData) (src dst lim_min lim_max curPos p : IVec2) (s : AStar)
    (kc : Nat) (hsz : dd.width * dd.height < 2 ^ 24) (hr : rectInGrid dd lim_min lim_max)
    (hcur : Cell dd lim_min lim_max curPos)
    (hp : Cell dd lim_min lim_max p) (hadj : adjacent curPos p)
    (hg : s.g (coord_to_idx curPos.x curPos.y dd.width) = kc * 2 ^ 23)
    (hk : kc + 1 ≤ s.closedList.length) (hlen : s.closedList.length < 2 ^ 24)
    (inv : CoreInv dd src lim_min lim_max s)
    (ot : OptTables dd src dst lim_min lim_max s)
    (hn : ∀ c ∈ s.closedList, c ≠ curPos → NbrG dd lim_min lim_max s c) :
    OptStep dd src dst lim_min lim_max curPos s (relax dd dst curPos p s) := by
  have hgs : F32.add (s.g (coord_to_idx curPos.x curPos.y dd.width)) (F32.mul F32.one F32.one)
      = (kc + 1) * 2 ^ 23 := by
    rw [hg]; exact add_one_exact kc (by omega)
  have hinj : ∀ q, Cell dd lim_min lim_max q →
      coord_to_idx q.x q.y dd.width = coord_to_idx p.x p.y dd.width → q = p := fun q hq e =>
    coord_to_idx_inj dd q p hsz (cell_inGrid dd lim_min lim_max q hr hq)
      (cell_inGrid dd lim_min lim_max p hr hp) e
  unfold relax
  rw [hgs]
  by_cases hlt : (kc + 1) * 2 ^ 23 < s.g (coord_to_idx p.x p.y dd.width)
  · rw [if_pos hlt]
    have hcmax : s.g (coord_to_idx curPos.x curPos.y dd.width) ≠ F32.max := by
      rw [hg]; exact Nat.ne_of_lt (exact_lt_max kc (by omega))
    obtain ⟨rc, hrc, hrl⟩ := ot.walk curPos hcur hcmax
    have hroute := route_snoc dd lim_min lim_max src curPos p rc hrc hadj hp
    have hrlen : (rc ++ [p]).length * 2 ^ 23 = (kc + 1) * 2 ^ 23 + 2 ^ 23 := by
      rw [List.length_append, List.length_singleton, Nat.add_mul, ← hrl, hg]; ring
    have hpc : p ∉ s.closedList := by
      intro hc
      have := ot.opt p hc _ hroute
      omega
    have hmono : ∀ i, setAt s.g (coord_to_idx p.x p.y dd.width) ((kc + 1) * 2 ^ 23) i ≤ s.g i := by
      intro i
      unfold setAt
      split
      · rename_i e; rw [e]; omega
      · exact Nat.le_refl _
    have hcl : ∀ c ∈ s.closedList,
        setAt s.g (coord_to_idx p.x p.y dd.width) ((kc + 1) * 2 ^ 23)
          (coord_to_idx c.x c.y dd.width) = s.g (coord_to_idx c.x c.y dd.width) := by
      intro c hc
      unfold setAt
      rw [if_neg]
      intro e
      exact hpc (hinj c (inv.cells_closed c hc) e ▸ hc)
    refine ⟨⟨?_, ?_, ?_⟩, ?_, hmono⟩
    · intro q hq
      show setAt s.g _ _ _ ≠ F32.max → ∃ r, RouteIn dd lim_min lim_max src q r ∧
        setAt s.g _ _ _ + 2 ^ 23 = r.length * 2 ^ 23
      by_cases e : coord_to_idx q.x q.y dd.width = coord_to_idx p.x p.y dd.width
      · have hqp := hinj q hq e
        subst hqp
        intro _
        refine ⟨rc ++ [q], hroute, ?_⟩
        simp only [setAt, if_true]
        omega
      · simp only [setAt, if_neg e]
        exact ot.walk q hq
    · intro c hc r hroute2
      show setAt s.g _ _ _ + 2 ^ 23 ≤ _
      rw [hcl c hc]
      exact ot.opt c hc r hroute2
    · intro q hq
      show setAt s.g _ _ _ ≠ F32.max →
        setAt s.f _ _ _ = F32.add (setAt s.g _ _ _) (heuristic q dst) ∨
          (q = src ∧ setAt s.f _ _ _ = heuristic src dst)
      by_cases e : coord_to_idx q.x q.y dd.width = coord_to_idx p.x p.y dd.width
      · have hqp := hinj q hq e
        subst hqp
        intro _
        refine Or.inl ?_
        simp [setAt]
      · simp only [setAt, if_neg e]
        exact ot.f_val q hq
    · intro c hc hne n hadj2 hcn
      show setAt s.g _ _ _ ≤ setAt s.g _ _ _ + 2 ^ 23
      rw [hcl c hc]
      exact Nat.le_trans (hmono _) (hn c hc hne n hadj2 hcn)
  · rw [if_neg hlt]
    exact ⟨ot, hn, fun i => Nat.le_refl _⟩

theorem checkNeighbour_opt (dd : DungeonData) (src dst lim_min lim_max curPos p : IVec2)
    (s : AStar) (kc : Nat) (hsz : dd.width * dd.height < 2 ^ 24)
    (hr : rectInGrid dd lim_min lim_max) (hcur : Cell dd lim_min lim_max curPos)
    (hadj : adjacent curPos p)
    (hg : s.g (coord_to_idx curPos.x curPos.y dd.width) = kc * 2 ^ 23)
    (hk : kc + 1 ≤ s.closedList.length) (hlen : s.closedList.length < 2 ^ 24)
    (inv : CoreInv dd src lim_min lim_max s)
    (ot : OptTables dd src dst lim_min lim_max s)
    (hn : ∀ c ∈ s.closedList, c ≠ curPos → NbrG dd lim_min lim_max s c) :
    OptStep dd src dst lim_min lim_max curPos s (checkNeighbour dd dst lim_min lim_max curPos p s) ∧
      (Cell dd lim_min lim_max p →
        (checkNeighbour dd dst lim_min lim_max curPos p s).g (coord_to_idx p.x p.y dd.width)
          ≤ (kc + 1) * 2 ^ 23) := by
  by_cases hp : Cell dd lim_min lim_max p
  · rw [checkNeighbour_cell dd dst lim_min lim_max curPos p s hp]
    obtain ⟨_, _, g2, _, _⟩ :=
      relax_core dd src dst lim_min lim_max curPos p s kc hsz hr hcur hp hadj hg hk hlen inv
    obtain ⟨t1, t2, t3⟩ :=
      relax_opt dd src dst lim_min lim_max curPos p s kc hsz hr hcur hp hadj hg hk hlen inv ot hn
    refine ⟨⟨⟨?_, ?_, ?_⟩, ?_, ?_⟩, fun _ => ?_⟩
    · intro q hq; rw [pushOpen_g]; exact t1.walk q hq
    · intro c hc; rw [pushOpen_g]; rw [pushOpen_closed] at hc; exact t1.opt c hc
    · intro q hq; rw [pushOpen_g, pushOpen_f]; exact t1.f_val q hq
    · intro c hc hne n hadj2 hcn
      rw [pushOpen_closed] at hc
      rw [pushOpen_g]
      exact t2 c hc hne n hadj2 hcn
    · intro i; rw [pushOpen_g]; exact t3 i
    · rw [pushOpen_g]; exact g2
  · rw [checkNeighbour_not_cell dd dst lim_min lim_max curPos p s hp]
    exact ⟨⟨ot, hn, fun i => Nat.le_refl _⟩, fun h => absurd h hp⟩

/-- One expansion keeps the optimality invariant and relaxes every neighbour. -/
theorem expand_opt (dd : DungeonData) (src dst lim_min lim_max curPos : IVec2)
    (s : AStar) (kc : Nat) (hsz : dd.width * dd.height < 2 ^ 24)
    (hr : rectInGrid dd lim_min lim_max) (hcur : Cell dd lim_min lim_max curPos)
    (hg : s.g (coord_to_idx curPos.x curPos.y dd.width) = kc * 2 ^ 23)
    (hk : kc + 1 ≤ s.closedList.length) (hlen : s.closedList.length < 2 ^ 24)
    (inv : CoreInv dd src lim_min lim_max s)
    (ot : OptTables dd src dst lim_min lim_max s)
    (hn : ∀ c ∈ s.closedList, c ≠ curPos → NbrG dd lim_min lim_max s c) :
    OptTables dd src dst lim_min lim_max (expand dd dst lim_min lim_max curPos s) ∧
      ∀ c ∈ (expand dd dst lim_min lim_max curPos s).closedList,
        NbrG dd lim_min lim_max (expand dd dst lim_min lim_max curPos s) c := by
  unfold expand
  have a1 : adjacent curPos ⟨curPos.x + 1, curPos.y + 0⟩ := by unfold adjacent; simp
  have a2 : adjacent curPos ⟨curPos.x - 1, curPos.y + 0⟩ := by unfold adjacent; simp
  have a3 : adjacent curPos ⟨curPos.x + 0, curPos.y + 1⟩ := by unfold adjacent; simp
  have a4 : adjacent curPos ⟨curPos.x + 0, curPos.y - 1⟩ := by unfold adjacent; simp
  obtain ⟨n1, -⟩ := checkNeighbour_spec dd src dst lim_min lim_max curPos _ s kc hsz hr hcur a1
    hg hk hlen inv
  obtain ⟨o1, m1⟩ := checkNeighbour_opt dd src dst lim_min lim_max curPos _ s kc hsz hr hcur a1
    hg hk hlen inv ot hn
  generalize checkNeighbour dd dst lim_min lim_max curPos ⟨curPos.x + 1, curPos.y + 0⟩ s = t1
    at n1 o1 m1 ⊢
  have hk1 : kc + 1 ≤ t1.closedList.length := n1.closed_eq ▸ hk
  have hl1 : t1.closedList.length < 2 ^ 24 := n1.closed_eq ▸ hlen
  obtain ⟨n2, -⟩ := checkNeighbour_spec dd src dst lim_min lim_max curPos _ t1 kc hsz hr hcur a2
    n1.g_cur hk1 hl1 n1.core
  obtain ⟨o2, m2⟩ := checkNeighbour_opt dd src dst lim_min lim_max curPos _ t1 kc hsz hr hcur a2
    n1.g_cur hk1 hl1 n1.core o1.tables o1.nbr
  generalize checkNeighbour dd dst lim_min lim_max curPos ⟨curPos.x - 1, curPos.y + 0⟩ t1 = t2
    at n2 o2 m2 ⊢
  have hk2 : kc + 1 ≤ t2.closedList.length := n2.closed_eq ▸ hk1
  have hl2 : t2.closedList.length < 2 ^ 24 := n2.closed_eq ▸ hl1
  obtain ⟨n3, -⟩ := checkNeighbour_spec dd src dst lim_min lim_max curPos _ t2 kc hsz hr hcur a3
    n2.g_cur hk2 hl2 n2.core
  obtain ⟨o3, m3⟩ := checkNeighbour_opt dd src dst lim_min lim_max curPos _ t2 kc hsz hr hcur a3
    n2.g_cur hk2 hl2 n2.core o2.tables o2.nbr
  generalize checkNeighbour dd dst lim_min lim_max curPos ⟨curPos.x + 0, curPos.y + 1⟩ t2 = t3
    at n3 o3 m3 ⊢
  have hk3 : kc + 1 ≤ t3.closedList.length := n3.closed_eq ▸ hk2
  have hl3 : t3.closedList.length < 2 ^ 24 := n3.closed_eq ▸ hl2
  obtain ⟨n4, -⟩ := checkNeighbour_spec dd src dst lim_min lim_max curPos _ t3 kc hsz hr hcur a4
    n3.g_cur hk3 hl3 n3.core
  obtain ⟨o4, m4⟩ := checkNeighbour_opt dd src dst lim_min lim_max curPos _ t3 kc hsz hr hcur a4
    n3.g_cur hk3 hl3 n3.core o3.tables o3.nbr
  generalize checkNeighbour dd dst lim_min lim_max curPos ⟨curPos.x + 0, curPos.y - 1⟩ t3 = t4
    at n4 o4 m4 ⊢
  refine ⟨o4.tables, ?_⟩
  intro c hc
  by_cases hne : c = curPos
  · rw [hne]
    intro n hadj hcn
    show t4.g _ ≤ t4.g _ + 2 ^ 23
    rw [n4.g_cur, show kc * 2 ^ 23 + 2 ^ 23 = (kc + 1) * 2 ^ 23 by ring]
    rcases adjacent_cases curPos n hadj with e | e | e | e
    · rw [e] at hcn ⊢
      exact Nat.le_trans (o4.mono _) (Nat.le_trans (o3.mono _) (Nat.le_trans (o2.mono _) (m1 hcn)))
    · rw [e] at hcn ⊢
      exact Nat.le_trans (o4.mono _) (Nat.le_trans (o3.mono _) (m2 hcn))
    · rw [e] at hcn ⊢
      exact Nat.le_trans (o4.mono _) (m3 hcn)
    · rw [e] at hcn ⊢
      exact m4 hcn
  · exact o4.nbr c hc hne

/-- Along a route to a cell that is not closed there is an open cell whose
step count is at most its position on the route. -/
theorem frontier (dd : DungeonData) (src dst lim_min lim_max : IVec2) (s : AStar) (n : IVec2)
    (inv : OptInv dd src dst lim_min lim_max s) (hn : n ∉ s.closedList) :
    ∀ (r : List IVec2) (a : IVec2) (j : Nat), r.head? = some a → r.getLast? = some n →
      r.Chain' adjacent → (∀ x ∈ r, Cell dd lim_min lim_max x) →
      (a ∈ s.openList ∨ a ∈ s.closedList) → s.g (coord_to_idx a.x a.y dd.width) ≤ j * 2 ^ 23 →
      ∃ p i, p ∈ s.openList ∧ s.g (coord_to_idx p.x p.y dd.width) ≤ i * 2 ^ 23 ∧
        i + ((p.x - n.x).natAbs + (p.y - n.y).natAbs) + 1 ≤ j + r.length := by
  intro r
  induction r with
  | nil => intro a j hh; simp at hh
  | cons b t ih =>
    intro a j hh hl hc hcells hseen hg
    have hba : b = a := by simpa using hh
    subst hba
    by_cases ha : b ∈ s.openList
    · have := chain_manhattan (b :: t) b n rfl hl hc
      exact ⟨b, j, ha, hg, by omega⟩
    · have hbc : b ∈ s.closedList := by
        rcases hseen with h | h
        · exact absurd h ha
        · exact h
      cases t with
      | nil =>
        simp only [List.getLast?_singleton, Option.some.injEq] at hl
        exact absurd (hl ▸ hbc) hn
      | cons c t2 =>
        rw [List.getLast?_cons_cons] at hl
        rw [List.chain'_cons] at hc
        have hcc := hcells c (by simp)
        have h1 := inv.nbr b hbc c hc.1 hcc
        obtain ⟨p, i, q1, q2, q3⟩ := ih c (j + 1) rfl hl hc.2
          (fun x hx => hcells x (List.mem_cons_of_mem _ hx))
          (inv.loop.nbr_seen b hbc c hc.1 hcc) (by rw [Nat.add_mul]; omega)
        refine ⟨p, i, q1, q2, ?_⟩
        simp only [List.length_cons] at q3 ⊢
        omega

/-- The selected cell, when it is not closed, has the step count of a shortest
route: an open cell on a shorter route would have a smaller score `f`. -/
theorem pop_opt (dd : DungeonData) (src dst lim_min lim_max : IVec2) (s : AStar)
    (first : IVec2) (rest : List IVec2) (hs : SmallGrid dd) (hr : rectInGrid dd lim_min lim_max)
    (hd : inGrid dd dst) (inv : OptInv dd src dst lim_min lim_max s)
    (ho : s.openList = first :: rest) (hn : pick dd s first rest ∉ s.closedList) :
    ∀ r, RouteIn dd lim_min lim_max src (pick dd s first rest) r →
      s.g (coord_to_idx (pick dd s first rest).x (pick dd s first rest).y dd.width) + 2 ^ 23
        ≤ r.length * 2 ^ 23 := by
  intro r hroute
  have hmem : pick dd s first rest ∈ s.openList := by rw [ho]; exact pick_mem dd s first rest
  have hmin := pick_min dd s first rest
  generalize pick dd s first rest = n at hn hroute hmem hmin ⊢
  have hcell := inv.loop.core.cells_open n hmem
  have hfin := inv.loop.core.g_open n hmem
  have hlen := core_closed_len dd src lim_min lim_max s inv.loop.core
  have hle := rectArea_le dd lim_min lim_max hr
  have hwh : dd.width * dd.height ≤ 1024 * 1024 := Nat.mul_le_mul hs.1 hs.2
  rcases inv.loop.core.g_val n hcell with e | ⟨k, hk, e⟩
  · exact absurd e hfin
  · by_contra hcon
    rw [e] at hcon
    obtain ⟨⟨rh, rl, rc, rw'⟩, rr⟩ := hroute
    obtain ⟨p, i, hpo, hpg, hpi⟩ := frontier dd src dst lim_min lim_max s n inv hn r src 0 rh rl rc
      (fun x hx => ⟨rr x hx, rw' x hx⟩) inv.loop.src_seen (by rw [inv.loop.core.g_src]; omega)
    have hpcell := inv.loop.core.cells_open p hpo
    have hpfin := inv.loop.core.g_open p hpo
    have gp := cell_inGrid dd lim_min lim_max p hr hpcell
    have gn := cell_inGrid dd lim_min lim_max n hr hcell
    have hb1 := heuristic_step_bound dd p n dst hs gp gn hd
    have hb2 := heuristic_step_bound dd n dst dst hs gn hd hd
    rw [heuristic_self] at hb2
    have hman : (n.x - dst.x).natAbs + (n.y - dst.y).natAbs ≤ 2048 := by
      obtain ⟨a1, a2, a3, a4⟩ := gn
      obtain ⟨b1, b2, b3, b4⟩ := hd
      obtain ⟨c1, c2⟩ := hs
      omega
    have hfp := hmin p (ho ▸ hpo)
    have hfn : s.f (coord_to_idx n.x n.y dd.width) =
        F32.round (k * 2 ^ 23 + heuristic n dst) := by
      rcases inv.tables.f_val n hcell hfin with h | ⟨h1, _⟩
      · rw [h, e]; rfl
      · exfalso
        rw [h1, inv.loop.core.g_src] at e
        have : 0 < r.length := by
          cases r with
          | nil => simp at rh
          | cons a t => simp
        omega
    have hgap : s.g (coord_to_idx p.x p.y dd.width) + heuristic p dst + 2 ^ 22
        ≤ k * 2 ^ 23 + heuristic n dst := by
      have h1 : (i + ((p.x - n.x).natAbs + (p.y - n.y).natAbs) + 1) * 2 ^ 23
          ≤ r.length * 2 ^ 23 := Nat.mul_le_mul_right _ (by omega)
      have h2 : (i + ((p.x - n.x).natAbs + (p.y - n.y).natAbs) + 1) * 2 ^ 23 =
          i * 2 ^ 23 + ((p.x - n.x).natAbs + (p.y - n.y).natAbs) * 2 ^ 23 + 2 ^ 23 := by ring
      omega
    have hbnd : k * 2 ^ 23 + heuristic n dst < 2 ^ 45 := by
      have h1 : k * 2 ^ 23 ≤ (1024 * 1024) * 2 ^ 23 := Nat.mul_le_mul_right _ (by omega)
      have h2 : ((n.x - dst.x).natAbs + (n.y - dst.y).natAbs) * 2 ^ 23 ≤ 2048 * 2 ^ 23 :=
        Nat.mul_le_mul_right _ hman
      omega
    rcases inv.tables.f_val p hpcell hpfin with h | ⟨h1, h2⟩
    · have := round_lt_of_gap _ _ hbnd hgap
      rw [h, hfn] at hfp
      unfold F32.add at hfp
      omega
    · have hg0 : s.g (coord_to_idx p.x p.y dd.width) = 0 := by rw [h1]; exact inv.loop.core.g_src
      rw [hg0, h1] at hgap
      have := lt_round_of_gap _ _ hbnd (by omega : heuristic src dst + 2 ^ 22 ≤ _)
      rw [h2, hfn] at hfp
      omega

/-- Closing the selected cell keeps the table invariant. -/
theorem coreInv_close (dd : DungeonData) (src dst lim_min lim_max : IVec2) (s : AStar)
    (first : IVec2) (rest : List IVec2)
    (inv : LoopInv dd src dst lim_min lim_max s) (ho : s.openList = first :: rest)
    (hclosed : pick dd s first rest ∉ s.closedList) :
    CoreInv dd src lim_min lim_max
      { s with openList := unpick dd s first rest,
               closedList := s.closedList ++ [pick dd s first rest] } := by
  have hmem : pick dd s first rest ∈ s.openList := by rw [ho]; exact pick_mem dd s first rest
  have hcell := inv.core.cells_open _ hmem
  have hsub : ∀ x ∈ unpick dd s first rest, x ∈ s.openList := fun x hx =>
    ho ▸ unpick_sub dd s first rest x hx
  refine ⟨fun p hp => inv.core.cells_open p (hsub p hp), ?_, ?_, inv.core.prev_src,
    inv.core.g_src, ?_, fun p hp => inv.core.g_open p (hsub p hp), inv.core.prev_ok,
    inv.core.prev_some⟩
  · intro p hp
    rcases List.mem_append.1 hp with h | h
    · exact inv.core.cells_closed p h
    · rw [List.mem_singleton.1 h]; exact hcell
  · exact List.Nodup.append inv.core.nodup_closed (List.nodup_singleton _)
      (by
        intro x hx hx2
        rw [List.mem_singleton.1 hx2] at hx
        exact hclosed hx)
  · intro p hp
    rcases inv.core.g_val p hp with e | ⟨k, hk, e⟩
    · exact Or.inl e
    · exact Or.inr ⟨k, by rw [List.length_append]; omega, e⟩

theorem optInv_ret (dd : DungeonData) (src dst lim_min lim_max : IVec2) (s : AStar)
    (first : IVec2) (rest : List IVec2) (hsz : dd.width * dd.height < 2 ^ 24)
    (hs : SmallGrid dd) (hr : rectInGrid dd lim_min lim_max) (hd : inGrid dd dst)
    (inv : OptInv dd src dst lim_min lim_max s) (ho : s.openList = first :: rest)
    (hpick : pick dd s first rest = dst) :
    ∃ path, reconstruct_path (dd.width * dd.height + 1) s.prev dst dd.width = some path ∧
      ShortestResult dd src dst lim_min lim_max path := by
  have hmem : dst ∈ s.openList := by rw [ho, ← hpick]; exact pick_mem dd s first rest
  have hcell := inv.loop.core.cells_open dst hmem
  have hlen := core_closed_len dd src lim_min lim_max s inv.loop.core
  have hle := rectArea_le dd lim_min lim_max hr
  have hopt := pop_opt dd src dst lim_min lim_max s first rest hs hr hd inv ho
    (hpick ▸ inv.loop.dst_open)
  rw [hpick] at hopt
  rcases inv.loop.core.g_val dst hcell with e | ⟨k, hk, e⟩
  · exact absurd e (inv.loop.core.g_open dst hmem)
  · obtain ⟨path, h1, h2, h3⟩ := reconstruct_loop_spec dd src dst lim_min lim_max s (by omega)
      inv.loop.core (dd.width * dd.height + 1) dst [dst] k hcell e hk (by omega) rfl rfl (by simp)
      (fun p hp => by rw [List.mem_singleton.1 hp]; exact hcell)
    refine ⟨path, h1, ⟨fun _ => h2, fun he => ?_⟩, fun r hroute _ => ?_⟩
    · rw [he] at h2
      have := h2.1.1
      simp at this
    · have := hopt r hroute
      rw [e] at this
      simp only [List.length_singleton] at h3
      have h4 : (k + 1) * 2 ^ 23 ≤ r.length * 2 ^ 23 := by rw [Nat.add_mul]; omega
      have := Nat.le_of_mul_le_mul_right h4 (by positivity)
      omega

theorem optInv_skip (dd : DungeonData) (src dst lim_min lim_max : IVec2) (s : AStar)
    (first : IVec2) (rest : List IVec2)
    (inv : OptInv dd src dst lim_min lim_max s) (ho : s.openList = first :: rest)
    (hclosed : pick dd s first rest ∈ s.closedList) :
    OptInv dd src dst lim_min lim_max { s with openList := unpick dd s first rest } ∧
      loopMeasure lim_min lim_max { s with openList := unpick dd s first rest }
        < loopMeasure lim_min lim_max s := by
  obtain ⟨h1, h2⟩ := loopInv_skip dd src dst lim_min lim_max s first rest inv.loop ho hclosed
  exact ⟨⟨h1, ⟨inv.tables.walk, inv.tables.opt, inv.tables.f_val⟩, inv.nbr⟩, h2⟩

theorem optInv_expand (dd : DungeonData) (src dst lim_min lim_max : IVec2) (s : AStar)
    (first : IVec2) (rest : List IVec2) (hsz : dd.width * dd.height < 2 ^ 24)
    (hs : SmallGrid dd) (hr : rectInGrid dd lim_min lim_max) (hd : inGrid dd dst)
    (inv : OptInv dd src dst lim_min lim_max s) (ho : s.openList = first :: rest)
    (hdst : pick dd s first rest ≠ dst) (hclosed : pick dd s first rest ∉ s.closedList) :
    OptInv dd src dst lim_min lim_max
        (expand dd dst lim_min lim_max (pick dd s first rest)
          { s with openList := unpick dd s first rest,
                   closedList := s.closedList ++ [pick dd s first rest] }) ∧
      loopMeasure lim_min lim_max
        (expand dd dst lim_min lim_max (pick dd s first rest)
          { s with openList := unpick dd s first rest,
                   closedList := s.closedList ++ [pick dd s first rest] })
        < loopMeasure lim_min lim_max s := by
  obtain ⟨h1, h2⟩ :=
    loopInv_expand dd src dst lim_min lim_max s first rest hsz hr inv.loop ho hdst hclosed
  have hopt := pop_opt dd src dst lim_min lim_max s first rest hs hr hd inv ho hclosed
  have hcore1 := coreInv_close dd src dst lim_min lim_max s first rest inv.loop ho hclosed
  have hmem : pick dd s first rest ∈ s.openList := by rw [ho]; exact pick_mem dd s first rest
  have hcell := inv.loop.core.cells_open _ hmem
  have hlen1 := core_closed_len dd src lim_min lim_max _ hcore1
  have hle := rectArea_le dd lim_min lim_max hr
  have hlen1' : s.closedList.length + 1 ≤ rectArea lim_min lim_max := by
    simpa [List.length_append] using hlen1
  rcases inv.loop.core.g_val _ hcell with e | ⟨kc, hkc, e⟩
  · exact absurd e (inv.loop.core.g_open _ hmem)
  · obtain ⟨t1, t2⟩ := expand_opt dd src dst lim_min lim_max (pick dd s first rest)
      { s with openList := unpick dd s first rest,
               closedList := s.closedList ++ [pick dd s first rest] }
      kc hsz hr hcell e (by simp only [List.length_append, List.length_singleton]; omega)
      (by simp only [List.length_append, List.length_singleton]; omega) hcore1
      ⟨inv.tables.walk,
        (by
          intro c hc r hroute
          rcases List.mem_append.1 hc with h | h
          · exact inv.tables.opt c h r hroute
          · rw [List.mem_singleton.1 h] at hroute ⊢
            exact hopt r hroute),
        inv.tables.f_val⟩
      (by
        intro c hc hne
        rcases List.mem_append.1 hc with h | h
        · exact inv.nbr c h
        · exact absurd (List.mem_singleton.1 h) hne)
    exact ⟨⟨h1, t1, t2⟩, h2⟩

/-- The state on entry to the loop satisfies the optimality invariant. -/
theorem aStarInit_opt (dd : DungeonData) (src dst lim_min lim_max : IVec2)
    (hsz : dd.width * dd.height < 2 ^ 24) (hr : rectInGrid dd lim_min lim_max)
    (hsrc : Cell dd lim_min lim_max src) :
    OptInv dd src dst lim_min lim_max (aStarInit dd src dst) := by
  have hinj : ∀ q, Cell dd lim_min lim_max q →
      coord_to_idx q.x q.y dd.width = coord_to_idx src.x src.y dd.width → q = src := fun q hq e =>
    coord_to_idx_inj dd q src hsz (cell_inGrid dd lim_min lim_max q hr hq)
      (cell_inGrid dd lim_min lim_max src hr hsrc) e
  refine ⟨aStarInit_inv dd src dst lim_min lim_max hsz hr hsrc, ⟨?_, ?_, ?_⟩, ?_⟩
  · intro p hp hg
    simp only [aStarInit, setAt] at hg ⊢
    split at hg
    · rename_i e
      have := hinj p hp e
      subst this
      refine ⟨[p], ⟨⟨rfl, rfl, by simp, ?_⟩, ?_⟩, by simp⟩
      · intro q hq; rw [List.mem_singleton.1 hq]; exact hsrc.2
      · intro q hq; rw [List.mem_singleton.1 hq]; exact hsrc.1
    · exact absurd rfl hg
  · intro c hc; simp [aStarInit] at hc
  · intro p hp hg
    simp only [aStarInit, setAt] at hg ⊢
    split at hg
    · rename_i e
      exact Or.inr ⟨hinj p hp e, by rw [if_pos e]⟩
    · exact absurd rfl hg
  · intro c hc; simp [aStarInit] at hc

/-- Specification of `find_path_a_star` with optimality, for a grid of at most
1024 x 1024 cells, a rectangle inside the grid and a walkable source inside the
rectangle. -/
theorem find_path_a_star_shortest (dd : DungeonData) (src dst lim_min lim_max : IVec2)
    (hs : SmallGrid dd) (hr : rectInGrid dd lim_min lim_max)
    (hsrc : Cell dd lim_min lim_max src) :
    ∃ path, find_path_a_star dd src dst lim_min lim_max = some path ∧
      ShortestResult dd src dst lim_min lim_max path := by
  have hsz : dd.width * dd.height < 2 ^ 24 := by
    have := Nat.mul_le_mul hs.1 hs.2
    omega
  by_cases hd : Cell dd lim_min lim_max dst
  · have hdg := cell_inGrid dd lim_min lim_max dst hr hd
    have hg := cell_inGrid dd lim_min lim_max src hr hsrc
    have hb : ¬ (src.x < 0 ∨ src.y < 0 ∨ src.x ≥ (dd.width : Int) ∨ src.y ≥ (dd.height : Int)) := by
      unfold inGrid at hg; omega
    unfold find_path_a_star
    rw [if_neg hb]
    refine aStarLoop_rule dd dst lim_min lim_max (OptInv dd src dst lim_min lim_max)
      (ShortestResult dd src dst lim_min lim_max) (loopMeasure lim_min lim_max)
      (fun s inv ho => ⟨loopInv_empty dd src dst lim_min lim_max s inv.loop ho,
        fun _ _ h => absurd rfl h⟩)
      (fun s first rest inv ho hp =>
        optInv_ret dd src dst lim_min lim_max s first rest hsz hs hr hdg inv ho hp)
      (fun s first rest inv ho _ hc => optInv_skip dd src dst lim_min lim_max s first rest inv ho hc)
      (fun s first rest inv ho hd2 hc =>
        optInv_expand dd src dst lim_min lim_max s first rest hsz hs hr hdg inv ho hd2 hc)
      _ _ (aStarInit_opt dd src dst lim_min lim_max hsz hr hsrc) ?_
    unfold loopMeasure
    simp only [aStarInit, List.length_singleton, List.length_nil]
    omega
  · obtain ⟨path, h1, h2, h3⟩ := find_path_a_star_spec dd src dst lim_min lim_max hsz hr hsrc
    refine ⟨path, h1, ⟨h2, h3⟩, fun r hroute _ => ?_⟩
    exfalso
    obtain ⟨⟨_, rl, _, rw'⟩, rr⟩ := hroute
    have hm := List.mem_of_getLast?_eq_some rl
    exact hd ⟨rr dst hm, rw' dst hm⟩

/-! ## The scenarios, evaluated -/

theorem prebuild_openGrid8 : prebuildWith 4 openGrid8 = some openPortals8 := by decide!

theorem prebuild_corridorGrid : prebuild_map corridorGrid = some corridorPortals := by decide!

theorem prebuild_twoPortalGrid : prebuild_map twoPortalGrid = some twoPortalGraph := by decide!

theorem openGrid8_direct :
    (find_path_a_star openGrid8 ⟨0, 0⟩ ⟨7, 7⟩ ⟨0, 0⟩ ⟨8, 8⟩).map List.length = some 15 := by
  decide!

theorem openGrid8_source_leg (p : PathPortal) :
    get_shortest_path_portal openGrid8 openPortals8 ⟨0, 0⟩ ⟨0, 0⟩ p =
      some ([⟨0, 0⟩, ⟨1, 0⟩, ⟨2, 0⟩, ⟨3, 0⟩], p) := by
  rw [get_shortest_path_portal_fst]
  have : portalScan openGrid8 openPortals8 ⟨0, 0⟩ ⟨0, 0⟩
      (openPortals8.tilePortalsIndices.getD (tileIndexQuery openGrid8 openPortals8 ⟨0, 0⟩) []) [] =
      some [⟨0, 0⟩, ⟨1, 0⟩, ⟨2, 0⟩, ⟨3, 0⟩] := by decide!
  rw [this]; rfl

theorem openGrid8_target_leg (p : PathPortal) :
    get_shortest_path_portal openGrid8 openPortals8 ⟨7, 7⟩ ⟨1, 1⟩ p =
      some ([⟨7, 7⟩, ⟨7, 6⟩, ⟨7, 5⟩, ⟨7, 4⟩], p) := by
  rw [get_shortest_path_portal_fst]
  have : portalScan openGrid8 openPortals8 ⟨7, 7⟩ ⟨1, 1⟩
      (openPortals8.tilePortalsIndices.getD (tileIndexQuery openGrid8 openPortals8 ⟨1, 1⟩) []) [] =
      some [⟨7, 7⟩, ⟨7, 6⟩, ⟨7, 5⟩, ⟨7, 4⟩] := by decide!
  rw [this]; rfl

theorem corridor_source_leg (p : PathPortal) :
    get_shortest_path_portal corridorGrid corridorPortals ⟨8, 0⟩ ⟨0, 0⟩ p =
      some ([⟨8, 0⟩, ⟨9, 0⟩], p) := by
  rw [get_shortest_path_portal_fst]
  have : portalScan corridorGrid corridorPortals ⟨8, 0⟩ ⟨0, 0⟩
      (corridorPortals.tilePortalsIndices.getD (tileIndexQuery corridorGrid corridorPortals ⟨0, 0⟩) [])
      [] = some [⟨8, 0⟩, ⟨9, 0⟩] := by decide!
  rw [this]; rfl

theorem corridor_target_leg (p : PathPortal) :
    get_shortest_path_portal corridorGrid corridorPortals ⟨11, 0⟩ ⟨1, 0⟩ p =
      some ([⟨11, 0⟩, ⟨10, 0⟩], p) := by
  rw [get_shortest_path_portal_fst]
  have : portalScan corridorGrid corridorPortals ⟨11, 0⟩ ⟨1, 0⟩
      (corridorPortals.tilePortalsIndices.getD (tileIndexQuery corridorGrid corridorPortals ⟨1, 0⟩) [])
      [] = some [⟨11, 0⟩, ⟨10, 0⟩] := by decide!
  rw [this]; rfl

/-! ## Termination of the search loop: the measure drops -/

theorem relax_lists (dd : DungeonData) (dst curPos p : IVec2) (s : AStar) :
    (relax dd dst curPos p s).openList = s.openList ∧
      (relax dd dst curPos p s).closedList = s.closedList := by
  unfold relax; split <;> exact ⟨rfl, rfl⟩

/-- What `checkNeighbour` does to the two lists, for any input. -/
theorem checkNeighbour_lists (dd : DungeonData) (dst lim_min lim_max curPos p : IVec2)
    (s : AStar) :
    (checkNeighbour dd dst lim_min lim_max curPos p s).closedList = s.closedList ∧
      (∀ q ∈ (checkNeighbour dd dst lim_min lim_max curPos p s).openList,
        q ∈ s.openList ∨ inRect lim_min lim_max q) ∧
      (checkNeighbour dd dst lim_min lim_max curPos p s).openList.length
        ≤ s.openList.length + 1 := by
  by_cases hp : Cell dd lim_min lim_max p
  · rw [checkNeighbour_cell dd dst lim_min lim_max curPos p s hp]
    obtain ⟨ho, hc⟩ := relax_lists dd dst curPos p s
    unfold pushOpen
    split
    · exact ⟨hc, fun q hq => Or.inl (ho ▸ hq), by rw [ho]; omega⟩
    · refine ⟨hc, ?_, ?_⟩
      · intro q hq
        rcases List.mem_append.1 hq with h | h
        · exact Or.inl (ho ▸ h)
        · rw [List.mem_singleton.1 h]; exact Or.inr hp.1
      · show ((relax dd dst curPos p s).openList ++ [p]).length ≤ _
        rw [List.length_append, ho]; simp
  · rw [checkNeighbour_not_cell dd dst lim_min lim_max curPos p s hp]
    exact ⟨rfl, fun q hq => Or.inl hq, by omega⟩

/-- What one expansion does to the two lists, for any input. -/
theorem expand_lists (dd : DungeonData) (dst lim_min lim_max curPos : IVec2) (s : AStar) :
    (expand dd dst lim_min lim_max curPos s).closedList = s.closedList ∧
      (∀ q ∈ (expand dd dst lim_min lim_max curPos s).openList,
        q ∈ s.openList ∨ inRect lim_min lim_max q) ∧
      (expand dd dst lim_min lim_max curPos s).openList.length ≤ s.openList.length + 4 := by
  unfold expand
  obtain ⟨c1, o1, l1⟩ := checkNeighbour_lists dd dst lim_min lim_max curPos
    ⟨curPos.x + 1, curPos.y + 0⟩ s
  generalize checkNeighbour dd dst lim_min lim_max curPos ⟨curPos.x + 1, curPos.y + 0⟩ s = t1
    at c1 o1 l1 ⊢
  obtain ⟨c2, o2, l2⟩ := checkNeighbour_lists dd dst lim_min lim_max curPos
    ⟨curPos.x - 1, curPos.y + 0⟩ t1
  generalize checkNeighbour dd dst lim_min lim_max curPos ⟨curPos.x - 1, curPos.y + 0⟩ t1 = t2
    at c2 o2 l2 ⊢
  obtain ⟨c3, o3, l3⟩ := checkNeighbour_lists dd dst lim_min lim_max curPos
    ⟨curPos.x + 0, curPos.y + 1⟩ t2
  generalize checkNeighbour dd dst lim_min lim_max curPos ⟨curPos.x + 0, curPos.y + 1⟩ t2 = t3
    at c3 o3 l3 ⊢
  obtain ⟨c4, o4, l4⟩ := checkNeighbour_lists dd dst lim_min lim_max curPos
    ⟨curPos.x + 0, curPos.y - 1⟩ t3
  generalize checkNeighbour dd dst lim_min lim_max curPos ⟨curPos.x + 0, curPos.y - 1⟩ t3 = t4
    at c4 o4 l4 ⊢
  refine ⟨by rw [c4, c3, c2, c1], ?_, by omega⟩
  intro q hq
  rcases o4 q hq with h | h
  · rcases o3 q h with h | h
    · rcases o2 q h with h | h
      · exact o1 q h
      · exact Or.inr h
    · exact Or.inr h
  · exact Or.inr h

/-- A duplicate-free list of coordinates that are the source or lie in the
rectangle has at most one entry more than the rectangle has cells. -/
theorem length_le_rectArea_succ (src lim_min lim_max : IVec2) (l : List IVec2) (hn : l.Nodup)
    (hl : ∀ p ∈ l, p = src ∨ inRect lim_min lim_max p) :
    l.length ≤ rectArea lim_min lim_max + 1 := by
  have hsub : l.toFinset ⊆ insert src
      ((Finset.Ico lim_min.x lim_max.x ×ˢ Finset.Ico lim_min.y lim_max.y).image
        (fun q => (⟨q.1, q.2⟩ : IVec2))) := by
    intro p hp
    rcases hl p (List.mem_toFinset.1 hp) with h | ⟨h1, h2, h3, h4⟩
    · rw [h]; exact Finset.mem_insert_self _ _
    · refine Finset.mem_insert_of_mem (Finset.mem_image.2 ⟨(p.x, p.y), ?_, rfl⟩)
      simp only [Finset.mem_product, Finset.mem_Ico]
      exact ⟨⟨h1, h2⟩, h3, h4⟩
  calc l.length = l.toFinset.card := (List.toFinset_card_of_nodup hn).symm
    _ ≤ _ := Finset.card_le_card hsub
    _ ≤ ((Finset.Ico lim_min.x lim_max.x ×ˢ Finset.Ico lim_min.y lim_max.y).image
        (fun q => (⟨q.1, q.2⟩ : IVec2))).card + 1 := Finset.card_insert_le _ _
    _ ≤ (Finset.Ico lim_min.x lim_max.x ×ˢ Finset.Ico lim_min.y lim_max.y).card + 1 :=
      Nat.add_le_add_right Finset.card_image_le 1
    _ = rectArea lim_min lim_max + 1 := by
      rw [Finset.card_product, Int.card_Ico, Int.card_Ico]; rfl

theorem aStarLoop_exit (dd : DungeonData) (dst lim_min lim_max : IVec2) (fuel : Nat) (s : AStar)
    (h : atExit dd dst s) :
    aStarLoop dd dst lim_min lim_max (fuel + 1) s = exitValue dd dst s := by
  unfold aStarLoop exitValue
  unfold atExit at h
  cases ho : s.openList with
  | nil => rfl
  | cons first rest =>
    rw [ho] at h
    simp only at h
    show (if pick dd s first rest = dst then
        reconstruct_path (dd.width * dd.height + 1) s.prev dst dd.width
      else _) = _
    rw [if_pos h]

theorem aStarLoop_pass (dd : DungeonData) (dst lim_min lim_max : IVec2) (fuel : Nat) (s : AStar)
    (h : ¬ atExit dd dst s) :
    aStarLoop dd dst lim_min lim_max (fuel + 1) s =
      aStarLoop dd dst lim_min lim_max fuel (aStarPass dd dst lim_min lim_max s) := by
  conv_lhs => unfold aStarLoop
  unfold aStarPass
  unfold atExit at h
  cases ho : s.openList with
  | nil => rw [ho] at h; exact absurd trivial h
  | cons first rest =>
    rw [ho] at h
    simp only at h
    show (if pick dd s first rest = dst then
        reconstruct_path (dd.width * dd.height + 1) s.prev dst dd.width
      else if pick dd s first rest ∈ s.closedList then
        aStarLoop dd dst lim_min lim_max fuel { s with openList := unpick dd s first rest }
      else aStarLoop dd dst lim_min lim_max fuel
        (expand dd dst lim_min lim_max (pick dd s first rest)
          { s with openList := unpick dd s first rest,
                   closedList := s.closedList ++ [pick dd s first rest] })) = _
    rw [if_neg h]
    simp only [if_neg h]
    split <;> rfl

/-- A pass from a state in which the loop is not left keeps the invariant,
counts one more entry taken off the open list, and lowers the measure. -/
theorem pass_inv (dd : DungeonData) (src dst lim_min lim_max : IVec2) (m : Nat) (s : AStar)
    (inv : PassInv src lim_min lim_max m s) (h : ¬ atExit dd dst s) :
    PassInv src lim_min lim_max (m + 1) (aStarPass dd dst lim_min lim_max s) ∧
      passMeasure lim_min lim_max (aStarPass dd dst lim_min lim_max s)
        < passMeasure lim_min lim_max s := by
  unfold aStarPass passMeasure
  unfold atExit at h
  cases ho : s.openList with
  | nil => rw [ho] at h; exact absurd trivial h
  | cons first rest =>
    rw [ho] at h
    simp only at h
    simp only [if_neg h]
    have hcount := inv.count
    rw [ho] at hcount
    simp only [List.length_cons] at hcount
    have hul := unpick_length dd s first rest
    have hsub : ∀ x ∈ unpick dd s first rest, x ∈ s.openList := fun x hx =>
      ho ▸ unpick_sub dd s first rest x hx
    by_cases hc : pick dd s first rest ∈ s.closedList
    · rw [if_pos hc]
      refine ⟨⟨inv.nodup, fun p hp => inv.open_in p (hsub p hp), inv.closed_in, ?_⟩, ?_⟩
      · show m + 1 + (unpick dd s first rest).length ≤ 1 + 4 * s.closedList.length
        omega
      · show (unpick dd s first rest).length +
            4 * (rectArea lim_min lim_max + 1 - s.closedList.length) < _
        simp only [List.length_cons]
        omega
    · rw [if_neg hc]
      have hmem : pick dd s first rest ∈ s.openList := by rw [ho]; exact pick_mem dd s first rest
      obtain ⟨e1, e2, e3⟩ := expand_lists dd dst lim_min lim_max (pick dd s first rest)
        { s with openList := unpick dd s first rest,
                 closedList := s.closedList ++ [pick dd s first rest] }
      have hnd : (s.closedList ++ [pick dd s first rest]).Nodup :=
        List.Nodup.append inv.nodup (List.nodup_singleton _)
          (by
            intro x hx hx2
            rw [List.mem_singleton.1 hx2] at hx
            exact hc hx)
      have hcin : ∀ p ∈ s.closedList ++ [pick dd s first rest],
          p = src ∨ inRect lim_min lim_max p := by
        intro p hp
        rcases List.mem_append.1 hp with h1 | h1
        · exact inv.closed_in p h1
        · rw [List.mem_singleton.1 h1]; exact inv.open_in _ hmem
      have hlen := length_le_rectArea_succ src lim_min lim_max _ hnd hcin
      simp only [List.length_append, List.length_singleton] at hlen
      generalize expand dd dst lim_min lim_max (pick dd s first rest)
        { s with openList := unpick dd s first rest,
                 closedList := s.closedList ++ [pick dd s first rest] } = t at e1 e2 e3 ⊢
      have e3' : t.openList.length ≤ rest.length + 4 := hul ▸ e3
      refine ⟨⟨e1 ▸ hnd, ?_, e1 ▸ hcin, ?_⟩, ?_⟩
      · intro p hp
        rcases e2 p hp with h1 | h1
        · exact inv.open_in p (hsub p h1)
        · exact Or.inr h1
      · rw [e1]
        simp only [List.length_append, List.length_singleton]
        omega
      · rw [e1]
        simp only [List.length_append, List.length_singleton, List.length_cons]
        omega

/-- The loop of `find_path_a_star` is left after at most as many passes as the
measure allows, whatever the input. -/
theorem search_loop_exits (dd : DungeonData) (src dst lim_min lim_max : IVec2) :
    ∀ (k m0 : Nat) (s : AStar), PassInv src lim_min lim_max m0 s →
      passMeasure lim_min lim_max s ≤ k →
      ∃ m, m ≤ k ∧ atExit dd dst (aStarPasses dd dst lim_min lim_max m s) ∧
        PassInv src lim_min lim_max (m0 + m) (aStarPasses dd dst lim_min lim_max m s) ∧
        ∀ fuel, m < fuel →
          aStarLoop dd dst lim_min lim_max fuel s =
            exitValue dd dst (aStarPasses dd dst lim_min lim_max m s) := by
  intro k
  induction k with
  | zero =>
    intro m0 s inv hmu
    have ho : s.openList = [] := by
      unfold passMeasure at hmu
      exact List.length_eq_zero.1 (by omega)
    have hex : atExit dd dst s := by unfold atExit; rw [ho]; trivial
    refine ⟨0, Nat.le_refl _, hex, inv, fun fuel hf => ?_⟩
    obtain ⟨f, rfl⟩ : ∃ f, fuel = f + 1 := ⟨fuel - 1, by omega⟩
    exact aStarLoop_exit dd dst lim_min lim_max f s hex
  | succ k ih =>
    intro m0 s inv hmu
    by_cases hex : atExit dd dst s
    · refine ⟨0, Nat.zero_le _, hex, inv, fun fuel hf => ?_⟩
      obtain ⟨f, rfl⟩ : ∃ f, fuel = f + 1 := ⟨fuel - 1, by omega⟩
      exact aStarLoop_exit dd dst lim_min lim_max f s hex
    · obtain ⟨inv2, hlt⟩ := pass_inv dd src dst lim_min lim_max m0 s inv hex
      obtain ⟨m, hm, h1, h2, h3⟩ := ih (m0 + 1) _ inv2 (by omega)
      refine ⟨m + 1, by omega, h1, ?_, fun fuel hf => ?_⟩
      · rw [show m0 + (m + 1) = m0 + 1 + m by omega]; exact h2
      · obtain ⟨f, rfl⟩ : ∃ f, fuel = f + 1 := ⟨fuel - 1, by omega⟩
        rw [aStarLoop_pass dd dst lim_min lim_max f s hex]
        exact h3 f (by omega)

/-! ## Totality of the grid search: the tables stay sound -/

theorem relax_tab (dd : DungeonData) (dst curPos p : IVec2) (s : AStar) (kc : Nat)
    (hg : s.g (coord_to_idx curPos.x curPos.y dd.width) = kc * 2 ^ 23)
    (hk : kc + 1 ≤ s.closedList.length) (hlen : s.closedList.length < 2 ^ 24)
    (inv : TabInv dd s) :
    TabInv dd (relax dd dst curPos p s) ∧
      (relax dd dst curPos p s).g (coord_to_idx curPos.x curPos.y dd.width) = kc * 2 ^ 23 ∧
      (relax dd dst curPos p s).g (coord_to_idx p.x p.y dd.width) ≠ F32.max := by
  have hgs : F32.add (s.g (coord_to_idx curPos.x curPos.y dd.width)) (F32.mul F32.one F32.one)
      = (kc + 1) * 2 ^ 23 := by
    rw [hg]; exact add_one_exact kc (by omega)
  have hmax := exact_lt_max (kc + 1) (by omega)
  unfold relax
  rw [hgs]
  by_cases hlt : (kc + 1) * 2 ^ 23 < s.g (coord_to_idx p.x p.y dd.width)
  · rw [if_pos hlt]
    have hne : coord_to_idx curPos.x curPos.y dd.width ≠ coord_to_idx p.x p.y dd.width := by
      intro e
      rw [← e, hg] at hlt
      have : kc * 2 ^ 23 ≤ (kc + 1) * 2 ^ 23 := Nat.mul_le_mul_right _ (by omega)
      omega
    have hle : ∀ i, setAt s.g (coord_to_idx p.x p.y dd.width) ((kc + 1) * 2 ^ 23) i ≤ s.g i := by
      intro i
      unfold setAt
      split
      · rename_i e; rw [e]; omega
      · exact Nat.le_refl _
    refine ⟨⟨?_, ?_, ?_⟩, ?_, ?_⟩
    · intro i
      show setAt s.g _ _ i = F32.max ∨ ∃ k, k ≤ s.closedList.length ∧ setAt s.g _ _ i = k * 2 ^ 23
      unfold setAt
      split
      · exact Or.inr ⟨kc + 1, hk, rfl⟩
      · exact inv.g_val i
    · intro q hq
      show setAt s.g _ _ _ ≠ F32.max
      have h1 := inv.g_open q hq
      unfold setAt
      split
      · omega
      · exact h1
    · intro i hi
      show setAt s.g _ _ (coord_to_idx (setAt s.prev _ curPos i).x (setAt s.prev _ curPos i).y
        dd.width) < setAt s.g _ _ i
      have hi2 : setAt s.prev (coord_to_idx p.x p.y dd.width) curPos i ≠ noPrev := hi
      by_cases hip : i = coord_to_idx p.x p.y dd.width
      · have e1 : setAt s.prev (coord_to_idx p.x p.y dd.width) curPos i = curPos := by
          simp [setAt, hip]
        have e2 : setAt s.g (coord_to_idx p.x p.y dd.width) ((kc + 1) * 2 ^ 23) i
            = (kc + 1) * 2 ^ 23 := by simp [setAt, hip]
        rw [e1, e2]
        have e3 : setAt s.g (coord_to_idx p.x p.y dd.width) ((kc + 1) * 2 ^ 23)
            (coord_to_idx curPos.x curPos.y dd.width) = kc * 2 ^ 23 := by
          simp [setAt, hne, hg]
        rw [e3]
        exact Nat.mul_lt_mul_of_pos_right (by omega) (by positivity)
      · have e1 : setAt s.prev (coord_to_idx p.x p.y dd.width) curPos i = s.prev i := by
          simp [setAt, hip]
        have e2 : setAt s.g (coord_to_idx p.x p.y dd.width) ((kc + 1) * 2 ^ 23) i = s.g i := by
          simp [setAt, hip]
        rw [e1] at hi2 ⊢
        rw [e2]
        exact Nat.lt_of_le_of_lt (hle _) (inv.prev_ok i hi2)
    · show setAt s.g _ _ _ = _
      simp [setAt, hne, hg]
    · show setAt s.g _ _ _ ≠ _
      simp only [setAt, if_true]
      omega
  · rw [if_neg hlt]
    exact ⟨inv, hg, by omega⟩

theorem checkNeighbour_tab (dd : DungeonData) (dst lim_min lim_max curPos p : IVec2) (s : AStar)
    (kc : Nat) (hg : s.g (coord_to_idx curPos.x curPos.y dd.width) = kc * 2 ^ 23)
    (hk : kc + 1 ≤ s.closedList.length) (hlen : s.closedList.length < 2 ^ 24)
    (inv : TabInv dd s) :
    TabInv dd (checkNeighbour dd dst lim_min lim_max curPos p s) ∧
      (checkNeighbour dd dst lim_min lim_max curPos p s).g
        (coord_to_idx curPos.x curPos.y dd.width) = kc * 2 ^ 23 := by
  by_cases hp : Cell dd lim_min lim_max p
  · rw [checkNeighbour_cell dd dst lim_min lim_max curPos p s hp]
    obtain ⟨t, g1, g2⟩ := relax_tab dd dst curPos p s kc hg hk hlen inv
    unfold pushOpen
    split
    · exact ⟨t, g1⟩
    · refine ⟨⟨t.g_val, ?_, t.prev_ok⟩, g1⟩
      intro q hq
      rcases List.mem_append.1 hq with h | h
      · exact t.g_open q h
      · rw [List.mem_singleton.1 h]; exact g2
  · rw [checkNeighbour_not_cell dd dst lim_min lim_max curPos p s hp]
    exact ⟨inv, hg⟩

theorem expand_tab (dd : DungeonData) (dst lim_min lim_max curPos : IVec2) (s : AStar)
    (kc : Nat) (hg : s.g (coord_to_idx curPos.x curPos.y dd.width) = kc * 2 ^ 23)
    (hk : kc + 1 ≤ s.closedList.length) (hlen : s.closedList.length < 2 ^ 24)
    (inv : TabInv dd s) :
    TabInv dd (expand dd dst lim_min lim_max curPos s) := by
  unfold expand
  obtain ⟨i1, g1⟩ := checkNeighbour_tab dd dst lim_min lim_max curPos
    ⟨curPos.x + 1, curPos.y + 0⟩ s kc hg hk hlen inv
  have c1 := (checkNeighbour_lists dd dst lim_min lim_max curPos ⟨curPos.x + 1, curPos.y + 0⟩ s).1
  generalize checkNeighbour dd dst lim_min lim_max curPos ⟨curPos.x + 1, curPos.y + 0⟩ s = t1
    at i1 g1 c1 ⊢
  obtain ⟨i2, g2⟩ := checkNeighbour_tab dd dst lim_min lim_max curPos
    ⟨curPos.x - 1, curPos.y + 0⟩ t1 kc g1 (by rw [c1]; exact hk) (by rw [c1]; exact hlen) i1
  have c2 := (checkNeighbour_lists dd dst lim_min lim_max curPos ⟨curPos.x - 1, curPos.y + 0⟩ t1).1
  generalize checkNeighbour dd dst lim_min lim_max curPos ⟨curPos.x - 1, curPos.y + 0⟩ t1 = t2
    at i2 g2 c2 ⊢
  obtain ⟨i3, g3⟩ := checkNeighbour_tab dd dst lim_min lim_max curPos
    ⟨curPos.x + 0, curPos.y + 1⟩ t2 kc g2 (by rw [c2, c1]; exact hk)
    (by rw [c2, c1]; exact hlen) i2
  have c3 := (checkNeighbour_lists dd dst lim_min lim_max curPos ⟨curPos.x + 0, curPos.y + 1⟩ t2).1
  generalize checkNeighbour dd dst lim_min lim_max curPos ⟨curPos.x + 0, curPos.y + 1⟩ t2 = t3
    at i3 g3 c3 ⊢
  exact (checkNeighbour_tab dd dst lim_min lim_max curPos
    ⟨curPos.x + 0, curPos.y - 1⟩ t3 kc g3 (by rw [c3, c2, c1]; exact hk)
    (by rw [c3, c2, c1]; exact hlen) i3).1

/-- A duplicate-free list of coordinates that are the source or lie in a
rectangle of the grid is no longer than the grid has cells. -/
theorem closed_le_grid (dd : DungeonData) (src lim_min lim_max : IVec2) (l : List IVec2)
    (hsrc : inGrid dd src) (hr : rectInGrid dd lim_min lim_max) (hn : l.Nodup)
    (hl : ∀ p ∈ l, p = src ∨ inRect lim_min lim_max p) : l.length ≤ dd.width * dd.height := by
  have h := length_le_rectArea ⟨0, 0⟩ ⟨(dd.width : Int), (dd.height : Int)⟩ l hn (by
    intro p hp
    obtain ⟨r1, r2, r3, r4⟩ := hr
    rcases hl p hp with h | ⟨h1, h2, h3, h4⟩
    · rw [h]; exact hsrc
    · exact ⟨by show (0 : Int) ≤ p.x; omega, by show p.x < (dd.width : Int); omega,
        by show (0 : Int) ≤ p.y; omega, by show p.y < (dd.height : Int); omega⟩)
  have e : rectArea ⟨0, 0⟩ ⟨(dd.width : Int), (dd.height : Int)⟩ = dd.width * dd.height := by
    unfold rectArea; simp
  rw [e] at h
  exact h

theorem aStarPass_exit (dd : DungeonData) (dst lim_min lim_max : IVec2) (s : AStar)
    (h : atExit dd dst s) : aStarPass dd dst lim_min lim_max s = s := by
  unfold aStarPass
  unfold atExit at h
  cases ho : s.openList with
  | nil => rfl
  | cons first rest =>
    rw [ho] at h
    simp only at h
    simp only [if_pos h]

/-- A pass keeps the invariant on the tables. -/
theorem pass_tab (dd : DungeonData) (src dst lim_min lim_max : IVec2) (m : Nat) (s : AStar)
    (hsz : dd.width * dd.height < 2 ^ 24) (hsrc : inGrid dd src)
    (hr : rectInGrid dd lim_min lim_max)
    (linv : PassInv src lim_min lim_max m s) (inv : TabInv dd s) :
    TabInv dd (aStarPass dd dst lim_min lim_max s) := by
  unfold aStarPass
  cases ho : s.openList with
  | nil => exact inv
  | cons first rest =>
    simp only
    have hsub : ∀ x ∈ unpick dd s first rest, x ∈ s.openList := fun x hx =>
      ho ▸ unpick_sub dd s first rest x hx
    have hmem : pick dd s first rest ∈ s.openList := by rw [ho]; exact pick_mem dd s first rest
    split
    · exact inv
    · split
      · exact ⟨inv.g_val, fun p hp => inv.g_open p (hsub p hp), inv.prev_ok⟩
      · rename_i hc
        have hnd : (s.closedList ++ [pick dd s first rest]).Nodup :=
          List.Nodup.append linv.nodup (List.nodup_singleton _)
            (by
              intro x hx hx2
              rw [List.mem_singleton.1 hx2] at hx
              exact hc hx)
        have hcin : ∀ p ∈ s.closedList ++ [pick dd s first rest],
            p = src ∨ inRect lim_min lim_max p := by
          intro p hp
          rcases List.mem_append.1 hp with h1 | h1
          · exact linv.closed_in p h1
          · rw [List.mem_singleton.1 h1]; exact linv.open_in _ hmem
        have hlen := closed_le_grid dd src lim_min lim_max _ hsrc hr hnd hcin
        have hgp := inv.g_open _ hmem
        rcases inv.g_val (coord_to_idx (pick dd s first rest).x (pick dd s first rest).y dd.width)
          with e | ⟨kc, hkc, e⟩
        · exact absurd e hgp
        · refine expand_tab dd dst lim_min lim_max (pick dd s first rest) _ kc e ?_ ?_ ?_
          · show kc + 1 ≤ (s.closedList ++ [pick dd s first rest]).length
            rw [List.length_append, List.length_singleton]; omega
          · show (s.closedList ++ [pick dd s first rest]).length < 2 ^ 24
            omega
          · refine ⟨?_, fun p hp => inv.g_open p (hsub p hp), inv.prev_ok⟩
            intro i
            rcases inv.g_val i with h | ⟨k, hk, h⟩
            · exact Or.inl h
            · refine Or.inr ⟨k, ?_, h⟩
              show k ≤ (s.closedList ++ [pick dd s first rest]).length
              rw [List.length_append, List.length_singleton]; omega

/-- Following predecessors from a coordinate with a whole step count below the
fuel ends at the sentinel. -/
theorem reconstruct_loop_total (dd : DungeonData) (s : AStar) (inv : TabInv dd s) :
    ∀ (fuel : Nat) (curPos : IVec2) (res : List IVec2) (k : Nat),
      s.g (coord_to_idx curPos.x curPos.y dd.width) = k * 2 ^ 23 → k < fuel →
      k < 2 ^ 24 →
      ∃ path, reconstruct_path_loop s.prev dd.width fuel curPos res = some path ∧
        path.length ≤ res.length + k := by
  intro fuel
  induction fuel with
  | zero => intro _ _ k _ h; omega
  | succ fuel ih =>
    intro curPos res k hg hf hk
    unfold reconstruct_path_loop
    by_cases hp : s.prev (coord_to_idx curPos.x curPos.y dd.width) ≠ noPrev
    · rw [if_pos hp]
      have c3 := inv.prev_ok _ hp
      have hkm := exact_lt_max k hk
      rcases inv.g_val (coord_to_idx (s.prev (coord_to_idx curPos.x curPos.y dd.width)).x
        (s.prev (coord_to_idx curPos.x curPos.y dd.width)).y dd.width) with e | ⟨k2, _, e⟩
      · rw [e, hg] at c3; omega
      · rw [e, hg] at c3
        have hk2 : k2 < k := by
          by_contra hcon
          have : k * 2 ^ 23 ≤ k2 * 2 ^ 23 := Nat.mul_le_mul_right _ (by omega)
          omega
        obtain ⟨path, h1, h2⟩ := ih (s.prev (coord_to_idx curPos.x curPos.y dd.width))
          (s.prev (coord_to_idx curPos.x curPos.y dd.width) :: res) k2 e (by omega) (by omega)
        exact ⟨path, h1, by simp only [List.length_cons] at h2; omega⟩
    · rw [if_neg hp]
      exact ⟨res, rfl, by omega⟩

/-- Both invariants hold after any number of passes. -/
theorem passes_inv (dd : DungeonData) (src dst lim_min lim_max : IVec2)
    (hsz : dd.width * dd.height < 2 ^ 24) (hsrc : inGrid dd src)
    (hr : rectInGrid dd lim_min lim_max) :
    ∀ (n : Nat) (s : AStar), (∃ m, PassInv src lim_min lim_max m s) → TabInv dd s →
      (∃ m, PassInv src lim_min lim_max m (aStarPasses dd dst lim_min lim_max n s)) ∧
        TabInv dd (aStarPasses dd dst lim_min lim_max n s) := by
  intro n
  induction n with
  | zero => intro s h1 h2; exact ⟨h1, h2⟩
  | succ n ih =>
    intro s h1 h2
    obtain ⟨m, hm⟩ := h1
    have t := pass_tab dd src dst lim_min lim_max m s hsz hsrc hr hm h2
    show (∃ m, PassInv src lim_min lim_max m
        (aStarPasses dd dst lim_min lim_max n (aStarPass dd dst lim_min lim_max s))) ∧
      TabInv dd (aStarPasses dd dst lim_min lim_max n (aStarPass dd dst lim_min lim_max s))
    by_cases hex : atExit dd dst s
    · rw [aStarPass_exit dd dst lim_min lim_max s hex]
      exact ih s ⟨m, hm⟩ h2
    · exact ih _ ⟨m + 1, (pass_inv dd src dst lim_min lim_max m s hm hex).1⟩ t

/-- On a grid whose cell array matches its size, `find_path_a_star` returns a
sequence for every source, target and rectangle of the grid, with at most one
coordinate more than the grid has cells. -/
theorem find_path_a_star_total (dd : DungeonData) (src dst lim_min lim_max : IVec2)
    (hwf : WellFormed dd) (hr : rectInGrid dd lim_min lim_max) :
    ∃ path, find_path_a_star dd src dst lim_min lim_max = some path ∧
      path.length ≤ dd.width * dd.height + 1 := by
  by_cases hg : inGrid dd src
  · have hb : ¬ (src.x < 0 ∨ src.y < 0 ∨ src.x ≥ (dd.width : Int) ∨ src.y ≥ (dd.height : Int)) := by
      unfold inGrid at hg; omega
    have hinit : PassInv src lim_min lim_max 0 (aStarInit dd src dst) := by
      refine ⟨List.nodup_nil, ?_, ?_, by simp [aStarInit]⟩
      · intro p hp
        simp only [aStarInit, List.mem_singleton] at hp
        exact Or.inl hp
      · intro p hp; simp [aStarInit] at hp
    have htab : TabInv dd (aStarInit dd src dst) := by
      refine ⟨?_, ?_, ?_⟩
      · intro i
        simp only [aStarInit, setAt]
        split
        · exact Or.inr ⟨0, Nat.zero_le _, by simp⟩
        · exact Or.inl rfl
      · intro p hp
        simp only [aStarInit, List.mem_singleton] at hp
        rw [hp]
        simp only [aStarInit, setAt, if_true]
        unfold F32.max
        norm_num
      · intro i hi
        exact absurd rfl hi
    obtain ⟨m, hm, h1, h2, h3⟩ := search_loop_exits dd src dst lim_min lim_max
      (4 * (rectArea lim_min lim_max + 1) + 1) 0 (aStarInit dd src dst) hinit
      (by unfold passMeasure; simp only [aStarInit, List.length_singleton, List.length_nil]; omega)
    obtain ⟨_, t⟩ := passes_inv dd src dst lim_min lim_max hwf.2 hg hr m _ ⟨0, hinit⟩ htab
    unfold find_path_a_star
    rw [if_neg hb, h3 _ (by omega)]
    generalize aStarPasses dd dst lim_min lim_max m (aStarInit dd src dst) = s at h1 h2 t
    unfold exitValue
    unfold atExit at h1
    cases ho : s.openList with
    | nil => exact ⟨[], rfl, by simp⟩
    | cons first rest =>
      rw [ho] at h1
      simp only at h1
      have hmem : pick dd s first rest ∈ s.openList := by rw [ho]; exact pick_mem dd s first rest
      rw [h1] at hmem
      have hlen := closed_le_grid dd src lim_min lim_max _ hg hr h2.nodup h2.closed_in
      rcases t.g_val (coord_to_idx dst.x dst.y dd.width) with e | ⟨k, hk, e⟩
      · exact absurd e (t.g_open dst hmem)
      · have hsz := hwf.2
        obtain ⟨path, hp, hl⟩ := reconstruct_loop_total dd s t (dd.width * dd.height + 1) dst [dst]
          k e (by omega) (by omega)
        exact ⟨path, hp, by simp only [List.length_singleton] at hl; omega⟩
  · exact ⟨[], find_path_a_star_outside dd src dst lim_min lim_max hg, by simp⟩

/-! ## HierarchicalQuery: general facts -/

/-- A query within one region is the grid search bounded to that region. -/
theorem find_hierarchical_path_same (dp : DungeonPortals) (dd : DungeonData) (source target : IVec2)
    (u v : PathPortal) (h : regionOf dp source = regionOf dp target) :
    find_hierarchical_path dp dd source target u v =
      find_path_a_star dd source target (regionMin dp (regionOf dp source))
        (regionMax dp (regionOf dp source)) := by
  unfold regionOf at h
  unfold find_hierarchical_path
  simp only
  rw [if_pos h]
  rfl

/-- A query across regions is the concatenation of the three legs. -/
theorem find_hierarchical_path_cross (dp : DungeonPortals) (dd : DungeonData)
    (source target : IVec2) (u v u1 v1 : PathPortal) (l1 l3 route : List IVec2)
    (h : regionOf dp source ≠ regionOf dp target)
    (h1 : get_shortest_path_portal dd dp source (regionOf dp source) u = some (l1, u1))
    (h3 : get_shortest_path_portal dd dp target (regionOf dp target) v = some (l3, v1))
    (h2 : find_path_a_star_portal dd dp u1 v1 = some route) :
    find_hierarchical_path dp dd source target u v = some (l1 ++ route ++ l3) := by
  unfold regionOf at h h1 h3
  unfold find_hierarchical_path
  simp only
  rw [if_neg h, h1]
  simp only
  rw [h3]
  simp only
  rw [h2]

/-- The coordinate of a region lies in the region's rectangle. -/
theorem inRect_regionOf (dp : DungeonPortals) (p : IVec2) (hx : 0 ≤ p.x) (hy : 0 ≤ p.y)
    (hs : 0 < toInt32 dp.tileSplit) :
    inRect (regionMin dp (regionOf dp p)) (regionMax dp (regionOf dp p)) p := by
  unfold inRect regionMin regionOf regionMax
  simp only
  rw [Int.tdiv_eq_ediv hx (by omega), Int.tdiv_eq_ediv hy (by omega)]
  exact ⟨Int.ediv_mul_le p.x (by omega), Int.lt_ediv_add_one_mul_self p.x hs,
    Int.ediv_mul_le p.y (by omega), Int.lt_ediv_add_one_mul_self p.y hs⟩

theorem toInt32_pos (n : Nat) (h1 : 1 ≤ n) (h2 : n < 2 ^ 31) : 0 < toInt32 n := by
  unfold toInt32
  have : n % 2 ^ 32 = n := Nat.mod_eq_of_lt (by omega)
  rw [this, if_pos h2]
  omega

/-- On `corridorGrid`, the query from `(8, 0)` to `(11, 0)`, whatever the two
uninitialised portals hold: the source leg, at most one midpoint, and the
target leg, which runs from the target to the portal. -/
theorem corridor_query (a b c d a1 b1 c1 d1 : Nat) :
    ∃ route, route.length ≤ 1 ∧
      find_hierarchical_path corridorPortals corridorGrid ⟨8, 0⟩ ⟨11, 0⟩ (uninitPortal a b c d)
        (uninitPortal a1 b1 c1 d1) = some ([⟨8, 0⟩, ⟨9, 0⟩] ++ route ++ [⟨11, 0⟩, ⟨10, 0⟩]) := by
  refine ⟨if uninitPortal a b c d = uninitPortal a1 b1 c1 d1 then
    [PortalToCoord (uninitPortal a1 b1 c1 d1)] else [], ?_, ?_⟩
  · split <;> simp
  · exact find_hierarchical_path_cross corridorPortals corridorGrid ⟨8, 0⟩ ⟨11, 0⟩ _ _ _ _ _ _ _
      (by decide) (corridor_source_leg _) (corridor_target_leg _)
      (find_path_a_star_portal_noConns _ _ _ _ rfl)

/-- On `openGrid8` with regions of side 4, the query from `(0, 0)` to `(7, 7)`,
whatever the two uninitialised portals hold. -/
theorem openGrid8_query (a b c d a1 b1 c1 d1 : Nat) :
    ∃ route, route.length ≤ 1 ∧
      find_path_a_star_portal openGrid8 openPortals8 (uninitPortal a b c d)
        (uninitPortal a1 b1 c1 d1) = some route ∧
      find_hierarchical_path openPortals8 openGrid8 ⟨0, 0⟩ ⟨7, 7⟩ (uninitPortal a b c d)
        (uninitPortal a1 b1 c1 d1) =
        some ([⟨0, 0⟩, ⟨1, 0⟩, ⟨2, 0⟩, ⟨3, 0⟩] ++ route ++ [⟨7, 7⟩, ⟨7, 6⟩, ⟨7, 5⟩, ⟨7, 4⟩]) := by
  refine ⟨if uninitPortal a b c d = uninitPortal a1 b1 c1 d1 then
    [PortalToCoord (uninitPortal a1 b1 c1 d1)] else [], ?_,
    find_path_a_star_portal_noConns _ _ _ _ rfl, ?_⟩
  · split <;> simp
  · exact find_hierarchical_path_cross openPortals8 openGrid8 ⟨0, 0⟩ ⟨7, 7⟩ _ _ _ _ _ _ _
      (by decide) (openGrid8_source_leg _) (openGrid8_target_leg _)
      (find_path_a_star_portal_noConns _ _ _ _ rfl)

/-! ## Portal extraction along one border: the runs -/

/-- One position of the border scan keeps the invariant. -/
theorem borderStep_inv (dd : DungeonData) (splitTiles xx yy dir_x dir_y : Nat)
    (offs_x offs_y : Int) (n : Nat) (st : BorderScan) (runs : List (Nat × Nat))
    (inv : BorderInv (borderOpen dd splitTiles xx yy dir_x dir_y offs_x offs_y)
      (spanPortal splitTiles xx yy dir_x dir_y offs_x offs_y) n st runs) :
    ∃ runs2, BorderInv (borderOpen dd splitTiles xx yy dir_x dir_y offs_x offs_y)
      (spanPortal splitTiles xx yy dir_x dir_y offs_x offs_y) (n + 1)
      (borderStep dd splitTiles xx yy dir_x dir_y offs_x offs_y st n) runs2 := by
  have hstep : borderStep dd splitTiles xx yy dir_x dir_y offs_x offs_y st n =
      if borderOpen dd splitTiles xx yy dir_x dir_y offs_x offs_y n then
        { st with spanFrom := if st.spanFrom < 0 then (n : Int) else st.spanFrom,
                  spanTo := (n : Int) }
      else if st.spanFrom ≥ 0 then
        { st with
          portals := st.portals ++
            [spanPortal splitTiles xx yy dir_x dir_y offs_x offs_y st.spanFrom st.spanTo]
          spanFrom := -1 }
      else st := rfl
  rw [hstep]
  have hclosed : ∀ r ∈ runs, r.1 ≤ r.2 ∧ r.2 + 1 < n + 1 ∧
      (∀ i, r.1 ≤ i → i ≤ r.2 → borderOpen dd splitTiles xx yy dir_x dir_y offs_x offs_y i) ∧
      (r.1 = 0 ∨ ¬ borderOpen dd splitTiles xx yy dir_x dir_y offs_x offs_y (r.1 - 1)) ∧
      ¬ borderOpen dd splitTiles xx yy dir_x dir_y offs_x offs_y (r.2 + 1) := by
    intro r hr
    obtain ⟨c1, c2, c3, c4, c5⟩ := inv.closed r hr
    exact ⟨c1, by omega, c3, c4, c5⟩
  by_cases hq : borderOpen dd splitTiles xx yy dir_x dir_y offs_x offs_y n
  · rw [if_pos hq]
    refine ⟨runs, inv.portals, inv.sep, hclosed, Or.inr ?_⟩
    rcases inv.cur with ⟨e, h1, h2⟩ | ⟨a, e1, e2, h1, h2, h3, h4, h5⟩
    · refine ⟨n, ?_, by simp, by omega, ?_, ?_, ?_, h2⟩
      · show (if st.spanFrom < 0 then (n : Int) else st.spanFrom) = (n : Int)
        rw [if_pos (by omega)]
      · intro i hi1 hi2
        have : i = n := by omega
        rw [this]; exact hq
      · exact h1
      · intro r hr; exact (inv.closed r hr).2.1
    · refine ⟨a, ?_, by simp, by omega, ?_, h3, h4, h5⟩
      · show (if st.spanFrom < 0 then (n : Int) else st.spanFrom) = (a : Int)
        rw [if_neg (by omega), e1]
      · intro i hi1 hi2
        by_cases hin : i = n
        · rw [hin]; exact hq
        · exact h2 i hi1 (by omega)
  · rw [if_neg hq]
    rcases inv.cur with ⟨e, h1, h2⟩ | ⟨a, e1, e2, h1, h2, h3, h4, h5⟩
    · rw [if_neg (by omega)]
      refine ⟨runs, inv.portals, inv.sep, hclosed, Or.inl ⟨e, Or.inr hq, ?_⟩⟩
      intro i hi hqi
      by_cases hin : i = n
      · rw [hin] at hqi; exact absurd hqi hq
      · exact h2 i (by omega) hqi
    · rw [if_pos (by omega)]
      refine ⟨runs ++ [(a, n - 1)], ?_, ?_, ?_, Or.inl ⟨rfl, Or.inr hq, ?_⟩⟩
      · show st.portals ++ [spanPortal splitTiles xx yy dir_x dir_y offs_x offs_y st.spanFrom
          st.spanTo] = _
        rw [List.map_append, inv.portals, e1, e2]
        rfl
      · rw [List.pairwise_append]
        refine ⟨inv.sep, List.pairwise_singleton _ _, ?_⟩
        intro r hr r2 hr2
        rw [List.mem_singleton.1 hr2]
        exact h4 r hr
      · intro r hr
        rcases List.mem_append.1 hr with h | h
        · exact hclosed r h
        · rw [List.mem_singleton.1 h]
          refine ⟨by show a ≤ n - 1; omega, by show n - 1 + 1 < n + 1; omega, ?_, h3, ?_⟩
          · intro i hi1 hi2
            exact h2 i hi1 (by show i < n; have : i ≤ n - 1 := hi2; omega)
          · show ¬ borderOpen dd splitTiles xx yy dir_x dir_y offs_x offs_y (n - 1 + 1)
            rw [show n - 1 + 1 = n by omega]; exact hq
      · intro i hi hqi
        by_cases hin : i = n
        · rw [hin] at hqi; exact absurd hqi hq
        · by_cases hia : i < a
          · obtain ⟨r, hr, c⟩ := h5 i hia hqi
            exact ⟨r, List.mem_append_left _ hr, c⟩
          · exact ⟨(a, n - 1), List.mem_append_right _ (List.mem_singleton.2 rfl),
              by show a ≤ i; omega, by show i ≤ n - 1; omega⟩

/-- The invariant holds after any number of positions. -/
theorem borderScan_inv (dd : DungeonData) (splitTiles xx yy dir_x dir_y : Nat)
    (offs_x offs_y : Int) (n : Nat) :
    ∃ runs, BorderInv (borderOpen dd splitTiles xx yy dir_x dir_y offs_x offs_y)
      (spanPortal splitTiles xx yy dir_x dir_y offs_x offs_y) n
      ((List.range n).foldl (borderStep dd splitTiles xx yy dir_x dir_y offs_x offs_y)
        ⟨-1, -1, []⟩) runs := by
  induction n with
  | zero =>
    refine ⟨[], rfl, List.Pairwise.nil, (fun r hr => by cases hr), Or.inl ⟨rfl, Or.inl rfl, ?_⟩⟩
    intro i hi; omega
  | succ n ih =>
    obtain ⟨runs, inv⟩ := ih
    rw [List.range_succ, List.foldl_append]
    exact borderStep_inv dd splitTiles xx yy dir_x dir_y offs_x offs_y n _ runs inv

/-- The portals written by `check_border` are the spans of the maximal runs of
open positions, in order. -/
theorem check_border_runs (dd : DungeonData) (splitTiles xx yy dir_x dir_y : Nat)
    (offs_x offs_y : Int) :
    ∃ runs, check_border dd splitTiles xx yy dir_x dir_y offs_x offs_y =
        runs.map (fun r => spanPortal splitTiles xx yy dir_x dir_y offs_x offs_y (r.1 : Int)
          (r.2 : Int)) ∧
      FinalRuns (borderOpen dd splitTiles xx yy dir_x dir_y offs_x offs_y) splitTiles runs := by
  obtain ⟨runs, inv⟩ := borderScan_inv dd splitTiles xx yy dir_x dir_y offs_x offs_y splitTiles
  unfold check_border
  simp only
  generalize (List.range splitTiles).foldl
    (borderStep dd splitTiles xx yy dir_x dir_y offs_x offs_y) ⟨-1, -1, []⟩ = st at inv
  have hmax : ∀ r ∈ runs,
      IsMaxRun (borderOpen dd splitTiles xx yy dir_x dir_y offs_x offs_y) splitTiles r.1 r.2 := by
    intro r hr
    obtain ⟨c1, c2, c3, c4, c5⟩ := inv.closed r hr
    exact ⟨c1, by omega, c3, c4, Or.inr c5⟩
  rcases inv.cur with ⟨e, h1, h2⟩ | ⟨a, e1, e2, h1, h2, h3, h4, h5⟩
  · rw [if_neg (by omega)]
    exact ⟨runs, inv.portals, inv.sep, hmax, h2⟩
  · rw [if_pos (by omega)]
    refine ⟨runs ++ [(a, splitTiles - 1)], ?_, ?_, ?_, ?_⟩
    · rw [List.map_append, inv.portals, e1, e2]
      rfl
    · rw [List.pairwise_append]
      refine ⟨inv.sep, List.pairwise_singleton _ _, ?_⟩
      intro r hr r2 hr2
      rw [List.mem_singleton.1 hr2]
      exact h4 r hr
    · intro r hr
      rcases List.mem_append.1 hr with h | h
      · exact hmax r h
      · rw [List.mem_singleton.1 h]
        refine ⟨by show a ≤ splitTiles - 1; omega, by show splitTiles - 1 < splitTiles; omega,
          ?_, h3, Or.inl (by show splitTiles - 1 + 1 = splitTiles; omega)⟩
        intro i hi1 hi2
        exact h2 i hi1 (by show i < splitTiles; have : i ≤ splitTiles - 1 := hi2; omega)
    · intro i hi hqi
      by_cases hia : i < a
      · obtain ⟨r, hr, c⟩ := h5 i hia hqi
        exact ⟨r, List.mem_append_left _ hr, c⟩
      · exact ⟨(a, splitTiles - 1), List.mem_append_right _ (List.mem_singleton.2 rfl),
          by show a ≤ i; omega, by show i ≤ splitTiles - 1; omega⟩

/-- Two maximal runs that share a position are the same run. -/
theorem maxRun_unique (q : Nat → Prop) (n a b a2 b2 i : Nat) (h1 : IsMaxRun q n a b)
    (h2 : IsMaxRun q n a2 b2) (hi1 : a ≤ i ∧ i ≤ b) (hi2 : a2 ≤ i ∧ i ≤ b2) :
    a = a2 ∧ b = b2 := by
  obtain ⟨c1, c2, c3, c4, c5⟩ := h1
  obtain ⟨d1, d2, d3, d4, d5⟩ := h2
  refine ⟨?_, ?_⟩
  · by_contra hne
    rcases Nat.lt_or_gt_of_ne hne with h | h
    · rcases d4 with e | e
      · omega
      · exact e (c3 (a2 - 1) (by omega) (by omega))
    · rcases c4 with e | e
      · omega
      · exact e (d3 (a - 1) (by omega) (by omega))
  · by_contra hne
    rcases Nat.lt_or_gt_of_ne hne with h | h
    · rcases c5 with e | e
      · omega
      · exact e (d3 (b + 1) (by omega) (by omega))
    · rcases d5 with e | e
      · omega
      · exact e (c3 (b2 + 1) (by omega) (by omega))

/-- The runs of a finished scan are all the maximal runs. -/
theorem finalRuns_mem (q : Nat → Prop) (n : Nat) (runs : List (Nat × Nat))
    (h : FinalRuns q n runs) (a b : Nat) : (a, b) ∈ runs ↔ IsMaxRun q n a b := by
  constructor
  · intro hm; exact h.maximal (a, b) hm
  · intro hm
    obtain ⟨r, hr, c1, c2⟩ := h.cover a (by have := hm.1; have := hm.2.1; omega)
      (hm.2.2.1 a (Nat.le_refl _) hm.1)
    obtain ⟨e1, e2⟩ := maxRun_unique q n r.1 r.2 a b a (h.maximal r hr) hm ⟨c1, c2⟩
      ⟨Nat.le_refl _, hm.1⟩
    have : r = (a, b) := Prod.ext e1 e2
    rw [← this]; exact hr

/-- Every position that satisfies `q` lies in exactly one run of a finished scan. -/
theorem finalRuns_unique (q : Nat → Prop) (n : Nat) (runs : List (Nat × Nat))
    (h : FinalRuns q n runs) (i : Nat) (hi : i < n) (hq : q i) :
    ∃! r, r ∈ runs ∧ r.1 ≤ i ∧ i ≤ r.2 := by
  obtain ⟨r, hr, c1, c2⟩ := h.cover i hi hq
  refine ⟨r, ⟨hr, c1, c2⟩, ?_⟩
  rintro r2 ⟨hr2, d1, d2⟩
  obtain ⟨e1, e2⟩ := maxRun_unique q n r2.1 r2.2 r.1 r.2 i (h.maximal r2 hr2) (h.maximal r hr)
    ⟨d1, d2⟩ ⟨c1, c2⟩
  exact Prod.ext e1 e2

/-- When the positions that satisfy `q` are exactly `a` to `a + L - 1`, a
finished scan has this one run. -/
theorem finalRuns_single (q : Nat → Prop) (n : Nat) (runs : List (Nat × Nat))
    (h : FinalRuns q n runs) (a L : Nat) (hL : 0 < L) (hn : a + L ≤ n)
    (hq : ∀ i, i < n → (q i ↔ a ≤ i ∧ i < a + L)) : runs = [(a, a + L - 1)] := by
  have hall : ∀ r ∈ runs, r = (a, a + L - 1) := by
    intro r hr
    obtain ⟨c1, c2, c3, c4, c5⟩ := h.maximal r hr
    have q1 := (hq r.1 (by omega)).1 (c3 r.1 (Nat.le_refl _) c1)
    have q2 := (hq r.2 c2).1 (c3 r.2 c1 (Nat.le_refl _))
    have e1 : r.1 = a := by
      rcases c4 with e | e
      · omega
      · by_contra hne
        exact e ((hq (r.1 - 1) (by omega)).2 (by omega))
    have e2 : r.2 = a + L - 1 := by
      rcases c5 with e | e
      · omega
      · by_contra hne
        exact e ((hq (r.2 + 1) (by omega)).2 (by omega))
    exact Prod.ext e1 e2
  obtain ⟨r, hr, _⟩ := h.cover a (by omega) ((hq a (by omega)).2 (by omega))
  have hsep := h.sep
  cases runs with
  | nil => cases hr
  | cons r1 rest =>
    have e1 := hall r1 (List.mem_cons_self _ _)
    cases rest with
    | nil => rw [e1]
    | cons r2 rest2 =>
      have e2 := hall r2 (List.mem_cons_of_mem _ (List.mem_cons_self _ _))
      have hlt := List.rel_of_pairwise_cons hsep (List.mem_cons_self _ _)
      rw [e1, e2] at hlt
      simp only at hlt
      omega

theorem toInt32_small (n : Nat) (h : n < 2 ^ 31) : toInt32 n = (n : Int) := by
  unfold toInt32
  have : n % 2 ^ 32 = n := Nat.mod_eq_of_lt (by omega)
  rw [this, if_pos h]

theorem toSizeT_neg_one : toSizeT (-1) = 2 ^ 64 - 1 := by decide

theorem toSizeT_zero : toSizeT 0 = 0 := by decide

theorem toSizeT_natCast (n : Nat) (h : n < 2 ^ 64) : toSizeT (n : Int) = n := by
  rw [toSizeT_of_nonneg _ (by omega) (by omega)]; simp

theorem isMaxRun_congr (q q2 : Nat → Prop) (n a b : Nat) (h : ∀ i, i < n → (q i ↔ q2 i)) :
    IsMaxRun q n a b → IsMaxRun q2 n a b := by
  rintro ⟨c1, c2, c3, c4, c5⟩
  refine ⟨c1, c2, fun i h1 h2 => (h i (by omega)).1 (c3 i h1 h2), ?_, ?_⟩
  · rcases c4 with e | e
    · exact Or.inl e
    · by_cases ha : a = 0
      · exact Or.inl ha
      · exact Or.inr fun hq => e ((h (a - 1) (by omega)).2 hq)
  · rcases c5 with e | e
    · exact Or.inl e
    · by_cases hb : b + 1 = n
      · exact Or.inl hb
      · exact Or.inr fun hq => e ((h (b + 1) (by omega)).2 hq)

theorem finalRuns_congr (q q2 : Nat → Prop) (n : Nat) (runs : List (Nat × Nat))
    (h : ∀ i, i < n → (q i ↔ q2 i)) (hf : FinalRuns q n runs) : FinalRuns q2 n runs :=
  ⟨hf.sep, fun r hr => isMaxRun_congr q q2 n r.1 r.2 h (hf.maximal r hr),
    fun i hi hq => hf.cover i hi ((h i hi).2 hq)⟩

/-- What `check_border` yields on a border, with the test and the portal
written in terms of `q2` and `span2`. -/
theorem check_border_cells (dd : DungeonData) (s xx yy dir_x dir_y : Nat) (offs_x offs_y : Int)
    (q2 : Nat → Prop) (span2 : Nat → Nat → PathPortal)
    (hq : ∀ i, i < s → (borderOpen dd s xx yy dir_x dir_y offs_x offs_y i ↔ q2 i))
    (hspan : ∀ a b, a ≤ b → b < s →
      spanPortal s xx yy dir_x dir_y offs_x offs_y (a : Int) (b : Int) = span2 a b) :
    ∃ runs : List (Nat × Nat),
      check_border dd s xx yy dir_x dir_y offs_x offs_y = runs.map (fun r => span2 r.1 r.2) ∧
      runs.Pairwise (fun r r2 => r.2 + 1 < r2.1) ∧
      (∀ a b, (a, b) ∈ runs ↔ IsMaxRun q2 s a b) ∧
      (∀ i, i < s → q2 i → ∃! r, r ∈ runs ∧ r.1 ≤ i ∧ i ≤ r.2) ∧
      (∀ a L, 0 < L → a + L ≤ s → (∀ i, i < s → (q2 i ↔ a ≤ i ∧ i < a + L)) →
        check_border dd s xx yy dir_x dir_y offs_x offs_y = [span2 a (a + L - 1)]) := by
  obtain ⟨runs, h1, h2⟩ := check_border_runs dd s xx yy dir_x dir_y offs_x offs_y
  have h3 := finalRuns_congr _ q2 s runs hq h2
  have hmap : runs.map (fun r => spanPortal s xx yy dir_x dir_y offs_x offs_y (r.1 : Int)
      (r.2 : Int)) = runs.map (fun r => span2 r.1 r.2) := by
    apply List.map_congr_left
    intro r hr
    obtain ⟨c1, c2, _⟩ := h3.maximal r hr
    exact hspan r.1 r.2 c1 c2
  rw [hmap] at h1
  refine ⟨runs, h1, h3.sep, finalRuns_mem q2 s runs h3, finalRuns_unique q2 s runs h3, ?_⟩
  intro a L hL hn hq2
  rw [h1, finalRuns_single q2 s runs h3 a L hL hn hq2]
  rfl

theorem grid_dims (dd : DungeonData) (s x y : Nat) (hwf : WellFormed dd) (hs : 1 ≤ s)
    (hx : (x + 1) * s ≤ dd.width) (hy : (y + 1) * s ≤ dd.height) :
    x * s + s ≤ dd.width ∧ y * s + s ≤ dd.height ∧ dd.width < 2 ^ 24 ∧ dd.height < 2 ^ 24 := by
  have e1 : (x + 1) * s = x * s + s := by ring
  have e2 : (y + 1) * s = y * s + s := by ring
  have hsz := hwf.2
  have hw : 0 < dd.width := by omega
  have hh : 0 < dd.height := by omega
  have h1 : dd.width ≤ dd.width * dd.height := Nat.le_mul_of_pos_right _ hh
  have h2 : dd.height ≤ dd.width * dd.height := Nat.le_mul_of_pos_left _ hw
  omega

theorem isWall_inGrid (dd : DungeonData) (a b : Nat) (hsz : dd.width * dd.height < 2 ^ 24)
    (ha : a < dd.width) (hb : b < dd.height) :
    isWall dd ⟨(a : Int), (b : Int)⟩ ↔ tileAt dd (b * dd.width + a) = Tile.wall := by
  unfold isWall
  rw [coord_to_idx_inGrid dd ⟨(a : Int), (b : Int)⟩ hsz
    ⟨by show (0 : Int) ≤ (a : Int); omega, by show (a : Int) < dd.width; omega,
      by show (0 : Int) ≤ (b : Int); omega, by show (b : Int) < dd.height; omega⟩]
  simp

theorem borderOpen_top (dd : DungeonData) (s x y i : Nat) (hwf : WellFormed dd) (hs : 1 ≤ s)
    (hx : (x + 1) * s ≤ dd.width) (hy : (y + 1) * s ≤ dd.height) (hy0 : 0 < y) (hi : i < s) :
    borderOpen dd s x y 1 0 0 (-1) i ↔ topOpen dd s x y i := by
  obtain ⟨d1, d2, d3, d4⟩ := grid_dims dd s x y hwf hs hx hy
  have hys : 1 ≤ y * s := Nat.mul_pos hy0 hs
  unfold borderOpen topOpen
  rw [toSizeT_neg_one, toSizeT_zero]
  have e1 : (y * s + i * 0 + (2 ^ 64 - 1)) % 2 ^ 64 = y * s - 1 := by omega
  have e2 : (x * s + i * 1 + 0) % 2 ^ 64 = x * s + i := by omega
  have e3 : (((y * s : Nat) : Int) - 1) = ((y * s - 1 : Nat) : Int) := by omega
  rw [e1, e2, e3, isWall_inGrid dd _ _ hwf.2 (by omega) (by omega),
    isWall_inGrid dd _ _ hwf.2 (by omega) (by omega)]
  simp

theorem borderOpen_left (dd : DungeonData) (s x y i : Nat) (hwf : WellFormed dd) (hs : 1 ≤ s)
    (hx : (x + 1) * s ≤ dd.width) (hy : (y + 1) * s ≤ dd.height) (hx0 : 0 < x) (hi : i < s) :
    borderOpen dd s x y 0 1 (-1) 0 i ↔ leftOpen dd s x y i := by
  obtain ⟨d1, d2, d3, d4⟩ := grid_dims dd s x y hwf hs hx hy
  have hxs : 1 ≤ x * s := Nat.mul_pos hx0 hs
  unfold borderOpen leftOpen
  rw [toSizeT_neg_one, toSizeT_zero]
  have e1 : (y * s + i * 1 + 0) % 2 ^ 64 = y * s + i := by omega
  have e2 : (x * s + i * 0 + (2 ^ 64 - 1)) % 2 ^ 64 = x * s - 1 := by omega
  have e3 : (((x * s : Nat) : Int) - 1) = ((x * s - 1 : Nat) : Int) := by omega
  rw [e1, e2, e3, isWall_inGrid dd _ _ hwf.2 (by omega) (by omega),
    isWall_inGrid dd _ _ hwf.2 (by omega) (by omega)]
  simp

theorem spanPortal_top (s x y a b : Nat) (hx : x * s + s < 2 ^ 24) (hy : y * s + s < 2 ^ 24)
    (hy0 : 1 ≤ y * s) (ha : a < s) (hb : b < s) :
    spanPortal s x y 1 0 0 (-1) (a : Int) (b : Int) = topPortal s x y a b := by
  unfold spanPortal topPortal
  rw [toSizeT_neg_one, toSizeT_zero, toSizeT_natCast a (by omega), toSizeT_natCast b (by omega)]
  have e1 : (x * s + a * 1 + 0) % 2 ^ 64 = x * s + a := by omega
  have e2 : (y * s + a * 0 + (2 ^ 64 - 1)) % 2 ^ 64 = y * s - 1 := by omega
  have e3 : (x * s + b * 1) % 2 ^ 64 = x * s + b := by omega
  have e4 : (y * s + b * 0) % 2 ^ 64 = y * s := by omega
  rw [e1, e2, e3, e4]

theorem spanPortal_left (s x y a b : Nat) (hx : x * s + s < 2 ^ 24) (hy : y * s + s < 2 ^ 24)
    (hx0 : 1 ≤ x * s) (ha : a < s) (hb : b < s) :
    spanPortal s x y 0 1 (-1) 0 (a : Int) (b : Int) = leftPortal s x y a b := by
  unfold spanPortal leftPortal
  rw [toSizeT_neg_one, toSizeT_zero, toSizeT_natCast a (by omega), toSizeT_natCast b (by omega)]
  have e1 : (x * s + a * 0 + (2 ^ 64 - 1)) % 2 ^ 64 = x * s - 1 := by omega
  have e2 : (y * s + a * 1 + 0) % 2 ^ 64 = y * s + a := by omega
  have e3 : (x * s + b * 0) % 2 ^ 64 = x * s := by omega
  have e4 : (y * s + b * 1) % 2 ^ 64 = y * s + b := by omega
  rw [e1, e2, e3, e4]

/-! ## Portal extraction over all regions: registration -/

theorem pushAt_length (v : List (List Nat)) (i a : Nat) : (pushAt v i a).length = v.length := by
  induction v generalizing i with
  | nil => rfl
  | cons l ls ih =>
    cases i with
    | zero => rfl
    | succ i => simp [pushAt, ih]

theorem pushAt_getD_self (v : List (List Nat)) (i a : Nat) (h : i < v.length) :
    (pushAt v i a).getD i [] = v.getD i [] ++ [a] := by
  induction v generalizing i with
  | nil => simp at h
  | cons l ls ih =>
    cases i with
    | zero => simp [pushAt]
    | succ i =>
      simp only [pushAt, List.getD_cons_succ]
      exact ih i (by simpa using h)

theorem pushAt_getD_ne (v : List (List Nat)) (i j a : Nat) (h : j ≠ i) :
    (pushAt v i a).getD j [] = v.getD j [] := by
  induction v generalizing i j with
  | nil => rfl
  | cons l ls ih =>
    cases i with
    | zero =>
      cases j with
      | zero => exact absurd rfl h
      | succ j => simp [pushAt]
    | succ i =>
      cases j with
      | zero => simp [pushAt]
      | succ j =>
        simp only [pushAt, List.getD_cons_succ]
        exact ih i j (by omega)

theorem regList_append (W : Nat) (D : List PortalDesc) (d : PortalDesc) (r : Nat) :
    regList W (D ++ [d]) r = regList W D r ++ (if descRegs W d r then [D.length] else []) := by
  unfold regList
  rw [List.length_append, List.length_singleton, List.range_succ, List.filter_append]
  congr 1
  · apply List.filter_congr
    intro k hk
    rw [List.mem_range] at hk
    rw [List.getD_append _ _ _ _ hk]
  · have e : (D ++ [d]).getD D.length ⟨0, 0, false, 0, 0⟩ = d := by
      rw [List.getD_append_right _ _ _ _ (Nat.le_refl _)]; simp
    rw [List.filter_cons, e]
    by_cases h : descRegs W d r <;> simp [h]

theorem descNbr_lt (dd : DungeonData) (s W H : Nat) (d : PortalDesc) (h : DescOk dd s W H d) :
    descNbr W d < descHome W d := by
  obtain ⟨h1, _, h3⟩ := h
  unfold descNbr descHome
  rcases h3 with ⟨e, hy, _⟩ | ⟨e, hx, _⟩
  · rw [if_pos e]
    have : d.y * W = (d.y - 1) * W + W := by
      conv_lhs => rw [show d.y = d.y - 1 + 1 by omega]
      ring
    omega
  · rw [e]; simp only [Bool.false_eq_true, if_false]; omega

/-- The loop of `push_portals` over the portals of descriptions `ds` of the
region at position `n`, registered across the border at position `nb`. -/
theorem push_portals_inv (dd : DungeonData) (s W H x y : Nat) (offs_x offs_y : Int) (n nb : Nat)
    (hn : y * W + x = n)
    (hnb : (((y + toSizeT offs_y) % 2 ^ 64) * W + x + toSizeT offs_x) % 2 ^ 64 = nb)
    (hlt : nb < n) :
    ∀ (ds : List PortalDesc) (t : PortalTables) (D : List PortalDesc),
      ExtInv dd s W H (n + 1) t D →
      (∀ d ∈ ds, DescOk dd s W H d ∧ descHome W d = n ∧ descNbr W d = nb) →
      ExtInv dd s W H (n + 1) (push_portals W x y offs_x offs_y (ds.map (descPortal s)) t)
        (D ++ ds) := by
  intro ds
  induction ds with
  | nil =>
    intro t D inv _
    rw [List.append_nil]
    exact inv
  | cons d ds ih =>
    intro t D inv hds
    obtain ⟨dok, dh, dn⟩ := hds d (List.mem_cons_self _ _)
    have hstep : push_portals W x y offs_x offs_y ((d :: ds).map (descPortal s)) t =
        push_portals W x y offs_x offs_y (ds.map (descPortal s))
          { portals := t.portals ++ [descPortal s d]
            tilePortalsIndices :=
              pushAt (pushAt t.tilePortalsIndices n t.portals.length) nb t.portals.length } := by
      unfold push_portals
      rw [List.map_cons, List.foldl_cons, hn, hnb]
    rw [hstep, show D ++ d :: ds = (D ++ [d]) ++ ds by simp]
    refine ih _ (D ++ [d]) ?_ (fun d2 h2 => hds d2 (List.mem_cons_of_mem _ h2))
    have hlenD : t.portals.length = D.length := by rw [inv.portals, List.length_map]
    refine ⟨?_, ?_, ?_, ?_⟩
    · show t.portals ++ [descPortal s d] = _
      rw [inv.portals, List.map_append]
      rfl
    · show (pushAt (pushAt t.tilePortalsIndices n t.portals.length) nb t.portals.length).length = _
      rw [pushAt_length, pushAt_length, inv.len]
    · intro r hr
      show (pushAt (pushAt t.tilePortalsIndices n t.portals.length) nb t.portals.length).getD r []
        = _
      rw [regList_append, ← inv.lists r hr, hlenD]
      by_cases h1 : r = nb
      · rw [h1, pushAt_getD_self _ _ _ (by rw [pushAt_length, inv.len]; omega),
          pushAt_getD_ne _ _ _ _ (by omega), if_pos (show descRegs W d nb from Or.inr dn)]
      · rw [pushAt_getD_ne _ _ _ _ h1]
        by_cases h2 : r = n
        · rw [h2, pushAt_getD_self _ _ _ (by rw [inv.len]; omega), if_pos (show descRegs W d n from Or.inl dh)]
        · rw [pushAt_getD_ne _ _ _ _ h2, if_neg, List.append_nil]
          rintro (e | e)
          · exact h2 (by rw [← e, dh])
          · exact h1 (by rw [← e, dn])
    · intro d2 h2
      rcases List.mem_append.1 h2 with h | h
      · exact inv.ok d2 h
      · rw [List.mem_singleton.1 h]
        exact ⟨dok, by omega⟩

theorem regList_nil_of_lt (dd : DungeonData) (s W H n : Nat) (D : List PortalDesc)
    (hok : ∀ d ∈ D, DescOk dd s W H d ∧ descHome W d < n) : regList W D n = [] := by
  unfold regList
  rw [List.filter_eq_nil_iff]
  intro k hk
  rw [List.mem_range] at hk
  have hm : D.getD k ⟨0, 0, false, 0, 0⟩ ∈ D := getD_mem D k _ hk
  obtain ⟨h1, h2⟩ := hok _ hm
  have h3 := descNbr_lt dd s W H _ h1
  simp only [decide_eq_true_eq]
  rintro (e | e) <;> omega

theorem region_bounds (dd : DungeonData) (s x y : Nat) (hs : 1 ≤ s)
    (hx : x < dd.width / s) (hy : y < dd.height / s) :
    (x + 1) * s ≤ dd.width ∧ (y + 1) * s ≤ dd.height ∧
      y * (dd.width / s) + x < dd.width / s * (dd.height / s) ∧
      dd.width / s * (dd.height / s) ≤ dd.width * dd.height := by
  refine ⟨(Nat.le_div_iff_mul_le (by omega)).1 hx, (Nat.le_div_iff_mul_le (by omega)).1 hy, ?_,
    Nat.mul_le_mul (Nat.div_le_self _ _) (Nat.div_le_self _ _)⟩
  calc y * (dd.width / s) + x < y * (dd.width / s) + dd.width / s := by omega
    _ = (y + 1) * (dd.width / s) := by ring
    _ ≤ dd.height / s * (dd.width / s) := Nat.mul_le_mul_right _ hy
    _ = dd.width / s * (dd.height / s) := Nat.mul_comm _ _

/-- The body of the extraction loops for region `(x, y)` keeps the invariant. -/
theorem extractRegion_inv (dd : DungeonData) (s x y : Nat) (t : PortalTables)
    (D : List PortalDesc) (hwf : WellFormed dd) (hs : 1 ≤ s)
    (hx : x < dd.width / s) (hy : y < dd.height / s)
    (inv : ExtInv dd s (dd.width / s) (dd.height / s) (y * (dd.width / s) + x) t D) :
    ∃ D2, ExtInv dd s (dd.width / s) (dd.height / s) (y * (dd.width / s) + x + 1)
      (extractRegion dd s (dd.width / s) t y x) D2 := by
  obtain ⟨bx, byy, bn, bw⟩ := region_bounds dd s x y hs hx hy
  have hsz := hwf.2
  have hxb : x < 2 ^ 24 :=
    Nat.lt_of_lt_of_le hx (Nat.le_trans (Nat.div_le_self _ _)
      (Nat.le_of_lt (grid_dims dd s x y hwf hs bx byy).2.2.1))
  have hyb : y < 2 ^ 24 :=
    Nat.lt_of_lt_of_le hy (Nat.le_trans (Nat.div_le_self _ _)
      (Nat.le_of_lt (grid_dims dd s x y hwf hs bx byy).2.2.2))
  have inv0 : ExtInv dd s (dd.width / s) (dd.height / s) (y * (dd.width / s) + x + 1)
      { t with tilePortalsIndices := t.tilePortalsIndices ++ [[]] } D := by
    refine ⟨inv.portals, ?_, ?_, fun d hd => ⟨(inv.ok d hd).1, by have := (inv.ok d hd).2; omega⟩⟩
    · show (t.tilePortalsIndices ++ [[]]).length = _
      rw [List.length_append, inv.len]; rfl
    · intro r hr
      show (t.tilePortalsIndices ++ [[]]).getD r [] = _
      by_cases hrn : r < y * (dd.width / s) + x
      · rw [List.getD_append _ _ _ _ (by rw [inv.len]; exact hrn)]
        exact inv.lists r hrn
      · have e : r = y * (dd.width / s) + x := by omega
        rw [List.getD_append_right _ _ _ _ (by rw [inv.len]; omega), inv.len, e,
          regList_nil_of_lt dd s _ _ _ D inv.ok]
        simp
  have htop : ∃ D1, ExtInv dd s (dd.width / s) (dd.height / s) (y * (dd.width / s) + x + 1)
      (if y > 0 then
        push_portals (dd.width / s) x y 0 (-1) (check_border dd s x y 1 0 0 (-1))
          { t with tilePortalsIndices := t.tilePortalsIndices ++ [[]] }
      else { t with tilePortalsIndices := t.tilePortalsIndices ++ [[]] }) D1 := by
    by_cases hy0 : y > 0
    · rw [if_pos hy0]
      obtain ⟨d1, d2, d3, d4⟩ := grid_dims dd s x y hwf hs bx byy
      obtain ⟨runs, h1, _, h3, _⟩ := check_border_cells dd s x y 1 0 0 (-1) (topOpen dd s x y)
        (topPortal s x y)
        (fun i hi => borderOpen_top dd s x y i hwf hs bx byy hy0 hi)
        (fun a b hab hb => spanPortal_top s x y a b (by omega) (by omega)
          (Nat.mul_pos hy0 hs) (by omega) hb)
      have hmap : check_border dd s x y 1 0 0 (-1) =
          (runs.map (fun r => (⟨x, y, true, r.1, r.2⟩ : PortalDesc))).map (descPortal s) := by
        rw [h1, List.map_map]
        apply List.map_congr_left
        intro r _
        simp [descPortal]
      have hW : y * (dd.width / s) = (y - 1) * (dd.width / s) + dd.width / s := by
        conv_lhs => rw [show y = y - 1 + 1 by omega]
        ring
      rw [hmap]
      refine ⟨_, push_portals_inv dd s (dd.width / s) (dd.height / s) x y 0 (-1)
        (y * (dd.width / s) + x) ((y - 1) * (dd.width / s) + x) rfl ?_ (by omega) _ _ D inv0 ?_⟩
      · rw [toSizeT_neg_one, toSizeT_zero]
        have e1 : (y + (2 ^ 64 - 1)) % 2 ^ 64 = y - 1 := by omega
        rw [e1]
        omega
      · intro d hd
        obtain ⟨r, hr, rfl⟩ := List.mem_map.1 hd
        refine ⟨⟨hx, hy, Or.inl ⟨rfl, hy0, (h3 r.1 r.2).1 hr⟩⟩, rfl, ?_⟩
        simp [descNbr]
    · rw [if_neg hy0]
      exact ⟨D, inv0⟩
  obtain ⟨D1, inv1⟩ := htop
  unfold extractRegion
  simp only
  generalize (if y > 0 then
      push_portals (dd.width / s) x y 0 (-1) (check_border dd s x y 1 0 0 (-1))
        { t with tilePortalsIndices := t.tilePortalsIndices ++ [[]] }
    else { t with tilePortalsIndices := t.tilePortalsIndices ++ [[]] }) = t1 at inv1 ⊢
  by_cases hx0 : x > 0
  · rw [if_pos hx0]
    obtain ⟨d1, d2, d3, d4⟩ := grid_dims dd s x y hwf hs bx byy
    obtain ⟨runs, h1, _, h3, _⟩ := check_border_cells dd s x y 0 1 (-1) 0 (leftOpen dd s x y)
      (leftPortal s x y)
      (fun i hi => borderOpen_left dd s x y i hwf hs bx byy hx0 hi)
      (fun a b hab hb => spanPortal_left s x y a b (by omega) (by omega)
        (Nat.mul_pos hx0 hs) (by omega) hb)
    have hmap : check_border dd s x y 0 1 (-1) 0 =
        (runs.map (fun r => (⟨x, y, false, r.1, r.2⟩ : PortalDesc))).map (descPortal s) := by
      rw [h1, List.map_map]
      apply List.map_congr_left
      intro r _
      simp [descPortal]
    rw [hmap]
    refine ⟨_, push_portals_inv dd s (dd.width / s) (dd.height / s) x y (-1) 0
      (y * (dd.width / s) + x) (y * (dd.width / s) + x - 1) rfl ?_ (by omega) _ _ D1 inv1 ?_⟩
    · rw [toSizeT_neg_one, toSizeT_zero]
      have e1 : (y + 0) % 2 ^ 64 = y := by omega
      rw [e1]
      omega
    · intro d hd
      obtain ⟨r, hr, rfl⟩ := List.mem_map.1 hd
      refine ⟨⟨hx, hy, Or.inr ⟨rfl, hx0, (h3 r.1 r.2).1 hr⟩⟩, rfl, ?_⟩
      simp [descNbr]
  · rw [if_neg hx0]
    exact ⟨D1, inv1⟩

/-- The extraction phase of `prebuild_map`: the portals are those of a list of
descriptions, and every list of `tilePortalsIndices` holds, in order, the
indices of the portals registered for its region. -/
theorem extractPortals_inv (dd : DungeonData) (s : Nat) (hwf : WellFormed dd) (hs : 1 ≤ s) :
    ∃ D, ExtInv dd s (dd.width / s) (dd.height / s) (dd.height / s * (dd.width / s))
      (extractPortals dd s) D := by
  have hrow : ∀ (y : Nat), y < dd.height / s → ∀ (x0 : Nat), x0 ≤ dd.width / s →
      ∀ (t : PortalTables) (D : List PortalDesc),
      ExtInv dd s (dd.width / s) (dd.height / s) (y * (dd.width / s)) t D →
      ∃ D2, ExtInv dd s (dd.width / s) (dd.height / s) (y * (dd.width / s) + x0)
        ((List.range x0).foldl (fun t x => extractRegion dd s (dd.width / s) t y x) t) D2 := by
    intro y hy x0
    induction x0 with
    | zero => intro _ t D inv; exact ⟨D, inv⟩
    | succ x0 ih =>
      intro hx t D inv
      obtain ⟨D1, inv1⟩ := ih (by omega) t D inv
      rw [List.range_succ, List.foldl_append]
      exact extractRegion_inv dd s x0 y _ D1 hwf hs (by omega) hy inv1
  have hall : ∀ (y0 : Nat), y0 ≤ dd.height / s →
      ∃ D, ExtInv dd s (dd.width / s) (dd.height / s) (y0 * (dd.width / s))
        ((List.range y0).foldl
          (fun t y => (List.range (dd.width / s)).foldl
            (fun t x => extractRegion dd s (dd.width / s) t y x) t) ⟨[], []⟩) D := by
    intro y0
    induction y0 with
    | zero =>
      intro _
      refine ⟨[], rfl, by simp, fun r hr => by omega, fun d hd => by cases hd⟩
    | succ y0 ih =>
      intro hy
      obtain ⟨D1, inv1⟩ := ih (by omega)
      rw [List.range_succ, List.foldl_append]
      obtain ⟨D2, inv2⟩ := hrow y0 (by omega) (dd.width / s) (Nat.le_refl _) _ D1 inv1
      refine ⟨D2, ?_⟩
      rw [show (y0 + 1) * (dd.width / s) = y0 * (dd.width / s) + dd.width / s by ring]
      exact inv2
  exact hall (dd.height / s) (Nat.le_refl _)

/-! ## The connection phase: proof rule -/

/-- A loop that threads a value which may be missing: when every pass from a
value with property `P` gives a value with property `P`, so does the loop. -/
theorem foldl_option_rule {α β : Type} (f : Option α → β → Option α) (P : α → Prop) :
    ∀ (l : List β), (∀ b ∈ l, ∀ a, P a → ∃ a2, f (some a) b = some a2 ∧ P a2) →
      ∀ a, P a → ∃ a2, l.foldl f (some a) = some a2 ∧ P a2 := by
  intro l
  induction l with
  | nil => intro _ a ha; exact ⟨a, rfl, ha⟩
  | cons b l ih =>
    intro h a ha
    obtain ⟨a1, e1, h1⟩ := h b (List.mem_cons_self _ _) a ha
    rw [List.foldl_cons, e1]
    exact ih (fun b2 hb2 => h b2 (List.mem_cons_of_mem _ hb2)) a1 h1

/-- Proof rule for the connection phase: a property of the portal vector that
every pass of the innermost loop body keeps holds at the end. -/
theorem connect_rule (dd : DungeonData) (s W : Nat) (tPI : List (List Nat))
    (P : List PathPortal → Prop)
    (hstep : ∀ tidx, tidx < tPI.length → ∀ i j, i < j → j < (tPI.getD tidx []).length →
      ∀ ps, P ps → ∃ ps2, connectPair dd (tileMin s W tidx) (tileMax s W tidx)
        (tPI.getD tidx []) i (some ps) j = some ps2 ∧ P ps2) :
    ∀ ps0, P ps0 → ∃ ps,
      (List.range tPI.length).foldl (connectRegion dd s W tPI) (some ps0) = some ps ∧ P ps := by
  refine foldl_option_rule _ P _ ?_
  intro tidx htidx ps hps
  rw [List.mem_range] at htidx
  show ∃ a2, (List.range (tPI.getD tidx []).length).foldl
      (fun portals i =>
        (List.range' (i + 1) ((tPI.getD tidx []).length - (i + 1))).foldl
          (connectPair dd (tileMin s W tidx) (tileMax s W tidx) (tPI.getD tidx []) i) portals)
      (some ps) = some a2 ∧ P a2
  refine foldl_option_rule _ P _ ?_ ps hps
  intro i hi ps1 hps1
  rw [List.mem_range] at hi
  show ∃ a2, (List.range' (i + 1) ((tPI.getD tidx []).length - (i + 1))).foldl
      (connectPair dd (tileMin s W tidx) (tileMax s W tidx) (tPI.getD tidx []) i) (some ps1)
      = some a2 ∧ P a2
  refine foldl_option_rule _ P _ ?_ ps1 hps1
  intro j hj ps2 hps2
  rw [List.mem_range'_1] at hj
  exact hstep tidx htidx i j (by omega) (by omega) ps2 hps2

/-- What the four span loops compute: the flag is set exactly when a pair of
distinct cells has the empty path, and otherwise `minDist` is the least of its
initial value and the lengths of the paths. -/
theorem scanPairs_spec (dd : DungeonData) (limMin limMax : IVec2) :
    ∀ (pairs : List (IVec2 × IVec2)) (m0 : Nat),
      (∀ pr ∈ pairs, ∃ path, find_path_a_star dd pr.1 pr.2 limMin limMax = some path) →
      ∃ np m, scanPairs dd limMin limMax pairs m0 = some (np, m) ∧
        (np = true → ∃ pr ∈ pairs,
          find_path_a_star dd pr.1 pr.2 limMin limMax = some [] ∧ pr.1 ≠ pr.2) ∧
        (np = false →
          (∀ pr ∈ pairs, ∀ path, find_path_a_star dd pr.1 pr.2 limMin limMax = some path →
            (path ≠ [] ∨ pr.1 = pr.2) ∧ m ≤ path.length) ∧
          m ≤ m0 ∧
          (m = m0 ∨ ∃ pr ∈ pairs, ∃ path,
            find_path_a_star dd pr.1 pr.2 limMin limMax = some path ∧ path.length = m)) := by
  intro pairs
  induction pairs with
  | nil =>
    intro m0 _
    refine ⟨false, m0, rfl, (fun h => by cases h), fun _ => ⟨(fun pr hpr => by cases hpr),
      Nat.le_refl _, Or.inl rfl⟩⟩
  | cons pr rest ih =>
    intro m0 hall
    obtain ⟨path, hpath⟩ := hall pr (List.mem_cons_self _ _)
    have hrest : ∀ pr2 ∈ rest, ∃ path, find_path_a_star dd pr2.1 pr2.2 limMin limMax = some path :=
      fun pr2 h2 => hall pr2 (List.mem_cons_of_mem _ h2)
    have hunf : scanPairs dd limMin limMax (pr :: rest) m0 =
        if path = [] ∧ pr.1 ≠ pr.2 then some (true, m0)
        else scanPairs dd limMin limMax rest (Nat.min m0 path.length) := by
      obtain ⟨a, b⟩ := pr
      simp only [scanPairs]
      rw [hpath]
    rw [hunf]
    by_cases hc : path = [] ∧ pr.1 ≠ pr.2
    · rw [if_pos hc]
      refine ⟨true, m0, rfl, fun _ => ⟨pr, List.mem_cons_self _ _, ?_, hc.2⟩, fun h => by cases h⟩
      rw [hpath, hc.1]
    · rw [if_neg hc]
      obtain ⟨np, m, e, h1, h2⟩ := ih (Nat.min m0 path.length) hrest
      refine ⟨np, m, e, ?_, ?_⟩
      · intro hnp
        obtain ⟨pr2, hm, c⟩ := h1 hnp
        exact ⟨pr2, List.mem_cons_of_mem _ hm, c⟩
      · intro hnp
        obtain ⟨c1, c2, c3⟩ := h2 hnp
        have hmin1 : Nat.min m0 path.length ≤ m0 := Nat.min_le_left _ _
        have hmin2 : Nat.min m0 path.length ≤ path.length := Nat.min_le_right _ _
        refine ⟨?_, by omega, ?_⟩
        · intro pr2 hm path2 hp2
          rcases List.mem_cons.1 hm with e2 | e2
          · rw [e2] at hp2
            rw [hpath] at hp2
            have e3 : path = path2 := Option.some.inj hp2
            rw [← e3, e2]
            refine ⟨?_, by omega⟩
            by_cases hne : path = []
            · right
              by_contra hcon
              exact hc ⟨hne, hcon⟩
            · exact Or.inl hne
          · exact c1 pr2 e2 path2 hp2
        · rcases c3 with e3 | ⟨pr2, hm, path2, hp2, hl2⟩
          · rcases Nat.le_total m0 path.length with hle | hle
            · left; rw [e3]; exact Nat.min_eq_left hle
            · right
              exact ⟨pr, List.mem_cons_self _ _, path, hpath, by rw [e3]; exact (Nat.min_eq_right hle).symm⟩
          · exact Or.inr ⟨pr2, List.mem_cons_of_mem _ hm, path2, hp2, hl2⟩

/-- The body of the loop over `j`, given what the span loops computed. -/
theorem connectPair_eq (dd : DungeonData) (limMin limMax : IVec2) (indices : List Nat)
    (i j : Nat) (ps : List PathPortal) (np : Bool) (m : Nat)
    (h : scanPairs dd limMin limMax
      (spanPairs (portalAt ps (indices.getD i 0)) (portalAt ps (indices.getD j 0)) limMin limMax)
      0xffffffff = some (np, m)) :
    connectPair dd limMin limMax indices i (some ps) j =
      some (if np = true then ps
        else pushConn (pushConn ps (indices.getD i 0) ⟨indices.getD j 0, F32.ofNat m⟩)
          (indices.getD j 0) ⟨indices.getD i 0, F32.ofNat m⟩) := by
  unfold spanPairs at h
  unfold connectPair
  simp only [h]
  cases np <;> rfl

theorem pushConn_length (ps : List PathPortal) (i : Nat) (c : PortalConnection) :
    (pushConn ps i c).length = ps.length := by
  induction ps generalizing i with
  | nil => rfl
  | cons p ps ih =>
    cases i with
    | zero => rfl
    | succ i => simp [pushConn, ih]

theorem pushConn_coords (ps : List PathPortal) (i : Nat) (c : PortalConnection) :
    (pushConn ps i c).map portalCoords = ps.map portalCoords := by
  induction ps generalizing i with
  | nil => rfl
  | cons p ps ih =>
    cases i with
    | zero => rfl
    | succ i => simp [pushConn, ih]

theorem portalAt_pushConn_self (ps : List PathPortal) (i : Nat) (c : PortalConnection)
    (h : i < ps.length) :
    (portalAt (pushConn ps i c) i).conns = (portalAt ps i).conns ++ [c] := by
  induction ps generalizing i with
  | nil => simp at h
  | cons p ps ih =>
    cases i with
    | zero => simp [pushConn, portalAt]
    | succ i =>
      have := ih i (by simpa using h)
      simpa [pushConn, portalAt] using this

theorem portalAt_pushConn_ne (ps : List PathPortal) (i k : Nat) (c : PortalConnection)
    (h : k ≠ i) : portalAt (pushConn ps i c) k = portalAt ps k := by
  induction ps generalizing i k with
  | nil => rfl
  | cons p ps ih =>
    cases i with
    | zero =>
      cases k with
      | zero => exact absurd rfl h
      | succ k => simp [pushConn, portalAt]
    | succ i =>
      cases k with
      | zero => simp [pushConn, portalAt]
      | succ k =>
        have := ih i k (by omega)
        simpa [pushConn, portalAt] using this

/-- The connections of every portal after one pair of records is written. -/
theorem conns_pushPair (ps : List PathPortal) (a b k : Nat) (c1 c2 : PortalConnection)
    (ha : a < ps.length) (hb : b < ps.length) (hab : a ≠ b) :
    (portalAt (pushConn (pushConn ps a c1) b c2) k).conns =
      (portalAt ps k).conns ++ ((if k = a then [c1] else []) ++ (if k = b then [c2] else [])) := by
  by_cases hkb : k = b
  · rw [hkb, portalAt_pushConn_self _ _ _ (by rw [pushConn_length]; exact hb),
      portalAt_pushConn_ne _ _ _ _ (Ne.symm hab), if_neg (Ne.symm hab), if_pos rfl]
    simp
  · rw [portalAt_pushConn_ne _ _ _ _ hkb, if_neg hkb]
    by_cases hka : k = a
    · rw [hka, portalAt_pushConn_self _ _ _ ha, if_pos rfl]
      simp
    · rw [portalAt_pushConn_ne _ _ _ _ hka, if_neg hka]
      simp

theorem portalAt_coords (ps qs : List PathPortal) (k : Nat)
    (h : ps.map portalCoords = qs.map portalCoords) :
    portalCoords (portalAt ps k) = portalCoords (portalAt qs k) := by
  have e : ∀ l : List PathPortal, portalCoords (portalAt l k) =
      (l.map portalCoords).getD k (portalCoords ⟨0, 0, 0, 0, []⟩) := by
    intro l
    unfold portalAt
    rw [List.getD_map]
  rw [e ps, e qs, h]

theorem spanCells_congr (p q : PathPortal) (limMin limMax : IVec2)
    (h : portalCoords p = portalCoords q) : spanCells p limMin limMax = spanCells q limMin limMax := by
  unfold portalCoords at h
  simp only [Prod.mk.injEq] at h
  obtain ⟨h1, h2, h3, h4⟩ := h
  unfold spanCells
  rw [h1, h2, h3, h4]

/-- The span loops return for every two portals when the rectangle lies in a
grid whose cell array matches its size. -/
theorem scanPairs_total (dd : DungeonData) (limMin limMax : IVec2) (hwf : WellFormed dd)
    (hr : rectInGrid dd limMin limMax) (pairs : List (IVec2 × IVec2)) :
    ∀ pr ∈ pairs, ∃ path, find_path_a_star dd pr.1 pr.2 limMin limMax = some path :=
  fun pr _ => (find_path_a_star_total dd pr.1 pr.2 limMin limMax hwf hr).imp fun _ h => h.1

/-! ## The graph built by `prebuild_map` -/

/-- The rectangle that the connection loop computes for the region at position
`tidx` is the rectangle of region `(tidx % W, tidx / W)`, and lies in the grid. -/
theorem tile_rect (dd : DungeonData) (s tidx : Nat) (hwf : WellFormed dd) (hs : 1 ≤ s)
    (ht : tidx < dd.height / s * (dd.width / s)) :
    tidx % (dd.width / s) < dd.width / s ∧ tidx / (dd.width / s) < dd.height / s ∧
      tileMin s (dd.width / s) tidx =
        ⟨((tidx % (dd.width / s) * s : Nat) : Int), ((tidx / (dd.width / s) * s : Nat) : Int)⟩ ∧
      tileMax s (dd.width / s) tidx =
        ⟨(((tidx % (dd.width / s) + 1) * s : Nat) : Int),
          (((tidx / (dd.width / s) + 1) * s : Nat) : Int)⟩ ∧
      rectInGrid dd (tileMin s (dd.width / s) tidx) (tileMax s (dd.width / s) tidx) := by
  have hW : 0 < dd.width / s := by
    rcases Nat.eq_zero_or_pos (dd.width / s) with h | h
    · rw [h] at ht; simp at ht
    · exact h
  have hx : tidx % (dd.width / s) < dd.width / s := Nat.mod_lt _ hW
  have hy : tidx / (dd.width / s) < dd.height / s := (Nat.div_lt_iff_lt_mul hW).2 ht
  obtain ⟨bx, byy, _, _⟩ := region_bounds dd s _ _ hs hx hy
  obtain ⟨d1, d2, d3, d4⟩ := grid_dims dd s _ _ hwf hs bx byy
  have e1 : tileMin s (dd.width / s) tidx =
      ⟨((tidx % (dd.width / s) * s : Nat) : Int), ((tidx / (dd.width / s) * s : Nat) : Int)⟩ := by
    unfold tileMin
    rw [Nat.add_zero, Nat.add_zero, toInt32_small _ (by omega), toInt32_small _ (by omega)]
  have e2 : tileMax s (dd.width / s) tidx =
      ⟨(((tidx % (dd.width / s) + 1) * s : Nat) : Int),
        (((tidx / (dd.width / s) + 1) * s : Nat) : Int)⟩ := by
    unfold tileMax
    rw [toInt32_small _ (by omega), toInt32_small _ (by omega)]
  refine ⟨hx, hy, e1, e2, ?_⟩
  rw [e1, e2]
  unfold rectInGrid
  simp only
  omega

/-- Proof rule for `prebuildWith`: it returns a graph with the side length, the
index lists and the portal coordinates of the extraction phase, and with every
property of the portal vector that holds after extraction and is kept whenever
a pair of connection records is written. -/
theorem prebuildWith_rule (dd : DungeonData) (s : Nat) (hwf : WellFormed dd) (hs : 1 ≤ s)
    (P : List PathPortal → Prop) (h0 : P (extractPortals dd s).portals)
    (hstep : ∀ tidx, tidx < (extractPortals dd s).tilePortalsIndices.length → ∀ i j, i < j →
      j < ((extractPortals dd s).tilePortalsIndices.getD tidx []).length →
      ∀ ps, ps.map portalCoords = (extractPortals dd s).portals.map portalCoords → P ps →
      ∀ m, scanPairs dd (tileMin s (dd.width / s) tidx) (tileMax s (dd.width / s) tidx)
        (spanPairs
          (portalAt ps (((extractPortals dd s).tilePortalsIndices.getD tidx []).getD i 0))
          (portalAt ps (((extractPortals dd s).tilePortalsIndices.getD tidx []).getD j 0))
          (tileMin s (dd.width / s) tidx) (tileMax s (dd.width / s) tidx))
        0xffffffff = some (false, m) →
      P (pushConn (pushConn ps (((extractPortals dd s).tilePortalsIndices.getD tidx []).getD i 0)
          ⟨((extractPortals dd s).tilePortalsIndices.getD tidx []).getD j 0, F32.ofNat m⟩)
        (((extractPortals dd s).tilePortalsIndices.getD tidx []).getD j 0)
        ⟨((extractPortals dd s).tilePortalsIndices.getD tidx []).getD i 0, F32.ofNat m⟩)) :
    ∃ dp, prebuildWith s dd = some dp ∧ dp.tileSplit = s ∧
      dp.tilePortalsIndices = (extractPortals dd s).tilePortalsIndices ∧
      dp.portals.map portalCoords = (extractPortals dd s).portals.map portalCoords ∧
      P dp.portals := by
  obtain ⟨D, inv⟩ := extractPortals_inv dd s hwf hs
  obtain ⟨ps, e, hc, hP⟩ := connect_rule dd s (dd.width / s)
    (extractPortals dd s).tilePortalsIndices
    (fun ps => ps.map portalCoords = (extractPortals dd s).portals.map portalCoords ∧ P ps)
    (by
      intro tidx htidx i j hij hj ps hps
      obtain ⟨_, _, _, _, hr⟩ := tile_rect dd s tidx hwf hs (by rw [← inv.len]; exact htidx)
      obtain ⟨np, m, e1, _, _⟩ := scanPairs_spec dd _ _
        (spanPairs
          (portalAt ps (((extractPortals dd s).tilePortalsIndices.getD tidx []).getD i 0))
          (portalAt ps (((extractPortals dd s).tilePortalsIndices.getD tidx []).getD j 0))
          (tileMin s (dd.width / s) tidx) (tileMax s (dd.width / s) tidx)) 0xffffffff
        (scanPairs_total dd _ _ hwf hr _)
      rw [connectPair_eq dd _ _ _ i j ps np m e1]
      cases np with
      | true => exact ⟨ps, rfl, hps⟩
      | false =>
        refine ⟨_, rfl, ?_, hstep tidx htidx i j hij hj ps hps.1 hps.2 m e1⟩
        simp only [Bool.false_eq_true, if_false]
        rw [pushConn_coords, pushConn_coords]
        exact hps.1)
    (extractPortals dd s).portals ⟨rfl, h0⟩
  refine ⟨⟨s, ps, (extractPortals dd s).tilePortalsIndices⟩, ?_, rfl, rfl, hc, hP⟩
  unfold prebuildWith
  simp only [e]

theorem div_of_lt (q r s : Nat) (h : r < s) : (q * s + r) / s = q := by
  rw [Nat.add_comm, Nat.add_mul_div_right _ _ (by omega), Nat.div_eq_of_lt h, Nat.zero_add]

/-- The start cell of a portal lies in the region across the border, and its end
cell in the region whose border was scanned. -/
theorem desc_regions (dd : DungeonData) (s W H : Nat) (d : PortalDesc) (hs : 1 ≤ s)
    (hok : DescOk dd s W H d) :
    (descPortal s d).startY / s * W + (descPortal s d).startX / s = descNbr W d ∧
      (descPortal s d).endY / s * W + (descPortal s d).endX / s = descHome W d := by
  obtain ⟨hx, hy, h3⟩ := hok
  unfold descPortal descNbr descHome
  rcases h3 with ⟨e, hy0, c1, c2, _⟩ | ⟨e, hx0, c1, c2, _⟩
  · rw [e]
    simp only [if_true, topPortal]
    have e1 : d.y * s - 1 = (d.y - 1) * s + (s - 1) := by
      have : d.y * s = (d.y - 1) * s + s := by
        conv_lhs => rw [show d.y = d.y - 1 + 1 by omega]
        ring
      omega
    rw [e1, div_of_lt _ _ _ (by omega), div_of_lt _ _ _ (by omega), div_of_lt _ _ _ (by omega)]
    have e2 : d.y * s / s = d.y := Nat.mul_div_cancel _ (by omega)
    rw [e2]
    exact ⟨rfl, rfl⟩
  · rw [e]
    simp only [Bool.false_eq_true, if_false, leftPortal]
    have e1 : d.x * s - 1 = (d.x - 1) * s + (s - 1) := by
      have : d.x * s = (d.x - 1) * s + s := by
        conv_lhs => rw [show d.x = d.x - 1 + 1 by omega]
        ring
      omega
    rw [e1, div_of_lt _ _ _ (by omega), div_of_lt _ _ _ (by omega), div_of_lt _ _ _ (by omega)]
    have e2 : d.x * s / s = d.x := Nat.mul_div_cancel _ (by omega)
    rw [e2]
    exact ⟨by omega, rfl⟩

theorem mem_regList (W : Nat) (D : List PortalDesc) (r k : Nat) :
    k ∈ regList W D r ↔ k < D.length ∧ descRegs W (D.getD k ⟨0, 0, false, 0, 0⟩) r := by
  unfold regList
  rw [List.mem_filter, List.mem_range]
  simp

theorem regList_nodup (W : Nat) (D : List PortalDesc) (r : Nat) : (regList W D r).Nodup :=
  List.Nodup.filter _ (List.nodup_range _)

theorem regList_count (W : Nat) (D : List PortalDesc) (r k : Nat) :
    (regList W D r).count k =
      if k < D.length ∧ descRegs W (D.getD k ⟨0, 0, false, 0, 0⟩) r then 1 else 0 := by
  rw [List.count_eq_of_nodup (regList_nodup W D r)]
  simp only [mem_regList]

/-- The registration of the portals in the graph that `prebuildWith` returns. -/
theorem prebuildWith_registration (dd : DungeonData) (s : Nat) (hwf : WellFormed dd) (hs : 1 ≤ s) :
    ∃ dp, prebuildWith s dd = some dp ∧
      dp.tilePortalsIndices.length = dd.height / s * (dd.width / s) ∧
      (∀ k, k < dp.portals.length →
        (portalAt dp.portals k).startY / s * (dd.width / s) + (portalAt dp.portals k).startX / s <
          (portalAt dp.portals k).endY / s * (dd.width / s) + (portalAt dp.portals k).endX / s ∧
        (portalAt dp.portals k).endY / s * (dd.width / s) + (portalAt dp.portals k).endX / s <
          dp.tilePortalsIndices.length ∧
        ((portalAt dp.portals k).endY / s * (dd.width / s) + (portalAt dp.portals k).endX / s =
            (portalAt dp.portals k).startY / s * (dd.width / s) +
              (portalAt dp.portals k).startX / s + 1 ∨
          (portalAt dp.portals k).endY / s * (dd.width / s) + (portalAt dp.portals k).endX / s =
            (portalAt dp.portals k).startY / s * (dd.width / s) +
              (portalAt dp.portals k).startX / s + dd.width / s) ∧
        ∀ r, (dp.tilePortalsIndices.getD r []).count k =
          if r = (portalAt dp.portals k).startY / s * (dd.width / s) +
                (portalAt dp.portals k).startX / s ∨
              r = (portalAt dp.portals k).endY / s * (dd.width / s) +
                (portalAt dp.portals k).endX / s then 1 else 0) ∧
      (∀ l ∈ dp.tilePortalsIndices, ∀ k ∈ l, k < dp.portals.length) := by
  obtain ⟨D, inv⟩ := extractPortals_inv dd s hwf hs
  obtain ⟨dp, e, _, htpi, hco, _⟩ := prebuildWith_rule dd s hwf hs (fun _ => True) trivial
    (fun _ _ _ _ _ _ _ _ _ _ _ => trivial)
  have hlen : dp.portals.length = D.length := by
    have := congrArg List.length hco
    rw [List.length_map, List.length_map, inv.portals, List.length_map] at this
    exact this
  refine ⟨dp, e, by rw [htpi, inv.len], ?_, ?_⟩
  · intro k hk
    have hkD : k < D.length := by omega
    have hm : D.getD k ⟨0, 0, false, 0, 0⟩ ∈ D := getD_mem D k _ hkD
    obtain ⟨hok, hhome⟩ := inv.ok _ hm
    have hpc : portalCoords (portalAt dp.portals k) =
        portalCoords (descPortal s (D.getD k ⟨0, 0, false, 0, 0⟩)) := by
      rw [portalAt_coords dp.portals _ k hco, inv.portals]
      unfold portalAt
      rw [List.getD_eq_getElem _ _ (by rw [List.length_map]; exact hkD),
        List.getD_eq_getElem _ _ hkD, List.getElem_map]
    unfold portalCoords at hpc
    simp only [Prod.mk.injEq] at hpc
    obtain ⟨p1, p2, p3, p4⟩ := hpc
    obtain ⟨r1, r2⟩ := desc_regions dd s _ _ _ hs hok
    have hnb := descNbr_lt dd s _ _ _ hok
    rw [p1, p2, p3, p4, r1, r2, htpi, inv.len]
    refine ⟨hnb, hhome, ?_, ?_⟩
    · obtain ⟨hx, hy, h3⟩ := hok
      unfold descNbr descHome
      rcases h3 with ⟨et, hy0, _⟩ | ⟨et, hx0, _⟩
      · right
        rw [if_pos et]
        have e1 : (D.getD k ⟨0, 0, false, 0, 0⟩).y * (dd.width / s) =
            ((D.getD k ⟨0, 0, false, 0, 0⟩).y - 1) * (dd.width / s) + dd.width / s := by
          conv_lhs => rw [show (D.getD k ⟨0, 0, false, 0, 0⟩).y =
            (D.getD k ⟨0, 0, false, 0, 0⟩).y - 1 + 1 by omega]
          ring
        omega
      · left
        rw [et]
        simp only [Bool.false_eq_true, if_false]
        omega
    · intro r
      by_cases hr : r < dd.height / s * (dd.width / s)
      · rw [inv.lists r hr, regList_count]
        unfold descRegs
        by_cases hc : descHome (dd.width / s) (D.getD k ⟨0, 0, false, 0, 0⟩) = r ∨
            descNbr (dd.width / s) (D.getD k ⟨0, 0, false, 0, 0⟩) = r
        · rw [if_pos ⟨hkD, hc⟩, if_pos (by rcases hc with h | h; exact Or.inr h.symm; exact Or.inl h.symm)]
        · rw [if_neg (fun h => hc h.2), if_neg]
          rintro (h | h)
          · exact hc (Or.inr h.symm)
          · exact hc (Or.inl h.symm)
      · rw [List.getD_eq_default _ _ (by rw [inv.len]; omega), if_neg (by omega)]
        rfl
  · intro l hl k hk
    obtain ⟨r, hr, rfl⟩ := List.getElem_of_mem hl
    rw [htpi] at hr
    have hr2 : r < dd.height / s * (dd.width / s) := by rw [← inv.len]; exact hr
    have e1 : dp.tilePortalsIndices[r] = regList (dd.width / s) D r := by
      rw [← inv.lists r hr2, ← htpi, List.getD_eq_getElem]
    rw [e1, mem_regList] at hk
    omega

/-- The portals have no connection when the extraction phase ends. -/
theorem extract_conns (dd : DungeonData) (s : Nat) (hwf : WellFormed dd) (hs : 1 ≤ s) (a : Nat) :
    (portalAt (extractPortals dd s).portals a).conns = [] := by
  obtain ⟨D, inv⟩ := extractPortals_inv dd s hwf hs
  rw [inv.portals]
  unfold portalAt
  by_cases ha : a < D.length
  · rw [List.getD_eq_getElem _ _ (by rw [List.length_map]; exact ha), List.getElem_map]
    unfold descPortal topPortal leftPortal
    split <;> rfl
  · rw [List.getD_eq_default _ _ (by rw [List.length_map]; omega)]

theorem getD_ne_of_nodup (l : List Nat) (i j : Nat) (hn : l.Nodup) (hij : i < j)
    (hj : j < l.length) : l.getD i 0 ≠ l.getD j 0 := by
  rw [List.getD_eq_getElem l 0 (by omega), List.getD_eq_getElem l 0 hj]
  intro e
  have := (List.Nodup.getElem_inj_iff hn).1 e
  omega

/-- The two portals of a pass of the connection loop for the region at
position `tidx`: they differ, both are portals of the graph, and both are
registered for the region. -/
theorem step_context (dd : DungeonData) (s : Nat) (D : List PortalDesc)
    (inv : ExtInv dd s (dd.width / s) (dd.height / s) (dd.height / s * (dd.width / s))
      (extractPortals dd s) D)
    (tidx i j : Nat) (htidx : tidx < (extractPortals dd s).tilePortalsIndices.length)
    (hij : i < j) (hj : j < ((extractPortals dd s).tilePortalsIndices.getD tidx []).length) :
    ((extractPortals dd s).tilePortalsIndices.getD tidx []).getD i 0 ≠
        ((extractPortals dd s).tilePortalsIndices.getD tidx []).getD j 0 ∧
      ((extractPortals dd s).tilePortalsIndices.getD tidx []).getD i 0 ∈
        (extractPortals dd s).tilePortalsIndices.getD tidx [] ∧
      ((extractPortals dd s).tilePortalsIndices.getD tidx []).getD j 0 ∈
        (extractPortals dd s).tilePortalsIndices.getD tidx [] ∧
      (∀ k ∈ (extractPortals dd s).tilePortalsIndices.getD tidx [],
        k < D.length ∧ descRegs (dd.width / s) (D.getD k ⟨0, 0, false, 0, 0⟩) tidx) := by
  have ht : tidx < dd.height / s * (dd.width / s) := by rw [← inv.len]; exact htidx
  have hl := inv.lists tidx ht
  refine ⟨getD_ne_of_nodup _ i j (by rw [hl]; exact regList_nodup _ _ _) hij hj,
    getD_mem _ _ _ (by omega), getD_mem _ _ _ hj, ?_⟩
  intro k hk
  rw [hl, mem_regList] at hk
  exact hk

theorem count_single (b c j m : Nat) :
    ([(⟨j, m⟩ : PortalConnection)]).count ⟨b, c⟩ = if b = j ∧ c = m then 1 else 0 := by
  by_cases h : b = j ∧ c = m
  · rw [if_pos h, h.1, h.2]; simp
  · rw [if_neg h]
    rw [List.count_eq_zero]
    intro hm
    rw [List.mem_singleton] at hm
    injection hm with h1 h2
    exact h ⟨h1, h2⟩

/-- Writing the two records of a pair keeps the connections symmetric. -/
theorem pushPair_symmetric (ps : List PathPortal) (I J m : Nat) (hI : I < ps.length)
    (hJ : J < ps.length) (hne : I ≠ J)
    (h : ∀ a b c, (portalAt ps a).conns.count ⟨b, c⟩ = (portalAt ps b).conns.count ⟨a, c⟩)
    (a b c : Nat) :
    (portalAt (pushConn (pushConn ps I ⟨J, m⟩) J ⟨I, m⟩) a).conns.count ⟨b, c⟩ =
      (portalAt (pushConn (pushConn ps I ⟨J, m⟩) J ⟨I, m⟩) b).conns.count ⟨a, c⟩ := by
  rw [conns_pushPair ps I J a _ _ hI hJ hne, conns_pushPair ps I J b _ _ hI hJ hne]
  simp only [List.count_append, h a b c]
  have e1 : ∀ (k j2 b2 : Nat), (if k = j2 then [(⟨b2, m⟩ : PortalConnection)] else []).count ⟨b, c⟩
      = if k = j2 ∧ b = b2 ∧ c = m then 1 else 0 := by
    intro k j2 b2
    by_cases hk : k = j2
    · rw [if_pos hk, count_single]; simp [hk]
    · rw [if_neg hk]; simp [hk]
  have e2 : ∀ (k j2 b2 : Nat), (if k = j2 then [(⟨b2, m⟩ : PortalConnection)] else []).count ⟨a, c⟩
      = if k = j2 ∧ a = b2 ∧ c = m then 1 else 0 := by
    intro k j2 b2
    by_cases hk : k = j2
    · rw [if_pos hk, count_single]; simp [hk]
    · rw [if_neg hk]; simp [hk]
  rw [e1, e1, e2, e2]
  have hne2 : J ≠ I := Ne.symm hne
  by_cases h1 : a = I <;> by_cases h2 : a = J <;> by_cases h3 : b = I <;> by_cases h4 : b = J <;>
    by_cases h5 : c = m <;> simp [h1, h2, h3, h4, h5, hne, hne2]

/-- The connections of the graph that `prebuildWith` returns are symmetric, and
no portal is connected to itself. -/
theorem prebuildWith_symmetric (dd : DungeonData) (s : Nat) (hwf : WellFormed dd) (hs : 1 ≤ s) :
    ∃ dp, prebuildWith s dd = some dp ∧
      (∀ a b c, (portalAt dp.portals a).conns.count ⟨b, c⟩ =
        (portalAt dp.portals b).conns.count ⟨a, c⟩) ∧
      (∀ a, ∀ c ∈ (portalAt dp.portals a).conns, c.connIdx ≠ a) := by
  obtain ⟨D, inv⟩ := extractPortals_inv dd s hwf hs
  obtain ⟨dp, e, _, _, _, h1, h2⟩ := prebuildWith_rule dd s hwf hs
    (fun ps => (∀ a b c, (portalAt ps a).conns.count ⟨b, c⟩ = (portalAt ps b).conns.count ⟨a, c⟩) ∧
      (∀ a, ∀ c ∈ (portalAt ps a).conns, c.connIdx ≠ a))
    ⟨fun a b c => by rw [extract_conns dd s hwf hs a, extract_conns dd s hwf hs b]; rfl,
      fun a c hc => by rw [extract_conns dd s hwf hs a] at hc; cases hc⟩
    (by
      intro tidx htidx i j hij hj ps hco hP m _
      obtain ⟨hne, hi, hjm, hreg⟩ := step_context dd s D inv tidx i j htidx hij hj
      have hlen : ps.length = D.length := by
        have := congrArg List.length hco
        rw [List.length_map, List.length_map, inv.portals, List.length_map] at this
        exact this
      have hI := (hreg _ hi).1
      have hJ := (hreg _ hjm).1
      refine ⟨pushPair_symmetric ps _ _ _ (by omega) (by omega) hne hP.1, ?_⟩
      intro a c hc
      rw [conns_pushPair ps _ _ a _ _ (by omega) (by omega) hne] at hc
      rcases List.mem_append.1 hc with h | h
      · exact hP.2 a c h
      · rcases List.mem_append.1 h with h | h
        · by_cases ha : a = ((extractPortals dd s).tilePortalsIndices.getD tidx []).getD i 0
          · rw [if_pos ha, List.mem_singleton] at h
            rw [h, ha]
            exact Ne.symm hne
          · rw [if_neg ha] at h; cases h
        · by_cases ha : a = ((extractPortals dd s).tilePortalsIndices.getD tidx []).getD j 0
          · rw [if_pos ha, List.mem_singleton] at h
            rw [h, ha]
            exact hne
          · rw [if_neg ha] at h; cases h)
  exact ⟨dp, e, h1, h2⟩

/-! ## The cells of a portal inside a region -/

/-- The cells that the span loops visit for a portal and a rectangle with
corners in the natural numbers. -/
theorem mem_spanCells_nat (p : PathPortal) (A B A2 B2 : Nat) (c : IVec2)
    (hA : 1 ≤ A2) (hB : 1 ≤ B2) (hA2 : A2 < 2 ^ 31) (hB2 : B2 < 2 ^ 31)
    (hx : A ≤ A2) (hy : B ≤ B2) :
    c ∈ spanCells p ⟨(A : Int), (B : Int)⟩ ⟨(A2 : Int), (B2 : Int)⟩ ↔
      ∃ X Y : Nat, c = ⟨(X : Int), (Y : Int)⟩ ∧ p.startX ≤ X ∧ A ≤ X ∧ X ≤ p.endX ∧ X < A2 ∧
        p.startY ≤ Y ∧ B ≤ Y ∧ Y ≤ p.endY ∧ Y < B2 := by
  have e1 : toSizeT (A : Int) = A := toSizeT_natCast A (by omega)
  have e2 : toSizeT (B : Int) = B := toSizeT_natCast B (by omega)
  have e3 : toSizeT ((A2 : Int) - 1) = A2 - 1 := by
    rw [show (A2 : Int) - 1 = ((A2 - 1 : Nat) : Int) by omega]
    exact toSizeT_natCast _ (by omega)
  have e4 : toSizeT ((B2 : Int) - 1) = B2 - 1 := by
    rw [show (B2 : Int) - 1 = ((B2 - 1 : Nat) : Int) by omega]
    exact toSizeT_natCast _ (by omega)
  unfold spanCells
  simp only [e1, e2, e3, e4, List.mem_flatMap, List.mem_map, List.mem_range'_1]
  have hmax : ∀ a b : Nat, Nat.max a b = max a b := fun _ _ => rfl
  have hmin : ∀ a b : Nat, Nat.min a b = min a b := fun _ _ => rfl
  simp only [hmax, hmin]
  constructor
  · rintro ⟨Y, ⟨hY1, hY2⟩, X, ⟨hX1, hX2⟩, rfl⟩
    refine ⟨X, Y, ?_, by omega, by omega, by omega, by omega, by omega, by omega, by omega, by omega⟩
    rw [toInt32_small X (by omega), toInt32_small Y (by omega)]
  · rintro ⟨X, Y, rfl, h1, h2, h3, h4, h5, h6, h7, h8⟩
    refine ⟨Y, ⟨by omega, by omega⟩, X, ⟨by omega, by omega⟩, ?_⟩
    rw [toInt32_small X (by omega), toInt32_small Y (by omega)]

/-- Every cell that the span loops visit for a portal of the grid is a cell of
the rectangle that is not a wall. -/
theorem desc_span_cells (dd : DungeonData) (s : Nat) (d : PortalDesc) (hwf : WellFormed dd)
    (hs : 1 ≤ s) (hok : DescOk dd s (dd.width / s) (dd.height / s) d) (A B A2 B2 : Nat)
    (hA : 1 ≤ A2) (hB : 1 ≤ B2) (hA2 : A2 ≤ dd.width) (hB2 : B2 ≤ dd.height)
    (hx : A ≤ A2) (hy : B ≤ B2) (c : IVec2)
    (hc : c ∈ spanCells (descPortal s d) ⟨(A : Int), (B : Int)⟩ ⟨(A2 : Int), (B2 : Int)⟩) :
    Cell dd ⟨(A : Int), (B : Int)⟩ ⟨(A2 : Int), (B2 : Int)⟩ c := by
  obtain ⟨dx, dy, h3⟩ := hok
  obtain ⟨bx, byy, _, _⟩ := region_bounds dd s d.x d.y hs dx dy
  obtain ⟨d1, d2, d3, d4⟩ := grid_dims dd s d.x d.y hwf hs bx byy
  rw [mem_spanCells_nat _ A B A2 B2 c hA hB (by omega) (by omega) hx hy] at hc
  obtain ⟨X, Y, rfl, h1, h2, h4, h5, h6, h7, h8, h9⟩ := hc
  refine ⟨⟨by show (A : Int) ≤ (X : Int); omega, by show (X : Int) < (A2 : Int); omega,
    by show (B : Int) ≤ (Y : Int); omega, by show (Y : Int) < (B2 : Int); omega⟩, ?_⟩
  unfold descPortal at h1 h4 h6 h8
  rcases h3 with ⟨e, hy0, c1, c2, c3, _⟩ | ⟨e, hx0, c1, c2, c3, _⟩
  · rw [e] at h1 h4 h6 h8
    simp only [if_true, topPortal] at h1 h4 h6 h8
    have hys : 1 ≤ d.y * s := Nat.mul_pos hy0 hs
    have hq := c3 (X - d.x * s) (by omega) (by omega)
    unfold topOpen at hq
    rw [show d.x * s + (X - d.x * s) = X by omega] at hq
    by_cases hY : Y = d.y * s
    · rw [hY]; exact hq.1
    · have e2 : (Y : Int) = ((d.y * s : Nat) : Int) - 1 := by omega
      rw [e2]; exact hq.2
  · rw [e] at h1 h4 h6 h8
    simp only [Bool.false_eq_true, if_false, leftPortal] at h1 h4 h6 h8
    have hxs : 1 ≤ d.x * s := Nat.mul_pos hx0 hs
    have hq := c3 (Y - d.y * s) (by omega) (by omega)
    unfold leftOpen at hq
    rw [show d.y * s + (Y - d.y * s) = Y by omega] at hq
    by_cases hX : X = d.x * s
    · rw [hX]; exact hq.1
    · have e2 : (X : Int) = ((d.x * s : Nat) : Int) - 1 := by omega
      rw [e2]; exact hq.2

/-- A portal has a cell in each of the two regions that it is registered for. -/
theorem desc_span_nonempty (dd : DungeonData) (s : Nat) (d : PortalDesc) (hwf : WellFormed dd)
    (hs : 1 ≤ s) (hok : DescOk dd s (dd.width / s) (dd.height / s) d) (tidx : Nat)
    (hreg : descRegs (dd.width / s) d tidx) :
    spanCells (descPortal s d)
      ⟨((tidx % (dd.width / s) * s : Nat) : Int), ((tidx / (dd.width / s) * s : Nat) : Int)⟩
      ⟨(((tidx % (dd.width / s) + 1) * s : Nat) : Int),
        (((tidx / (dd.width / s) + 1) * s : Nat) : Int)⟩ ≠ [] := by
  obtain ⟨dx, dy, h3⟩ := hok
  obtain ⟨bx, byy, _, _⟩ := region_bounds dd s d.x d.y hs dx dy
  obtain ⟨d1, d2, d3, d4⟩ := grid_dims dd s d.x d.y hwf hs bx byy
  have hW : 0 < dd.width / s := by omega
  have hdiv : ∀ x y : Nat, x < dd.width / s →
      (y * (dd.width / s) + x) % (dd.width / s) = x ∧
        (y * (dd.width / s) + x) / (dd.width / s) = y := by
    intro x y hx
    refine ⟨?_, div_of_lt y x _ hx⟩
    rw [Nat.add_comm, Nat.add_mul_mod_self_right, Nat.mod_eq_of_lt hx]
  have hmem : ∀ (rx ry X Y : Nat), rx = tidx % (dd.width / s) → ry = tidx / (dd.width / s) →
      (descPortal s d).startX ≤ X → rx * s ≤ X → X ≤ (descPortal s d).endX → X < (rx + 1) * s →
      (descPortal s d).startY ≤ Y → ry * s ≤ Y → Y ≤ (descPortal s d).endY → Y < (ry + 1) * s →
      (rx + 1) * s ≤ dd.width → (ry + 1) * s ≤ dd.height →
      spanCells (descPortal s d)
        ⟨((tidx % (dd.width / s) * s : Nat) : Int), ((tidx / (dd.width / s) * s : Nat) : Int)⟩
        ⟨(((tidx % (dd.width / s) + 1) * s : Nat) : Int),
          (((tidx / (dd.width / s) + 1) * s : Nat) : Int)⟩ ≠ [] := by
    intro rx ry X Y e1 e2 h1 h2 h4 h5 h6 h7 h8 h9 b1 b2
    rw [← e1, ← e2]
    have q1 : (rx + 1) * s = rx * s + s := by ring
    have q2 : (ry + 1) * s = ry * s + s := by ring
    have hm : (⟨(X : Int), (Y : Int)⟩ : IVec2) ∈ spanCells (descPortal s d)
        ⟨((rx * s : Nat) : Int), ((ry * s : Nat) : Int)⟩
        ⟨(((rx + 1) * s : Nat) : Int), (((ry + 1) * s : Nat) : Int)⟩ :=
      (mem_spanCells_nat _ _ _ _ _ _ (by omega) (by omega) (by omega) (by omega) (by omega)
        (by omega)).2 ⟨X, Y, rfl, h1, h2, h4, h5, h6, h7, h8, h9⟩
    exact List.ne_nil_of_mem hm
  unfold descRegs descHome descNbr at hreg
  have qx : (d.x + 1) * s = d.x * s + s := by ring
  have qy : (d.y + 1) * s = d.y * s + s := by ring
  rcases h3 with ⟨e, hy0, c1, c2, c3, _⟩ | ⟨e, hx0, c1, c2, c3, _⟩
  · have hys : 1 ≤ d.y * s := Nat.mul_pos hy0 hs
    have hp : descPortal s d = topPortal s d.x d.y d.a d.b := by unfold descPortal; rw [if_pos e]
    rw [if_pos e] at hreg
    rcases hreg with h | h
    · obtain ⟨m1, m2⟩ := hdiv d.x d.y dx
      rw [h] at m1 m2
      refine hmem d.x d.y (d.x * s + d.a) (d.y * s) m1.symm m2.symm ?_ ?_ ?_ ?_ ?_ ?_ ?_ ?_ bx byy
        <;> (try rw [hp]) <;> (try simp only [topPortal]) <;> omega
    · obtain ⟨m1, m2⟩ := hdiv d.x (d.y - 1) dx
      rw [h] at m1 m2
      have q3 : (d.y - 1 + 1) * s = d.y * s := by rw [show d.y - 1 + 1 = d.y by omega]
      have q4 : (d.y - 1 + 1) * s = (d.y - 1) * s + s := by ring
      refine hmem d.x (d.y - 1) (d.x * s + d.a) (d.y * s - 1) m1.symm m2.symm ?_ ?_ ?_ ?_ ?_ ?_ ?_ ?_
        bx (by omega) <;> (try rw [hp]) <;> (try simp only [topPortal]) <;> omega
  · have hxs : 1 ≤ d.x * s := Nat.mul_pos hx0 hs
    have hp : descPortal s d = leftPortal s d.x d.y d.a d.b := by
      unfold descPortal; rw [e]; simp
    rw [e] at hreg
    simp only [Bool.false_eq_true, if_false] at hreg
    rcases hreg with h | h
    · obtain ⟨m1, m2⟩ := hdiv d.x d.y dx
      rw [h] at m1 m2
      refine hmem d.x d.y (d.x * s) (d.y * s + d.a) m1.symm m2.symm ?_ ?_ ?_ ?_ ?_ ?_ ?_ ?_ bx byy
        <;> (try rw [hp]) <;> (try simp only [leftPortal]) <;> omega
    · obtain ⟨m1, m2⟩ := hdiv (d.x - 1) d.y (by omega)
      rw [show d.y * (dd.width / s) + (d.x - 1) = tidx by omega] at m1 m2
      have q3 : (d.x - 1 + 1) * s = d.x * s := by rw [show d.x - 1 + 1 = d.x by omega]
      have q4 : (d.x - 1 + 1) * s = (d.x - 1) * s + s := by ring
      refine hmem (d.x - 1) d.y (d.x * s - 1) (d.y * s + d.a) m1.symm m2.symm ?_ ?_ ?_ ?_ ?_ ?_ ?_ ?_
        (by omega) byy <;> (try rw [hp]) <;> (try simp only [leftPortal]) <;> omega

/-! ## The cost of a connection: least route -/

theorem mem_spanPairs (p q : PathPortal) (limMin limMax : IVec2) (a b : IVec2) :
    (a, b) ∈ spanPairs p q limMin limMax ↔
      a ∈ spanCells p limMin limMax ∧ b ∈ spanCells q limMin limMax := by
  unfold spanPairs
  simp only [List.mem_flatMap, List.mem_map, Prod.mk.injEq]
  constructor
  · rintro ⟨a2, ha, b2, hb, rfl, rfl⟩; exact ⟨ha, hb⟩
  · rintro ⟨ha, hb⟩; exact ⟨a, ha, b, hb, rfl, rfl⟩

theorem routeIn_reverse (dd : DungeonData) (limMin limMax a b : IVec2) (r : List IVec2)
    (h : RouteIn dd limMin limMax a b r) : RouteIn dd limMin limMax b a r.reverse := by
  obtain ⟨⟨h1, h2, h3, h4⟩, h5⟩ := h
  refine ⟨⟨by rw [List.head?_reverse]; exact h2, by rw [List.getLast?_reverse]; exact h1, ?_,
    fun p hp => h4 p (List.mem_reverse.1 hp)⟩, fun p hp => h5 p (List.mem_reverse.1 hp)⟩
  rw [List.chain'_reverse]
  refine List.Chain'.imp ?_ h3
  intro x y hxy
  show adjacent y x
  unfold adjacent at hxy ⊢
  omega

theorem regionPairMin_symm (dd : DungeonData) (limMin limMax : IVec2) (p q : PathPortal) (m : Nat)
    (h : RegionPairMin dd limMin limMax p q m) : RegionPairMin dd limMin limMax q p m := by
  obtain ⟨⟨a, ha, b, hb, r, hr, hl⟩, h2⟩ := h
  refine ⟨⟨b, hb, a, ha, r.reverse, routeIn_reverse dd _ _ a b r hr, by rw [List.length_reverse, hl]⟩,
    ?_⟩
  intro b2 hb2 a2 ha2 r2 hr2
  have := h2 a2 ha2 b2 hb2 r2.reverse (routeIn_reverse dd _ _ b2 a2 r2 hr2)
  rw [List.length_reverse] at this
  exact this

theorem regionPairMin_congr (dd : DungeonData) (limMin limMax : IVec2) (p q p2 q2 : PathPortal)
    (m : Nat) (hp : portalCoords p = portalCoords p2) (hq : portalCoords q = portalCoords q2)
    (h : RegionPairMin dd limMin limMax p q m) : RegionPairMin dd limMin limMax p2 q2 m := by
  unfold RegionPairMin at h ⊢
  rw [← spanCells_congr p p2 limMin limMax hp, ← spanCells_congr q q2 limMin limMax hq]
  exact h

/-- What the span loops compute for two portals whose cells in the rectangle
are walkable: the flag is set exactly when some pair of cells has the empty
path, and otherwise `minDist` is the least number of coordinates of a route
between the two spans. -/
theorem scanPairs_region (dd : DungeonData) (limMin limMax : IVec2) (p q : PathPortal)
    (hwf : WellFormed dd) (hsm : SmallGrid dd) (hr : rectInGrid dd limMin limMax)
    (hp : ∀ a ∈ spanCells p limMin limMax, Cell dd limMin limMax a)
    (hpn : spanCells p limMin limMax ≠ []) (hqn : spanCells q limMin limMax ≠ []) :
    ∃ np m, scanPairs dd limMin limMax (spanPairs p q limMin limMax) 0xffffffff = some (np, m) ∧
      (np = true ↔ ∃ a ∈ spanCells p limMin limMax, ∃ b ∈ spanCells q limMin limMax,
        find_path_a_star dd a b limMin limMax = some []) ∧
      (np = false → m < 2 ^ 24 ∧ RegionPairMin dd limMin limMax p q m) := by
  obtain ⟨np, m, e, h1, h2⟩ := scanPairs_spec dd limMin limMax (spanPairs p q limMin limMax)
    0xffffffff (scanPairs_total dd _ _ hwf hr _)
  have hpath : ∀ a ∈ spanCells p limMin limMax, ∀ b path,
      find_path_a_star dd a b limMin limMax = some path → (path ≠ [] ∨ a = b) →
      path ≠ [] ∧ RouteIn dd limMin limMax a b path ∧ path.length ≤ dd.width * dd.height + 1 ∧
        ∀ r, RouteIn dd limMin limMax a b r → path.length ≤ r.length := by
    intro a ha b path hf hor
    obtain ⟨path2, hf2, hsr, hsh⟩ := find_path_a_star_shortest dd a b limMin limMax hsm hr (hp a ha)
    obtain ⟨path3, hf3, hl3⟩ := find_path_a_star_total dd a b limMin limMax hwf hr
    rw [hf] at hf2 hf3
    have e2 : path = path2 := Option.some.inj hf2
    have e3 : path = path3 := Option.some.inj hf3
    rw [← e2] at hsr hsh
    rw [← e3] at hl3
    have hne : path ≠ [] := by
      rcases hor with h | h
      · exact h
      · intro hnil
        rw [← h] at hf
        rw [find_path_a_star_self dd a limMin limMax (cell_inGrid dd _ _ a hr (hp a ha))] at hf
        rw [hnil] at hf
        cases hf
    exact ⟨hne, hsr.1 hne, hl3, fun r hr2 => hsh r hr2 hne⟩
  refine ⟨np, m, e, ⟨?_, ?_⟩, ?_⟩
  · intro hnp
    obtain ⟨pr, hm, hf, _⟩ := h1 hnp
    obtain ⟨a, b⟩ := pr
    rw [mem_spanPairs] at hm
    exact ⟨a, hm.1, b, hm.2, hf⟩
  · rintro ⟨a, ha, b, hb, hf⟩
    cases np with
    | true => rfl
    | false =>
      obtain ⟨c1, _, _⟩ := h2 rfl
      have := (c1 (a, b) ((mem_spanPairs p q limMin limMax a b).2 ⟨ha, hb⟩) [] hf).1
      exact absurd rfl (hpath a ha b [] hf this).1
  · intro hnp
    obtain ⟨c1, c2, c3⟩ := h2 hnp
    obtain ⟨a0, ha0⟩ := List.exists_mem_of_ne_nil _ hpn
    obtain ⟨b0, hb0⟩ := List.exists_mem_of_ne_nil _ hqn
    obtain ⟨path0, hf0, _⟩ := find_path_a_star_total dd a0 b0 limMin limMax hwf hr
    have hm0 := c1 (a0, b0) ((mem_spanPairs p q limMin limMax a0 b0).2 ⟨ha0, hb0⟩) path0 hf0
    obtain ⟨_, _, hl0, _⟩ := hpath a0 ha0 b0 path0 hf0 hm0.1
    have hsz := Nat.mul_le_mul hsm.1 hsm.2
    have hm : m < 2 ^ 24 := by omega
    refine ⟨hm, ?_, ?_⟩
    · rcases c3 with e3 | ⟨pr, hmem, path, hf, hl⟩
      · omega
      · obtain ⟨a, b⟩ := pr
        have hab := (mem_spanPairs p q limMin limMax a b).1 hmem
        obtain ⟨_, hroute, _, _⟩ := hpath a hab.1 b path hf (c1 (a, b) hmem path hf).1
        exact ⟨a, hab.1, b, hab.2, path, hroute, hl⟩
    · intro a ha b hb r hroute
      obtain ⟨path, hf, _⟩ := find_path_a_star_total dd a b limMin limMax hwf hr
      have hc := c1 (a, b) ((mem_spanPairs p q limMin limMax a b).2 ⟨ha, hb⟩) path hf
      obtain ⟨_, _, _, hmin⟩ := hpath a ha b path hf hc.1
      exact Nat.le_trans hc.2 (hmin r hroute)

/-- The cells of a registered portal in the rectangle of its region, for any
portal vector with the coordinates of the extraction phase. -/
theorem span_context (dd : DungeonData) (s : Nat) (D : List PortalDesc) (hwf : WellFormed dd)
    (hs : 1 ≤ s)
    (inv : ExtInv dd s (dd.width / s) (dd.height / s) (dd.height / s * (dd.width / s))
      (extractPortals dd s) D)
    (ps : List PathPortal)
    (hco : ps.map portalCoords = (extractPortals dd s).portals.map portalCoords)
    (tidx k : Nat) (htidx : tidx < dd.height / s * (dd.width / s)) (hk : k < D.length)
    (hreg : descRegs (dd.width / s) (D.getD k ⟨0, 0, false, 0, 0⟩) tidx) :
    (∀ c ∈ spanCells (portalAt ps k) (tileMin s (dd.width / s) tidx)
        (tileMax s (dd.width / s) tidx),
      Cell dd (tileMin s (dd.width / s) tidx) (tileMax s (dd.width / s) tidx) c) ∧
      spanCells (portalAt ps k) (tileMin s (dd.width / s) tidx)
        (tileMax s (dd.width / s) tidx) ≠ [] := by
  have hm : D.getD k ⟨0, 0, false, 0, 0⟩ ∈ D := getD_mem D k _ hk
  obtain ⟨hok, _⟩ := inv.ok _ hm
  have hpc : portalCoords (portalAt ps k) =
      portalCoords (descPortal s (D.getD k ⟨0, 0, false, 0, 0⟩)) := by
    rw [portalAt_coords ps _ k hco, inv.portals]
    unfold portalAt
    rw [List.getD_eq_getElem _ _ (by rw [List.length_map]; exact hk),
      List.getD_eq_getElem _ _ hk, List.getElem_map]
  obtain ⟨hx, hy, e1, e2, hrect⟩ := tile_rect dd s tidx hwf hs htidx
  obtain ⟨bx, byy, _, _⟩ := region_bounds dd s _ _ hs hx hy
  rw [spanCells_congr _ _ _ _ hpc, e1, e2]
  have q1 : (tidx % (dd.width / s) + 1) * s = tidx % (dd.width / s) * s + s := by ring
  have q2 : (tidx / (dd.width / s) + 1) * s = tidx / (dd.width / s) * s + s := by ring
  exact ⟨fun c hc => desc_span_cells dd s _ hwf hs hok _ _ _ _ (by omega) (by omega) bx byy
    (by omega) (by omega) c hc, desc_span_nonempty dd s _ hwf hs hok tidx hreg⟩

/-! ## Which pairs of portals are connected -/

/-- The flag of the span loops for two portals whose first has its cells in the
grid: it is set exactly when some pair of cells has the empty path. -/
theorem scanPairs_flag (dd : DungeonData) (limMin limMax : IVec2) (p q : PathPortal)
    (hwf : WellFormed dd) (hr : rectInGrid dd limMin limMax)
    (hp : ∀ a ∈ spanCells p limMin limMax, inGrid dd a) :
    ∃ np m, scanPairs dd limMin limMax (spanPairs p q limMin limMax) 0xffffffff = some (np, m) ∧
      (np = true ↔ ∃ a ∈ spanCells p limMin limMax, ∃ b ∈ spanCells q limMin limMax,
        find_path_a_star dd a b limMin limMax = some []) := by
  obtain ⟨np, m, e, h1, h2⟩ := scanPairs_spec dd limMin limMax (spanPairs p q limMin limMax)
    0xffffffff (scanPairs_total dd _ _ hwf hr _)
  refine ⟨np, m, e, ⟨?_, ?_⟩⟩
  · intro hnp
    obtain ⟨pr, hm, hf, _⟩ := h1 hnp
    obtain ⟨a, b⟩ := pr
    rw [mem_spanPairs] at hm
    exact ⟨a, hm.1, b, hm.2, hf⟩
  · rintro ⟨a, ha, b, hb, hf⟩
    cases np with
    | true => rfl
    | false =>
      obtain ⟨c1, _, _⟩ := h2 rfl
      rcases (c1 (a, b) ((mem_spanPairs p q limMin limMax a b).2 ⟨ha, hb⟩) [] hf).1 with h | h
      · exact absurd rfl h
      · have h2 : a = b := h
        rw [← h2, find_path_a_star_self dd a limMin limMax (hp a ha)] at hf
        cases hf

/-- The policy of the connection loop for the portals at positions `i < j` of
the list of the region at position `tidx`, from any portal vector with the
coordinates of the extraction phase: the two records are written when every
pair of cells of the two spans has a path that is not empty, and nothing is
written otherwise. -/
theorem connectPair_policy (dd : DungeonData) (s : Nat) (hwf : WellFormed dd) (hs : 1 ≤ s)
    (tidx i j : Nat) (htidx : tidx < (extractPortals dd s).tilePortalsIndices.length)
    (hij : i < j) (hj : j < ((extractPortals dd s).tilePortalsIndices.getD tidx []).length)
    (ps : List PathPortal)
    (hco : ps.map portalCoords = (extractPortals dd s).portals.map portalCoords) :
    ((∀ a ∈ spanCells
          (portalAt ps (((extractPortals dd s).tilePortalsIndices.getD tidx []).getD i 0))
          (tileMin s (dd.width / s) tidx) (tileMax s (dd.width / s) tidx),
        ∀ b ∈ spanCells
          (portalAt ps (((extractPortals dd s).tilePortalsIndices.getD tidx []).getD j 0))
          (tileMin s (dd.width / s) tidx) (tileMax s (dd.width / s) tidx),
        ∃ path, find_path_a_star dd a b (tileMin s (dd.width / s) tidx)
          (tileMax s (dd.width / s) tidx) = some path ∧ path ≠ []) →
      ∃ m, connectPair dd (tileMin s (dd.width / s) tidx) (tileMax s (dd.width / s) tidx)
          ((extractPortals dd s).tilePortalsIndices.getD tidx []) i (some ps) j =
        some (pushConn
          (pushConn ps (((extractPortals dd s).tilePortalsIndices.getD tidx []).getD i 0)
            ⟨((extractPortals dd s).tilePortalsIndices.getD tidx []).getD j 0, F32.ofNat m⟩)
          (((extractPortals dd s).tilePortalsIndices.getD tidx []).getD j 0)
          ⟨((extractPortals dd s).tilePortalsIndices.getD tidx []).getD i 0, F32.ofNat m⟩)) ∧
      (¬ (∀ a ∈ spanCells
          (portalAt ps (((extractPortals dd s).tilePortalsIndices.getD tidx []).getD i 0))
          (tileMin s (dd.width / s) tidx) (tileMax s (dd.width / s) tidx),
        ∀ b ∈ spanCells
          (portalAt ps (((extractPortals dd s).tilePortalsIndices.getD tidx []).getD j 0))
          (tileMin s (dd.width / s) tidx) (tileMax s (dd.width / s) tidx),
        ∃ path, find_path_a_star dd a b (tileMin s (dd.width / s) tidx)
          (tileMax s (dd.width / s) tidx) = some path ∧ path ≠ []) →
      connectPair dd (tileMin s (dd.width / s) tidx) (tileMax s (dd.width / s) tidx)
          ((extractPortals dd s).tilePortalsIndices.getD tidx []) i (some ps) j = some ps) := by
  obtain ⟨D, inv⟩ := extractPortals_inv dd s hwf hs
  have ht : tidx < dd.height / s * (dd.width / s) := by rw [← inv.len]; exact htidx
  obtain ⟨_, hi, _, hreg⟩ := step_context dd s D inv tidx i j htidx hij hj
  obtain ⟨_, _, _, _, hrect⟩ := tile_rect dd s tidx hwf hs ht
  obtain ⟨hcells, _⟩ := span_context dd s D hwf hs inv ps hco tidx _ ht (hreg _ hi).1 (hreg _ hi).2
  obtain ⟨np, m, e, hflag⟩ := scanPairs_flag dd _ _
    (portalAt ps (((extractPortals dd s).tilePortalsIndices.getD tidx []).getD i 0))
    (portalAt ps (((extractPortals dd s).tilePortalsIndices.getD tidx []).getD j 0)) hwf hrect
    (fun a ha => cell_inGrid dd _ _ a hrect (hcells a ha))
  rw [connectPair_eq dd _ _ _ i j ps np m e]
  constructor
  · intro hall
    refine ⟨m, ?_⟩
    cases np with
    | false => rfl
    | true =>
      obtain ⟨a, ha, b, hb, hf⟩ := hflag.1 rfl
      obtain ⟨path, hf2, hne⟩ := hall a ha b hb
      rw [hf] at hf2
      exact absurd (Option.some.inj hf2).symm hne
  · intro hnot
    cases np with
    | true => rfl
    | false =>
      exfalso
      apply hnot
      intro a ha b hb
      obtain ⟨path, hf, _⟩ := find_path_a_star_total dd a b _ _ hwf hrect
      refine ⟨path, hf, ?_⟩
      intro hnil
      rw [hnil] at hf
      have := hflag.2 ⟨a, ha, b, hb, hf⟩
      cases this

/-- In the graph that `prebuildWith` returns every connection joins two portals
that are registered together for some region. -/
theorem prebuildWith_cooccur (dd : DungeonData) (s : Nat) (hwf : WellFormed dd) (hs : 1 ≤ s) :
    ∃ dp, prebuildWith s dd = some dp ∧
      ∀ k, ∀ c ∈ (portalAt dp.portals k).conns, ∃ r, r < dp.tilePortalsIndices.length ∧
        k ∈ dp.tilePortalsIndices.getD r [] ∧ c.connIdx ∈ dp.tilePortalsIndices.getD r [] := by
  obtain ⟨D, inv⟩ := extractPortals_inv dd s hwf hs
  obtain ⟨dp, e, _, htpi, _, h1⟩ := prebuildWith_rule dd s hwf hs
    (fun ps => ∀ k, ∀ c ∈ (portalAt ps k).conns, ∃ r,
      r < (extractPortals dd s).tilePortalsIndices.length ∧
      k ∈ (extractPortals dd s).tilePortalsIndices.getD r [] ∧
      c.connIdx ∈ (extractPortals dd s).tilePortalsIndices.getD r [])
    (fun k c hc => by rw [extract_conns dd s hwf hs k] at hc; cases hc)
    (by
      intro tidx htidx i j hij hj ps hco hP m _
      obtain ⟨hne, hi, hjm, hreg⟩ := step_context dd s D inv tidx i j htidx hij hj
      have hlen : ps.length = D.length := by
        have := congrArg List.length hco
        rw [List.length_map, List.length_map, inv.portals, List.length_map] at this
        exact this
      have hI := (hreg _ hi).1
      have hJ := (hreg _ hjm).1
      intro k c hc
      rw [conns_pushPair ps _ _ k _ _ (by omega) (by omega) hne] at hc
      rcases List.mem_append.1 hc with h | h
      · exact hP k c h
      · rcases List.mem_append.1 h with h | h
        · by_cases hk : k = ((extractPortals dd s).tilePortalsIndices.getD tidx []).getD i 0
          · rw [if_pos hk, List.mem_singleton] at h
            rw [h, hk]
            exact ⟨tidx, htidx, hi, hjm⟩
          · rw [if_neg hk] at h; cases h
        · by_cases hk : k = ((extractPortals dd s).tilePortalsIndices.getD tidx []).getD j 0
          · rw [if_pos hk, List.mem_singleton] at h
            rw [h, hk]
            exact ⟨tidx, htidx, hjm, hi⟩
          · rw [if_neg hk] at h; cases h)
  refine ⟨dp, e, ?_⟩
  rw [htpi]
  exact h1

theorem edgeCost_congr (dd : DungeonData) (s : Nat) (tPI : List (List Nat))
    (ps qs : List PathPortal) (k : Nat) (c : PortalConnection)
    (hco : ps.map portalCoords = qs.map portalCoords) (h : EdgeCost dd s tPI ps k c) :
    EdgeCost dd s tPI qs k c := by
  obtain ⟨r, h1, h2, h3, m, h4, h5, h6⟩ := h
  exact ⟨r, h1, h2, h3, m, h4, h5, regionPairMin_congr dd _ _ _ _ _ _ m
    (portalAt_coords ps qs k hco) (portalAt_coords ps qs c.connIdx hco) h6⟩

/-- In the graph that `prebuildWith` returns for a grid of at most 1024 by 1024
cells, the score of every connection is the least number of coordinates of a
route between the two portals inside a region that both are registered for. -/
theorem prebuildWith_costs (dd : DungeonData) (s : Nat) (hwf : WellFormed dd)
    (hsm : SmallGrid dd) (hs : 1 ≤ s) :
    ∃ dp, prebuildWith s dd = some dp ∧
      ∀ k, ∀ c ∈ (portalAt dp.portals k).conns,
        EdgeCost dd s dp.tilePortalsIndices dp.portals k c := by
  obtain ⟨D, inv⟩ := extractPortals_inv dd s hwf hs
  obtain ⟨dp, e, _, htpi, hco2, h1⟩ := prebuildWith_rule dd s hwf hs
    (fun ps => ∀ k, ∀ c ∈ (portalAt ps k).conns,
      EdgeCost dd s (extractPortals dd s).tilePortalsIndices (extractPortals dd s).portals k c)
    (fun k c hc => by rw [extract_conns dd s hwf hs k] at hc; cases hc)
    (by
      intro tidx htidx i j hij hj ps hco hP m hscan
      obtain ⟨hne, hi, hjm, hreg⟩ := step_context dd s D inv tidx i j htidx hij hj
      have ht : tidx < dd.height / s * (dd.width / s) := by rw [← inv.len]; exact htidx
      have hlen : ps.length = D.length := by
        have := congrArg List.length hco
        rw [List.length_map, List.length_map, inv.portals, List.length_map] at this
        exact this
      have hI := (hreg _ hi).1
      have hJ := (hreg _ hjm).1
      obtain ⟨_, _, _, _, hrect⟩ := tile_rect dd s tidx hwf hs ht
      obtain ⟨hcI, hnI⟩ := span_context dd s D hwf hs inv ps hco tidx _ ht hI (hreg _ hi).2
      obtain ⟨_, hnJ⟩ := span_context dd s D hwf hs inv ps hco tidx _ ht hJ (hreg _ hjm).2
      obtain ⟨np, m2, e2, _, hmin⟩ := scanPairs_region dd _ _
        (portalAt ps (((extractPortals dd s).tilePortalsIndices.getD tidx []).getD i 0))
        (portalAt ps (((extractPortals dd s).tilePortalsIndices.getD tidx []).getD j 0))
        hwf hsm hrect hcI hnI hnJ
      rw [hscan] at e2
      have e3 := Option.some.inj e2
      simp only [Prod.mk.injEq] at e3
      obtain ⟨hm24, hrm⟩ := hmin e3.1.symm
      rw [← e3.2] at hm24 hrm
      have hof : F32.ofNat m = m * 2 ^ 23 := by
        unfold F32.ofNat
        exact round_exact m hm24
      have hrm2 := regionPairMin_congr dd _ _ _ _ _ _ m
        (portalAt_coords ps _ _ hco) (portalAt_coords ps _ _ hco) hrm
      intro k c hc
      rw [conns_pushPair ps _ _ k _ _ (by omega) (by omega) hne] at hc
      rcases List.mem_append.1 hc with h | h
      · exact hP k c h
      · rcases List.mem_append.1 h with h | h
        · by_cases hk : k = ((extractPortals dd s).tilePortalsIndices.getD tidx []).getD i 0
          · rw [if_pos hk, List.mem_singleton] at h
            rw [h, hk]
            exact ⟨tidx, htidx, hi, hjm, m, rfl, hof, hrm2⟩
          · rw [if_neg hk] at h; cases h
        · by_cases hk : k = ((extractPortals dd s).tilePortalsIndices.getD tidx []).getD j 0
          · rw [if_pos hk, List.mem_singleton] at h
            rw [h, hk]
            exact ⟨tidx, htidx, hjm, hi, m, rfl, hof, regionPairMin_symm dd _ _ _ _ m hrm2⟩
          · rw [if_neg hk] at h; cases h)
  refine ⟨dp, e, fun k c hc => ?_⟩
  rw [htpi]
  exact edgeCost_congr dd s _ _ _ k c hco2.symm (h1 k c hc)

/-! ## The portal search: the result is a chain -/

theorem relaxConn_eq (dd : DungeonData) (dp : DungeonPortals) (cur : PathPortal)
    (s : PortalAStar) (c : PortalConnection) :
    relaxConn dd dp cur s c =
      pushPortal (portalAt dp.portals c.connIdx) (relaxPortal dd dp cur c s) := rfl

theorem idx_inj (dd : DungeonData) (dp : DungeonPortals) (K : Nat) (ok : GraphOk dd dp K)
    (p q : PathPortal) (hp : p ∈ dp.portals) (hq : q ∈ dp.portals)
    (h : PortalToIdx dd p = PortalToIdx dd q) : p = q :=
  ok.mids_inj p hp q hq
    (coord_to_idx_inj dd _ _ ok.size (ok.mids_in p hp) (ok.mids_in q hq) h)

theorem mid_ne_noPrev (dd : DungeonData) (c : IVec2) (h : inGrid dd c) : c ≠ noPrev := by
  intro e
  rw [e] at h
  have := h.1
  simp [noPrev] at this

theorem closed_le_portals (dp : DungeonPortals) (l : List PathPortal) (hn : l.Nodup)
    (hl : ∀ p ∈ l, p ∈ dp.portals) : l.length ≤ dp.portals.length :=
  (List.subperm_of_subset hn hl).length_le

theorem add_whole_exact (j k : Nat) (h : j + k < 2 ^ 24) :
    F32.add (j * 2 ^ 23) (k * 2 ^ 23) = (j + k) * 2 ^ 23 := by
  unfold F32.add
  rw [show j * 2 ^ 23 + k * 2 ^ 23 = (j + k) * 2 ^ 23 by ring]
  exact round_exact _ h

/-- The guarded update keeps the invariant. -/
theorem relaxPortal_inv (dd : DungeonData) (dp : DungeonPortals) (K : Nat)
    (src cur : PathPortal) (s : PortalAStar) (c : PortalConnection) (j : Nat)
    (ok : GraphOk dd dp K) (inv : PInv dd dp K src s)
    (hcur : cur ∈ s.closedList) (hc : c ∈ cur.conns)
    (hg : s.g (PortalToIdx dd cur) = j * 2 ^ 23) (hj : j + K ≤ s.closedList.length * K) :
    PInv dd dp K src (relaxPortal dd dp cur c s) ∧
      (relaxPortal dd dp cur c s).g (PortalToIdx dd cur) = j * 2 ^ 23 ∧
      (relaxPortal dd dp cur c s).g (PortalToIdx dd (portalAt dp.portals c.connIdx)) ≠ F32.max ∧
      (relaxPortal dd dp cur c s).openList = s.openList ∧
      (relaxPortal dd dp cur c s).closedList = s.closedList := by
  have hcurp := (inv.reach_closed cur hcur).1
  obtain ⟨hidx, hmod, hpos, hle⟩ := ok.conns_ok cur hcurp c hc
  have hp : portalAt dp.portals c.connIdx ∈ dp.portals := getD_mem _ _ _ hidx
  have hlen := closed_le_portals dp s.closedList inv.nodup fun p h => (inv.reach_closed p h).1
  have hb := ok.bound
  have hLK : s.closedList.length * K ≤ dp.portals.length * K := Nat.mul_le_mul_right _ hlen
  have hk : c.score = c.score / 2 ^ 23 * 2 ^ 23 := by omega
  have hkK : c.score / 2 ^ 23 ≤ K := by omega
  have hgs : F32.add (s.g (PortalToIdx dd cur)) c.score = (j + c.score / 2 ^ 23) * 2 ^ 23 := by
    rw [hg]
    conv_lhs => rw [hk]
    exact add_whole_exact _ _ (by omega)
  have hmax := exact_lt_max (j + c.score / 2 ^ 23) (by omega)
  unfold relaxPortal
  rw [hgs]
  by_cases hlt : (j + c.score / 2 ^ 23) * 2 ^ 23 < s.g (PortalToIdx dd (portalAt dp.portals c.connIdx))
  · rw [if_pos hlt]
    have hne_src : PortalToIdx dd src ≠ PortalToIdx dd (portalAt dp.portals c.connIdx) := by
      intro e
      rw [← e, inv.g_src] at hlt
      omega
    have hne_cur : PortalToIdx dd cur ≠ PortalToIdx dd (portalAt dp.portals c.connIdx) := by
      intro e
      rw [← e, hg] at hlt
      have : j * 2 ^ 23 ≤ (j + c.score / 2 ^ 23) * 2 ^ 23 := Nat.mul_le_mul_right _ (by omega)
      omega
    have hgfin : ∀ q : PathPortal, s.g (PortalToIdx dd q) ≠ F32.max →
        setAt s.g (PortalToIdx dd (portalAt dp.portals c.connIdx))
          ((j + c.score / 2 ^ 23) * 2 ^ 23) (PortalToIdx dd q) ≠ F32.max := by
      intro q hq
      unfold setAt
      split
      · omega
      · exact hq
    refine ⟨⟨inv.nodup, ?_, ?_, fun q hq => ⟨(inv.reach_open q hq).1, hgfin q (inv.reach_open q hq).2⟩,
      fun q hq => ⟨(inv.reach_closed q hq).1, hgfin q (inv.reach_closed q hq).2⟩, ?_, ?_, ?_⟩,
      ?_, ?_, rfl, rfl⟩
    · show setAt s.g _ _ _ = 0
      simp [setAt, hne_src, inv.g_src]
    · show setAt s.prev _ _ _ = noPrev
      simp [setAt, hne_src, inv.prev_src]
    · intro i
      show setAt s.g _ _ i = F32.max ∨ ∃ j2, j2 ≤ s.closedList.length * K ∧ setAt s.g _ _ i = j2 * 2 ^ 23
      unfold setAt
      split
      · exact Or.inr ⟨j + c.score / 2 ^ 23, by omega, rfl⟩
      · exact inv.g_val i
    · intro q hq hgq
      show q = src ∨ setAt s.prev _ _ (PortalToIdx dd q) ≠ noPrev
      by_cases hqi : PortalToIdx dd q = PortalToIdx dd (portalAt dp.portals c.connIdx)
      · right
        simp only [setAt, hqi, if_true]
        exact mid_ne_noPrev dd _ (ok.mids_in cur hcurp)
      · have e1 : setAt s.g (PortalToIdx dd (portalAt dp.portals c.connIdx))
            ((j + c.score / 2 ^ 23) * 2 ^ 23) (PortalToIdx dd q) = s.g (PortalToIdx dd q) := by
          simp [setAt, hqi]
        have hgq2 : s.g (PortalToIdx dd q) ≠ F32.max := by rw [← e1]; exact hgq
        rcases inv.g_fin q hq hgq2 with h | h
        · exact Or.inl h
        · right
          simp only [setAt, hqi, if_false]
          exact h
    · intro q hq hpq
      show ∃ cur2 ∈ s.closedList, Linked dp cur2 q ∧
        setAt s.prev _ _ (PortalToIdx dd q) = PortalToCoord cur2 ∧
        setAt s.g (PortalToIdx dd (portalAt dp.portals c.connIdx))
            ((j + c.score / 2 ^ 23) * 2 ^ 23) (PortalToIdx dd cur2) <
          setAt s.g (PortalToIdx dd (portalAt dp.portals c.connIdx))
            ((j + c.score / 2 ^ 23) * 2 ^ 23) (PortalToIdx dd q)
      by_cases hqi : PortalToIdx dd q = PortalToIdx dd (portalAt dp.portals c.connIdx)
      · have hqp : q = portalAt dp.portals c.connIdx := idx_inj dd dp K ok q _ hq hp hqi
        refine ⟨cur, hcur, ⟨c, hc, hqp.symm⟩, ?_, ?_⟩
        · simp [setAt, hqi]
        · simp only [setAt, hqi, if_true, if_neg hne_cur, hg]
          omega
      · have e1 : setAt s.prev (PortalToIdx dd (portalAt dp.portals c.connIdx))
            (PortalToCoord cur) (PortalToIdx dd q) = s.prev (PortalToIdx dd q) := by
          simp [setAt, hqi]
        have e2 : setAt s.g (PortalToIdx dd (portalAt dp.portals c.connIdx))
            ((j + c.score / 2 ^ 23) * 2 ^ 23) (PortalToIdx dd q) = s.g (PortalToIdx dd q) := by
          simp [setAt, hqi]
        have hpq2 : s.prev (PortalToIdx dd q) ≠ noPrev := by rw [← e1]; exact hpq
        obtain ⟨cur2, h1, h2, h3, h4⟩ := inv.prev_ok q hq hpq2
        refine ⟨cur2, h1, h2, by rw [e1]; exact h3, ?_⟩
        rw [e2]
        unfold setAt
        split
        · rename_i e3
          rw [e3] at h4
          omega
        · exact h4
    · show setAt s.g _ _ _ = _
      simp [setAt, hne_cur, hg]
    · show setAt s.g _ _ _ ≠ _
      simp only [setAt, if_true]
      omega
  · rw [if_neg hlt]
    exact ⟨inv, hg, by omega, rfl, rfl⟩

/-- The body of the loop over the connections keeps the invariant. -/
theorem relaxConn_inv (dd : DungeonData) (dp : DungeonPortals) (K : Nat)
    (src cur : PathPortal) (s : PortalAStar) (c : PortalConnection) (j : Nat)
    (ok : GraphOk dd dp K) (inv : PInv dd dp K src s)
    (hcur : cur ∈ s.closedList) (hc : c ∈ cur.conns)
    (hg : s.g (PortalToIdx dd cur) = j * 2 ^ 23) (hj : j + K ≤ s.closedList.length * K) :
    PInv dd dp K src (relaxConn dd dp cur s c) ∧
      (relaxConn dd dp cur s c).g (PortalToIdx dd cur) = j * 2 ^ 23 ∧
      (relaxConn dd dp cur s c).closedList = s.closedList := by
  obtain ⟨t, g1, g2, o, cl⟩ := relaxPortal_inv dd dp K src cur s c j ok inv hcur hc hg hj
  have hcurp := (inv.reach_closed cur hcur).1
  have hp : portalAt dp.portals c.connIdx ∈ dp.portals :=
    getD_mem _ _ _ (ok.conns_ok cur hcurp c hc).1
  rw [relaxConn_eq]
  unfold pushPortal
  split
  · exact ⟨t, g1, cl⟩
  · refine ⟨⟨t.nodup, t.g_src, t.prev_src, ?_, t.reach_closed, t.g_val, t.g_fin, t.prev_ok⟩, g1, cl⟩
    intro q hq
    rcases List.mem_append.1 hq with h | h
    · exact t.reach_open q h
    · rw [List.mem_singleton.1 h]; exact ⟨hp, g2⟩

/-- The loop over the connections of a closed portal keeps the invariant. -/
theorem relaxConns_inv (dd : DungeonData) (dp : DungeonPortals) (K : Nat)
    (src cur : PathPortal) (j : Nat) (ok : GraphOk dd dp K) :
    ∀ (cs : List PortalConnection) (s : PortalAStar), (∀ c ∈ cs, c ∈ cur.conns) →
      PInv dd dp K src s → cur ∈ s.closedList → s.g (PortalToIdx dd cur) = j * 2 ^ 23 →
      j + K ≤ s.closedList.length * K →
      PInv dd dp K src (cs.foldl (relaxConn dd dp cur) s) := by
  intro cs
  induction cs with
  | nil => intro s _ inv _ _ _; exact inv
  | cons c cs ih =>
    intro s hcs inv hcur hg hj
    obtain ⟨i1, g1, c1⟩ := relaxConn_inv dd dp K src cur s c j ok inv hcur
      (hcs c (List.mem_cons_self _ _)) hg hj
    rw [List.foldl_cons]
    exact ih _ (fun c2 h2 => hcs c2 (List.mem_cons_of_mem _ h2)) i1 (by rw [c1]; exact hcur) g1
      (by rw [c1]; exact hj)

/-- Following predecessors from the midpoint of a reached portal gives the
midpoints of a chain of portals from the source. -/
theorem portal_reconstruct (dd : DungeonData) (dp : DungeonPortals) (K : Nat)
    (src dst : PathPortal) (s : PortalAStar) (inv : PInv dd dp K src s) :
    ∀ (fuel : Nat) (q : PathPortal) (rest : List PathPortal) (path : List IVec2),
      q ∈ dp.portals → s.g (PortalToIdx dd q) ≠ F32.max →
      (q :: rest).getLast? = some dst → (q :: rest).Chain' (Linked dp) →
      (∀ p ∈ q :: rest, p ∈ dp.portals) →
      reconstruct_path_loop s.prev dd.width fuel (PortalToCoord q)
        ((q :: rest).map PortalToCoord) = some path →
      ∃ chain, PortalChain dp src dst chain ∧ path = chain.map PortalToCoord := by
  intro fuel
  induction fuel with
  | zero =>
    intro q rest path _ _ _ _ _ h
    simp [reconstruct_path_loop] at h
  | succ fuel ih =>
    intro q rest path hq hg hlast hchain hall h
    unfold reconstruct_path_loop at h
    have hidx : coord_to_idx (PortalToCoord q).x (PortalToCoord q).y dd.width = PortalToIdx dd q :=
      rfl
    rw [hidx] at h
    by_cases hp : s.prev (PortalToIdx dd q) ≠ noPrev
    · rw [if_pos hp] at h
      obtain ⟨cur, hcur, hlink, hprev, _⟩ := inv.prev_ok q hq hp
      rw [hprev] at h
      obtain ⟨hcp, hcg⟩ := inv.reach_closed cur hcur
      refine ih cur (q :: rest) path hcp hcg ?_ ?_ ?_ h
      · rw [List.getLast?_cons_cons]; exact hlast
      · exact List.Chain'.cons hlink hchain
      · intro p hpm
        rcases List.mem_cons.1 hpm with e | e
        · rw [e]; exact hcp
        · exact hall p e
    · rw [if_neg hp] at h
      have hqs : q = src := by
        rcases inv.g_fin q hq hg with e | e
        · exact e
        · exact absurd e hp
      refine ⟨q :: rest, ⟨by rw [hqs]; rfl, hlast, hchain, hall⟩, ?_⟩
      exact (Option.some.inj h).symm

/-- A sequence that is not empty and that the loop of the portal search
returns is the sequence of midpoints of a chain of portals. -/
theorem portalLoop_chain (dd : DungeonData) (dp : DungeonPortals) (K : Nat)
    (src dst : PathPortal) (ok : GraphOk dd dp K) :
    ∀ (fuel : Nat) (s : PortalAStar), PInv dd dp K src s → ∀ path,
      portalLoop dd dp dst fuel s = some path → path ≠ [] →
      ∃ chain, PortalChain dp src dst chain ∧ path = chain.map PortalToCoord := by
  intro fuel
  induction fuel with
  | zero =>
    intro s _ path h _
    simp [portalLoop] at h
  | succ fuel ih =>
    intro s inv path h hne
    unfold portalLoop at h
    cases ho : s.openList with
    | nil =>
      rw [ho] at h
      simp only at h
      exact absurd (Option.some.inj h).symm hne
    | cons first rest =>
      rw [ho] at h
      simp only at h
      have hlt := bestIndex_lt
        (fun p => F32.add (s.g (PortalToIdx dd p)) (portal_heuristic p dst)) first rest
      generalize bestIndex
        (fun p => F32.add (s.g (PortalToIdx dd p)) (portal_heuristic p dst)) first rest = bi
        at h hlt
      have hmem : (first :: rest).getD bi first ∈ s.openList := by
        rw [ho]; exact getD_mem _ _ _ hlt
      have hsub : ∀ x ∈ (first :: rest).eraseIdx bi, x ∈ s.openList := fun x hx =>
        ho ▸ mem_of_mem_eraseIdx _ _ x hx
      obtain ⟨hcp, hcg⟩ := inv.reach_open _ hmem
      by_cases h1 : (first :: rest).getD bi first = dst
      · rw [if_pos h1] at h
        rw [h1] at hcp hcg
        exact portal_reconstruct dd dp K src dst s inv _ dst [] path hcp hcg rfl
          (List.chain'_singleton _) (fun p hp => by rw [List.mem_singleton.1 hp]; exact hcp) h
      · rw [if_neg h1] at h
        by_cases h2 : (first :: rest).getD bi first ∈ s.closedList
        · rw [if_pos h2] at h
          have inv2 : PInv dd dp K src { s with openList := (first :: rest).eraseIdx bi } :=
            ⟨inv.nodup, inv.g_src, inv.prev_src,
              fun p hp => inv.reach_open p (hsub p hp), inv.reach_closed, inv.g_val, inv.g_fin,
              inv.prev_ok⟩
          exact ih _ inv2 path h hne
        · rw [if_neg h2] at h
          rcases inv.g_val (PortalToIdx dd ((first :: rest).getD bi first)) with e | ⟨j, hj, e⟩
          · exact absurd e hcg
          · have inv2 : PInv dd dp K src
                { s with openList := (first :: rest).eraseIdx bi,
                         closedList := s.closedList ++ [(first :: rest).getD bi first] } := by
              refine ⟨?_, inv.g_src, inv.prev_src, fun p hp => inv.reach_open p (hsub p hp), ?_,
                ?_, inv.g_fin, ?_⟩
              · exact List.Nodup.append inv.nodup (List.nodup_singleton _)
                  (by
                    intro x hx hx2
                    rw [List.mem_singleton.1 hx2] at hx
                    exact h2 hx)
              · intro p hp
                rcases List.mem_append.1 hp with hh | hh
                · exact inv.reach_closed p hh
                · rw [List.mem_singleton.1 hh]; exact ⟨hcp, hcg⟩
              · intro i
                rcases inv.g_val i with hh | ⟨j2, hj2, hh⟩
                · exact Or.inl hh
                · refine Or.inr ⟨j2, ?_, hh⟩
                  show j2 ≤ (s.closedList ++ [(first :: rest).getD bi first]).length * K
                  rw [List.length_append, List.length_singleton, Nat.add_mul]
                  omega
              · intro q hq hpq
                obtain ⟨cur2, c1, c2, c3⟩ := inv.prev_ok q hq hpq
                exact ⟨cur2, List.mem_append_left _ c1, c2, c3⟩
            refine ih _ (relaxConns_inv dd dp K src _ j ok _
              { s with openList := (first :: rest).eraseIdx bi,
                       closedList := s.closedList ++ [(first :: rest).getD bi first] }
              (fun c hc => hc) inv2 ?_ e ?_) path h hne
            · exact List.mem_append_right _ (List.mem_singleton.2 rfl)
            · show j + K ≤ (s.closedList ++ [(first :: rest).getD bi first]).length * K
              rw [List.length_append, List.length_singleton, Nat.add_mul]
              omega

/-- The state before the first pass of the loop has the invariant. -/
theorem portal_init_inv (dd : DungeonData) (dp : DungeonPortals) (K : Nat)
    (src : PathPortal) (ok : GraphOk dd dp K) (hsrc : src ∈ dp.portals) :
    PInv dd dp K src
      { g := setAt (fun _ => F32.max) (PortalToIdx dd src) 0
        prev := fun _ => noPrev
        openList := [src]
        closedList := [] } := by
  refine ⟨List.nodup_nil, by simp [setAt], rfl, ?_, (fun p hp => by cases hp), ?_, ?_, ?_⟩
  · intro p hp
    rw [List.mem_singleton.1 hp]
    refine ⟨hsrc, ?_⟩
    simp only [setAt, if_true]
    unfold F32.max
    norm_num
  · intro i
    simp only [setAt]
    split
    · exact Or.inr ⟨0, Nat.zero_le _, by simp⟩
    · exact Or.inl rfl
  · intro q hq hg
    left
    by_contra hqs
    apply hg
    have hne2 : PortalToIdx dd q ≠ PortalToIdx dd src := fun e =>
      hqs (idx_inj dd dp K ok q src hq hsrc e)
    simp [setAt, hne2]
  · intro q _ hp
    exact absurd rfl hp

/-- On a graph without collisions, a sequence that is not empty and that
`find_path_a_star_portal` returns for two portals of the graph is the sequence
of midpoints of a chain of portals from the first to the second. -/
theorem find_path_a_star_portal_chain (dd : DungeonData) (dp : DungeonPortals) (K : Nat)
    (src dst : PathPortal) (ok : GraphOk dd dp K) (hsrc : src ∈ dp.portals) (path : List IVec2)
    (h : find_path_a_star_portal dd dp src dst = some path) (hne : path ≠ []) :
    ∃ chain, PortalChain dp src dst chain ∧ path = chain.map PortalToCoord := by
  unfold find_path_a_star_portal at h
  exact portalLoop_chain dd dp K src dst ok _ _ (portal_init_inv dd dp K src ok hsrc) path h hne

/-! ## The portal search returns -/

theorem relaxPortal_lists (dd : DungeonData) (dp : DungeonPortals) (cur : PathPortal)
    (c : PortalConnection) (s : PortalAStar) :
    (relaxPortal dd dp cur c s).openList = s.openList ∧
      (relaxPortal dd dp cur c s).closedList = s.closedList := by
  unfold relaxPortal
  split <;> exact ⟨rfl, rfl⟩

/-- A connection puts at most one entry on the open list and none on the closed list. -/
theorem relaxConn_lists (dd : DungeonData) (dp : DungeonPortals) (cur : PathPortal)
    (s : PortalAStar) (c : PortalConnection) :
    (relaxConn dd dp cur s c).closedList = s.closedList ∧
      (relaxConn dd dp cur s c).openList.length ≤ s.openList.length + 1 := by
  obtain ⟨o, cl⟩ := relaxPortal_lists dd dp cur c s
  rw [relaxConn_eq]
  unfold pushPortal
  split
  · exact ⟨cl, by rw [o]; omega⟩
  · refine ⟨cl, ?_⟩
    show ((relaxPortal dd dp cur c s).openList ++ [_]).length ≤ _
    rw [List.length_append, o, List.length_singleton]

theorem relaxConns_lists (dd : DungeonData) (dp : DungeonPortals) (cur : PathPortal) :
    ∀ (cs : List PortalConnection) (s : PortalAStar),
      (cs.foldl (relaxConn dd dp cur) s).closedList = s.closedList ∧
        (cs.foldl (relaxConn dd dp cur) s).openList.length ≤ s.openList.length + cs.length := by
  intro cs
  induction cs with
  | nil => intro s; exact ⟨rfl, Nat.le_refl _⟩
  | cons c cs ih =>
    intro s
    obtain ⟨h1, h2⟩ := relaxConn_lists dd dp cur s c
    obtain ⟨h3, h4⟩ := ih (relaxConn dd dp cur s c)
    rw [List.foldl_cons, List.length_cons]
    exact ⟨h3.trans h1, by omega⟩

/-- The connections of closed portals are among those of the graph. -/
theorem closed_sum_le (dp : DungeonPortals) (l : List PathPortal) (hn : l.Nodup)
    (hl : ∀ p ∈ l, p ∈ dp.portals) :
    (l.map fun p => p.conns.length).sum ≤ (dp.portals.map fun p => p.conns.length).sum := by
  obtain ⟨l2, hperm, hsub⟩ := List.subperm_of_subset hn hl
  rw [← (hperm.map _).sum_eq]
  exact (hsub.map _).sum_le_sum fun _ _ => Nat.zero_le _

theorem countP_lt_of_witness {α : Type} (p q : α → Bool) (a : α) :
    ∀ l : List α, a ∈ l → q a = true → p a = false → (∀ x, p x = true → q x = true) →
      l.countP p < l.countP q := by
  intro l
  induction l with
  | nil => intro h; cases h
  | cons x xs ih =>
    intro ha hq hp hpq
    have hle : xs.countP p ≤ xs.countP q := List.countP_mono_left fun y _ hy => hpq y hy
    by_cases hax : a = x
    · have hnp : ¬ p x = true := by rw [← hax, hp]; simp
      have hqx : q x = true := by rw [← hax]; exact hq
      rw [List.countP_cons, List.countP_cons, if_neg hnp, if_pos hqx]
      omega
    · have hxs : a ∈ xs := by
        rcases List.mem_cons.1 ha with e | e
        · exact absurd e hax
        · exact e
      have hlt := ih hxs hq hp hpq
      rw [List.countP_cons, List.countP_cons]
      by_cases hpx : p x = true
      · rw [if_pos hpx, if_pos (hpq x hpx)]
        omega
      · rw [if_neg hpx]
        split <;> omega

theorem portalIdx_lt (dd : DungeonData) (dp : DungeonPortals) (K : Nat) (ok : GraphOk dd dp K)
    (p : PathPortal) (hp : p ∈ dp.portals) : PortalToIdx dd p < dd.width * dd.height := by
  have hin := ok.mids_in p hp
  have e : PortalToIdx dd p = (PortalToCoord p).y.toNat * dd.width + (PortalToCoord p).x.toNat :=
    coord_to_idx_inGrid dd _ ok.size hin
  obtain ⟨h1, h2, h3, h4⟩ := hin
  have hx : (PortalToCoord p).x.toNat < dd.width := by omega
  have hy : (PortalToCoord p).y.toNat + 1 ≤ dd.height := by omega
  have := Nat.mul_le_mul_left dd.width hy
  rw [e]
  calc (PortalToCoord p).y.toNat * dd.width + (PortalToCoord p).x.toNat
      < (PortalToCoord p).y.toNat * dd.width + dd.width := by omega
    _ = dd.width * ((PortalToCoord p).y.toNat + 1) := by ring
    _ ≤ dd.width * dd.height := this

/-- Following predecessors from the midpoint of a portal ends: every step
goes to a portal of a smaller score, and fewer cells of the grid lie below it. -/
theorem portal_reconstruct_total (dd : DungeonData) (dp : DungeonPortals) (K : Nat)
    (src : PathPortal) (s : PortalAStar) (ok : GraphOk dd dp K) (inv : PInv dd dp K src s) :
    ∀ (fuel : Nat) (q : PathPortal) (res : List IVec2),
      q ∈ dp.portals → gRank dd s (PortalToIdx dd q) < fuel →
      ∃ path, reconstruct_path_loop s.prev dd.width fuel (PortalToCoord q) res = some path := by
  intro fuel
  induction fuel with
  | zero =>
    intro q res _ h
    exact absurd h (Nat.not_lt_zero _)
  | succ fuel ih =>
    intro q res hq hr
    unfold reconstruct_path_loop
    have hidx : coord_to_idx (PortalToCoord q).x (PortalToCoord q).y dd.width = PortalToIdx dd q :=
      rfl
    rw [hidx]
    by_cases hp : s.prev (PortalToIdx dd q) ≠ noPrev
    · rw [if_pos hp]
      obtain ⟨cur, hcur, _, hprev, hlt⟩ := inv.prev_ok q hq hp
      rw [hprev]
      have hcp := (inv.reach_closed cur hcur).1
      refine ih cur _ hcp ?_
      have hrank : gRank dd s (PortalToIdx dd cur) < gRank dd s (PortalToIdx dd q) :=
        countP_lt_of_witness _ _ (PortalToIdx dd cur) _
          (List.mem_range.2 (portalIdx_lt dd dp K ok cur hcp))
          (by simpa using hlt) (by simp)
          (fun x hx => by
            have hx2 : s.g x < s.g (PortalToIdx dd cur) := by simpa using hx
            simpa using Nat.lt_trans hx2 hlt)
      omega
    · rw [if_neg hp]
      exact ⟨_, rfl⟩

/-- The loop of the portal search returns when its fuel exceeds the entries of
the open list and the connections of the portals not closed yet: a pass takes
one entry off the open list, and a pass that closes a portal puts at most one
entry there for each of its connections. -/
theorem portalLoop_total (dd : DungeonData) (dp : DungeonPortals) (K : Nat)
    (src dst : PathPortal) (ok : GraphOk dd dp K) :
    ∀ (fuel : Nat) (s : PortalAStar), PInv dd dp K src s → portalMeasure dp s < fuel →
      ∃ path, portalLoop dd dp dst fuel s = some path := by
  intro fuel
  induction fuel with
  | zero =>
    intro s _ h
    exact absurd h (Nat.not_lt_zero _)
  | succ fuel ih =>
    intro s inv hM
    unfold portalMeasure at hM
    unfold portalLoop
    cases ho : s.openList with
    | nil => exact ⟨_, rfl⟩
    | cons first rest =>
      simp only
      have hlt := bestIndex_lt
        (fun p => F32.add (s.g (PortalToIdx dd p)) (portal_heuristic p dst)) first rest
      generalize bestIndex
        (fun p => F32.add (s.g (PortalToIdx dd p)) (portal_heuristic p dst)) first rest = bi
        at hlt
      have hmem : (first :: rest).getD bi first ∈ s.openList := by
        rw [ho]; exact getD_mem _ _ _ hlt
      have hsub : ∀ x ∈ (first :: rest).eraseIdx bi, x ∈ s.openList := fun x hx =>
        ho ▸ mem_of_mem_eraseIdx _ _ x hx
      have hlen : ((first :: rest).eraseIdx bi).length + 1 = s.openList.length := by
        rw [ho, List.length_eraseIdx, if_pos hlt]
        simp
      obtain ⟨hcp, hcg⟩ := inv.reach_open _ hmem
      by_cases h1 : (first :: rest).getD bi first = dst
      · rw [if_pos h1]
        rw [h1] at hcp
        exact portal_reconstruct_total dd dp K src s ok inv _ dst _ hcp
          (Nat.lt_succ_of_le (by
            unfold gRank
            exact (List.countP_le_length _).trans (by rw [List.length_range])))
      · rw [if_neg h1]
        by_cases h2 : (first :: rest).getD bi first ∈ s.closedList
        · rw [if_pos h2]
          have inv2 : PInv dd dp K src { s with openList := (first :: rest).eraseIdx bi } :=
            ⟨inv.nodup, inv.g_src, inv.prev_src,
              fun p hp => inv.reach_open p (hsub p hp), inv.reach_closed, inv.g_val, inv.g_fin,
              inv.prev_ok⟩
          refine ih _ inv2 ?_
          show ((first :: rest).eraseIdx bi).length +
            ((dp.portals.map fun p => p.conns.length).sum -
              (s.closedList.map fun p => p.conns.length).sum) < fuel
          omega
        · rw [if_neg h2]
          rcases inv.g_val (PortalToIdx dd ((first :: rest).getD bi first)) with e | ⟨j, hj, e⟩
          · exact absurd e hcg
          · have inv2 : PInv dd dp K src
                { s with openList := (first :: rest).eraseIdx bi,
                         closedList := s.closedList ++ [(first :: rest).getD bi first] } := by
              refine ⟨?_, inv.g_src, inv.prev_src, fun p hp => inv.reach_open p (hsub p hp), ?_,
                ?_, inv.g_fin, ?_⟩
              · exact List.Nodup.append inv.nodup (List.nodup_singleton _)
                  (by
                    intro x hx hx2
                    rw [List.mem_singleton.1 hx2] at hx
                    exact h2 hx)
              · intro p hp
                rcases List.mem_append.1 hp with hh | hh
                · exact inv.reach_closed p hh
                · rw [List.mem_singleton.1 hh]; exact ⟨hcp, hcg⟩
              · intro i
                rcases inv.g_val i with hh | ⟨j2, hj2, hh⟩
                · exact Or.inl hh
                · refine Or.inr ⟨j2, ?_, hh⟩
                  show j2 ≤ (s.closedList ++ [(first :: rest).getD bi first]).length * K
                  rw [List.length_append, List.length_singleton, Nat.add_mul]
                  omega
              · intro q hq hpq
                obtain ⟨cur2, c1, c2, c3⟩ := inv.prev_ok q hq hpq
                exact ⟨cur2, List.mem_append_left _ c1, c2, c3⟩
            have hsum := closed_sum_le dp _ inv2.nodup fun p hp => (inv2.reach_closed p hp).1
            have hsum2 : (s.closedList.map fun p => p.conns.length).sum +
                ((first :: rest).getD bi first).conns.length ≤
                (dp.portals.map fun p => p.conns.length).sum := by
              have e2 : ((s.closedList ++ [(first :: rest).getD bi first]).map
                  fun p => p.conns.length).sum =
                  (s.closedList.map fun p => p.conns.length).sum +
                    ((first :: rest).getD bi first).conns.length := by
                simp
              rw [← e2]
              exact hsum
            obtain ⟨l1, l2⟩ := relaxConns_lists dd dp ((first :: rest).getD bi first)
              ((first :: rest).getD bi first).conns
              { s with openList := (first :: rest).eraseIdx bi,
                       closedList := s.closedList ++ [(first :: rest).getD bi first] }
            refine ih _ (relaxConns_inv dd dp K src _ j ok _
              { s with openList := (first :: rest).eraseIdx bi,
                       closedList := s.closedList ++ [(first :: rest).getD bi first] }
              (fun c hc => hc) inv2 ?_ e ?_) ?_
            · exact List.mem_append_right _ (List.mem_singleton.2 rfl)
            · show j + K ≤ (s.closedList ++ [(first :: rest).getD bi first]).length * K
              rw [List.length_append, List.length_singleton, Nat.add_mul]
              omega
            · unfold portalMeasure
              rw [l1]
              have l3 : (((first :: rest).getD bi first).conns.foldl
                  (relaxConn dd dp ((first :: rest).getD bi first))
                  { s with openList := (first :: rest).eraseIdx bi,
                           closedList := s.closedList ++ [(first :: rest).getD bi first] }
                  ).openList.length ≤
                  ((first :: rest).eraseIdx bi).length +
                    ((first :: rest).getD bi first).conns.length := l2
              have e3 : ((s.closedList ++ [(first :: rest).getD bi first]).map
                  fun p => p.conns.length).sum =
                  (s.closedList.map fun p => p.conns.length).sum +
                    ((first :: rest).getD bi first).conns.length := by
                simp
              show _ + (_ - ((s.closedList ++ [(first :: rest).getD bi first]).map
                  fun p => p.conns.length).sum) < fuel
              rw [e3]
              omega

/-! ## The portal search: an empty result means no chain -/

theorem reconstruct_path_loop_ne_nil (prev : Nat → IVec2) (width : Nat) :
    ∀ (fuel : Nat) (cur : IVec2) (res path : List IVec2), res ≠ [] →
      reconstruct_path_loop prev width fuel cur res = some path → path ≠ [] := by
  intro fuel
  induction fuel with
  | zero =>
    intro cur res path _ h
    simp [reconstruct_path_loop] at h
  | succ fuel ih =>
    intro cur res path hres h
    unfold reconstruct_path_loop at h
    split at h
    · exact ih _ _ path (List.cons_ne_nil _ _) h
    · rw [← Option.some.inj h]
      exact hres

/-- A connection leaves the entries of the open list there and puts the portal
it points at on the list. -/
theorem relaxConn_open (dd : DungeonData) (dp : DungeonPortals) (cur : PathPortal)
    (s : PortalAStar) (c : PortalConnection) :
    (∀ x ∈ s.openList, x ∈ (relaxConn dd dp cur s c).openList) ∧
      portalAt dp.portals c.connIdx ∈ (relaxConn dd dp cur s c).openList := by
  obtain ⟨o, _⟩ := relaxPortal_lists dd dp cur c s
  rw [relaxConn_eq]
  unfold pushPortal
  split
  · rename_i h
    exact ⟨fun x hx => by rw [o]; exact hx, h⟩
  · refine ⟨fun x hx => ?_, ?_⟩
    · show x ∈ (relaxPortal dd dp cur c s).openList ++ [_]
      rw [o]
      exact List.mem_append_left _ hx
    · show _ ∈ (relaxPortal dd dp cur c s).openList ++ [_]
      exact List.mem_append_right _ (List.mem_singleton.2 rfl)

theorem relaxConns_open (dd : DungeonData) (dp : DungeonPortals) (cur : PathPortal) :
    ∀ (cs : List PortalConnection) (s : PortalAStar),
      (∀ x ∈ s.openList, x ∈ (cs.foldl (relaxConn dd dp cur) s).openList) ∧
        ∀ c ∈ cs, portalAt dp.portals c.connIdx ∈ (cs.foldl (relaxConn dd dp cur) s).openList := by
  intro cs
  induction cs with
  | nil => intro s; exact ⟨fun x hx => hx, fun c hc => by cases hc⟩
  | cons c cs ih =>
    intro s
    obtain ⟨h1, h2⟩ := relaxConn_open dd dp cur s c
    obtain ⟨h3, h4⟩ := ih (relaxConn dd dp cur s c)
    rw [List.foldl_cons]
    refine ⟨fun x hx => h3 x (h1 x hx), fun c2 hc2 => ?_⟩
    rcases List.mem_cons.1 hc2 with e | e
    · rw [e]; exact h3 _ h2
    · exact h4 c2 e

/-- When the open list is empty, every portal of a chain that starts at a
closed portal is closed. -/
theorem chain_closed (dp : DungeonPortals) (src dst : PathPortal) (s : PortalAStar)
    (hl : Listed dp src dst s) (ho : s.openList = []) :
    ∀ (chain : List PathPortal), chain.Chain' (Linked dp) →
      (∀ p, chain.head? = some p → p ∈ s.closedList) → ∀ q ∈ chain, q ∈ s.closedList := by
  intro chain
  induction chain with
  | nil => intro _ _ q hq; cases hq
  | cons a rest ih =>
    intro hch hhead q hq
    have ha : a ∈ s.closedList := hhead a rfl
    rcases List.mem_cons.1 hq with e | e
    · rw [e]; exact ha
    · refine ih (List.Chain'.tail hch) ?_ q e
      intro p hp
      cases rest with
      | nil => cases hp
      | cons b rest2 =>
        have hpb : b = p := Option.some.inj hp
        obtain ⟨c, hc, hcb⟩ := (List.chain'_cons.1 hch).1
        rcases hl.succ_listed a ha c hc with h | h
        · rw [ho] at h; cases h
        · rw [← hpb, ← hcb]; exact h

/-- The loop of the portal search returns the empty sequence only when no
chain of portals joins the source to the target. -/
theorem portalLoop_complete (dd : DungeonData) (dp : DungeonPortals) (src dst : PathPortal) :
    ∀ (fuel : Nat) (s : PortalAStar), Listed dp src dst s →
      portalLoop dd dp dst fuel s = some [] → ¬ ∃ chain, PortalChain dp src dst chain := by
  intro fuel
  induction fuel with
  | zero =>
    intro s _ h
    simp [portalLoop] at h
  | succ fuel ih =>
    intro s hl h
    unfold portalLoop at h
    cases ho : s.openList with
    | nil =>
      rintro ⟨chain, h1, h2, h3, _⟩
      have hsrc : src ∈ s.closedList := by
        rcases hl.src_listed with e | e
        · rw [ho] at e; cases e
        · exact e
      have hall := chain_closed dp src dst s hl ho chain h3 (fun p hp => by
        rw [h1] at hp
        rw [← Option.some.inj hp]
        exact hsrc)
      exact hl.dst_open (hall dst (List.mem_of_mem_getLast? h2))
    | cons first rest =>
      rw [ho] at h
      simp only at h
      have hlt := bestIndex_lt
        (fun p => F32.add (s.g (PortalToIdx dd p)) (portal_heuristic p dst)) first rest
      generalize bestIndex
        (fun p => F32.add (s.g (PortalToIdx dd p)) (portal_heuristic p dst)) first rest = bi
        at h hlt
      have hkeep : ∀ x ∈ s.openList, x ≠ (first :: rest).getD bi first →
          x ∈ (first :: rest).eraseIdx bi := fun x hx hne =>
        mem_eraseIdx_of_ne _ bi first x (ho ▸ hx) hne
      by_cases h1 : (first :: rest).getD bi first = dst
      · rw [if_pos h1] at h
        exact absurd rfl (reconstruct_path_loop_ne_nil _ _ _ _ _ [] (List.cons_ne_nil _ _) h)
      · rw [if_neg h1] at h
        by_cases h2 : (first :: rest).getD bi first ∈ s.closedList
        · rw [if_pos h2] at h
          have hl2 : Listed dp src dst { s with openList := (first :: rest).eraseIdx bi } := by
            refine ⟨?_, ?_, hl.dst_open⟩
            · rcases hl.src_listed with e | e
              · by_cases hs : src = (first :: rest).getD bi first
                · exact Or.inr (hs ▸ h2)
                · exact Or.inl (hkeep src e hs)
              · exact Or.inr e
            · intro p hp c hc
              rcases hl.succ_listed p hp c hc with e | e
              · by_cases hs : portalAt dp.portals c.connIdx = (first :: rest).getD bi first
                · exact Or.inr (hs ▸ h2)
                · exact Or.inl (hkeep _ e hs)
              · exact Or.inr e
          exact ih _ hl2 h
        · rw [if_neg h2] at h
          obtain ⟨cl, _⟩ := relaxConns_lists dd dp ((first :: rest).getD bi first)
            ((first :: rest).getD bi first).conns
            { s with openList := (first :: rest).eraseIdx bi,
                     closedList := s.closedList ++ [(first :: rest).getD bi first] }
          obtain ⟨op1, op2⟩ := relaxConns_open dd dp ((first :: rest).getD bi first)
            ((first :: rest).getD bi first).conns
            { s with openList := (first :: rest).eraseIdx bi,
                     closedList := s.closedList ++ [(first :: rest).getD bi first] }
          have hcur : (first :: rest).getD bi first ∈
              s.closedList ++ [(first :: rest).getD bi first] :=
            List.mem_append_right _ (List.mem_singleton.2 rfl)
          refine ih _ ⟨?_, ?_, ?_⟩ h
          · rw [cl]
            rcases hl.src_listed with e | e
            · by_cases hs : src = (first :: rest).getD bi first
              · exact Or.inr (hs ▸ hcur)
              · exact Or.inl (op1 src (hkeep src e hs))
            · exact Or.inr (List.mem_append_left _ e)
          · rw [cl]
            intro p hp c hc
            rcases List.mem_append.1 hp with hp1 | hp1
            · rcases hl.succ_listed p hp1 c hc with e | e
              · by_cases hs : portalAt dp.portals c.connIdx = (first :: rest).getD bi first
                · exact Or.inr (hs ▸ hcur)
                · exact Or.inl (op1 _ (hkeep _ e hs))
              · exact Or.inr (List.mem_append_left _ e)
            · rw [List.mem_singleton.1 hp1] at hc
              exact Or.inl (op2 c hc)
          · rw [cl]
            intro hd
            rcases List.mem_append.1 hd with e | e
            · exact hl.dst_open e
            · exact h1 (List.mem_singleton.1 e).symm

/-- The empty sequence is returned by `find_path_a_star_portal` only when no
chain of portals joins the source to the target. -/
theorem find_path_a_star_portal_complete (dd : DungeonData) (dp : DungeonPortals)
    (src dst : PathPortal) (h : find_path_a_star_portal dd dp src dst = some []) :
    ¬ ∃ chain, PortalChain dp src dst chain := by
  unfold find_path_a_star_portal at h
  exact portalLoop_complete dd dp src dst _ _
    ⟨Or.inl (List.mem_singleton.2 rfl), (fun p hp => by cases hp), (fun hd => by cases hd)⟩ h

/-- On a graph without collisions, `find_path_a_star_portal` returns for a
source of the graph; a sequence it returns that is not empty is the sequence
of midpoints of a chain of portals from the source to the target, and the
sequence is not empty when such a chain exists. -/
theorem find_path_a_star_portal_total (dd : DungeonData) (dp : DungeonPortals) (K : Nat)
    (src dst : PathPortal) (ok : GraphOk dd dp K) (hsrc : src ∈ dp.portals) :
    ∃ path, find_path_a_star_portal dd dp src dst = some path ∧
      (path ≠ [] → ∃ chain, PortalChain dp src dst chain ∧ path = chain.map PortalToCoord) ∧
      ((∃ chain, PortalChain dp src dst chain) → path ≠ []) := by
  have inv := portal_init_inv dd dp K src ok hsrc
  obtain ⟨path, h⟩ := portalLoop_total dd dp K src dst ok
    (src.conns.length + (dp.portals.map (fun p => p.conns.length)).sum + 3) _ inv (by
      show 1 + ((dp.portals.map fun p => p.conns.length).sum - 0) < _
      omega)
  refine ⟨path, h, fun hne => portalLoop_chain dd dp K src dst ok _ _ inv path h hne, ?_⟩
  intro hch hnil
  rw [hnil] at h
  exact find_path_a_star_portal_complete dd dp src dst h hch

/-! ## Further scenarios, evaluated -/

theorem prebuild_narrowGrid : prebuild_map narrowGrid = some narrowGraph := by decide!

theorem prebuild_cornerGrid : prebuild_map cornerGrid = some cornerGraph := by decide!

theorem narrowGrid_leg :
    portalScan narrowGrid narrowGraph ⟨0, 20⟩ ⟨0, 2⟩
      (narrowGraph.tilePortalsIndices.getD (tileIndexQuery narrowGrid narrowGraph ⟨0, 2⟩) []) [] =
      some [] := by decide!

theorem cornerGraph_search :
    find_path_a_star_portal cornerGrid cornerGraph (portalAt cornerGraph.portals 0)
      (portalAt cornerGraph.portals 1) = some [⟨9, 9⟩] := by decide!

theorem detourGraph_search :
    find_path_a_star_portal detourGrid detourGraph (portalAt detourGraph.portals 0)
      (portalAt detourGraph.portals 2) = some [⟨9, 0⟩, ⟨9, 3⟩] := by decide!

/-! ## The legs of a query across regions -/

theorem mem_pairPasses (tPI : List (List Nat)) (tidx i j : Nat) :
    (tidx, i, j) ∈ pairPasses tPI ↔
      tidx < tPI.length ∧ i < j ∧ j < (tPI.getD tidx []).length := by
  unfold pairPasses
  simp only [List.mem_flatMap, List.mem_map, List.mem_range, List.mem_range'_1, Prod.mk.injEq]
  constructor
  · rintro ⟨t, ht, i2, hi2, j2, hj2, rfl, rfl, rfl⟩
    exact ⟨ht, by omega, by omega⟩
  · rintro ⟨ht, hij, hj⟩
    exact ⟨tidx, ht, i, by omega, j, by omega, rfl, rfl, rfl⟩

/-- A loop that threads a value which may be missing, with the list of the
passes made so far: when every pass keeps the relation `Q` between that list
and the value, the relation holds at the end. -/
theorem foldl_option_trace {α β γ : Type} (f : Option α → β → Option α) (e : β → List γ)
    (Q : List γ → α → Prop) :
    ∀ (l : List β),
      (∀ b ∈ l, ∀ pre a, Q pre a → ∃ a2, f (some a) b = some a2 ∧ Q (pre ++ e b) a2) →
      ∀ pre a, Q pre a → ∃ a2, l.foldl f (some a) = some a2 ∧ Q (pre ++ l.flatMap e) a2 := by
  intro l
  induction l with
  | nil =>
    intro _ pre a ha
    exact ⟨a, rfl, by rw [List.flatMap_nil, List.append_nil]; exact ha⟩
  | cons b l ih =>
    intro h pre a ha
    obtain ⟨a1, e1, h1⟩ := h b (List.mem_cons_self _ _) pre a ha
    rw [List.foldl_cons, e1, List.flatMap_cons, ← List.append_assoc]
    exact ih (fun b2 hb2 => h b2 (List.mem_cons_of_mem _ hb2)) _ a1 h1

theorem flatMap_single_eq_map {α β : Type} (f : α → β) (l : List α) :
    (l.flatMap fun x => [f x]) = l.map f := by
  induction l with
  | nil => rfl
  | cons a l ih => rw [List.flatMap_cons, List.map_cons, ih]; rfl

/-- Proof rule for the connection phase with the list of the passes made: a
relation between that list and the portal vector that every pass of the
innermost loop body keeps holds at the end for the list of all passes. -/
theorem connect_trace (dd : DungeonData) (s W : Nat) (tPI : List (List Nat))
    (Q : List (Nat × Nat × Nat) → List PathPortal → Prop)
    (hstep : ∀ tidx, tidx < tPI.length → ∀ i j, i < j → j < (tPI.getD tidx []).length →
      ∀ pre ps, Q pre ps → ∃ ps2, connectPair dd (tileMin s W tidx) (tileMax s W tidx)
        (tPI.getD tidx []) i (some ps) j = some ps2 ∧ Q (pre ++ [(tidx, i, j)]) ps2) :
    ∀ ps0, Q [] ps0 → ∃ ps,
      (List.range tPI.length).foldl (connectRegion dd s W tPI) (some ps0) = some ps ∧
        Q (pairPasses tPI) ps := by
  intro ps0 h0
  have key := foldl_option_trace (connectRegion dd s W tPI)
    (fun tidx => (List.range (tPI.getD tidx []).length).flatMap fun i =>
      (List.range' (i + 1) ((tPI.getD tidx []).length - (i + 1))).map fun j => (tidx, i, j))
    Q (List.range tPI.length) ?_ [] ps0 h0
  · rw [List.nil_append] at key
    exact key
  intro tidx htidx pre ps hps
  rw [List.mem_range] at htidx
  show ∃ a2, (List.range (tPI.getD tidx []).length).foldl
      (fun portals i =>
        (List.range' (i + 1) ((tPI.getD tidx []).length - (i + 1))).foldl
          (connectPair dd (tileMin s W tidx) (tileMax s W tidx) (tPI.getD tidx []) i) portals)
      (some ps) = some a2 ∧ Q (pre ++ _) a2
  refine foldl_option_trace _ _ Q _ ?_ pre ps hps
  intro i hi pre1 ps1 hps1
  rw [List.mem_range] at hi
  show ∃ a2, (List.range' (i + 1) ((tPI.getD tidx []).length - (i + 1))).foldl
      (connectPair dd (tileMin s W tidx) (tileMax s W tidx) (tPI.getD tidx []) i) (some ps1)
      = some a2 ∧ Q (pre1 ++ _) a2
  rw [← flatMap_single_eq_map]
  refine foldl_option_trace _ _ Q _ ?_ pre1 ps1 hps1
  intro j hj pre2 ps2 hps2
  rw [List.mem_range'_1] at hj
  exact hstep tidx htidx i j (by omega) (by omega) pre2 ps2 hps2

theorem spanPairs_congr (p q p2 q2 : PathPortal) (limMin limMax : IVec2)
    (h1 : portalCoords p = portalCoords p2) (h2 : portalCoords q = portalCoords q2) :
    spanPairs p q limMin limMax = spanPairs p2 q2 limMin limMax := by
  unfold spanPairs
  rw [spanCells_congr p p2 _ _ h1, spanCells_congr q q2 _ _ h2]

theorem allReach_congr (dd : DungeonData) (limMin limMax : IVec2) (p q p2 q2 : PathPortal)
    (h1 : portalCoords p = portalCoords p2) (h2 : portalCoords q = portalCoords q2) :
    AllReach dd limMin limMax p q ↔ AllReach dd limMin limMax p2 q2 := by
  unfold AllReach
  rw [spanCells_congr p p2 _ _ h1, spanCells_congr q q2 _ _ h2]

/-- What a pass records, given what its span loops computed. -/
theorem pairRecords_eq (dd : DungeonData) (s W : Nat) (tPI : List (List Nat))
    (portals : List PathPortal) (tidx i j k : Nat) (np : Bool) (m : Nat)
    (h : scanPairs dd (tileMin s W tidx) (tileMax s W tidx)
      (spanPairs (portalAt portals ((tPI.getD tidx []).getD i 0))
        (portalAt portals ((tPI.getD tidx []).getD j 0))
        (tileMin s W tidx) (tileMax s W tidx)) 0xffffffff = some (np, m)) :
    pairRecords dd s W tPI portals (tidx, i, j) k =
      if np = true then []
      else (if k = (tPI.getD tidx []).getD i 0
          then [⟨(tPI.getD tidx []).getD j 0, F32.ofNat m⟩] else []) ++
        (if k = (tPI.getD tidx []).getD j 0
          then [⟨(tPI.getD tidx []).getD i 0, F32.ofNat m⟩] else []) := by
  unfold pairRecords
  simp only [h]
  cases np <;> rfl

/-- The graph that `prebuildWith` returns holds, for every portal, the records
of all passes of the connection phase in the order of the passes, and nothing
else. -/
theorem prebuildWith_trace (dd : DungeonData) (s : Nat) (hwf : WellFormed dd) (hs : 1 ≤ s) :
    ∃ dp, prebuildWith s dd = some dp ∧ dp.tileSplit = s ∧
      dp.tilePortalsIndices = (extractPortals dd s).tilePortalsIndices ∧
      dp.portals.map portalCoords = (extractPortals dd s).portals.map portalCoords ∧
      ∀ k, (portalAt dp.portals k).conns =
        (pairPasses (extractPortals dd s).tilePortalsIndices).flatMap fun pass =>
          pairRecords dd s (dd.width / s) (extractPortals dd s).tilePortalsIndices
            (extractPortals dd s).portals pass k := by
  obtain ⟨D, inv⟩ := extractPortals_inv dd s hwf hs
  obtain ⟨ps, e, hc, hP⟩ := connect_trace dd s (dd.width / s)
    (extractPortals dd s).tilePortalsIndices
    (fun pre ps => ps.map portalCoords = (extractPortals dd s).portals.map portalCoords ∧
      ∀ k, (portalAt ps k).conns = pre.flatMap fun pass =>
        pairRecords dd s (dd.width / s) (extractPortals dd s).tilePortalsIndices
          (extractPortals dd s).portals pass k)
    (by
      intro tidx htidx i j hij hj pre ps hps
      obtain ⟨hco, hQ⟩ := hps
      obtain ⟨_, _, _, _, hr⟩ := tile_rect dd s tidx hwf hs (by rw [← inv.len]; exact htidx)
      obtain ⟨hne, hi, hjm, hreg⟩ := step_context dd s D inv tidx i j htidx hij hj
      have hlen : ps.length = D.length := by
        have := congrArg List.length hco
        rw [List.length_map, List.length_map, inv.portals, List.length_map] at this
        exact this
      have hI := (hreg _ hi).1
      have hJ := (hreg _ hjm).1
      obtain ⟨np, m, e1, _, _⟩ := scanPairs_spec dd _ _
        (spanPairs
          (portalAt ps (((extractPortals dd s).tilePortalsIndices.getD tidx []).getD i 0))
          (portalAt ps (((extractPortals dd s).tilePortalsIndices.getD tidx []).getD j 0))
          (tileMin s (dd.width / s) tidx) (tileMax s (dd.width / s) tidx)) 0xffffffff
        (scanPairs_total dd _ _ hwf hr _)
      rw [connectPair_eq dd _ _ _ i j ps np m e1]
      rw [spanPairs_congr _ _ _ _ _ _ (portalAt_coords ps _ _ hco) (portalAt_coords ps _ _ hco)]
        at e1
      have hrec := fun k => pairRecords_eq dd s (dd.width / s)
        (extractPortals dd s).tilePortalsIndices (extractPortals dd s).portals tidx i j k np m e1
      cases np with
      | true =>
        refine ⟨ps, rfl, hco, fun k => ?_⟩
        rw [List.flatMap_append, ← hQ k, List.flatMap_cons, List.flatMap_nil, hrec k]
        simp
      | false =>
        refine ⟨_, rfl, ?_, fun k => ?_⟩
        · simp only [Bool.false_eq_true, if_false]
          rw [pushConn_coords, pushConn_coords]
          exact hco
        · simp only [Bool.false_eq_true, if_false]
          rw [conns_pushPair ps _ _ k _ _ (by omega) (by omega) hne, hQ k, List.flatMap_append,
            List.flatMap_cons, List.flatMap_nil, hrec k]
          simp)
    (extractPortals dd s).portals
    ⟨rfl, fun k => by rw [extract_conns dd s hwf hs k]; rfl⟩
  refine ⟨⟨s, ps, (extractPortals dd s).tilePortalsIndices⟩, ?_, rfl, rfl, hc, hP⟩
  unfold prebuildWith
  simp only [e]

/-- A pass for the portals at positions `i < j` of the list of a region records
the pair of connections when every pair of cells of the two spans has a path
that is not empty, and records nothing otherwise. -/
theorem pairRecords_policy (dd : DungeonData) (s : Nat) (hwf : WellFormed dd) (hs : 1 ≤ s)
    (tidx i j : Nat) (htidx : tidx < (extractPortals dd s).tilePortalsIndices.length)
    (hij : i < j) (hj : j < ((extractPortals dd s).tilePortalsIndices.getD tidx []).length) :
    (AllReach dd (tileMin s (dd.width / s) tidx) (tileMax s (dd.width / s) tidx)
        (portalAt (extractPortals dd s).portals
          (((extractPortals dd s).tilePortalsIndices.getD tidx []).getD i 0))
        (portalAt (extractPortals dd s).portals
          (((extractPortals dd s).tilePortalsIndices.getD tidx []).getD j 0)) →
      ∃ m, ∀ k, pairRecords dd s (dd.width / s) (extractPortals dd s).tilePortalsIndices
          (extractPortals dd s).portals (tidx, i, j) k =
        (if k = ((extractPortals dd s).tilePortalsIndices.getD tidx []).getD i 0
          then [⟨((extractPortals dd s).tilePortalsIndices.getD tidx []).getD j 0, F32.ofNat m⟩]
          else []) ++
        (if k = ((extractPortals dd s).tilePortalsIndices.getD tidx []).getD j 0
          then [⟨((extractPortals dd s).tilePortalsIndices.getD tidx []).getD i 0, F32.ofNat m⟩]
          else [])) ∧
      (¬ AllReach dd (tileMin s (dd.width / s) tidx) (tileMax s (dd.width / s) tidx)
        (portalAt (extractPortals dd s).portals
          (((extractPortals dd s).tilePortalsIndices.getD tidx []).getD i 0))
        (portalAt (extractPortals dd s).portals
          (((extractPortals dd s).tilePortalsIndices.getD tidx []).getD j 0)) →
      ∀ k, pairRecords dd s (dd.width / s) (extractPortals dd s).tilePortalsIndices
          (extractPortals dd s).portals (tidx, i, j) k = []) := by
  obtain ⟨D, inv⟩ := extractPortals_inv dd s hwf hs
  have ht : tidx < dd.height / s * (dd.width / s) := by rw [← inv.len]; exact htidx
  obtain ⟨_, hi, _, hreg⟩ := step_context dd s D inv tidx i j htidx hij hj
  obtain ⟨_, _, _, _, hrect⟩ := tile_rect dd s tidx hwf hs ht
  obtain ⟨hcells, _⟩ := span_context dd s D hwf hs inv (extractPortals dd s).portals rfl tidx _ ht
    (hreg _ hi).1 (hreg _ hi).2
  obtain ⟨np, m, e, hflag⟩ := scanPairs_flag dd _ _
    (portalAt (extractPortals dd s).portals
      (((extractPortals dd s).tilePortalsIndices.getD tidx []).getD i 0))
    (portalAt (extractPortals dd s).portals
      (((extractPortals dd s).tilePortalsIndices.getD tidx []).getD j 0)) hwf hrect
    (fun a ha => cell_inGrid dd _ _ a hrect (hcells a ha))
  have hrec := fun k => pairRecords_eq dd s (dd.width / s)
    (extractPortals dd s).tilePortalsIndices (extractPortals dd s).portals tidx i j k np m e
  constructor
  · intro hall
    refine ⟨m, fun k => ?_⟩
    rw [hrec k]
    cases np with
    | false => rfl
    | true =>
      obtain ⟨a, ha, b, hb, hf⟩ := hflag.1 rfl
      obtain ⟨path, hf2, hne⟩ := hall a ha b hb
      rw [hf] at hf2
      exact absurd (Option.some.inj hf2).symm hne
  · intro hnot k
    rw [hrec k]
    cases np with
    | true => rfl
    | false =>
      exfalso
      apply hnot
      intro a ha b hb
      obtain ⟨path, hf, _⟩ := find_path_a_star_total dd a b _ _ hwf hrect
      refine ⟨path, hf, ?_⟩
      intro hnil
      rw [hnil] at hf
      have := hflag.2 ⟨a, ha, b, hb, hf⟩
      cases this

/-! ## The claims -/

/-- C1, against the claim as stated: on `corridorGrid`, with the portal graph
`prebuild_map` builds for it, the query from the walkable cell `(8, 0)` to the
walkable cell `(11, 0)` of the next region returns a non-empty sequence that is
not a valid route, whatever the uninitialised portals hold. -/
theorem C1_cross_region_not_a_route :
    prebuild_map corridorGrid = some corridorPortals ∧
    (inGrid corridorGrid ⟨8, 0⟩ ∧ ¬ isWall corridorGrid ⟨8, 0⟩) ∧
    (inGrid corridorGrid ⟨11, 0⟩ ∧ ¬ isWall corridorGrid ⟨11, 0⟩) ∧
    ∀ a b c d a1 b1 c1 d1 : Nat, ∃ path,
      find_hierarchical_path corridorPortals corridorGrid ⟨8, 0⟩ ⟨11, 0⟩ (uninitPortal a b c d)
        (uninitPortal a1 b1 c1 d1) = some path ∧
      path ≠ [] ∧ ¬ ValidRoute corridorGrid ⟨8, 0⟩ ⟨11, 0⟩ path := by
  refine ⟨prebuild_corridorGrid, by decide, by decide, fun a b c d a1 b1 c1 d1 => ?_⟩
  obtain ⟨route, _, h⟩ := corridor_query a b c d a1 b1 c1 d1
  refine ⟨_, h, by simp, fun hv => ?_⟩
  have hl := hv.2.1
  rw [List.getLast?_append] at hl
  simp at hl

/-- C1, amended: a query within one region whose rectangle lies inside the
grid, from a walkable source, returns; and a non-empty result is a valid route:
it starts at the source, ends at the target, moves by 4-directional steps and
contains no wall cell. -/
theorem C1_same_region_route (dp : DungeonPortals) (dd : DungeonData) (source target : IVec2)
    (u v : PathPortal) (hwf : WellFormed dd) (hs1 : 1 ≤ dp.tileSplit) (hs2 : dp.tileSplit < 2 ^ 31)
    (hsrc : inGrid dd source) (hwalk : ¬ isWall dd source)
    (hsame : regionOf dp source = regionOf dp target)
    (hreg : rectInGrid dd (regionMin dp (regionOf dp source)) (regionMax dp (regionOf dp source))) :
    ∃ path, find_hierarchical_path dp dd source target u v = some path ∧
      (path ≠ [] → ValidRoute dd source target path) := by
  rw [find_hierarchical_path_same dp dd source target u v hsame]
  obtain ⟨path, h1, h2, _⟩ := find_path_a_star_spec dd source target _ _ hwf.2 hreg
    ⟨inRect_regionOf dp source hsrc.1 hsrc.2.2.1 (toInt32_pos _ hs1 hs2), hwalk⟩
  exact ⟨path, h1, fun hne => (h2 hne).1⟩

/-- Witness of C1_same_region_route on the 4 x 4 grid without walls, one region of side 4. -/
theorem C1_same_region_route_witness :
    ∃ path, find_hierarchical_path ⟨4, [], []⟩ ⟨4, 4, List.replicate 16 Tile.floor⟩ ⟨0, 0⟩ ⟨1, 0⟩
        (uninitPortal 0 0 0 0) (uninitPortal 0 0 0 0) = some path ∧
      (path ≠ [] → ValidRoute ⟨4, 4, List.replicate 16 Tile.floor⟩ ⟨0, 0⟩ ⟨1, 0⟩ path) :=
  C1_same_region_route ⟨4, [], []⟩ ⟨4, 4, List.replicate 16 Tile.floor⟩ ⟨0, 0⟩ ⟨1, 0⟩ _ _
    (by decide) (by decide) (by decide) (by decide) (by decide) (by decide) (by decide)

/-- C2: on a grid of at most 1024 x 1024 cells, for a rectangle inside the grid
and a walkable source inside the rectangle, `find_path_a_star` returns, and a
non-empty result has no more coordinates than any 4-connected route from source
to target whose cells lie in the rectangle and are not walls. -/
theorem C2_shortest (dd : DungeonData) (src dst lim_min lim_max : IVec2)
    (_hwf : WellFormed dd) (hs : SmallGrid dd) (hr : rectInGrid dd lim_min lim_max)
    (hin : inRect lim_min lim_max src) (hwalk : ¬ isWall dd src) :
    ∃ path, find_path_a_star dd src dst lim_min lim_max = some path ∧
      (path ≠ [] → ∀ r, RouteIn dd lim_min lim_max src dst r → path.length ≤ r.length) := by
  obtain ⟨path, h1, _, h2⟩ := find_path_a_star_shortest dd src dst lim_min lim_max hs hr ⟨hin, hwalk⟩
  exact ⟨path, h1, fun hne r hroute => h2 r hroute hne⟩

/-- Witness of C2_shortest on the 2 x 1 grid without walls. -/
theorem C2_shortest_witness :
    ∃ path, find_path_a_star floorPair ⟨0, 0⟩ ⟨1, 0⟩ ⟨0, 0⟩ ⟨2, 1⟩ = some path ∧
      (path ≠ [] → ∀ r, RouteIn floorPair ⟨0, 0⟩ ⟨2, 1⟩ ⟨0, 0⟩ ⟨1, 0⟩ r → path.length ≤ r.length) :=
  C2_shortest floorPair ⟨0, 0⟩ ⟨1, 0⟩ ⟨0, 0⟩ ⟨2, 1⟩ (by decide) (by decide) (by decide)
    (by decide) (by decide)

/-- C3: for a rectangle inside the grid and a walkable source inside the
rectangle, `find_path_a_star` returns, and its result is empty exactly when no
4-connected route of non-wall cells from source to target stays in the rectangle. -/
theorem C3_empty_iff_unreachable (dd : DungeonData) (src dst lim_min lim_max : IVec2)
    (hwf : WellFormed dd) (hr : rectInGrid dd lim_min lim_max)
    (hin : inRect lim_min lim_max src) (hwalk : ¬ isWall dd src) :
    ∃ path, find_path_a_star dd src dst lim_min lim_max = some path ∧
      (path = [] ↔ ¬ ∃ r, RouteIn dd lim_min lim_max src dst r) := by
  obtain ⟨path, h1, h2, h3⟩ := find_path_a_star_spec dd src dst lim_min lim_max hwf.2 hr ⟨hin, hwalk⟩
  refine ⟨path, h1, fun he => fun ⟨r, hroute⟩ => h3 he r hroute, fun hno => ?_⟩
  by_contra hne
  exact hno ⟨path, h2 hne⟩

/-- Witness of C3_empty_iff_unreachable on the 2 x 1 grid without walls. -/
theorem C3_empty_iff_unreachable_witness :
    ∃ path, find_path_a_star floorPair ⟨0, 0⟩ ⟨1, 0⟩ ⟨0, 0⟩ ⟨2, 1⟩ = some path ∧
      (path = [] ↔ ¬ ∃ r, RouteIn floorPair ⟨0, 0⟩ ⟨2, 1⟩ ⟨0, 0⟩ ⟨1, 0⟩ r) :=
  C3_empty_iff_unreachable floorPair ⟨0, 0⟩ ⟨1, 0⟩ ⟨0, 0⟩ ⟨2, 1⟩ (by decide) (by decide)
    (by decide) (by decide)

/-- C4: for a rectangle inside the grid and a walkable source inside the
rectangle, `find_path_a_star` returns, and a non-empty result starts at the
source, ends at the target, moves by one step in one axis at a time and
consists of non-wall cells of the rectangle. -/
theorem C4_path_valid (dd : DungeonData) (src dst lim_min lim_max : IVec2)
    (hwf : WellFormed dd) (hr : rectInGrid dd lim_min lim_max)
    (hin : inRect lim_min lim_max src) (hwalk : ¬ isWall dd src) :
    ∃ path, find_path_a_star dd src dst lim_min lim_max = some path ∧
      (path ≠ [] → path.head? = some src ∧ path.getLast? = some dst ∧ path.Chain' adjacent ∧
        ∀ p ∈ path, ¬ isWall dd p ∧ inRect lim_min lim_max p) := by
  obtain ⟨path, h1, h2, _⟩ := find_path_a_star_spec dd src dst lim_min lim_max hwf.2 hr ⟨hin, hwalk⟩
  refine ⟨path, h1, fun hne => ?_⟩
  obtain ⟨⟨a, b, c, d⟩, e⟩ := h2 hne
  exact ⟨a, b, c, fun p hp => ⟨d p hp, e p hp⟩⟩

/-- Witness of C4_path_valid on the 2 x 1 grid without walls. -/
theorem C4_path_valid_witness :
    ∃ path, find_path_a_star floorPair ⟨0, 0⟩ ⟨1, 0⟩ ⟨0, 0⟩ ⟨2, 1⟩ = some path ∧
      (path ≠ [] → path.head? = some ⟨0, 0⟩ ∧ path.getLast? = some ⟨1, 0⟩ ∧
        path.Chain' adjacent ∧ ∀ p ∈ path, ¬ isWall floorPair p ∧ inRect ⟨0, 0⟩ ⟨2, 1⟩ p) :=
  C4_path_valid floorPair ⟨0, 0⟩ ⟨1, 0⟩ ⟨0, 0⟩ ⟨2, 1⟩ (by decide) (by decide) (by decide) (by decide)

/-- C5, against the claim as stated: on the grid of a wall cell followed by a
floor cell, the search from the wall cell to the floor cell returns the two
cells: the source is never tested for being a wall. -/
theorem C5_wall_source_searches :
    isWall wallFloorGrid ⟨0, 0⟩ ∧ inGrid wallFloorGrid ⟨0, 0⟩ ∧
      find_path_a_star wallFloorGrid ⟨0, 0⟩ ⟨1, 0⟩ ⟨0, 0⟩ ⟨2, 1⟩ = some [⟨0, 0⟩, ⟨1, 0⟩] := by
  decide!

/-- C5, amended: for a source outside `[0, width) x [0, height)` the search
returns the empty sequence, whatever the target and the rectangle, and so does
the hierarchical query when source and target fall in one region. -/
theorem C5_outside_source_empty (dp : DungeonPortals) (dd : DungeonData)
    (src dst lim_min lim_max : IVec2) (u v : PathPortal) (h : ¬ inGrid dd src) :
    find_path_a_star dd src dst lim_min lim_max = some [] ∧
      (regionOf dp src = regionOf dp dst → find_hierarchical_path dp dd src dst u v = some []) := by
  refine ⟨find_path_a_star_outside dd src dst lim_min lim_max h, fun hs => ?_⟩
  rw [find_hierarchical_path_same dp dd src dst u v hs]
  exact find_path_a_star_outside dd src dst _ _ h

/-- Witness of C5_outside_source_empty: the source `(-1, 0)` on `openGrid8`. -/
theorem C5_outside_source_empty_witness :
    find_path_a_star openGrid8 ⟨-1, 0⟩ ⟨2, 0⟩ ⟨0, 0⟩ ⟨8, 8⟩ = some [] ∧
      (regionOf openPortals8 ⟨-1, 0⟩ = regionOf openPortals8 ⟨2, 0⟩ →
        find_hierarchical_path openPortals8 openGrid8 ⟨-1, 0⟩ ⟨2, 0⟩ (uninitPortal 0 0 0 0)
          (uninitPortal 0 0 0 0) = some []) :=
  C5_outside_source_empty openPortals8 openGrid8 ⟨-1, 0⟩ ⟨2, 0⟩ ⟨0, 0⟩ ⟨8, 8⟩ _ _ (by decide)

/-- C6: for a portal graph with region side at least 1 and a walkable cell `p`
of the grid, the query from `p` to `p` returns the single-element sequence `[p]`. -/
theorem C6_query_to_self (dp : DungeonPortals) (dd : DungeonData) (p : IVec2) (u v : PathPortal)
    (_hside : 1 ≤ dp.tileSplit) (hp : inGrid dd p) (_hwalk : ¬ isWall dd p) :
    find_hierarchical_path dp dd p p u v = some [p] := by
  rw [find_hierarchical_path_same dp dd p p u v rfl]
  exact find_path_a_star_self dd p _ _ hp

/-- Witness of C6_query_to_self: the cell `(3, 3)` of `openGrid8`. -/
theorem C6_query_to_self_witness :
    find_hierarchical_path openPortals8 openGrid8 ⟨3, 3⟩ ⟨3, 3⟩ (uninitPortal 0 0 0 0)
      (uninitPortal 0 0 0 0) = some [⟨3, 3⟩] :=
  C6_query_to_self openPortals8 openGrid8 ⟨3, 3⟩ _ _ (by decide) (by decide) (by decide)

/-- C8, against the claim as stated: on the 8 x 8 grid without walls, with the
portal graph built for side 4, the query from `(0, 0)` to `(7, 7)` returns at
most 9 coordinates, whatever the uninitialised portals hold, while the grid
search on the full grid returns 15. -/
theorem C8_hierarchical_not_15 :
    prebuildWith 4 openGrid8 = some openPortals8 ∧
    (find_path_a_star openGrid8 ⟨0, 0⟩ ⟨7, 7⟩ ⟨0, 0⟩ ⟨8, 8⟩).map List.length = some 15 ∧
    ∀ a b c d a1 b1 c1 d1 : Nat, ∃ path,
      find_hierarchical_path openPortals8 openGrid8 ⟨0, 0⟩ ⟨7, 7⟩ (uninitPortal a b c d)
        (uninitPortal a1 b1 c1 d1) = some path ∧ path.length ≤ 9 ∧ path.length ≠ 15 := by
  refine ⟨prebuild_openGrid8, openGrid8_direct, fun a b c d a1 b1 c1 d1 => ?_⟩
  obtain ⟨route, hl, _, h⟩ := openGrid8_query a b c d a1 b1 c1 d1
  refine ⟨_, h, ?_, ?_⟩ <;> simp <;> omega

/-- C8, amended: on the 8 x 8 grid without walls, with the portal graph built
for side 4, the grid search from `(0, 0)` to `(7, 7)` on the full grid returns
15 coordinates, and the hierarchical query returns the source leg `(0, 0)` ..
`(3, 0)`, then the portal route, then the target leg `(7, 7)` .. `(7, 4)`:
8 coordinates and the portal route. -/
theorem C8_scenario :
    prebuildWith 4 openGrid8 = some openPortals8 ∧
    (find_path_a_star openGrid8 ⟨0, 0⟩ ⟨7, 7⟩ ⟨0, 0⟩ ⟨8, 8⟩).map List.length = some 15 ∧
    ∀ a b c d a1 b1 c1 d1 : Nat, ∃ route,
      find_path_a_star_portal openGrid8 openPortals8 (uninitPortal a b c d)
        (uninitPortal a1 b1 c1 d1) = some route ∧
      find_hierarchical_path openPortals8 openGrid8 ⟨0, 0⟩ ⟨7, 7⟩ (uninitPortal a b c d)
        (uninitPortal a1 b1 c1 d1) =
        some ([⟨0, 0⟩, ⟨1, 0⟩, ⟨2, 0⟩, ⟨3, 0⟩] ++ route ++ [⟨7, 7⟩, ⟨7, 6⟩, ⟨7, 5⟩, ⟨7, 4⟩]) := by
  refine ⟨prebuild_openGrid8, openGrid8_direct, fun a b c d a1 b1 c1 d1 => ?_⟩
  obtain ⟨route, _, h1, h2⟩ := openGrid8_query a b c d a1 b1 c1 d1
  exact ⟨route, h1, h2⟩

/-- C9, the code at the failing input: in the middle region of `twoPortalGrid`
the portal towards `(10, 0)` is usable from `(11, 0)`, by a path of 2
coordinates, and the portal towards `(19, 0)` is not; the selection returns the
empty path, the unusable portal having replaced the path found before it. -/
theorem C9_unusable_portal_wins :
    prebuild_map twoPortalGrid = some twoPortalGraph ∧
    spanCells (portalAt twoPortalGraph.portals 0) ⟨10, 0⟩ ⟨20, 10⟩ = [⟨10, 0⟩] ∧
    spanCells (portalAt twoPortalGraph.portals 1) ⟨10, 0⟩ ⟨20, 10⟩ = [⟨19, 0⟩] ∧
    find_path_a_star twoPortalGrid ⟨11, 0⟩ ⟨10, 0⟩ ⟨10, 0⟩ ⟨20, 10⟩ = some [⟨11, 0⟩, ⟨10, 0⟩] ∧
    find_path_a_star twoPortalGrid ⟨11, 0⟩ ⟨19, 0⟩ ⟨10, 0⟩ ⟨20, 10⟩ = some [] ∧
    get_shortest_path_portal twoPortalGrid twoPortalGraph ⟨11, 0⟩ ⟨1, 0⟩ (uninitPortal 0 0 0 0) =
      some ([], uninitPortal 0 0 0 0) := by
  refine ⟨prebuild_twoPortalGrid, ?_, ?_, ?_, ?_, ?_⟩ <;> decide!

/-- C10, the code at the failing input: on `corridorGrid` the selection for
`(8, 0)` returns the path to the cell `(9, 0)` of the portal `(9, 0)` .. `(10, 0)`,
and the portal it reports is the content the parameter had on entry, whatever
that was. -/
theorem C10_portal_not_reported (p : PathPortal) :
    corridorPortals.portals = [⟨9, 0, 10, 0, []⟩] ∧
    get_shortest_path_portal corridorGrid corridorPortals ⟨8, 0⟩ ⟨0, 0⟩ p =
      some ([⟨8, 0⟩, ⟨9, 0⟩], p) :=
  ⟨rfl, corridor_source_leg p⟩

/-! ## The claims on the precomputation -/

/-- C11: for a region `(x, y)` of side `s` of a grid whose cell array matches
its size, the portals that `check_border` writes for the top border (when
`0 < y`) and for the left border (when `0 < x`) are the portals of a list of
runs: the runs lie apart from each other, they are exactly the maximal runs of
the positions below `s` at which the border cell and its neighbour across the
border are both not walls, and every such position lies in exactly one run. A
border whose open positions are exactly `a` to `a + L - 1` yields the single
portal of that run. For `s = 10` these are the calls of `prebuild_map`. -/
theorem C11_border_maximal_runs (dd : DungeonData) (s x y : Nat) (hwf : WellFormed dd)
    (hs : 1 ≤ s) (hx : (x + 1) * s ≤ dd.width) (hy : (y + 1) * s ≤ dd.height) :
    (0 < y → ∃ runs : List (Nat × Nat),
      check_border dd s x y 1 0 0 (-1) = runs.map (fun r => topPortal s x y r.1 r.2) ∧
      runs.Pairwise (fun r r2 => r.2 + 1 < r2.1) ∧
      (∀ a b, (a, b) ∈ runs ↔ IsMaxRun (topOpen dd s x y) s a b) ∧
      (∀ i, i < s → topOpen dd s x y i → ∃! r, r ∈ runs ∧ r.1 ≤ i ∧ i ≤ r.2) ∧
      (∀ a L, 0 < L → a + L ≤ s → (∀ i, i < s → (topOpen dd s x y i ↔ a ≤ i ∧ i < a + L)) →
        check_border dd s x y 1 0 0 (-1) = [topPortal s x y a (a + L - 1)])) ∧
    (0 < x → ∃ runs : List (Nat × Nat),
      check_border dd s x y 0 1 (-1) 0 = runs.map (fun r => leftPortal s x y r.1 r.2) ∧
      runs.Pairwise (fun r r2 => r.2 + 1 < r2.1) ∧
      (∀ a b, (a, b) ∈ runs ↔ IsMaxRun (leftOpen dd s x y) s a b) ∧
      (∀ i, i < s → leftOpen dd s x y i → ∃! r, r ∈ runs ∧ r.1 ≤ i ∧ i ≤ r.2) ∧
      (∀ a L, 0 < L → a + L ≤ s → (∀ i, i < s → (leftOpen dd s x y i ↔ a ≤ i ∧ i < a + L)) →
        check_border dd s x y 0 1 (-1) 0 = [leftPortal s x y a (a + L - 1)])) := by
  obtain ⟨d1, d2, d3, d4⟩ := grid_dims dd s x y hwf hs hx hy
  constructor
  · intro hy0
    exact check_border_cells dd s x y 1 0 0 (-1) (topOpen dd s x y) (topPortal s x y)
      (fun i hi => borderOpen_top dd s x y i hwf hs hx hy hy0 hi)
      (fun a b hab hb => spanPortal_top s x y a b (by omega) (by omega)
        (Nat.mul_pos hy0 hs) (by omega) hb)
  · intro hx0
    exact check_border_cells dd s x y 0 1 (-1) 0 (leftOpen dd s x y) (leftPortal s x y)
      (fun i hi => borderOpen_left dd s x y i hwf hs hx hy hx0 hi)
      (fun a b hab hb => spanPortal_left s x y a b (by omega) (by omega)
        (Nat.mul_pos hx0 hs) (by omega) hb)

/-- Witness of C11_border_maximal_runs on `corridorGrid`: the left border of
region `(1, 0)`, whose only open position is 0, yields the portal
`(9, 0)-(10, 0)`. -/
theorem C11_border_maximal_runs_witness :
    WellFormed corridorGrid ∧ (1 + 1) * 10 ≤ corridorGrid.width ∧
      (0 + 1) * 10 ≤ corridorGrid.height ∧
      check_border corridorGrid 10 1 0 0 1 (-1) 0 = [leftPortal 10 1 0 0 (0 + 1 - 1)] ∧
      leftPortal 10 1 0 0 (0 + 1 - 1) = ⟨9, 0, 10, 0, []⟩ :=
  ⟨by decide!, by decide!, by decide!,
    ((C11_border_maximal_runs corridorGrid 10 1 0 (by decide!) (by decide!) (by decide!)
      (by decide!)).2 (by decide!)).elim fun _ h => h.2.2.2.2 0 1 (by decide!) (by decide!)
        (by decide!),
    by decide!⟩

/-- C12: for a grid whose cell array matches its size, `prebuild_map` returns
a graph in which every portal index `k` occurs exactly once in the list of the
region of the portal's start cell and exactly once in the list of the region
of its end cell, and in no other list; the two regions are adjacent, the one
to the left of or above the other; and every index stored in a list is an
index of the portal vector. -/
theorem C12_registration (dd : DungeonData) (hwf : WellFormed dd) :
    ∃ dp, prebuild_map dd = some dp ∧
      dp.tilePortalsIndices.length = dd.height / 10 * (dd.width / 10) ∧
      (∀ k, k < dp.portals.length →
        (portalAt dp.portals k).startY / 10 * (dd.width / 10) +
            (portalAt dp.portals k).startX / 10 <
          (portalAt dp.portals k).endY / 10 * (dd.width / 10) +
            (portalAt dp.portals k).endX / 10 ∧
        (portalAt dp.portals k).endY / 10 * (dd.width / 10) + (portalAt dp.portals k).endX / 10 <
          dp.tilePortalsIndices.length ∧
        ((portalAt dp.portals k).endY / 10 * (dd.width / 10) + (portalAt dp.portals k).endX / 10 =
            (portalAt dp.portals k).startY / 10 * (dd.width / 10) +
              (portalAt dp.portals k).startX / 10 + 1 ∨
          (portalAt dp.portals k).endY / 10 * (dd.width / 10) + (portalAt dp.portals k).endX / 10 =
            (portalAt dp.portals k).startY / 10 * (dd.width / 10) +
              (portalAt dp.portals k).startX / 10 + dd.width / 10) ∧
        ∀ r, (dp.tilePortalsIndices.getD r []).count k =
          if r = (portalAt dp.portals k).startY / 10 * (dd.width / 10) +
                (portalAt dp.portals k).startX / 10 ∨
              r = (portalAt dp.portals k).endY / 10 * (dd.width / 10) +
                (portalAt dp.portals k).endX / 10 then 1 else 0) ∧
      (∀ l ∈ dp.tilePortalsIndices, ∀ k ∈ l, k < dp.portals.length) :=
  prebuildWith_registration dd 10 hwf (by decide!)

/-- Witness of C12_registration on `cornerGrid`, whose graph has two portals. -/
theorem C12_registration_witness :
    WellFormed cornerGrid ∧ ∃ dp, prebuild_map cornerGrid = some dp ∧
      dp.tilePortalsIndices.length = 4 ∧
      ∀ l ∈ dp.tilePortalsIndices, ∀ k ∈ l, k < dp.portals.length :=
  ⟨by decide!, (C12_registration cornerGrid (by decide!)).elim fun dp h =>
    ⟨dp, h.1, h.2.1, h.2.2.2⟩⟩

/-- C13, the claim as stated: on `cornerGrid` the connection recorded on
portal 0 towards portal 1 has the score 1, while the only cell of either
portal inside region `(0, 0)`, the one region that both are registered for, is
`(9, 9)`, and the route from `(9, 9)` to itself makes no step. -/
theorem C13_cost_is_not_steps :
    prebuild_map cornerGrid = some cornerGraph ∧
      (portalAt cornerGraph.portals 0).conns = [⟨1, F32.ofNat 1⟩] ∧
      (∀ r, (0 ∈ cornerGraph.tilePortalsIndices.getD r [] ∧
        1 ∈ cornerGraph.tilePortalsIndices.getD r []) ↔ r = 0) ∧
      spanCells (portalAt cornerGraph.portals 0) (tileMin 10 2 0) (tileMax 10 2 0) = [⟨9, 9⟩] ∧
      spanCells (portalAt cornerGraph.portals 1) (tileMin 10 2 0) (tileMax 10 2 0) = [⟨9, 9⟩] ∧
      RouteIn cornerGrid (tileMin 10 2 0) (tileMax 10 2 0) ⟨9, 9⟩ ⟨9, 9⟩ [⟨9, 9⟩] ∧
      ([⟨9, 9⟩] : List IVec2).length - 1 = 0 := by
  refine ⟨prebuild_cornerGrid, by decide!, ?_, by decide!, by decide!,
    ⟨⟨rfl, rfl, List.chain'_singleton _, fun p hp => by rw [List.mem_singleton.1 hp]; decide!⟩,
      fun p hp => by rw [List.mem_singleton.1 hp]; decide!⟩, by decide!⟩
  intro r
  constructor
  · intro h
    match r, h with
    | 0, _ => rfl
    | 1, h => exact absurd h.2 (by decide!)
    | 2, h => exact absurd h.1 (by decide!)
    | 3, h => exact absurd h.1 (by decide!)
    | r + 4, h => exact absurd h.1 (by simp [cornerGraph])
  · intro h; rw [h]; decide

/-- C13, amended: for a grid of at most 1024 by 1024 cells whose cell array
matches its size, every connection `c` recorded on a portal `k` of the graph
that `prebuild_map` returns has, for some region `r` that lists both portals,
the score `m` where `m` is the least number of coordinates, that is of steps
plus one, of a walkable route inside the region from a cell of the span of
portal `k` to a cell of the span of the connected portal. -/
theorem C13_cost_counts_cells (dd : DungeonData) (hwf : WellFormed dd) (hsm : SmallGrid dd) :
    ∃ dp, prebuild_map dd = some dp ∧
      ∀ k, ∀ c ∈ (portalAt dp.portals k).conns,
        ∃ r, r < dp.tilePortalsIndices.length ∧ k ∈ dp.tilePortalsIndices.getD r [] ∧
          c.connIdx ∈ dp.tilePortalsIndices.getD r [] ∧
          ∃ m, c.score = F32.ofNat m ∧ c.score = m * 2 ^ 23 ∧
            RegionPairMin dd (tileMin 10 (dd.width / 10) r) (tileMax 10 (dd.width / 10) r)
              (portalAt dp.portals k) (portalAt dp.portals c.connIdx) m :=
  prebuildWith_costs dd 10 hwf hsm (by decide!)

/-- Witness of C13_cost_counts_cells on `cornerGrid`. -/
theorem C13_cost_counts_cells_witness :
    WellFormed cornerGrid ∧ SmallGrid cornerGrid ∧
      ∃ dp, prebuild_map cornerGrid = some dp ∧
        ∀ k, ∀ c ∈ (portalAt dp.portals k).conns, ∃ m, c.score = F32.ofNat m :=
  ⟨by decide!, by decide!, (C13_cost_counts_cells cornerGrid (by decide!) (by decide!)).elim
    fun dp h => ⟨dp, h.1, fun k c hc => (h.2 k c hc).elim fun _ h2 =>
      h2.2.2.2.elim fun m h3 => ⟨m, h3.1⟩⟩⟩

/-- C14: for a grid whose cell array matches its size, in the graph that
`prebuild_map` returns the number of records `(j, c)` on portal `i` equals the
number of records `(i, c)` on portal `j`, for all `i`, `j` and `c`, and no
record on a portal points at the portal itself. -/
theorem C14_connection_symmetry (dd : DungeonData) (hwf : WellFormed dd) :
    ∃ dp, prebuild_map dd = some dp ∧
      (∀ i j c, (portalAt dp.portals i).conns.count ⟨j, c⟩ =
        (portalAt dp.portals j).conns.count ⟨i, c⟩) ∧
      (∀ i, ∀ c ∈ (portalAt dp.portals i).conns, c.connIdx ≠ i) :=
  prebuildWith_symmetric dd 10 hwf (by decide!)

/-- Witness of C14_connection_symmetry on `cornerGrid`, whose two portals are
connected to each other. -/
theorem C14_connection_symmetry_witness :
    WellFormed cornerGrid ∧ ∃ dp, prebuild_map cornerGrid = some dp ∧
      (portalAt dp.portals 0).conns.count ⟨1, F32.ofNat 1⟩ =
        (portalAt dp.portals 1).conns.count ⟨0, F32.ofNat 1⟩ :=
  ⟨by decide!, (C14_connection_symmetry cornerGrid (by decide!)).elim fun dp h =>
    ⟨dp, h.1, h.2.1 0 1 (F32.ofNat 1)⟩⟩

/-! ## The claim on the portal search -/

/-- C15, the claim as stated: on `detourGraph`, whose three portals have
distinct midpoints, the search from portal 0 to portal 2 returns the midpoints
of the chain of the two, joined by the one connection at the cost 10, while the
chain over portal 1 costs 1 + 1: the midpoint of portal 1 lies 15 cells from
that of portal 2, and the estimate added to its score makes portal 2 be
selected first. -/
theorem C15_not_cheapest :
    (detourGraph.portals.map PortalToCoord).Nodup ∧
      portalAt detourGraph.portals 0 ∈ detourGraph.portals ∧
      portalAt detourGraph.portals 2 ∈ detourGraph.portals ∧
      find_path_a_star_portal detourGrid detourGraph (portalAt detourGraph.portals 0)
        (portalAt detourGraph.portals 2) =
        some ([portalAt detourGraph.portals 0, portalAt detourGraph.portals 2].map
          PortalToCoord) ∧
      (∀ c ∈ (portalAt detourGraph.portals 0).conns,
        portalAt detourGraph.portals c.connIdx = portalAt detourGraph.portals 2 →
          c.score = F32.ofNat 10) ∧
      PortalChain detourGraph (portalAt detourGraph.portals 0) (portalAt detourGraph.portals 2)
        [portalAt detourGraph.portals 0, portalAt detourGraph.portals 1,
          portalAt detourGraph.portals 2] ∧
      (⟨1, F32.ofNat 1⟩ : PortalConnection) ∈ (portalAt detourGraph.portals 0).conns ∧
      (⟨2, F32.ofNat 1⟩ : PortalConnection) ∈ (portalAt detourGraph.portals 1).conns ∧
      F32.ofNat 1 + F32.ofNat 1 < F32.ofNat 10 :=
  ⟨by decide!, by decide!, by decide!, detourGraph_search, by decide!,
    ⟨rfl, rfl,
      List.Chain'.cons (by decide!) (List.Chain'.cons (by decide!) (List.chain'_singleton _)),
      by decide!⟩,
    by decide!, by decide!, by decide!⟩

/-- C15, amended: for a portal graph whose portals have midpoints in the grid
that differ from each other, whose connections point at portals of the graph
and carry whole scores from 1 to `K`, with `K` times the number of portals
below `2 ^ 24`, and for two portals `src` and `dst` of the graph,
`find_path_a_star_portal` returns a sequence; when the sequence is not empty
it is the sequence of midpoints of a chain of portals of the graph from `src`
to `dst`, each linked to the next by a recorded connection; and the sequence
is not empty when such a chain exists. -/
theorem C15_result_is_chain (dd : DungeonData) (dp : DungeonPortals) (K : Nat)
    (src dst : PathPortal)
    (hsize : dd.width * dd.height < 2 ^ 24)
    (hin : ∀ p ∈ dp.portals, inGrid dd (PortalToCoord p))
    (hdistinct : (dp.portals.map PortalToCoord).Nodup)
    (hconn : ∀ p ∈ dp.portals, ∀ c ∈ p.conns,
      c.connIdx < dp.portals.length ∧ c.score % 2 ^ 23 = 0 ∧ 2 ^ 23 ≤ c.score ∧
        c.score ≤ K * 2 ^ 23)
    (hK : dp.portals.length * K < 2 ^ 24)
    (hsrc : src ∈ dp.portals) (_hdst : dst ∈ dp.portals) :
    ∃ path, find_path_a_star_portal dd dp src dst = some path ∧
      (path ≠ [] → ∃ chain, PortalChain dp src dst chain ∧ path = chain.map PortalToCoord) ∧
      ((∃ chain, PortalChain dp src dst chain) → path ≠ []) :=
  find_path_a_star_portal_total dd dp K src dst
    ⟨hsize, hin, fun _ hp _ hq e => List.inj_on_of_nodup_map hdistinct hp hq e, hconn, hK⟩
    hsrc

/-- Witness of C15_result_is_chain on `detourGraph`, from portal 0 to portal 2:
the connection from portal 0 to portal 2 is a chain, so the sequence returned
is not empty and is the sequence of midpoints of a chain. -/
theorem C15_result_is_chain_witness :
    ∃ path, find_path_a_star_portal detourGrid detourGraph (portalAt detourGraph.portals 0)
        (portalAt detourGraph.portals 2) = some path ∧ path ≠ [] ∧
      ∃ chain, PortalChain detourGraph (portalAt detourGraph.portals 0)
        (portalAt detourGraph.portals 2) chain ∧ path = chain.map PortalToCoord := by
  obtain ⟨path, h1, h2, h3⟩ := C15_result_is_chain detourGrid detourGraph 10
    (portalAt detourGraph.portals 0) (portalAt detourGraph.portals 2) (by decide!) (by decide!)
    (by decide!) (by decide!) (by decide!) (by decide!) (by decide!)
  have hne : path ≠ [] := h3
    ⟨[portalAt detourGraph.portals 0, portalAt detourGraph.portals 2], rfl, rfl,
      List.Chain'.cons (by decide!) (List.chain'_singleton _), by decide!⟩
  exact ⟨path, h1, hne, h2 hne⟩

/-! ## The remaining claims -/

/-- The region of a coordinate without negative components, for a side length
that an `int` holds: the components divided by the side length. -/
theorem regionOf_nonneg (dp : DungeonPortals) (p : IVec2) (hs : dp.tileSplit < 2 ^ 31)
    (hx : 0 ≤ p.x) (hy : 0 ≤ p.y) :
    regionOf dp p = ⟨p.x / (dp.tileSplit : Int), p.y / (dp.tileSplit : Int)⟩ := by
  unfold regionOf
  rw [toInt32_small _ hs, Int.tdiv_eq_ediv hx (by omega), Int.tdiv_eq_ediv hy (by omega)]

/-- C16: for a side length `s` with `1 ≤ s` that an `int` holds, and a source
and a target in the grid whose components divided by `s` agree,
`find_hierarchical_path` returns what `find_path_a_star` returns for the same
source and target on the rectangle `[tile * s, (tile + 1) * s)` of their
region, whatever the two uninitialised portals hold; so the two results have
the same length. -/
theorem C16_same_region_exact (dp : DungeonPortals) (dd : DungeonData) (source target : IVec2)
    (u v : PathPortal) (hs1 : 1 ≤ dp.tileSplit) (hs2 : dp.tileSplit < 2 ^ 31)
    (hsrc : inGrid dd source) (hdst : inGrid dd target)
    (hx : source.x / (dp.tileSplit : Int) = target.x / (dp.tileSplit : Int))
    (hy : source.y / (dp.tileSplit : Int) = target.y / (dp.tileSplit : Int)) :
    find_hierarchical_path dp dd source target u v =
        find_path_a_star dd source target
          ⟨source.x / (dp.tileSplit : Int) * (dp.tileSplit : Int),
            source.y / (dp.tileSplit : Int) * (dp.tileSplit : Int)⟩
          ⟨(source.x / (dp.tileSplit : Int) + 1) * (dp.tileSplit : Int),
            (source.y / (dp.tileSplit : Int) + 1) * (dp.tileSplit : Int)⟩ ∧
      (find_hierarchical_path dp dd source target u v).map List.length =
        (find_path_a_star dd source target
          ⟨source.x / (dp.tileSplit : Int) * (dp.tileSplit : Int),
            source.y / (dp.tileSplit : Int) * (dp.tileSplit : Int)⟩
          ⟨(source.x / (dp.tileSplit : Int) + 1) * (dp.tileSplit : Int),
            (source.y / (dp.tileSplit : Int) + 1) * (dp.tileSplit : Int)⟩).map List.length ∧
      inRect
        ⟨source.x / (dp.tileSplit : Int) * (dp.tileSplit : Int),
          source.y / (dp.tileSplit : Int) * (dp.tileSplit : Int)⟩
        ⟨(source.x / (dp.tileSplit : Int) + 1) * (dp.tileSplit : Int),
          (source.y / (dp.tileSplit : Int) + 1) * (dp.tileSplit : Int)⟩ source := by
  have h1 := regionOf_nonneg dp source hs2 hsrc.1 hsrc.2.2.1
  have h2 := regionOf_nonneg dp target hs2 hdst.1 hdst.2.2.1
  have hsame : regionOf dp source = regionOf dp target := by rw [h1, h2, hx, hy]
  have hpos : (0 : Int) < (dp.tileSplit : Int) := by omega
  have e := find_hierarchical_path_same dp dd source target u v hsame
  have hmin : regionMin dp (regionOf dp source) =
      ⟨source.x / (dp.tileSplit : Int) * (dp.tileSplit : Int),
        source.y / (dp.tileSplit : Int) * (dp.tileSplit : Int)⟩ := by
    rw [h1]; unfold regionMin; rw [toInt32_small _ hs2]
  have hmax : regionMax dp (regionOf dp source) =
      ⟨(source.x / (dp.tileSplit : Int) + 1) * (dp.tileSplit : Int),
        (source.y / (dp.tileSplit : Int) + 1) * (dp.tileSplit : Int)⟩ := by
    rw [h1]; unfold regionMax; rw [toInt32_small _ hs2]
  rw [hmin, hmax] at e
  refine ⟨e, by rw [e], ?_⟩
  exact ⟨Int.ediv_mul_le _ (by omega), Int.lt_ediv_add_one_mul_self _ hpos,
    Int.ediv_mul_le _ (by omega), Int.lt_ediv_add_one_mul_self _ hpos⟩

/-- Witness of C16_same_region_exact on `openGrid8` with regions of side 4:
the query from `(0, 0)` to `(3, 3)`. -/
theorem C16_same_region_exact_witness :
    find_hierarchical_path openPortals8 openGrid8 ⟨0, 0⟩ ⟨3, 3⟩ (uninitPortal 0 0 0 0)
          (uninitPortal 0 0 0 0) =
        find_path_a_star openGrid8 ⟨0, 0⟩ ⟨3, 3⟩
          ⟨(0 : Int) / ((4 : Nat) : Int) * ((4 : Nat) : Int), (0 : Int) / ((4 : Nat) : Int) * ((4 : Nat) : Int)⟩
          ⟨((0 : Int) / ((4 : Nat) : Int) + 1) * ((4 : Nat) : Int),
            ((0 : Int) / ((4 : Nat) : Int) + 1) * ((4 : Nat) : Int)⟩ ∧
      (find_hierarchical_path openPortals8 openGrid8 ⟨0, 0⟩ ⟨3, 3⟩ (uninitPortal 0 0 0 0)
          (uninitPortal 0 0 0 0)).map List.length = some 7 :=
  ⟨(C16_same_region_exact openPortals8 openGrid8 ⟨0, 0⟩ ⟨3, 3⟩ (uninitPortal 0 0 0 0)
      (uninitPortal 0 0 0 0) (by decide) (by decide) (by decide) (by decide) (by decide)
      (by decide)).1, by decide!⟩

/-- C17: for a grid whose cell array matches its size, `prebuild_map` returns
a graph of this kind. A pass of the connection loop for the portals at
positions `i < j` of the list of a region, from any portal vector with the
coordinates of the graph, writes the two connection records when
`find_path_a_star` on the rectangle of the region returns a path that is not
empty for every cell of the first span and every cell of the second, and
writes nothing otherwise. The connections of every portal of the graph are the
records of all passes in the order of the loops and nothing else, where the
pass for `i < j` in a region records the pair when every combination has such
a path and records nothing otherwise. So for every region and every `i < j`
with such a path for every combination the graph holds both records of the
pair; and every connection of the graph joins two portals listed together for
some region. -/
theorem C17_edge_policy (dd : DungeonData) (hwf : WellFormed dd) :
    ∃ dp, prebuild_map dd = some dp ∧
      (∀ tidx i j, tidx < dp.tilePortalsIndices.length → i < j →
        j < (dp.tilePortalsIndices.getD tidx []).length →
        ∀ ps : List PathPortal, ps.map portalCoords = dp.portals.map portalCoords →
        ((∀ a ∈ spanCells (portalAt ps ((dp.tilePortalsIndices.getD tidx []).getD i 0))
              (tileMin 10 (dd.width / 10) tidx) (tileMax 10 (dd.width / 10) tidx),
            ∀ b ∈ spanCells (portalAt ps ((dp.tilePortalsIndices.getD tidx []).getD j 0))
              (tileMin 10 (dd.width / 10) tidx) (tileMax 10 (dd.width / 10) tidx),
            ∃ path, find_path_a_star dd a b (tileMin 10 (dd.width / 10) tidx)
              (tileMax 10 (dd.width / 10) tidx) = some path ∧ path ≠ []) →
          ∃ m, connectPair dd (tileMin 10 (dd.width / 10) tidx) (tileMax 10 (dd.width / 10) tidx)
              (dp.tilePortalsIndices.getD tidx []) i (some ps) j =
            some (pushConn
              (pushConn ps ((dp.tilePortalsIndices.getD tidx []).getD i 0)
                ⟨(dp.tilePortalsIndices.getD tidx []).getD j 0, F32.ofNat m⟩)
              ((dp.tilePortalsIndices.getD tidx []).getD j 0)
              ⟨(dp.tilePortalsIndices.getD tidx []).getD i 0, F32.ofNat m⟩)) ∧
        (¬ (∀ a ∈ spanCells (portalAt ps ((dp.tilePortalsIndices.getD tidx []).getD i 0))
              (tileMin 10 (dd.width / 10) tidx) (tileMax 10 (dd.width / 10) tidx),
            ∀ b ∈ spanCells (portalAt ps ((dp.tilePortalsIndices.getD tidx []).getD j 0))
              (tileMin 10 (dd.width / 10) tidx) (tileMax 10 (dd.width / 10) tidx),
            ∃ path, find_path_a_star dd a b (tileMin 10 (dd.width / 10) tidx)
              (tileMax 10 (dd.width / 10) tidx) = some path ∧ path ≠ []) →
          connectPair dd (tileMin 10 (dd.width / 10) tidx) (tileMax 10 (dd.width / 10) tidx)
            (dp.tilePortalsIndices.getD tidx []) i (some ps) j = some ps)) ∧
      (∃ records : Nat × Nat × Nat → Nat → List PortalConnection,
        (∀ k, (portalAt dp.portals k).conns =
          (pairPasses dp.tilePortalsIndices).flatMap fun pass => records pass k) ∧
        ∀ tidx i j, tidx < dp.tilePortalsIndices.length → i < j →
          j < (dp.tilePortalsIndices.getD tidx []).length →
          (AllReach dd (tileMin 10 (dd.width / 10) tidx) (tileMax 10 (dd.width / 10) tidx)
              (portalAt dp.portals ((dp.tilePortalsIndices.getD tidx []).getD i 0))
              (portalAt dp.portals ((dp.tilePortalsIndices.getD tidx []).getD j 0)) →
            ∃ m, ∀ k, records (tidx, i, j) k =
              (if k = (dp.tilePortalsIndices.getD tidx []).getD i 0
                then [⟨(dp.tilePortalsIndices.getD tidx []).getD j 0, F32.ofNat m⟩] else []) ++
              (if k = (dp.tilePortalsIndices.getD tidx []).getD j 0
                then [⟨(dp.tilePortalsIndices.getD tidx []).getD i 0, F32.ofNat m⟩] else [])) ∧
          (¬ AllReach dd (tileMin 10 (dd.width / 10) tidx) (tileMax 10 (dd.width / 10) tidx)
              (portalAt dp.portals ((dp.tilePortalsIndices.getD tidx []).getD i 0))
              (portalAt dp.portals ((dp.tilePortalsIndices.getD tidx []).getD j 0)) →
            ∀ k, records (tidx, i, j) k = [])) ∧
      (∀ tidx i j, tidx < dp.tilePortalsIndices.length → i < j →
        j < (dp.tilePortalsIndices.getD tidx []).length →
        AllReach dd (tileMin 10 (dd.width / 10) tidx) (tileMax 10 (dd.width / 10) tidx)
          (portalAt dp.portals ((dp.tilePortalsIndices.getD tidx []).getD i 0))
          (portalAt dp.portals ((dp.tilePortalsIndices.getD tidx []).getD j 0)) →
        ∃ m, (⟨(dp.tilePortalsIndices.getD tidx []).getD j 0, F32.ofNat m⟩ : PortalConnection) ∈
            (portalAt dp.portals ((dp.tilePortalsIndices.getD tidx []).getD i 0)).conns ∧
          (⟨(dp.tilePortalsIndices.getD tidx []).getD i 0, F32.ofNat m⟩ : PortalConnection) ∈
            (portalAt dp.portals ((dp.tilePortalsIndices.getD tidx []).getD j 0)).conns) ∧
      (∀ k, ∀ c ∈ (portalAt dp.portals k).conns, ∃ r, r < dp.tilePortalsIndices.length ∧
        k ∈ dp.tilePortalsIndices.getD r [] ∧ c.connIdx ∈ dp.tilePortalsIndices.getD r []) := by
  obtain ⟨dp, e, hco⟩ := prebuildWith_cooccur dd 10 hwf (by decide!)
  obtain ⟨dp2, e2, _, htpi, hcoords, htrace⟩ := prebuildWith_trace dd 10 hwf (by decide!)
  have hdp : dp2 = dp := Option.some.inj (e2.symm.trans e)
  rw [hdp] at htpi hcoords htrace
  have hpol : ∀ tidx i j, tidx < dp.tilePortalsIndices.length → i < j →
      j < (dp.tilePortalsIndices.getD tidx []).length →
      (AllReach dd (tileMin 10 (dd.width / 10) tidx) (tileMax 10 (dd.width / 10) tidx)
          (portalAt dp.portals ((dp.tilePortalsIndices.getD tidx []).getD i 0))
          (portalAt dp.portals ((dp.tilePortalsIndices.getD tidx []).getD j 0)) →
        ∃ m, ∀ k, pairRecords dd 10 (dd.width / 10) (extractPortals dd 10).tilePortalsIndices
            (extractPortals dd 10).portals (tidx, i, j) k =
          (if k = (dp.tilePortalsIndices.getD tidx []).getD i 0
            then [⟨(dp.tilePortalsIndices.getD tidx []).getD j 0, F32.ofNat m⟩] else []) ++
          (if k = (dp.tilePortalsIndices.getD tidx []).getD j 0
            then [⟨(dp.tilePortalsIndices.getD tidx []).getD i 0, F32.ofNat m⟩] else [])) ∧
      (¬ AllReach dd (tileMin 10 (dd.width / 10) tidx) (tileMax 10 (dd.width / 10) tidx)
          (portalAt dp.portals ((dp.tilePortalsIndices.getD tidx []).getD i 0))
          (portalAt dp.portals ((dp.tilePortalsIndices.getD tidx []).getD j 0)) →
        ∀ k, pairRecords dd 10 (dd.width / 10) (extractPortals dd 10).tilePortalsIndices
          (extractPortals dd 10).portals (tidx, i, j) k = []) := by
    intro tidx i j htidx hij hj
    rw [allReach_congr dd _ _ _ _ _ _ (portalAt_coords _ _ _ hcoords)
      (portalAt_coords _ _ _ hcoords)]
    rw [htpi] at htidx hj ⊢
    exact pairRecords_policy dd 10 hwf (by decide!) tidx i j htidx hij hj
  refine ⟨dp, e, ?_, ⟨_, fun k => by rw [htpi]; exact htrace k, hpol⟩, ?_, hco⟩
  · intro tidx i j htidx hij hj ps hps
    rw [htpi] at htidx hj ⊢
    exact connectPair_policy dd 10 hwf (by decide!) tidx i j htidx hij hj ps (hps.trans hcoords)
  · intro tidx i j htidx hij hj hall
    obtain ⟨m, hm⟩ := (hpol tidx i j htidx hij hj).1 hall
    have hmem : (tidx, i, j) ∈ pairPasses (extractPortals dd 10).tilePortalsIndices := by
      rw [← htpi]
      exact (mem_pairPasses _ tidx i j).2 ⟨htidx, hij, hj⟩
    refine ⟨m, ?_, ?_⟩
    · rw [htrace]
      refine List.mem_flatMap.2 ⟨(tidx, i, j), hmem, ?_⟩
      rw [hm, if_pos rfl]
      exact List.mem_append_left _ (List.mem_singleton.2 rfl)
    · rw [htrace]
      refine List.mem_flatMap.2 ⟨(tidx, i, j), hmem, ?_⟩
      rw [hm, if_pos rfl]
      exact List.mem_append_right _ (List.mem_singleton.2 rfl)

/-- Witness of C17_edge_policy on `cornerGrid`: the region at position 0 lists
the portals 0 and 1, whose spans inside the region are both the cell `(9, 9)`,
and the graph holds the two records of the pair. -/
theorem C17_edge_policy_witness :
    WellFormed cornerGrid ∧ ∃ dp, prebuild_map cornerGrid = some dp ∧
      ∃ m, (⟨1, F32.ofNat m⟩ : PortalConnection) ∈ (portalAt dp.portals 0).conns ∧
        (⟨0, F32.ofNat m⟩ : PortalConnection) ∈ (portalAt dp.portals 1).conns := by
  refine ⟨by decide!, ?_⟩
  obtain ⟨dp, e, _, _, h, _⟩ := C17_edge_policy cornerGrid (by decide!)
  have hdp : dp = cornerGraph := Option.some.inj (e.symm.trans prebuild_cornerGrid)
  subst hdp
  refine ⟨cornerGraph, e, h 0 0 1 (by decide!) (by decide!) (by decide!) ?_⟩
  intro a ha b hb
  have ea : a = ⟨9, 9⟩ := List.mem_singleton.1 (by
    have e1 : spanCells (portalAt cornerGraph.portals
        ((cornerGraph.tilePortalsIndices.getD 0 []).getD 0 0))
        (tileMin 10 (cornerGrid.width / 10) 0) (tileMax 10 (cornerGrid.width / 10) 0) =
        [⟨9, 9⟩] := by decide!
    rw [← e1]
    exact ha)
  have eb : b = ⟨9, 9⟩ := List.mem_singleton.1 (by
    have e1 : spanCells (portalAt cornerGraph.portals
        ((cornerGraph.tilePortalsIndices.getD 0 []).getD 1 0))
        (tileMin 10 (cornerGrid.width / 10) 0) (tileMax 10 (cornerGrid.width / 10) 0) =
        [⟨9, 9⟩] := by decide!
    rw [← e1]
    exact hb)
  rw [ea, eb]
  exact ⟨[⟨9, 9⟩], by decide!, by decide⟩

/-- When the width is a multiple of the side length, the position read by
`get_shortest_path_portal` is the position filled by `prebuild_map`. -/
theorem tileIndexQuery_of_dvd (dd : DungeonData) (dp : DungeonPortals) (x y : Nat)
    (hs : 1 ≤ dp.tileSplit) (hd : dp.tileSplit ∣ dd.width)
    (hx : x < 2 ^ 31) (hy : y < 2 ^ 31) (hw : dd.width < 2 ^ 31) :
    tileIndexQuery dd dp ⟨(x : Int), (y : Int)⟩ = tileIndexBuilt dd dp.tileSplit x y := by
  obtain ⟨k, hk⟩ := hd
  unfold tileIndexQuery tileIndexBuilt
  have e1 : toSizeT (y : Int) = y := by
    rw [toSizeT_of_nonneg _ (by omega) (by omega)]; simp
  have e2 : toSizeT (x : Int) = x := by
    rw [toSizeT_of_nonneg _ (by omega) (by omega)]; simp
  show ((toSizeT (y : Int) * dd.width) % 2 ^ 64 / dp.tileSplit + toSizeT (x : Int)) % 2 ^ 64 =
    y * (dd.width / dp.tileSplit) + x
  rw [e1, e2]
  have hyw : y * dd.width < 2 ^ 62 := by
    calc y * dd.width < 2 ^ 31 * 2 ^ 31 := Nat.mul_lt_mul'' hy hw
      _ = 2 ^ 62 := by norm_num
  rw [Nat.mod_eq_of_lt (show y * dd.width < 2 ^ 64 by omega)]
  have e3 : y * dd.width / dp.tileSplit = y * (dd.width / dp.tileSplit) := by
    rw [hk, Nat.mul_div_cancel_left k (by omega), ← Nat.mul_assoc, Nat.mul_comm y dp.tileSplit,
      Nat.mul_assoc, Nat.mul_div_cancel_left _ (by omega)]
  rw [e3]
  have : y * (dd.width / dp.tileSplit) ≤ y * dd.width :=
    Nat.mul_le_mul_left y (Nat.div_le_self _ _)
  exact Nat.mod_eq_of_lt (by omega)

/-- C18: on `narrowGrid`, 15 cells wide with regions of side 10, the cell
`(0, 20)` lies in region `(0, 2)`, whose index list `prebuild_map` filled at
position `2 * (15 / 10) + 0 = 2` with the portal 0 that leads to region
`(0, 1)`; `get_shortest_path_portal` reads position `2 * 15 / 10 + 0 = 3`, the
list of a region without portals, and returns the empty path from a cell that
lies on the portal. -/
theorem C18_lookup_index_differs :
    prebuild_map narrowGrid = some narrowGraph ∧
      inGrid narrowGrid ⟨0, 20⟩ ∧ ¬ isWall narrowGrid ⟨0, 20⟩ ∧
      (0 : Nat) < narrowGrid.width / 10 * 10 ∧ (20 : Nat) < narrowGrid.height / 10 * 10 ∧
      regionOf narrowGraph ⟨0, 20⟩ = ⟨0, 2⟩ ∧
      tileIndexBuilt narrowGrid 10 0 2 = 2 ∧
      tileIndexQuery narrowGrid narrowGraph (regionOf narrowGraph ⟨0, 20⟩) = 3 ∧
      narrowGraph.tilePortalsIndices.getD 2 [] = [0] ∧
      narrowGraph.tilePortalsIndices.getD 3 [] = [] ∧
      (⟨0, 20⟩ : IVec2) ∈ spanCells (portalAt narrowGraph.portals 0)
        (regionMin narrowGraph ⟨0, 2⟩) (regionMax narrowGraph ⟨0, 2⟩) ∧
      ∀ p, get_shortest_path_portal narrowGrid narrowGraph ⟨0, 20⟩
        (regionOf narrowGraph ⟨0, 20⟩) p = some ([], p) := by
  refine ⟨prebuild_narrowGrid, by decide, by decide, by decide, by decide, by decide, by decide,
    by decide, by decide, by decide, by decide, fun p => ?_⟩
  rw [get_shortest_path_portal_fst, show regionOf narrowGraph ⟨0, 20⟩ = ⟨0, 2⟩ by decide,
    narrowGrid_leg]
  rfl

/-- C19: for every grid, source, target and rectangle the search loop of
`find_path_a_star` is left: either the source is outside the grid and the loop
is not entered, or after some number `m` of passes, within the fuel, the open
list is empty or the target is selected. No cell is closed twice, at most one
cell more than the rectangle holds is closed, and the `m` entries taken off the
open list together with those left on it are at most one and four for every
closed cell. On a grid whose cell array matches its size the function returns a
sequence for every source, target and rectangle of the grid. -/
theorem C19_search_loop_terminates (dd : DungeonData) (src dst lim_min lim_max : IVec2) :
    ((¬ inGrid dd src ∧ find_path_a_star dd src dst lim_min lim_max = some []) ∨
      ∃ m, m ≤ 4 * (rectArea lim_min lim_max + 1) + 1 ∧
        atExit dd dst (aStarPasses dd dst lim_min lim_max m (aStarInit dd src dst)) ∧
        (aStarPasses dd dst lim_min lim_max m (aStarInit dd src dst)).closedList.Nodup ∧
        (aStarPasses dd dst lim_min lim_max m (aStarInit dd src dst)).closedList.length
          ≤ rectArea lim_min lim_max + 1 ∧
        m + (aStarPasses dd dst lim_min lim_max m (aStarInit dd src dst)).openList.length
          ≤ 1 + 4 * (aStarPasses dd dst lim_min lim_max m (aStarInit dd src dst)).closedList.length ∧
        find_path_a_star dd src dst lim_min lim_max =
          exitValue dd dst (aStarPasses dd dst lim_min lim_max m (aStarInit dd src dst))) ∧
      (WellFormed dd → rectInGrid dd lim_min lim_max →
        ∃ path, find_path_a_star dd src dst lim_min lim_max = some path) := by
  refine ⟨?_, fun hwf hr =>
    (find_path_a_star_total dd src dst lim_min lim_max hwf hr).imp fun _ h => h.1⟩
  by_cases hg : inGrid dd src
  · right
    have hb : ¬ (src.x < 0 ∨ src.y < 0 ∨ src.x ≥ (dd.width : Int) ∨ src.y ≥ (dd.height : Int)) := by
      unfold inGrid at hg; omega
    have hinit : PassInv src lim_min lim_max 0 (aStarInit dd src dst) := by
      refine ⟨List.nodup_nil, ?_, ?_, by simp [aStarInit]⟩
      · intro p hp
        simp only [aStarInit, List.mem_singleton] at hp
        exact Or.inl hp
      · intro p hp; simp [aStarInit] at hp
    obtain ⟨m, hm, h1, h2, h3⟩ := search_loop_exits dd src dst lim_min lim_max
      (4 * (rectArea lim_min lim_max + 1) + 1) 0 (aStarInit dd src dst) hinit
      (by unfold passMeasure; simp only [aStarInit, List.length_singleton, List.length_nil]; omega)
    refine ⟨m, hm, h1, h2.nodup,
      length_le_rectArea_succ src lim_min lim_max _ h2.nodup h2.closed_in, ?_, ?_⟩
    · have := h2.count
      rw [Nat.zero_add] at this
      exact this
    · unfold find_path_a_star
      rw [if_neg hb]
      exact h3 _ (by omega)
  · left
    exact ⟨hg, find_path_a_star_outside dd src dst lim_min lim_max hg⟩

/-- Witness of C19_search_loop_terminates on `wallFloorGrid`, from the wall cell
`(0, 0)` to `(1, 0)` on the whole grid. -/
theorem C19_search_loop_terminates_witness :
    WellFormed wallFloorGrid ∧ rectInGrid wallFloorGrid ⟨0, 0⟩ ⟨2, 1⟩ ∧
      ∃ path, find_path_a_star wallFloorGrid ⟨0, 0⟩ ⟨1, 0⟩ ⟨0, 0⟩ ⟨2, 1⟩ = some path :=
  ⟨by decide, by decide,
    (C19_search_loop_terminates wallFloorGrid ⟨0, 0⟩ ⟨1, 0⟩ ⟨0, 0⟩ ⟨2, 1⟩).2 (by decide) (by decide)⟩

/-- C20: on `cornerGrid` the graph built by `prebuild_map` has two portals,
`(9, 9)-(10, 9)` to the right of region `(0, 0)` and `(9, 9)-(9, 10)` below it,
which differ and have the same midpoint `(9, 9)`, hence the same table index.
The portal search from the one to the other returns the single coordinate
`(9, 9)` instead of the two portals of the chain. -/
theorem C20_midpoints_collide :
    prebuild_map cornerGrid = some cornerGraph ∧
      portalAt cornerGraph.portals 0 ≠ portalAt cornerGraph.portals 1 ∧
      ((portalAt cornerGraph.portals 0).startX, (portalAt cornerGraph.portals 0).startY,
        (portalAt cornerGraph.portals 0).endX, (portalAt cornerGraph.portals 0).endY) ≠
        ((portalAt cornerGraph.portals 1).startX, (portalAt cornerGraph.portals 1).startY,
          (portalAt cornerGraph.portals 1).endX, (portalAt cornerGraph.portals 1).endY) ∧
      PortalToCoord (portalAt cornerGraph.portals 0) = ⟨9, 9⟩ ∧
      PortalToCoord (portalAt cornerGraph.portals 1) = ⟨9, 9⟩ ∧
      PortalToIdx cornerGrid (portalAt cornerGraph.portals 0) =
        PortalToIdx cornerGrid (portalAt cornerGraph.portals 1) ∧
      find_path_a_star_portal cornerGrid cornerGraph (portalAt cornerGraph.portals 0)
        (portalAt cornerGraph.portals 1) = some [⟨9, 9⟩] :=
  ⟨prebuild_cornerGrid, by decide, by decide, by decide, by decide, by decide, cornerGraph_search⟩

end Pathfinder
